import Mathlib

/-!
Verification development for the `pbsf` hierarchical-pattern-matching library.

Each Python data structure is shallowly embedded: integers become `Nat`/`Int`,
floats become `Rat` (exact arithmetic; divergences from IEEE behaviour are noted
where they matter), Python `list`s become `List`s, Python `set`s of vertex
identifiers become insertion-ordered `List`s without duplicates (Python set
iteration order is unspecified; the theorems proved here do not depend on the
order except where noted), raising code returns `Except String`.

Sources embedded (paths inside the repository):
  * `pbsf/utils/nested_word.py`     — `MatchingRelation`, `NestedWord`
  * `pbsf/utils/digraph.py`         — `Digraph`
  * `pbsf/utils/layered_digraph.py` — `LayeredDigraph`
  * `pbsf/models/pattern_set.py`    — `PatternSet`
  * `pbsf/models/pattern_tree.py`   — `PatternTree`
  * `pbsf/models/pattern_graph.py`  — `PatternGraph`
  * `pbsf/models/nw_set.py`         — `NestedWordSet`
  * `pbsf/nodes/structural_prominence_node.py` — `StructuralProminenceNode`
  * `pbsf/segmenters/sliding_window.py` — `SlidingWindow.segment`
  * `pbsf/algorithms/hpm.py`        — the scoring loop of `hpm`
-/

/-!  ## MatchingRelation (`pbsf/utils/nested_word.py`)

An entry of the two parallel arrays `_return_successors` / `_call_predecessors`:
`none` models the Python sentinel `-1` (no entry / internal position),
`some none` models Python `None` (a pending side), `some (some j)` a matched
partner position `j`. -/
abbrev MEntry := Option (Option Nat)

/-- `MatchingRelation`: the two parallel arrays.  The Python `_length` field is
`succ.length`; every constructor and operation keeps `succ` and `pred` the same
length, as the Python code does. -/
structure MatchingRelation where
  succ : List MEntry
  pred : List MEntry
  deriving Repr, DecidableEq

namespace MatchingRelation

/-- Python `MatchingRelation(length)` with no initial matches. -/
def mk_empty (length : Nat) : MatchingRelation :=
  ⟨List.replicate length none, List.replicate length none⟩

def len (m : MatchingRelation) : Nat := m.succ.length

/-- `is_call`: `self._return_successors[i] != -1`. -/
def is_call (m : MatchingRelation) (i : Nat) : Bool :=
  (m.succ.getD i none).isSome

/-- `is_return`: `self._call_predecessors[i] != -1`. -/
def is_return (m : MatchingRelation) (i : Nat) : Bool :=
  (m.pred.getD i none).isSome

def is_internal (m : MatchingRelation) (i : Nat) : Bool :=
  !m.is_call i && !m.is_return i

/-- `_validate_crossing`'s per-pair rule: does the (intended) match `p` cross
the (existing) match `q`?  Branch order mirrors the Python `if`/`elif` chain. -/
def crosses : Option Nat × Option Nat → Option Nat × Option Nat → Bool
  | (none, _), (none, _) => false
  | (_, none), (_, none) => false
  | (none, some j), (some c, none) => decide (c < j)
  | (none, some j), (some c, some r) => decide (c < j ∧ j < r)
  | (some i, none), (none, some r) => decide (i < r)
  | (some i, none), (some c, some r) => decide (c < i ∧ i < r)
  | (some i, some j), (none, some r) => decide (i < r ∧ r < j)
  | (some i, some j), (some c, none) => decide (i < c ∧ c < j)
  | (some i, some j), (some c, some r) =>
      decide ((i < c ∧ c ≤ j ∧ j ≤ r) ∨ (c < i ∧ i ≤ r ∧ r ≤ j))
  | _, _ => false

/-- `get_match(i)` (for an in-range `i`): the pair the position belongs to,
with the call side checked first, or `none` for an internal position. -/
def get_match (m : MatchingRelation) (i : Nat) : Option (Option Nat × Option Nat) :=
  match m.succ.getD i none with
  | some r => some (some i, r)
  | none =>
    match m.pred.getD i none with
    | some c => some (c, some i)
    | none => none

/-- `get_matches()`: every pair derived from some position.  Python collects
them into a set; a list with possible duplicates carries the same members. -/
def get_matches (m : MatchingRelation) : List (Option Nat × Option Nat) :=
  (List.range m.len).filterMap m.get_match

/-- `get_pending_calls()` as a sorted list of positions. -/
def get_pending_calls (m : MatchingRelation) : List Nat :=
  (List.range m.len).filter (fun i => m.succ.getD i none == some none)

/-- `set_match(call, ret)`: validation (`_validate_indices`, `_validate_order`,
`_validate_position`, `_validate_crossing`) followed by the two writes.  A
`ValueError` becomes `Except.error`; on error nothing is written, exactly as in
the source where validation precedes mutation.  `_validate_order`'s two raises
(`i == j` and `i >= j`, on ints) collapse to the single test `i ≥ j`; positions
are `Nat`, so of `_validate_position` only the upper bound can fail. -/
def set_match (m : MatchingRelation) (call ret : Option Nat) :
    Except String MatchingRelation :=
  if call = none ∧ ret = none then
    .error "at least one position must be an actual position"
  else if (match call, ret with | some i, some j => decide (i ≥ j) | _, _ => false) then
    .error "order violated"
  else if (match call with | some i => decide (i ≥ m.len) | none => false) then
    .error "position out of bounds"
  else if (match ret with | some j => decide (j ≥ m.len) | none => false) then
    .error "position out of bounds"
  else if m.get_matches.any (fun q => crosses (call, ret) q) then
    .error "match crosses an existing match"
  else
    .ok ⟨(match call with
          | some i => m.succ.set i (some ret)
          | none => m.succ),
         (match ret with
          | some j => m.pred.set j (some call)
          | none => m.pred)⟩

/-- `extend(k)`: grow both arrays by `k` internal positions. -/
def extend (m : MatchingRelation) (k : Nat) : MatchingRelation :=
  ⟨m.succ ++ List.replicate k none, m.pred ++ List.replicate k none⟩

/-- A sequence of `set_match` calls applied to a fresh relation of length `L`;
a call that raises has no effect (the exception propagates to the driver which
keeps the old object — state is unchanged because validation precedes writes). -/
def apply_set_matches (L : Nat) (ops : List (Option Nat × Option Nat)) :
    MatchingRelation :=
  ops.foldl
    (fun m op =>
      match m.set_match op.1 op.2 with
      | .ok m' => m'
      | .error _ => m)
    (mk_empty L)

end MatchingRelation

/-!  ## NestedWord (`pbsf/utils/nested_word.py`)

Symbols are generic (`α`); the library instantiates them with vertex
identifiers (`Nat`) or, in `NestedWordSet`, with `Option Nat` (a Python
vertex id or `None`).  A tagged sequence is a list of tokens: the call marker
`"<"`, the return marker `">"`, or a symbol. -/
inductive Tok (α : Type) where
  | lt
  | gt
  | sym (a : α)
  deriving Repr, DecidableEq

structure NestedWord (α : Type) where
  word : List α
  matching : MatchingRelation
  deriving Repr, DecidableEq

namespace NestedWord

variable {α : Type} [DecidableEq α]

/-- The empty nested word, Python `NestedWord()`. -/
def nw_empty : NestedWord α := ⟨[], MatchingRelation.mk_empty 0⟩

/-- One step of the parser loop of `from_tagged_sequence`: state is
`(stack, counter, matching)`. -/
def parse_step (st : List Nat × Nat × MatchingRelation) (t : Tok α) :
    Except String (List Nat × Nat × MatchingRelation) :=
  let (stack, counter, matching) := st
  match t with
  | .lt => pure (counter :: stack, counter, matching)
  | .gt =>
    match stack with
    | call :: rest => do
        let matching' ← matching.set_match (some call) (some (counter - 1))
        pure (rest, counter, matching')
    | [] => do
        let matching' ← matching.set_match none (some (counter - 1))
        pure ([], counter, matching')
  | .sym _ => pure (stack, counter + 1, matching)

/-- `NestedWord.from_tagged_sequence`: extract the symbols, then walk the
tokens maintaining a stack of call positions; unclosed calls become pending.
`max(0, counter - 1)` is `counter - 1` on `Nat`. -/
def from_tagged_sequence (ts : List (Tok α)) : Except String (NestedWord α) := do
  let word : List α := ts.filterMap (fun t => match t with | .sym a => some a | _ => none)
  let st ← ts.foldlM parse_step ([], 0, MatchingRelation.mk_empty word.length)
  let (stack, _, matching) := st
  let matching ← stack.foldlM (fun m c => m.set_match (some c) none) matching
  pure ⟨word, matching⟩

/-- `NestedWord.to_tagged`: emit `<` before a call, the symbol, `>` after a
return. -/
def to_tagged (nw : NestedWord α) : List (Tok α) :=
  (nw.word.enum.map (fun (i, s) =>
    (if nw.matching.is_call i then [Tok.lt] else []) ++
    [Tok.sym s] ++
    (if nw.matching.is_return i then [Tok.gt] else []))).flatten

/-- `add_internals`: append each symbol as an internal position. -/
def add_internals (nw : NestedWord α) (ss : List α) : NestedWord α :=
  ⟨nw.word ++ ss, nw.matching.extend ss.length⟩

/-- `add_calls`: append as internals, then mark the last `|ss|` positions as
pending calls (most recent first, mirroring `range(1, len+1)`). -/
def add_calls (nw : NestedWord α) (ss : List α) : Except String (NestedWord α) := do
  let nw' := nw.add_internals ss
  let L := nw'.word.length
  let matching ← (List.range ss.length).foldlM
      (fun m p => m.set_match (some (L - (p + 1))) none) nw'.matching
  pure ⟨nw'.word, matching⟩

/-- `add_returns`: append as internals, then match the new returns against the
pending calls in decreasing position order; a return without a call is pending. -/
def add_returns (nw : NestedWord α) (ss : List α) : Except String (NestedWord α) := do
  let nw' := nw.add_internals ss
  let pending := nw'.matching.get_pending_calls.reverse
  let L := nw'.word.length
  let matching ← (List.range ss.length).foldlM
      (fun m i => m.set_match (pending.get? i) (some (L - ss.length + i)))
      nw'.matching
  pure ⟨nw'.word, matching⟩

def add_internal (nw : NestedWord α) (s : α) : NestedWord α :=
  nw.add_internals [s]

def add_call (nw : NestedWord α) (s : α) : Except String (NestedWord α) :=
  nw.add_calls [s]

def add_return (nw : NestedWord α) (s : α) : Except String (NestedWord α) :=
  nw.add_returns [s]

/-- `MatchingRelation.__getitem__` with a slice `[start:stop]`. -/
def mr_slice (m : MatchingRelation) (start stop : Nat) :
    Except String MatchingRelation := do
  if stop > m.len ∨ start > stop then throw "slice out of bounds"
  let length := stop - start
  (List.range length).foldlM
    (fun sub k =>
      let pos := start + k
      if m.is_call pos then
        let ret : Option Nat :=
          match m.succ.getD pos none with
          | some none => none
          | some (some rp) => if rp - start ≥ length then none else some (rp - start)
          | none => none
        sub.set_match (some (pos - start)) ret
      else if m.is_return pos then
        match m.pred.getD pos none with
        | some none => sub.set_match none (some (pos - start))
        | some (some cp) =>
            if cp < start then sub.set_match none (some (pos - start)) else pure sub
        | none => pure sub
      else pure sub)
    (MatchingRelation.mk_empty length)

/-- `NestedWord.__getitem__` with a slice `[start:stop]`. -/
def nw_slice (nw : NestedWord α) (start stop : Nat) :
    Except String (NestedWord α) := do
  let m ← mr_slice nw.matching start stop
  pure ⟨(nw.word.drop start).take (stop - start), m⟩

/-- `NestedWord.__add__`: concatenation via tagged-sequence splice. -/
def nw_add (a b : NestedWord α) : Except String (NestedWord α) :=
  from_tagged_sequence (a.to_tagged ++ b.to_tagged)

end NestedWord


/-!  ## Digraph (`pbsf/utils/digraph.py`) and LayeredDigraph
(`pbsf/utils/layered_digraph.py`)

Vertex properties are a type parameter `P` (the models store a node payload).
Python edge sets become insertion-ordered duplicate-free lists; `set.add` is
`insert_id`.  Out-of-range `outgoing` is modelled as the empty set — the
source raises there, and no lookup below reaches that case. -/

/-- `set.add` for identifier sets kept in insertion order. -/
def insert_id (s : List Nat) (v : Nat) : List Nat :=
  if v ∈ s then s else s ++ [v]

/-- The source's `Digraph` (the name `Digraph` itself is taken by Mathlib). -/
structure DigraphP (P : Type) where
  vertices : List P
  edges : List (List Nat)
  deriving Repr

namespace DigraphP

variable {P : Type}

def dg_empty : DigraphP P := ⟨[], []⟩

/-- `add_vertex`: returns the new graph and the fresh identifier. -/
def add_vertex (g : DigraphP P) (p : P) : DigraphP P × Nat :=
  (⟨g.vertices ++ [p], g.edges ++ [[]]⟩, g.vertices.length)

/-- `add_edge` (set semantics, no multi-edges). -/
def add_edge (g : DigraphP P) (from_v to_v : Nat) : Except String (DigraphP P) :=
  if from_v ≥ g.vertices.length then .error "vertex does not exist"
  else if to_v ≥ g.vertices.length then .error "vertex does not exist"
  else .ok ⟨g.vertices, g.edges.set from_v (insert_id (g.edges.getD from_v []) to_v)⟩

def outgoing (g : DigraphP P) (v : Nat) : List Nat :=
  g.edges.getD v []

end DigraphP

/-- `LayeredDigraph`: the vertex dict's `"layer"` key is the `vlayer` entry
(`none` while the key is missing — only before the very first
`_update_layer`); `layers` is `_layers`, and the Python `max_depth` counter
always equals `len(self._layers)`, so it is modelled as `layers.length`. -/
structure LayeredDigraph (P : Type) where
  vertices : List P
  vlayer : List (Option Nat)
  edges : List (List Nat)
  layers : List (List Nat)
  deriving Repr

namespace LayeredDigraph

variable {P : Type}

/-- A fresh `LayeredDigraph()`: one (empty) root layer. -/
def ldg_empty : LayeredDigraph P := ⟨[], [], [], [[]]⟩

def max_depth (g : LayeredDigraph P) : Nat := g.layers.length

/-- The `"layer"` property of a vertex (only read on vertices that have one). -/
def layer_of (g : LayeredDigraph P) (v : Nat) : Nat :=
  (g.vlayer.getD v none).getD 0

/-- The edge relation: `v` is among the outgoing identifiers of `u`. -/
def has_edge (g : LayeredDigraph P) (u v : Nat) : Prop :=
  v ∈ g.edges.getD u []

instance (g : LayeredDigraph P) (u v : Nat) : Decidable (g.has_edge u v) := by
  unfold has_edge
  infer_instance

/-- `_update_layer`: remove the vertex from its current layer (`set.remove`
is `List.erase` here; the invariant keeps the vertex present), allocate a new
layer if needed, insert, and write the `"layer"` property. -/
def update_layer (g : LayeredDigraph P) (vid layer : Nat) : LayeredDigraph P :=
  let layers1 :=
    match g.vlayer.getD vid none with
    | some old => g.layers.set old ((g.layers.getD old []).erase vid)
    | none => g.layers
  let layers2 := if layers1.length ≤ layer then layers1 ++ [[]] else layers1
  ⟨g.vertices, g.vlayer.set vid (some layer), g.edges,
   layers2.set layer (insert_id (layers2.getD layer []) vid)⟩

/-- `add_vertex`: `Digraph.add_vertex` followed by `_update_layer(vid, 0)`. -/
def add_vertex (g : LayeredDigraph P) (p : P) : LayeredDigraph P × Nat :=
  let vid := g.vertices.length
  let g' : LayeredDigraph P :=
    ⟨g.vertices ++ [p], g.vlayer ++ [none], g.edges ++ [[]], g.layers⟩
  (update_layer g' vid 0, vid)

/-- `add_edge`: the three-way branch on the target's layer, then
`_update_layer(to_v, v1["layer"] + 1)`.  The initial `self.vertices[from_v]`
lookups make out-of-range identifiers raise (`IndexError`) before anything is
written, hence the leading bounds check. -/
def add_edge (g : LayeredDigraph P) (from_v to_v : Nat) :
    Except String (LayeredDigraph P) :=
  if from_v ≥ g.vertices.length ∨ to_v ≥ g.vertices.length then
    .error "vertex does not exist"
  else if g.layer_of to_v = 0 then
    if g.edges.getD to_v [] ≠ [] then
      .error "cannot add edge to root layer node with outgoing edges"
    else
      .ok (update_layer
        ⟨g.vertices, g.vlayer,
         g.edges.set from_v (insert_id (g.edges.getD from_v []) to_v),
         g.layers⟩ to_v (g.layer_of from_v + 1))
  else if g.layer_of to_v = g.layer_of from_v + 1 then
    .ok (update_layer
      ⟨g.vertices, g.vlayer,
       g.edges.set from_v (insert_id (g.edges.getD from_v []) to_v),
       g.layers⟩ to_v (g.layer_of from_v + 1))
  else .error "layer constraint violated"

/-- `get_layer`, total where the layer exists (callers guard on `max_depth`). -/
def get_layer (g : LayeredDigraph P) (layer : Nat) : List Nat :=
  g.layers.getD layer []

def outgoing (g : LayeredDigraph P) (v : Nat) : List Nat :=
  g.edges.getD v []

/-- The public operations of the claim: `add_vertex` (properties are
irrelevant to the layering) and `add_edge`. -/
inductive LDOp (P : Type) where
  | add_vertex (p : P)
  | add_edge (u v : Nat)
  deriving Repr, DecidableEq

/-- Apply one operation, an operation that raises leaving the graph unchanged
(in the source every raise precedes any mutation). -/
def ld_step (g : LayeredDigraph P) (op : LDOp P) : LayeredDigraph P :=
  match op with
  | .add_vertex p => (add_vertex g p).1
  | .add_edge u v =>
    match add_edge g u v with
    | .ok g' => g'
    | .error _ => g

def apply_ld_ops (ops : List (LDOp P)) : LayeredDigraph P :=
  ops.foldl ld_step ldg_empty

end LayeredDigraph

/-!  ## Pattern models (`pbsf/models/pattern_set.py`, `pattern_tree.py`,
`pattern_graph.py`)

The models are generic in the node type `N`; `beq` embeds the node family's
`__eq__` (variant-specific equivalence) and `dist` its `distance` (which can
raise `ValueError` on incomparable nodes, hence `Except`).  A chain element as
seen from Python is either a `Node` or some other object (`PElem.junk`); the
`isinstance(node, Node)` validation checks exactly this tag.  Object identity
(`is`, used by Python set membership before `==`) is modelled as structural
equality. -/
inductive PElem (N : Type) where
  | node (n : N)
  | junk
  deriving Repr, DecidableEq

namespace PElem

def is_node {N : Type} : PElem N → Bool
  | node _ => true
  | junk => false

def to_node {N : Type} : PElem N → Option N
  | node n => some n
  | junk => none

/-- Python `==` lifted to arbitrary objects: a `Node.__eq__` returns `False`
for non-Node arguments (its `isinstance` guard); two non-Node objects are the
same opaque object here. -/
def beqP {N : Type} (beq : N → N → Bool) : PElem N → PElem N → Bool
  | node a, node b => beq a b
  | junk, junk => true
  | _, _ => false

end PElem

/-- `PatternSet`: per-depth Python sets of inserted objects, as
insertion-ordered duplicate-free lists. -/
structure PatternSet (N : Type) where
  nodes : List (List (PElem N))
  deriving Repr

namespace PatternSet

variable {N : Type} [DecidableEq N] (beq : N → N → Bool)

def ps_empty : PatternSet N := ⟨[]⟩

/-- Python `x in s` for a set: hash lookup, then `y is x or y == x`; identity
is structural equality here. -/
def set_member (s : List (PElem N)) (x : PElem N) : Bool :=
  s.any (fun y => y == x || PElem.beqP beq y x)

/-- The `zip`-driven loop of `PatternSet.update`. -/
def ps_update_zip :
    List (PElem N) → List (List (PElem N)) → List (List (PElem N)) × List Bool
  | [], sets => (sets, [])
  | _ :: _, [] => ([], [])
  | x :: xs, s :: ss =>
      let was := set_member beq s x
      let s' := if was then s else s ++ [x]
      let (ss', present) := ps_update_zip xs ss
      (s' :: ss', was :: present)

/-- `PatternSet.update`: pad the depth structure, then insert depth-wise.
There is no validation in the source. -/
def update (m : PatternSet N) (chain : List (PElem N)) :
    PatternSet N × List Bool :=
  let padded := m.nodes ++ List.replicate (chain.length - m.nodes.length) []
  let (nodes', present) := ps_update_zip beq chain padded
  (⟨nodes'⟩, present)

/-- `PatternSet.contains`: every chain element in its depth set; missing
depths count as absent. -/
def contains (m : PatternSet N) (chain : List (PElem N)) : Bool :=
  ((chain.zip m.nodes).all fun p => set_member beq p.2 p.1) &&
    decide (chain.length ≤ m.nodes.length)

/-- `PatternSet.learn`: validate every chain (list of lists of Nodes), then
fold `update`. -/
def learn (m : PatternSet N) (chains : List (List (PElem N))) :
    Except String (PatternSet N × List (List Bool)) :=
  if ¬ chains.all (fun c => c.all PElem.is_node) then
    .error "Data must contain only nodes."
  else
    .ok (chains.foldl
      (fun (acc : PatternSet N × List (List Bool)) c =>
        let (m', r) := update beq acc.1 c
        (m', acc.2 ++ [r]))
      (m, []))

end PatternSet

/-- `PatternTree`: a rooted `Digraph` whose vertex payload is the `"node"`
property — `none` for the root's `"root"` marker, `some n` for a chain node.
Only the `closest_match` key of `params` is ever read. -/
structure PatternTree (N : Type) where
  graph : DigraphP (Option N)
  root : Nat
  closest_match : Bool
  deriving Repr

namespace PatternTree

variable {N : Type} (beq : N → N → Bool) (dist : N → N → Except String Rat)

/-- `PatternTree(params)`: a fresh tree holding just the root. -/
def pt_empty (closest : Bool) : PatternTree N :=
  ⟨⟨[none], [[]]⟩, 0, closest⟩

/-- `node == candidate` where `candidate` is a vertex payload: against the
root marker every node's `__eq__` returns `False` (its `isinstance` guard). -/
def payload_matches (g : DigraphP (Option N)) (n : N) (vid : Nat) : Bool :=
  match g.vertices.getD vid none with
  | some m => beq n m
  | none => false

/-- `_first_match`. -/
def first_match (g : DigraphP (Option N)) (n : N) (cands : List Nat) :
    Option Nat :=
  cands.find? (payload_matches beq g n)

/-- `_best_match` of the tree: the distance is computed *before* the
equivalence test, so an incomparable candidate raises. -/
def best_match (g : DigraphP (Option N)) (n : N) (cands : List Nat) :
    Except String (Option Nat) := do
  let acc ← cands.foldlM
    (fun (acc : Option Nat × Option Rat) vid => do
      match g.vertices.getD vid none with
      | none => throw "cannot compare with the root marker"
      | some m => do
        let d ← dist n m
        pure (if beq n m &&
                (match acc.2 with
                 | none => true
                 | some cd => decide (d < cd)) then
                (some vid, some d) else acc))
    (none, none)
  pure acc.1

/-- The strategy selected by `closest_match`. -/
def match_strategy (t : PatternTree N) (n : N) (cands : List Nat) :
    Except String (Option Nat) :=
  if t.closest_match then best_match beq dist t.graph n cands
  else pure (first_match beq t.graph n cands)

def ctv_go (t : PatternTree N) :
    List N → Nat → List Nat → Except String (List Nat)
  | [], _, acc => pure acc.reverse
  | n :: ns, cur, acc => do
    let cand ← match_strategy beq dist t n (t.graph.outgoing cur)
    match cand with
    | none => pure acc.reverse
    | some v => ctv_go t ns v (v :: acc)

/-- `PatternTree.chain_to_vertices`: the greedy root-down traversal. -/
def chain_to_vertices (t : PatternTree N) (chain : List N) :
    Except String (List Nat) :=
  ctv_go beq dist t chain t.root [t.root]

/-- The `while len(vertices) <= len(chain)` loop of `update`: append a path
of fresh vertices below `cur` for the unmatched tail. -/
def pt_extend :
    DigraphP (Option N) → Nat → List N →
      Except String (DigraphP (Option N) × List Nat)
  | g, _, [] => pure (g, [])
  | g, cur, n :: ns => do
    let (g1, vid) := g.add_vertex (some n)
    let g2 ← g1.add_edge cur vid
    let (g3, rest) ← pt_extend g2 vid ns
    pure (g3, vid :: rest)

/-- `PatternTree.update` over raw Python arguments: `isinstance` validation
first (raising leaves the tree untouched), then traverse and extend. -/
def update (t : PatternTree N) (chain : List (PElem N)) :
    Except String (PatternTree N × List Nat) := do
  if ¬ chain.all PElem.is_node then throw "Chain must contain only nodes."
  let ns := chain.filterMap PElem.to_node
  let vertices ← chain_to_vertices beq dist t ns
  let (g', fresh) ←
    pt_extend t.graph (vertices.getLastD t.root)
      (ns.drop (vertices.length - 1))
  pure ({t with graph := g'}, vertices ++ fresh)

/-- `PatternTree.contains` (no validation in the source; stated over node
chains, which is all any claim exercises). -/
def contains (t : PatternTree N) (chain : List N) : Except String Bool := do
  let vertices ← chain_to_vertices beq dist t chain
  pure (vertices.length == chain.length + 1)

/-- `PatternTree.learn`: validate all chains up front, then fold `update`. -/
def learn (t : PatternTree N) (chains : List (List (PElem N))) :
    Except String (PatternTree N × List (List Nat)) := do
  if ¬ chains.all (fun c => c.all PElem.is_node) then
    throw "Data must contain only nodes."
  chains.foldlM
    (fun (acc : PatternTree N × List (List Nat)) c => do
      let (t', r) ← update beq dist acc.1 c
      pure (t', acc.2 ++ [r]))
    (t, [])

end PatternTree

/-- `PatternGraph`: a `LayeredDigraph` whose vertex payload is the node. -/
structure PatternGraph (N : Type) where
  graph : LayeredDigraph N
  closest_match : Bool
  deriving Repr

namespace PatternGraph

variable {N : Type} (beq : N → N → Bool) (dist : N → N → Except String Rat)

def pg_empty (closest : Bool) : PatternGraph N :=
  ⟨LayeredDigraph.ldg_empty, closest⟩

/-- `_first_match`. -/
def first_match (g : LayeredDigraph N) (n : N) (cands : List Nat) :
    Option Nat :=
  cands.find? (fun vid =>
    match g.vertices.get? vid with
    | some m => beq n m
    | none => false)

/-- `_best_match` of the graph: the walrus `and` short-circuits, so the
distance is only computed on equivalent candidates. -/
def best_match (g : LayeredDigraph N) (n : N) (cands : List Nat) :
    Except String (Option Nat) := do
  let acc ← cands.foldlM
    (fun (acc : Option Nat × Option Rat) vid => do
      match g.vertices.get? vid with
      | none => pure acc
      | some m =>
        if beq n m then do
          let d ← dist n m
          pure (if (match acc.2 with
                    | none => true
                    | some cd => decide (d < cd)) then
                  (some vid, some d) else acc)
        else pure acc)
    (none, none)
  pure acc.1

def match_strategy (pg : PatternGraph N) (n : N) (cands : List Nat) :
    Except String (Option Nat) :=
  if pg.closest_match then best_match beq dist pg.graph n cands
  else pure (first_match beq pg.graph n cands)

/-- `_find_matching_vertex`: nothing beyond the allocated layers; otherwise
children of the previously matched vertex first, then the whole layer. -/
def find_matching_vertex (pg : PatternGraph N) (n : N) (depth : Nat)
    (parent : Option Nat) : Except String (Option Nat) := do
  if depth ≥ pg.graph.max_depth then pure none
  else do
    let via_parent ←
      match parent with
      | some p => match_strategy beq dist pg n (pg.graph.outgoing p)
      | none => pure none
    match via_parent with
    | some m => pure (some m)
    | none => match_strategy beq dist pg n (pg.graph.get_layer depth)

/-- `_check_connection`. -/
def check_connection (pg : PatternGraph N) (v1 v2 : Option Nat) : Bool :=
  match v1, v2 with
  | some a, some b => decide (b ∈ pg.graph.outgoing a)
  | _, _ => false

def ctv_go (pg : PatternGraph N) :
    List N → Nat → List (Option Nat) → List Bool →
      Except String (List (Option Nat) × List Bool)
  | [], _, trav, conn => pure (trav.reverse, conn.reverse)
  | n :: ns, depth, trav, conn => do
    let parent : Option Nat := match trav with | [] => none | t :: _ => t
    let matched ← find_matching_vertex beq dist pg n depth parent
    let conn' := match trav with
      | [] => conn
      | t :: _ => check_connection pg t matched :: conn
    ctv_go pg ns (depth + 1) (matched :: trav) conn'

/-- `PatternGraph.chain_to_vertices`. -/
def chain_to_vertices (pg : PatternGraph N) (chain : List N) :
    Except String (List (Option Nat) × List Bool) :=
  ctv_go beq dist pg chain 0 [] []

end PatternGraph

namespace PatternGraph

variable {N : Type} (beq : N → N → Bool) (dist : N → N → Except String Rat)

/-- The gap-filling loop of `update`: allocate a fresh vertex for every `none`
position (each paired with its chain node). -/
def pg_fill :
    LayeredDigraph N → List (Option Nat × N) → LayeredDigraph N × List Nat
  | g, [] => (g, [])
  | g, (some v, _) :: rest =>
      let (g', vs) := pg_fill g rest
      (g', v :: vs)
  | g, (none, n) :: rest =>
      let (g1, vid) := g.add_vertex n
      let (g', vs) := pg_fill g1 rest
      (g', vid :: vs)

/-- The edge-completion loop of `update`: add the missing edge for every
consecutive pair whose connection flag is false. -/
def pg_connect :
    LayeredDigraph N → List Nat → List Bool →
      Except String (LayeredDigraph N)
  | g, v1 :: v2 :: vs, c :: cs => do
      let g1 ← if c then pure g else g.add_edge v1 v2
      pg_connect g1 (v2 :: vs) cs
  | g, _, _ => pure g

/-- `PatternGraph.update`: `isinstance` validation, traversal, gap filling,
edge completion. -/
def update (pg : PatternGraph N) (chain : List (PElem N)) :
    Except String (PatternGraph N × List Nat) := do
  if ¬ chain.all PElem.is_node then throw "Chain must contain only nodes."
  let ns := chain.filterMap PElem.to_node
  let (vertices, connections) ← chain_to_vertices beq dist pg ns
  let (g1, vids) := pg_fill pg.graph (vertices.zip ns)
  let g2 ← pg_connect g1 vids connections
  pure ({pg with graph := g2}, vids)

/-- `PatternGraph.contains` (no validation in the source; stated over node
chains, which is all any claim exercises). -/
def contains (pg : PatternGraph N) (chain : List N) : Except String Bool := do
  let (vertices, connections) ← chain_to_vertices beq dist pg chain
  pure (vertices.all Option.isSome && connections.all id)

/-- `PatternGraph.learn`. -/
def learn (pg : PatternGraph N) (chains : List (List (PElem N))) :
    Except String (PatternGraph N × List (List Nat)) := do
  if ¬ chains.all (fun c => c.all PElem.is_node) then
    throw "Chains must contain only nodes."
  chains.foldlM
    (fun (acc : PatternGraph N × List (List Nat)) c => do
      let (pg', r) ← update beq dist acc.1 c
      pure (pg', acc.2 ++ [r]))
    (pg, [])

end PatternGraph

/-!  ## StructuralProminenceNode (`pbsf/nodes/structural_prominence_node.py`)

Floats become `Rat` (see the divergence notes on the theorems); the two
threshold callables are evaluated at construction time in the source, so the
node carries their values.  `breakpoints` is stored but never read by
`__eq__`/`distance` and is omitted. -/
structure StructuralProminenceNode where
  depth : Int
  std : Rat
  slopes : List Rat
  intercepts : List Rat
  structural_threshold : Rat
  prominence_threshold : Rat
  deriving Repr, DecidableEq

namespace StructuralProminenceNode

/-- `np.mean` (`np.mean` of an empty array is NaN in the source; `Rat`
division by zero yields `0` — no theorem below evaluates that case without a
nonemptiness hypothesis). -/
def np_mean (l : List Rat) : Rat := l.sum / l.length

/-- The `1e-10` guard of `prominence_distance`. -/
def eps : Rat := 1 / 10000000000

def is_comparable (a b : StructuralProminenceNode) : Bool :=
  a.depth == b.depth &&
  a.structural_threshold == b.structural_threshold &&
  a.prominence_threshold == b.prominence_threshold

/-- `structural_distance`: `np.mean(slopes + inters)` over the elementwise
differences (no absolute value here; the sign convention is the source's). -/
def structural_distance (a b : StructuralProminenceNode) : Rat :=
  np_mean (List.zipWith (· + ·)
    (List.zipWith (· - ·) a.slopes b.slopes)
    (List.zipWith (· - ·) a.intercepts b.intercepts))

/-- `prominence_distance`: `max/(min + 1e-10) - 1.0`. -/
def prominence_distance (a b : StructuralProminenceNode) : Rat :=
  max a.std b.std / (min a.std b.std + eps) - 1

/-- `distance`: `_is_comparable` raises on incomparable nodes; otherwise the
absolute structural plus absolute prominence distance. -/
def distance (a b : StructuralProminenceNode) : Except String Rat :=
  if ¬ is_comparable a b then .error "cannot compare"
  else .ok (|structural_distance a b| + |prominence_distance a b|)

/-- `__eq__`: same depth and thresholds, both distances within threshold. -/
def spn_eq (a b : StructuralProminenceNode) : Bool :=
  is_comparable a b &&
  decide (|structural_distance a b| ≤ a.structural_threshold) &&
  decide (|prominence_distance a b| ≤ a.prominence_threshold)

end StructuralProminenceNode

/-!  ## SlidingWindow (`pbsf/segmenters/sliding_window.py`)

Only the `autocorrelation = False` configuration is embedded (the default; the
autocorrelation path is floating-point signal processing outside every claim).
The constructor enforces `window_size ≥ 1` and `step_size ≥ 1`. -/
namespace SlidingWindow

/-- `np.diff`: first differences. -/
def np_diff (l : List Rat) : List Rat :=
  List.zipWith (· - ·) (l.drop 1) l

/-- `sliding_window_view(d, W)[::S]`. -/
def segment_core (W S : Nat) (d : List Rat) : List (List Rat) :=
  ((List.range (d.length - W + 1)).filter (fun i => i % S = 0)).map
    (fun i => (d.drop i).take W)

/-- `segment`: length check against the window size, optional first
differencing, then `sliding_window_view(data, W)[::S]`.  When differencing
shrinks the data below `W`, `sliding_window_view` itself raises — the second
guard. -/
def segment (W S : Nat) (differentiation : Bool) (data : List Rat) :
    Except String (List (List Rat)) :=
  if data.length < W then
    .error "Data length must be greater than or equal to window size."
  else if (if differentiation then np_diff data else data).length < W then
    .error "window shape of sliding_window_view exceeds data"
  else
    .ok (segment_core W S (if differentiation then np_diff data else data))

end SlidingWindow

/-!  ## The `hpm` scoring loop (`pbsf/algorithms/hpm.py`)

The driver discretises, learns, and then accumulates per-point counts and
scores over the test windows.  The embedding keeps the exact loop geometry
(window start/end points, including the `min(..., len(test))` clamp and the
context-window variant) and abstracts the per-window `model.contains` outcome
as the boolean oracle `contains_result` — the claim must hold for every such
outcome.  End points are `Int` because `(i + context_size - 1) * step` can be
negative in Python when `context_size = 0`. -/
namespace Hpm

/-- One accumulation window: start point, (clamped) end point, and the
`contains` outcome added for every covered point. -/
def hpm_cover (test_len W S num_chains : Nat) (ctx : Option Nat)
    (contains_result : Nat → Bool) : List (Nat × Int × Bool) :=
  match ctx with
  | some k =>
      (List.range (num_chains + 1 - k)).map
        (fun i => (i * S, min (((i : Int) + k - 1) * S + W) test_len,
          contains_result i))
  | none =>
      (List.range num_chains).map
        (fun i => (i * S, min ((i : Int) * S + W) test_len,
          contains_result i))

def covers (c : Nat × Int × Bool) (t : Nat) : Bool :=
  decide (c.1 ≤ t) && decide ((t : Int) < c.2.1)

/-- `counts[t]`: the number of windows whose point range covers `t`. -/
def hpm_counts (cov : List (Nat × Int × Bool)) (t : Nat) : Nat :=
  (cov.filter (fun c => covers c t)).length

/-- `scores[t]`: the number of covering windows whose pattern was found
(each adds `float(contains_pattern)`). -/
def hpm_scores (cov : List (Nat × Int × Bool)) (t : Nat) : Nat :=
  ((cov.filter (fun c => covers c t)).filter (fun c => c.2.2)).length

/-- `np.divide(scores, counts, out=zeros, where=counts != 0)` at point `t`. -/
def hpm_score (cov : List (Nat × Int × Bool)) (t : Nat) : Rat :=
  if hpm_counts cov t = 0 then 0
  else (hpm_scores cov t : Rat) / (hpm_counts cov t : Rat)

/-- The emitted score series. -/
def hpm_output (test_len W S num_chains : Nat) (ctx : Option Nat)
    (contains_result : Nat → Bool) : List Rat :=
  (List.range test_len).map
    (hpm_score (hpm_cover test_len W S num_chains ctx contains_result))

end Hpm


/-!  ## Derived definitions used by the development

Invariant predicates, pure reference traversals, the well-formedness class of
matching relations, and the concrete inputs of the witnesses.  All are
definitions; the theorems about them follow after this section. -/

namespace MatchingRelation

/-- The two array writes performed by a successful `set_match`. -/
def write_succ (m : MatchingRelation) (call ret : Option Nat) : List MEntry :=
  match call with
  | some i => m.succ.set i (some ret)
  | none => m.succ

def write_pred (m : MatchingRelation) (call ret : Option Nat) : List MEntry :=
  match ret with
  | some j => m.pred.set j (some call)
  | none => m.pred

/-- Both arrays of a `MatchingRelation` built by the library have the same
length; `set_match` preserves this. -/
def same_len (m : MatchingRelation) : Prop := m.pred.length = m.succ.length

/-- The pairwise no-crossing invariant of a matching relation. -/
def pairwise_nc (m : MatchingRelation) : Prop :=
  ∀ p ∈ m.get_matches, ∀ q ∈ m.get_matches, crosses p q = false

/-- One errors-as-no-ops `set_match` step, as folded by `apply_set_matches`. -/
def sm_step (m : MatchingRelation) (op : Option Nat × Option Nat) :
    MatchingRelation :=
  match m.set_match op.1 op.2 with
  | .ok m' => m'
  | .error _ => m

end MatchingRelation

namespace LayeredDigraph

/-- The inductive invariant maintained by `add_vertex` / `add_edge`:
bookkeeping lengths agree, edges point at allocated vertices, no vertex of
layer 0 has an incoming edge, and every non-self edge climbs exactly one
layer. -/
structure LDInv {P : Type} (g : LayeredDigraph P) : Prop where
  len_vl : g.vlayer.length = g.vertices.length
  len_e : g.edges.length = g.vertices.length
  edges_tgt : ∀ u v, g.has_edge u v → v < g.vertices.length
  no_in_zero : ∀ u v, g.has_edge u v → g.layer_of v ≠ 0
  edge_layer : ∀ u v, g.has_edge u v → u ≠ v → g.layer_of v = g.layer_of u + 1
  self_loop : ∀ v, g.has_edge v v → g.layer_of v = 1

/-- The full structural invariant of every `LayeredDigraph` reachable through
`PatternGraph` operations: length bookkeeping, the layer lists partition the
vertices according to their `"layer"` property, and every edge climbs exactly
one layer (in particular no edge points into layer 0). -/
structure LGInv {P : Type} (g : LayeredDigraph P) : Prop where
  len_vl : g.vlayer.length = g.vertices.length
  len_e : g.edges.length = g.vertices.length
  len_l : 0 < g.layers.length
  vl_some : ∀ v, v < g.vertices.length →
    ∃ l, g.vlayer.getD v none = some l ∧ l < g.layers.length ∧
      v ∈ g.layers.getD l []
  lay_mem : ∀ l v, v ∈ g.layers.getD l [] →
    v < g.vertices.length ∧ g.vlayer.getD v none = some l
  lay_nodup : ∀ l, (g.layers.getD l []).Nodup
  edges_tgt : ∀ u v, v ∈ g.edges.getD u [] →
    u < g.vertices.length ∧ v < g.vertices.length
  edge_layer : ∀ u v, v ∈ g.edges.getD u [] → ∀ lu lv,
    g.vlayer.getD u none = some lu → g.vlayer.getD v none = some lv →
    lv = lu + 1
  no_in_zero : ∀ u v, v ∈ g.edges.getD u [] →
    g.vlayer.getD v none ≠ some 0

end LayeredDigraph

namespace PatternTree

variable {N : Type} (beq : N → N → Bool)

/-- The pure first-match traversal underlying `chain_to_vertices` when
`closest_match` is off (the default configuration of the claim). -/
def trav (g : DigraphP (Option N)) : List N → Nat → List Nat
  | [], _ => []
  | n :: ns, cur =>
    match first_match beq g n (g.outgoing cur) with
    | none => []
    | some v => v :: trav g ns v

/-- The graph invariant of every reachable `PatternTree` graph: edges go from
a vertex to a strictly larger (fresh-at-the-time) vertex identifier. -/
structure TGInv (g : DigraphP (Option N)) : Prop where
  len_e : g.edges.length = g.vertices.length
  edge_incr : ∀ u v, v ∈ g.edges.getD u [] → u < v ∧ v < g.vertices.length

end PatternTree

namespace PatternGraph

/-- The candidate predicate of the graph's `_first_match`. -/
def gpred {N : Type} (beq : N → N → Bool) (g : LayeredDigraph N) (n : N)
    (vid : Nat) : Bool :=
  match g.vertices.get? vid with
  | some m => beq n m
  | none => false

/-- One step of `_find_matching_vertex` in the first-match configuration. -/
def gstep {N : Type} (beq : N → N → Bool) (g : LayeredDigraph N) (n : N)
    (depth : Nat) (parent : Option Nat) : Option Nat :=
  if depth ≥ g.max_depth then none
  else
    match parent with
    | some p =>
      match first_match beq g n (g.outgoing p) with
      | some m => some m
      | none => first_match beq g n (g.get_layer depth)
    | none => first_match beq g n (g.get_layer depth)

/-- The pure traversal underlying `chain_to_vertices` when `closest_match` is
off: each step's match becomes the next step's parent (also when it is
`none`). -/
def gtrav {N : Type} (beq : N → N → Bool) (g : LayeredDigraph N) :
    List N → Nat → Option Nat → List (Option Nat)
  | [], _, _ => []
  | n :: ns, depth, parent =>
    let m := gstep beq g n depth parent
    m :: gtrav beq g ns (depth + 1) m

/-- Per-position record of `pg_fill`'s output: matched positions keep their
vertex, `none` positions get fresh identifiers (strictly increasing, all at
least `lo`) carrying their chain node at layer 0 with no outgoing edges. -/
def Bfacts {N : Type} (g1 : LayeredDigraph N) :
    List (Option Nat) → List N → List Nat → Nat → Prop
  | [], [], [], _ => True
  | some v :: vs, _ :: ns, w :: ws, lo => w = v ∧ Bfacts g1 vs ns ws lo
  | none :: vs, n :: ns, w :: ws, lo =>
      lo ≤ w ∧ w < g1.vertices.length ∧ g1.vertices.get? w = some n ∧
      g1.vlayer.getD w none = some 0 ∧ g1.edges.getD w [] = [] ∧
      Bfacts g1 vs ns ws (w + 1)
  | _, _, _, _ => False

/-- The fresh identifiers allocated for the `none` positions, in order. -/
def fresh_of : List (Option Nat) → List Nat → List Nat
  | some _ :: vs, _ :: ws => fresh_of vs ws
  | none :: vs, w :: ws => w :: fresh_of vs ws
  | _, _ => []

/-- Pre-condition of the edge-completion loop, per consecutive pair
(`w1` at depth `d`, `w2` at depth `d+1`, connection flag `c`, chain node
`n2`): the flag records exactly whether `w2` is the first equivalent child of
`w1`, and an unconnected target is either already on the right layer or a
fresh layer-0 vertex without outgoing edges. -/
def Cpre {N : Type} (beq : N → N → Bool) (g : LayeredDigraph N) :
    List Nat → List Bool → List N → Nat → Prop
  | w1 :: w2 :: ws, c :: cs, n2 :: ns2, d =>
      (w2 < g.vertices.length ∧
       gpred beq g n2 w2 = true ∧
       List.find? (gpred beq g n2) (g.edges.getD w1 []) =
         (if c then some w2 else none) ∧
       (c = true → g.vlayer.getD w2 none = some (d + 1)) ∧
       (c = false → (g.vlayer.getD w2 none = some (d + 1) ∨
         (g.vlayer.getD w2 none = some 0 ∧ g.edges.getD w2 [] = [])))) ∧
      Cpre beq g (w2 :: ws) cs ns2 (d + 1)
  | [], _, _, _ => True
  | [_], _, _, _ => True
  | _ :: _ :: _, _, _, _ => False

/-- Post-condition of the edge-completion loop: each pair is connected and the
target is the first equivalent child of its source, one layer down. -/
def Cpost {N : Type} (beq : N → N → Bool) (g : LayeredDigraph N) :
    List Nat → List N → Nat → Prop
  | w1 :: w2 :: ws, n2 :: ns2, d =>
      List.find? (gpred beq g n2) (g.edges.getD w1 []) = some w2 ∧
      g.vlayer.getD w2 none = some (d + 1) ∧
      w2 < g.vertices.length ∧
      Cpost beq g (w2 :: ws) ns2 (d + 1)
  | _, _, _ => True

/-- The connection-flag list of a traversal, pairwise. -/
def gconns {N : Type} (pg : PatternGraph N) : List (Option Nat) → List Bool
  | m1 :: m2 :: ms => check_connection pg m1 m2 :: gconns pg (m2 :: ms)
  | _ => []

end PatternGraph

/-- The zero-variance discretiser output: a `StructuralProminenceNode` with
`std = 0` under the default thresholds `0.5`. -/
def spn0 : StructuralProminenceNode := ⟨0, 0, [0], [0], 1/2, 1/2⟩

/-- A trivial node universe for concrete model runs: nodes are `Nat`s compared
by equality, at distance `0` from each other. -/
def natBeq : Nat → Nat → Bool := fun a b => a == b

def natDist : Nat → Nat → Except String Rat := fun _ _ => .ok 0

namespace NestedWord

/-- Well-formedness of a matching relation: the two arrays are consistent
(partners point at each other, call before return, in range), no position
plays both roles, and no two entries cross (in the sense of
`_validate_crossing`, pending sides included). -/
structure NWWF (m : MatchingRelation) : Prop where
  len_eq : m.pred.length = m.succ.length
  succ_match : ∀ i r, m.succ.getD i none = some (some r) →
    i < r ∧ r < m.len ∧ m.pred.getD r none = some (some i)
  pred_match : ∀ j c, m.pred.getD j none = some (some c) →
    m.succ.getD c none = some (some j)
  no_dual : ∀ i, (m.succ.getD i none).isSome →
    (m.pred.getD i none).isSome → False
  nc_mm : ∀ i j c r, m.succ.getD i none = some (some j) →
    m.succ.getD c none = some (some r) →
    ¬((i < c ∧ c ≤ j ∧ j ≤ r) ∨ (c < i ∧ i ≤ r ∧ r ≤ j))
  nc_mp : ∀ c r b, m.succ.getD c none = some (some r) →
    m.succ.getD b none = some none → ¬(c < b ∧ b < r)
  nc_mr : ∀ c r q, m.succ.getD c none = some (some r) →
    m.pred.getD q none = some none → ¬(c < q ∧ q < r)
  nc_pr : ∀ b q, m.succ.getD b none = some none →
    m.pred.getD q none = some none → ¬(b < q)

/-- Is the call position `c` still open (unclosed) after the first `p`
positions have been parsed? -/
def opn (m : MatchingRelation) (p c : Nat) : Bool :=
  match m.succ.getD c none with
  | some none => true
  | some (some r) => decide (p ≤ r)
  | none => false

/-- The call stack of the parser after the first `p` positions. -/
def pstack (m : MatchingRelation) (p : Nat) : List Nat :=
  ((List.range p).filter (opn m p)).reverse

/-- The `_return_successors` entry as rebuilt after parsing `p` positions:
only matches whose return lies before `p` are present. -/
def succ_upto (m : MatchingRelation) (p i : Nat) : MEntry :=
  match m.succ.getD i none with
  | some (some r) => if r < p then some (some r) else none
  | _ => none

/-- The `_call_predecessors` entry as rebuilt after parsing `p` positions. -/
def pred_upto (m : MatchingRelation) (p i : Nat) : MEntry :=
  if i < p then m.pred.getD i none else none

/-- The token block a single position contributes to `to_tagged`. -/
def block (m : MatchingRelation) (ps : Nat × α) : List (Tok α) :=
  (if m.is_call ps.1 then [Tok.lt] else []) ++ [Tok.sym ps.2] ++
    (if m.is_return ps.1 then [Tok.gt] else [])

/-- A concrete matching relation with one matched pair: call 0, return 1. -/
def mr1 : MatchingRelation := ⟨[some (some 1), none], [none, some (some 0)]⟩

/-- A concrete nested word over the matched pair. -/
def nw1 : NestedWord Nat := ⟨[7, 8], mr1⟩

end NestedWord

/-!  ## NestedWordSet (`pbsf/models/nw_set.py`)

The `pattern_model` class choice becomes a sum type; the `_combined_cache`
dict an association list; `nested_words` an insertion-ordered duplicate-free
list.  The import `pbsf.utils.words.nested_word` is absent from the source
tree; `pbsf/utils/nested_word.py` defines the `NestedWord` used here.
`PatternTree` vertex ids are injected into the graph model's optional ids
(`some v`) so both models produce nested words over one symbol type. -/

inductive Patterns (N : Type) where
  | graph (pg : PatternGraph N)
  | tree (t : PatternTree N)

/-- `self.patterns.update(chain)` dispatched on the configured model class. -/
def Patterns.updateP {N : Type} (beq : N → N → Bool)
    (dist : N → N → Except String Rat) :
    Patterns N → List (PElem N) → Except String (Patterns N × List Nat)
  | .graph pg, c => do
      let (pg2, vids) ← PatternGraph.update beq dist pg c
      pure (.graph pg2, vids)
  | .tree t, c => do
      let (t2, vids) ← PatternTree.update beq dist t c
      pure (.tree t2, vids)

/-- `NestedWordSet._close_positions`: close the deepest `number` pending
calls, innermost first.  `number <= 0` is `number = 0` on `Nat`. -/
def close_positions {α : Type} [DecidableEq α] (nw : NestedWord α)
    (number : Nat) : Except String (NestedWord α) := do
  if number = 0 then
    throw "Cannot close negative number of open positions."
  else
    let pending := nw.matching.get_pending_calls
    if number > pending.length then
      throw "Number is greater than number of open positions."
    else
      ((pending.drop (pending.length - number)).reverse).foldlM
        (fun w pos =>
          match w.word.get? pos with
          | some s => w.add_return s
          | none => throw "index out of range")
        nw

/-- The `for depth, (c1, c2) in enumerate(zip(s1, s2))` loop of
`_combine_nws`, with its `break` on the first symbol mismatch. -/
def combine_go {α : Type} [DecidableEq α] (lenS1 : Nat) (nw2 : NestedWord α) :
    List (α × α × Nat) → Nat → NestedWord α → Except String (NestedWord α)
  | [], _, nw => pure nw
  | (c1, c2, pp) :: rest, depth, nw =>
    if c1 ≠ c2 then do
      let nwC ← close_positions nw (lenS1 - depth)
      let sliced ← nw2.nw_slice pp nw2.word.length
      NestedWord.nw_add nwC sliced
    else combine_go lenS1 nw2 rest (depth + 1) nw

/-- `NestedWordSet._combine_nws`, threading the `_combined_cache`. -/
def combine_nws {α : Type} [DecidableEq α]
    (cache : List ((NestedWord α × NestedWord α) × NestedWord α))
    (nw1 nw2 : NestedWord α) :
    Except String
      (List ((NestedWord α × NestedWord α) × NestedWord α) × NestedWord α) := do
  if nw1.word.length = 0 then pure (cache, nw2)
  else
    match cache.find? (fun e => e.1 == (nw1, nw2)) with
    | some e => pure (cache, e.2)
    | none =>
      let p1 := nw1.matching.get_pending_calls
      let p2 := nw2.matching.get_pending_calls
      let s1 ← p1.mapM (fun pos =>
        match nw1.word.get? pos with
        | some s => pure s
        | none => throw "index out of range")
      let s2 ← p2.mapM (fun pos =>
        match nw2.word.get? pos with
        | some s => pure s
        | none => throw "index out of range")
      let nw0 ← NestedWord.nw_add NestedWord.nw_empty nw1
      let nwL ← combine_go s1.length nw2 (s1.zip (s2.zip p2)) 0 nw0
      let nwF ← (match nwL.word.getLast?, nw2.word.getLast? with
        | some a, some b =>
          if a ≠ b then pure (nwL.add_internal b) else pure nwL
        | _, _ => throw "index out of range")
      pure (cache ++ [((nw1, nw2), nwF)], nwF)

/-- `NestedWordSet._combine_queue` over an explicit queue and cache. -/
def combine_queue {α : Type} [DecidableEq α]
    (cache : List ((NestedWord α × NestedWord α) × NestedWord α))
    (queue : List (NestedWord α)) :
    Except String
      (List ((NestedWord α × NestedWord α) × NestedWord α) × NestedWord α) :=
  queue.foldlM (fun st nw => combine_nws st.1 st.2 nw)
    (cache, NestedWord.nw_empty)

/-- The tail of `_chain_to_nw`: build the nested word from the vertex list
(all but the last become pending calls, the last an internal). -/
def nw_of_vertices (vertices : List (Option Nat)) :
    Except String (NestedWord (Option Nat)) := do
  match vertices.getLast? with
  | none => throw "index out of range"
  | some v =>
    if vertices.length > 1 then do
      let nw1 ← NestedWord.nw_empty.add_calls vertices.dropLast
      pure (nw1.add_internal v)
    else pure (NestedWord.nw_empty.add_internal v)

/-- `NestedWordSet._chain_to_nw` dispatched on the model class. -/
def chain_to_nw {N : Type} (beq : N → N → Bool)
    (dist : N → N → Except String Rat) :
    Patterns N → List N → Except String (NestedWord (Option Nat))
  | .graph pg, chain => do
      let (vertices, _) ← PatternGraph.chain_to_vertices beq dist pg chain
      nw_of_vertices vertices
  | .tree t, chain => do
      let vs ← PatternTree.chain_to_vertices beq dist t chain
      nw_of_vertices (vs.map some)

/-- The state of a `NestedWordSet`. -/
structure NWSet (N : Type) where
  patterns : Patterns N
  nested_words : List (NestedWord (Option Nat))
  context_size : Nat
  context_queue : List (NestedWord (Option Nat))
  combined_cache :
    List ((NestedWord (Option Nat) × NestedWord (Option Nat)) ×
      NestedWord (Option Nat))

namespace NWSet

/-- `NestedWordSet(params)` with a `PatternGraph` pattern model. -/
def mk_graph {N : Type} (context_size : Nat) (closest : Bool) :
    Except String (NWSet N) :=
  if context_size = 0 then
    throw "Provided `context_size` must be positive."
  else
    pure ⟨.graph (PatternGraph.pg_empty closest), [], context_size, [], []⟩

/-- `NestedWordSet.update`. -/
def update {N : Type} (beq : N → N → Bool)
    (dist : N → N → Except String Rat) (s : NWSet N)
    (chain : List (PElem N)) :
    Except String (NWSet N × List (NestedWord (Option Nat))) := do
  if chain.length = 0 then throw "Chain cannot be empty."
  else
    let (pm2, _) ← Patterns.updateP beq dist s.patterns chain
    let nw ← chain_to_nw beq dist pm2 (chain.filterMap PElem.to_node)
    let q1 := if s.context_queue.length ≥ s.context_size then
      s.context_queue.drop 1 else s.context_queue
    let q2 := q1 ++ [nw]
    if q2.length = s.context_size then do
      let (cache2, combined) ← combine_queue s.combined_cache q2
      let nwords := if s.nested_words.contains combined then
        s.nested_words else s.nested_words ++ [combined]
      pure ({ s with
                patterns := pm2
                context_queue := q2
                combined_cache := cache2
                nested_words := nwords },
            [combined])
    else
      pure ({ s with
                patterns := pm2
                context_queue := q2 }, [])

/-- `NestedWordSet.contains`: combine the chains' nested words (threading the
cache writes of `_combine_nws`) and test membership. -/
def contains {N : Type} (beq : N → N → Bool)
    (dist : N → N → Except String Rat) (s : NWSet N)
    (chains : List (List N)) : Except String (NWSet N × Bool) := do
  if chains.length ≠ s.context_size then
    throw "Expected `context_size` chains."
  else
    let nws ← chains.mapM (chain_to_nw beq dist s.patterns)
    let (cache2, combined) ← combine_queue s.combined_cache nws
    pure ({ s with combined_cache := cache2 },
      s.nested_words.contains combined)

end NWSet

/-- Concrete runs for the NestedWordSet witnesses: a fresh graph-backed set
with context size 2, updated twice with the chain `[node 5]`. -/
def nws0 : NWSet Nat := ⟨.graph (PatternGraph.pg_empty false), [], 2, [], []⟩

def chain5 : List (PElem Nat) := [PElem.node 5]

def nws1 : NWSet Nat :=
  match NWSet.update natBeq natDist nws0 chain5 with
  | .ok r => r.1
  | .error _ => nws0

def nws2p : NWSet Nat × List (NestedWord (Option Nat)) :=
  match NWSet.update natBeq natDist nws1 chain5 with
  | .ok r => r
  | .error _ => (nws1, [])

def nwsCp : NWSet Nat × Bool :=
  match NWSet.contains natBeq natDist nws2p.1 [[5], [5]] with
  | .ok r => r
  | .error _ => (nws2p.1, false)

namespace NestedWord

/-- A well-formed non-empty nested word: non-empty word, matching relation
covering exactly the word, and a well-formed matching. -/
def WFW {α : Type} (w : NestedWord α) : Prop :=
  w.word ≠ [] ∧ w.matching.len = w.word.length ∧ NWWF w.matching

/-- The shape `_chain_to_nw` produces: every position but the last is a
pending call, the last is an internal position, and there are no returns. -/
def ChainW {α : Type} (w : NestedWord α) : Prop :=
  w.word ≠ [] ∧ w.matching.len = w.word.length ∧
  w.matching.pred.length = w.matching.succ.length ∧
  (∀ i, i + 1 < w.word.length → w.matching.succ.getD i none = some none) ∧
  (∀ i, i + 1 ≥ w.word.length → w.matching.succ.getD i none = none) ∧
  (∀ i, w.matching.pred.getD i none = none)

/-- The state of the `_close_positions` loop after closing the `t` innermost
pending calls of the base relation `A` (with pending-call list `P` and
`L = A.len`): each closed call points at its new return position `L + j`,
everything else is untouched. -/
def CloseSt (A : MatchingRelation) (P : List Nat) (L t : Nat)
    (m : MatchingRelation) : Prop :=
  m.succ.length = L + t ∧ m.pred.length = L + t ∧
  (∀ j, j < t →
    m.succ.getD (P.getD (P.length - 1 - j) 0) none = some (some (L + j))) ∧
  (∀ i, i < L → (∀ j, j < t → i ≠ P.getD (P.length - 1 - j) 0) →
    m.succ.getD i none = A.succ.getD i none) ∧
  (∀ i, L ≤ i → m.succ.getD i none = none) ∧
  (∀ j, j < t →
    m.pred.getD (L + j) none = some (some (P.getD (P.length - 1 - j) 0))) ∧
  (∀ i, i < L → m.pred.getD i none = A.pred.getD i none) ∧
  (∀ i, L + t ≤ i → m.pred.getD i none = none)

end NestedWord

/-- The invariant of graph-backed first-match `NestedWordSet` states reached
from a fresh set: the pattern graph is layered-invariant in first-match mode,
the queue holds chain-shaped nested words within the window bound, and every
cached combination is well-formed. -/
def NWInv {N : Type} (s : NWSet N) : Prop :=
  (∃ pg : PatternGraph N, s.patterns = Patterns.graph pg ∧
    LayeredDigraph.LGInv pg.graph ∧ pg.closest_match = false) ∧
  (∀ w ∈ s.context_queue, NestedWord.ChainW w) ∧
  (∀ e ∈ s.combined_cache, NestedWord.WFW e.2) ∧
  s.context_queue.length ≤ s.context_size ∧
  0 < s.context_size

namespace NWSet

/-- `NestedWordSet.learn`: fold `update` over the chains, concatenating the
lists of newly formed nested words. -/
def learn {N : Type} (beq : N → N → Bool)
    (dist : N → N → Except String Rat) (s : NWSet N)
    (chains : List (List (PElem N))) :
    Except String (NWSet N × List (NestedWord (Option Nat))) :=
  chains.foldlM
    (fun acc chain => do
      let (s2, out) ← update beq dist acc.1 chain
      pure (s2, acc.2 ++ out))
    (s, [])

end NWSet


/-!  # Theorems

Helper lemmas first, then for each claim one claim theorem (plus, where
needed, a counterexample and a witness).
-/

/-- `getD` after `set`, for any element type. -/
theorem list_getD_set {α : Type} (l : List α) (i j : Nat) (v d : α) :
    (l.set i v).getD j d =
      if j = i ∧ i < l.length then v else l.getD j d := by
  induction l generalizing i j with
  | nil => simp
  | cons a t ih =>
    cases i with
    | zero =>
      cases j with
      | zero => simp
      | succ j' => simp
    | succ i' =>
      cases j with
      | zero => simp
      | succ j' =>
        simp only [List.set_cons_succ, List.getD_cons_succ, ih i' j',
          List.length_cons]
        by_cases h : j' = i' ∧ i' < t.length
        · rw [if_pos h, if_pos ⟨by omega, by omega⟩]
        · rw [if_neg h, if_neg (by omega)]

namespace MatchingRelation

theorem getD_set (l : List MEntry) (i j : Nat) (v : MEntry) :
    (l.set i v).getD j none =
      if j = i ∧ i < l.length then v else l.getD j none :=
  list_getD_set l i j v none

theorem crosses_symm (p q : Option Nat × Option Nat) :
    crosses p q = crosses q p := by
  obtain ⟨i, j⟩ := p
  obtain ⟨c, r⟩ := q
  cases i <;> cases j <;> cases c <;> cases r <;>
    simp only [crosses, decide_eq_decide] <;> tauto

theorem crosses_self (p : Option Nat × Option Nat) : crosses p p = false := by
  obtain ⟨i, j⟩ := p
  cases i <;> cases j <;> simp [crosses] <;> omega

theorem len_mk_empty (L : Nat) : (mk_empty L).len = L := by
  simp [mk_empty, len]

theorem get_matches_mk_empty (L : Nat) : (mk_empty L).get_matches = [] := by
  simp only [get_matches, List.filterMap_eq_nil_iff]
  intro i _
  simp [get_match, mk_empty, List.getD_eq_getElem?_getD]


theorem set_match_ok {m m' : MatchingRelation} {call ret : Option Nat}
    (h : m.set_match call ret = .ok m') :
    (∀ q ∈ m.get_matches, crosses (call, ret) q = false) ∧
    m'.succ = write_succ m call ret ∧
    m'.pred = write_pred m call ret ∧
    (∀ i j, call = some i → ret = some j → i < j) ∧
    (∀ i, call = some i → i < m.len) ∧
    (∀ j, ret = some j → j < m.len) ∧
    ¬(call = none ∧ ret = none) := by
  unfold set_match at h
  split_ifs at h with h1 h2 h3 h4 h5
  injection h with h'
  subst h'
  refine ⟨?_, rfl, rfl, ?_, ?_, ?_, h1⟩
  · intro q hq
    by_contra hc
    refine h5 (List.any_eq_true.mpr ⟨q, hq, ?_⟩)
    revert hc
    cases crosses (call, ret) q <;> simp
  · rintro i j rfl rfl
    simp at h2
    omega
  · rintro i rfl
    simp at h3
    omega
  · rintro j rfl
    simp at h4
    omega

theorem len_set_match_ok {m m' : MatchingRelation} {call ret : Option Nat}
    (h : m.set_match call ret = .ok m') : m'.len = m.len := by
  obtain ⟨-, hs, -⟩ := set_match_ok h
  unfold len
  rw [hs]
  cases call <;> simp [write_succ]


theorem same_len_mk_empty (L : Nat) : same_len (mk_empty L) := by
  simp [same_len, mk_empty]

theorem same_len_set_match {m m' : MatchingRelation} {call ret : Option Nat}
    (hl : same_len m) (h : m.set_match call ret = .ok m') : same_len m' := by
  obtain ⟨-, hs, hp, -⟩ := set_match_ok h
  unfold same_len at hl ⊢
  rw [hs, hp]
  cases call <;> cases ret <;> simp [write_succ, write_pred, hl]

theorem succ_getD_set_match {m m' : MatchingRelation} {call ret : Option Nat}
    (h : m.set_match call ret = .ok m') (i : Nat) :
    m'.succ.getD i none =
      if call = some i then some ret else m.succ.getD i none := by
  obtain ⟨-, hs, -, -, hcall, -, -⟩ := set_match_ok h
  rw [hs]
  cases call with
  | none => simp [write_succ]
  | some cv =>
    simp only [write_succ]
    rw [getD_set]
    by_cases hic : i = cv
    · subst hic
      have hlt := hcall i rfl
      simp only [len] at hlt
      simp [hlt]
    · rw [if_neg (fun hcon => hic hcon.1),
        if_neg (fun hc => hic (Option.some_inj.mp hc).symm)]

theorem pred_getD_set_match {m m' : MatchingRelation} {call ret : Option Nat}
    (hl : same_len m) (h : m.set_match call ret = .ok m') (i : Nat) :
    m'.pred.getD i none =
      if ret = some i then some call else m.pred.getD i none := by
  obtain ⟨-, -, hp, -, -, hret, -⟩ := set_match_ok h
  rw [hp]
  cases ret with
  | none => simp [write_pred]
  | some rv =>
    simp only [write_pred]
    rw [getD_set]
    by_cases hir : i = rv
    · subst hir
      have hlt := hret i rfl
      simp only [len] at hlt
      unfold same_len at hl
      simp [hl, hlt]
    · rw [if_neg (fun hcon => hir hcon.1),
        if_neg (fun hc => hir (Option.some_inj.mp hc).symm)]

theorem get_matches_set_match {m m' : MatchingRelation} {call ret : Option Nat}
    (hl : same_len m) (h : m.set_match call ret = .ok m') :
    ∀ p ∈ m'.get_matches, p ∈ m.get_matches ∨ p = (call, ret) := by
  intro p hmem
  simp only [get_matches, List.mem_filterMap, List.mem_range] at hmem
  obtain ⟨i, hilt, hget⟩ := hmem
  rw [len_set_match_ok h] at hilt
  have hmem_of : ∀ q, get_match m i = some q → q ∈ m.get_matches :=
    fun q hg => List.mem_filterMap.mpr ⟨i, List.mem_range.mpr hilt, hg⟩
  unfold get_match at hget
  rw [succ_getD_set_match h i, pred_getD_set_match hl h i] at hget
  by_cases hci : call = some i
  · rw [if_pos hci] at hget
    injection hget with h'
    right
    rw [← h', hci]
  · rw [if_neg hci] at hget
    by_cases hri : ret = some i
    · rw [if_pos hri] at hget
      cases hs' : m.succ.getD i none with
      | some x =>
        rw [hs'] at hget
        injection hget with h'
        left
        exact hmem_of _ (by unfold get_match; simp only [hs', h'])
      | none =>
        rw [hs'] at hget
        simp only at hget
        injection hget with h'
        right
        rw [← h', hri]
    · rw [if_neg hri] at hget
      left
      exact hmem_of _ (by unfold get_match; exact hget)


theorem pairwise_nc_step {m m' : MatchingRelation} {call ret : Option Nat}
    (hl : same_len m) (hinv : pairwise_nc m)
    (h : m.set_match call ret = .ok m') : pairwise_nc m' := by
  obtain ⟨hval, -⟩ := set_match_ok h
  intro p hpm q hqm
  rcases get_matches_set_match hl h p hpm with hpo | hpn <;>
    rcases get_matches_set_match hl h q hqm with hqo | hqn
  · exact hinv p hpo q hqo
  · rw [hqn, crosses_symm]
    exact hval p hpo
  · rw [hpn]
    exact hval q hqo
  · rw [hpn, hqn]
    exact crosses_self _


theorem apply_set_matches_eq_foldl (L : Nat)
    (ops : List (Option Nat × Option Nat)) :
    apply_set_matches L ops = ops.foldl sm_step (mk_empty L) := rfl

theorem pairwise_nc_apply (L : Nat) (ops : List (Option Nat × Option Nat)) :
    pairwise_nc (apply_set_matches L ops) := by
  rw [apply_set_matches_eq_foldl]
  suffices h : ∀ (m : MatchingRelation), same_len m → pairwise_nc m →
      same_len (ops.foldl sm_step m) ∧ pairwise_nc (ops.foldl sm_step m) by
    refine (h _ (same_len_mk_empty L) ?_).2
    intro p hp
    rw [get_matches_mk_empty] at hp
    exact absurd hp (List.not_mem_nil p)
  induction ops with
  | nil => exact fun m h1 h2 => ⟨h1, h2⟩
  | cons op rest ih =>
    intro m hm1 hm2
    simp only [List.foldl_cons]
    refine ih (sm_step m op) ?_ ?_
    · unfold sm_step
      cases hsm : m.set_match op.1 op.2 with
      | ok m' => exact same_len_set_match hm1 hsm
      | error e => exact hm1
    · unfold sm_step
      cases hsm : m.set_match op.1 op.2 with
      | ok m' => exact pairwise_nc_step hm1 hm2 hsm
      | error e => exact hm2

end MatchingRelation

/-- **C3.**  For every `MatchingRelation` and every sequence of `set_match`
calls (calls that raise having no effect), no two matches of the resulting
relation cross: the code's crossing predicate is false on every pair of
matches, and in particular for closed matches `(i, j)` and `(c, r)` neither
`i < c ≤ j ≤ r` nor `c < i ≤ r ≤ j` holds. -/
theorem C3_set_match_no_crossing (L : Nat) (ops : List (Option Nat × Option Nat))
    (p q : Option Nat × Option Nat)
    (hp : p ∈ (MatchingRelation.apply_set_matches L ops).get_matches)
    (hq : q ∈ (MatchingRelation.apply_set_matches L ops).get_matches) :
    MatchingRelation.crosses p q = false ∧
    ∀ i j c r, p = (some i, some j) → q = (some c, some r) →
      ¬(i < c ∧ c ≤ j ∧ j ≤ r) ∧ ¬(c < i ∧ i ≤ r ∧ r ≤ j) := by
  have hnc := MatchingRelation.pairwise_nc_apply L ops p hp q hq
  refine ⟨hnc, ?_⟩
  rintro i j c r rfl rfl
  simp only [MatchingRelation.crosses, decide_eq_false_iff_not, not_or] at hnc
  exact hnc

/-- Witness for C3 at a concrete run: length 5, a closed match `(0, 3)`, a
nested closed match `(1, 2)` and a pending call at 4. -/
theorem C3_set_match_no_crossing_witness :
    (some 0, some 3) ∈ (MatchingRelation.apply_set_matches 5
        [(some 0, some 3), (some 1, some 2), (some 4, none)]).get_matches ∧
    MatchingRelation.crosses (some 0, some 3) (some 1, some 2) = false := by
  refine ⟨by decide, ?_⟩
  exact (C3_set_match_no_crossing 5 [(some 0, some 3), (some 1, some 2), (some 4, none)]
    (some 0, some 3) (some 1, some 2) (by decide) (by decide)).1

namespace LayeredDigraph


theorem ldg_empty_inv {P : Type} : LDInv (ldg_empty : LayeredDigraph P) := by
  refine ⟨rfl, rfl, ?_, ?_, ?_, ?_⟩
  · intro u v h
    simp [has_edge, ldg_empty, List.getD] at h
  · intro u v h
    simp [has_edge, ldg_empty, List.getD] at h
  · intro u v h
    simp [has_edge, ldg_empty, List.getD] at h
  · intro v h
    simp [has_edge, ldg_empty, List.getD] at h

theorem has_edge_src_lt {P : Type} {g : LayeredDigraph P} {u v : Nat}
    (h : g.has_edge u v) : u < g.edges.length := by
  by_contra hlt
  unfold has_edge at h
  rw [List.getD_eq_default _ _ (by omega)] at h
  exact absurd h (List.not_mem_nil v)

/-- Appending one entry to a list never changes `getD` reads at a default that
equals the appended entry's "empty" value. -/
theorem getD_append_singleton_nil (l : List (List Nat)) (u : Nat) :
    (l ++ [[]]).getD u [] = l.getD u [] := by
  by_cases hu : u < l.length
  · rw [List.getD_append _ _ _ _ hu]
  · have hr : l.getD u [] = [] := List.getD_eq_default _ _ (by omega)
    rw [hr]
    by_cases hu1 : u = l.length
    · subst hu1
      rw [List.getD_append_right _ _ _ _ (le_refl _)]
      simp
    · have hl2 : (l ++ [[]]).length ≤ u := by
        rw [List.length_append]
        simp
        omega
      rw [List.getD_eq_default _ _ hl2]

theorem add_vertex_inv {P : Type} {g : LayeredDigraph P} (hin : LDInv g)
    (p : P) : LDInv (ld_step g (.add_vertex p)) := by
  have hed : (ld_step g (.add_vertex p)).edges = g.edges ++ [[]] := rfl
  have hvl : (ld_step g (.add_vertex p)).vlayer =
      (g.vlayer ++ [none]).set g.vertices.length (some 0) := by
    simp [ld_step, add_vertex, update_layer]
  have hvx : (ld_step g (.add_vertex p)).vertices = g.vertices ++ [p] := rfl
  have hedge : ∀ u v, (ld_step g (.add_vertex p)).has_edge u v ↔
      g.has_edge u v := by
    intro u v
    unfold has_edge
    rw [hed, getD_append_singleton_nil]
  have hlay : ∀ v, v < g.vertices.length →
      (ld_step g (.add_vertex p)).layer_of v = g.layer_of v := by
    intro v hvlt
    unfold layer_of
    rw [hvl, list_getD_set]
    rw [if_neg (by rw [List.length_append]; omega)]
    rw [List.getD_append _ _ _ _ (by rw [hin.len_vl]; omega)]
  refine ⟨?_, ?_, ?_, ?_, ?_, ?_⟩
  · rw [hvl, hvx]
    simp [hin.len_vl]
  · rw [hed, hvx]
    simp [hin.len_e]
  · intro u v h
    rw [hedge] at h
    rw [hvx, List.length_append]
    have := hin.edges_tgt u v h
    omega
  · intro u v h
    rw [hedge] at h
    rw [hlay v (hin.edges_tgt u v h)]
    exact hin.no_in_zero u v h
  · intro u v h hne
    rw [hedge] at h
    have hult : u < g.vertices.length := by
      have h2 := has_edge_src_lt h
      rw [hin.len_e] at h2
      exact h2
    rw [hlay v (hin.edges_tgt u v h), hlay u hult]
    exact hin.edge_layer u v h hne
  · intro v h
    rw [hedge] at h
    rw [hlay v (hin.edges_tgt v v h)]
    exact hin.self_loop v h

theorem add_edge_ok {P : Type} {g g' : LayeredDigraph P} {u v : Nat}
    (h : add_edge g u v = .ok g') :
    u < g.vertices.length ∧ v < g.vertices.length ∧
    g'.vertices = g.vertices ∧
    g'.vlayer = g.vlayer.set v (some (g.layer_of u + 1)) ∧
    g'.edges = g.edges.set u (insert_id (g.edges.getD u []) v) ∧
    ((g.layer_of v = 0 ∧ g.edges.getD v [] = []) ∨
      g.layer_of v = g.layer_of u + 1) := by
  unfold add_edge at h
  split_ifs at h with h1 h2 h3 h4
  · -- l2 = 0, no outgoing from the target: the edge is added
    injection h with h'
    subst h'
    push_neg at h1 h3
    exact ⟨by omega, by omega, rfl, rfl, rfl, Or.inl ⟨h2, h3⟩⟩
  · -- l2 = l1 + 1: the edge is added
    injection h with h'
    subst h'
    push_neg at h1
    exact ⟨by omega, by omega, rfl, rfl, rfl, Or.inr h4⟩

theorem add_edge_inv {P : Type} {g : LayeredDigraph P} (hin : LDInv g)
    (u v : Nat) :
    LDInv (ld_step g (.add_edge u v)) := by
  have hstep : ld_step g (.add_edge u v) =
      (match add_edge g u v with | .ok g2 => g2 | .error _ => g) := rfl
  rw [hstep]
  cases hadd : add_edge g u v with
  | error e => exact hin
  | ok g' =>
    obtain ⟨hu, hv, hvx, hvl, hed, hbr⟩ := add_edge_ok hadd
    have hedge : ∀ a b, g'.has_edge a b ↔ g.has_edge a b ∨ (a = u ∧ b = v) := by
      intro a b
      unfold has_edge
      rw [hed, list_getD_set]
      by_cases hau : a = u
      · subst hau
        rw [if_pos ⟨rfl, by rw [hin.len_e]; exact hu⟩]
        unfold insert_id
        by_cases hmem : v ∈ g.edges.getD a []
        · rw [if_pos hmem]
          constructor
          · exact fun hb => Or.inl hb
          · rintro (hb | ⟨-, rfl⟩)
            · exact hb
            · exact hmem
        · rw [if_neg hmem, List.mem_append, List.mem_singleton]
          constructor
          · rintro (hb | rfl)
            · exact Or.inl hb
            · exact Or.inr ⟨rfl, rfl⟩
          · rintro (hb | ⟨-, rfl⟩)
            · exact Or.inl hb
            · exact Or.inr rfl
      · rw [if_neg (fun hc => hau hc.1)]
        constructor
        · exact fun hb => Or.inl hb
        · rintro (hb | ⟨rfl, rfl⟩)
          · exact hb
          · exact absurd rfl hau
    have hlay : ∀ w, g'.layer_of w =
        if w = v then g.layer_of u + 1 else g.layer_of w := by
      intro w
      unfold layer_of
      rw [hvl, list_getD_set]
      by_cases hwv : w = v
      · subst hwv
        rw [if_pos ⟨rfl, by rw [hin.len_vl]; exact hv⟩, if_pos rfl]
        rfl
      · rw [if_neg (fun hc => hwv hc.1), if_neg hwv]
    refine ⟨?_, ?_, ?_, ?_, ?_, ?_⟩
    · rw [hvl, hvx, List.length_set]
      exact hin.len_vl
    · rw [hed, hvx, List.length_set]
      exact hin.len_e
    · intro a b hab
      rw [hvx]
      rcases (hedge a b).mp hab with hold | ⟨-, rfl⟩
      · exact hin.edges_tgt a b hold
      · exact hv
    · intro a b hab
      rw [hlay]
      by_cases hbv : b = v
      · rw [if_pos hbv]
        omega
      · rw [if_neg hbv]
        rcases (hedge a b).mp hab with hold | ⟨-, rfl⟩
        · exact hin.no_in_zero a b hold
        · exact absurd rfl hbv
    · intro a b hab hne
      rcases (hedge a b).mp hab with hold | ⟨ha, hb⟩
      · by_cases hbv : b = v
        · subst hbv
          have hlv : g.layer_of b = g.layer_of u + 1 := by
            rcases hbr with ⟨hz, -⟩ | hr
            · exact absurd hz (hin.no_in_zero a b hold)
            · exact hr
          rw [hlay b, hlay a, if_pos rfl, if_neg hne, ← hlv]
          exact hin.edge_layer a b hold hne
        · rw [hlay b, hlay a, if_neg hbv]
          by_cases hav : a = v
          · subst hav
            have hlv : g.layer_of a = g.layer_of u + 1 := by
              rcases hbr with ⟨-, hz⟩ | hr
              · exfalso
                have := has_edge_src_lt hold
                unfold has_edge at hold
                rw [hz] at hold
                exact absurd hold (List.not_mem_nil b)
              · exact hr
            rw [if_pos rfl, ← hlv]
            exact hin.edge_layer a b hold hne
          · rw [if_neg hav]
            exact hin.edge_layer a b hold hne
      · rw [hlay b, hlay a, if_pos hb,
          if_neg (fun hc => hne (hc.trans hb.symm)), ha]
    · intro a haa
      rcases (hedge a a).mp haa with hold | ⟨ha, hb⟩
      · rw [hlay a]
        by_cases hav : a = v
        · rw [if_pos hav]
          subst hav
          rcases hbr with ⟨-, hz⟩ | hr
          · exfalso
            unfold has_edge at hold
            rw [hz] at hold
            exact absurd hold (List.not_mem_nil a)
          · rw [← hr]
            exact hin.self_loop a hold
        · rw [if_neg hav]
          exact hin.self_loop a hold
      · have huv : u = v := ha.symm.trans hb
        rw [hlay a, if_pos hb]
        have hz : g.layer_of u = 0 := by
          rcases hbr with ⟨hz, -⟩ | hr
          · rw [← huv] at hz
            exact hz
          · rw [← huv] at hr
            omega
        rw [hz]

theorem apply_ld_ops_inv {P : Type} (ops : List (LDOp P)) :
    LDInv (apply_ld_ops ops) := by
  unfold apply_ld_ops
  suffices h : ∀ g, LDInv g → LDInv (ops.foldl ld_step g) from
    h _ ldg_empty_inv
  induction ops with
  | nil => exact fun g hg => hg
  | cons op rest ih =>
    intro g hg
    simp only [List.foldl_cons]
    refine ih _ ?_
    cases op with
    | add_vertex p => exact add_vertex_inv hg p
    | add_edge u v => exact add_edge_inv hg u v

end LayeredDigraph

/-- **C6 counterexample.**  The claim fails as stated: a self-edge added to a
fresh layer-0 vertex is accepted (the "root layer, no outgoing edges" branch),
after which the edge `0 → 0` is present but `layer(0) = 1 ≠ layer(0) + 1`. -/
theorem C6_counterexample :
    (LayeredDigraph.apply_ld_ops
        [LayeredDigraph.LDOp.add_vertex (),
         LayeredDigraph.LDOp.add_edge 0 0]).has_edge 0 0 ∧
    ¬ ((LayeredDigraph.apply_ld_ops
        [LayeredDigraph.LDOp.add_vertex (),
         LayeredDigraph.LDOp.add_edge 0 0]).layer_of 0 =
       (LayeredDigraph.apply_ld_ops
        [LayeredDigraph.LDOp.add_vertex (),
         LayeredDigraph.LDOp.add_edge 0 0]).layer_of 0 + 1) := by
  decide

/-- **C6 (amended).**  For every vertex-payload type and every sequence of
`LayeredDigraph` operations (`add_vertex`, `add_edge`; raising calls leave the
graph unchanged), every edge `u → v` with `u ≠ v` satisfies
`layer(v) = layer(u) + 1`; the only violations of the claimed invariant are
self-loops, which the root-layer branch of `add_edge` accepts, and every
self-looped vertex sits exactly in layer 1.  The exception is forced by
`C6_counterexample`. -/
theorem C6_layered_digraph_edge_layering (P : Type)
    (ops : List (LayeredDigraph.LDOp P)) :
    (∀ u v, (LayeredDigraph.apply_ld_ops ops).has_edge u v → u ≠ v →
      (LayeredDigraph.apply_ld_ops ops).layer_of v =
        (LayeredDigraph.apply_ld_ops ops).layer_of u + 1) ∧
    (∀ v, (LayeredDigraph.apply_ld_ops ops).has_edge v v →
      (LayeredDigraph.apply_ld_ops ops).layer_of v = 1) :=
  ⟨fun u v h hne => (LayeredDigraph.apply_ld_ops_inv ops).edge_layer u v h hne,
   fun v h => (LayeredDigraph.apply_ld_ops_inv ops).self_loop v h⟩

/-- Witness for C6 at concrete runs: a proper edge `0 → 1` climbs one layer,
and the self-looped vertex of the counterexample run sits in layer 1. -/
theorem C6_layered_digraph_edge_layering_witness :
    (LayeredDigraph.apply_ld_ops
        [LayeredDigraph.LDOp.add_vertex (), LayeredDigraph.LDOp.add_vertex (),
         LayeredDigraph.LDOp.add_edge 0 1]).has_edge 0 1 ∧
    (LayeredDigraph.apply_ld_ops
        [LayeredDigraph.LDOp.add_vertex (), LayeredDigraph.LDOp.add_vertex (),
         LayeredDigraph.LDOp.add_edge 0 1]).layer_of 1 =
      (LayeredDigraph.apply_ld_ops
        [LayeredDigraph.LDOp.add_vertex (), LayeredDigraph.LDOp.add_vertex (),
         LayeredDigraph.LDOp.add_edge 0 1]).layer_of 0 + 1 ∧
    (LayeredDigraph.apply_ld_ops
        [LayeredDigraph.LDOp.add_vertex (),
         LayeredDigraph.LDOp.add_edge 0 0]).layer_of 0 = 1 :=
  ⟨by decide,
   (C6_layered_digraph_edge_layering Unit
     [LayeredDigraph.LDOp.add_vertex (), LayeredDigraph.LDOp.add_vertex (),
      LayeredDigraph.LDOp.add_edge 0 1]).1 0 1 (by decide) (by decide),
   (C6_layered_digraph_edge_layering Unit
     [LayeredDigraph.LDOp.add_vertex (),
      LayeredDigraph.LDOp.add_edge 0 0]).2 0 (by decide)⟩

namespace StructuralProminenceNode

theorem zipWith_sub_self (l : List Rat) :
    List.zipWith (· - ·) l l = List.replicate l.length (0 : Rat) := by
  induction l with
  | nil => rfl
  | cons a t ih => simp [List.zipWith_cons_cons, ih, List.replicate_succ]

theorem zipWith_add_replicate_zero (a b : Nat) :
    List.zipWith (· + ·) (List.replicate a (0 : Rat)) (List.replicate b 0) =
      List.replicate (min a b) 0 := by
  induction a generalizing b with
  | zero => simp
  | succ a' ih =>
    cases b with
    | zero => simp
    | succ b' =>
      simp only [List.replicate_succ, List.zipWith_cons_cons, ih,
        Nat.succ_min_succ]
      norm_num

theorem structural_distance_self (n : StructuralProminenceNode) :
    structural_distance n n = 0 := by
  unfold structural_distance
  rw [zipWith_sub_self, zipWith_sub_self, zipWith_add_replicate_zero]
  unfold np_mean
  simp

theorem prominence_distance_self (n : StructuralProminenceNode)
    (hstd : 0 ≤ n.std) :
    prominence_distance n n = -(eps / (n.std + eps)) := by
  unfold prominence_distance
  rw [max_self, min_self]
  have hpos : 0 < n.std + eps := by
    have : (0 : Rat) < eps := by norm_num [eps]
    linarith
  field_simp

theorem eps_pos : (0 : Rat) < eps := by norm_num [eps]

theorem self_distance_pos (n : StructuralProminenceNode) (hstd : 0 ≤ n.std) :
    0 < eps / (n.std + eps) := by
  apply div_pos eps_pos
  linarith [eps_pos]

end StructuralProminenceNode

/-- **C2 counterexample.**  The claim fails as stated on the code: for a
`StructuralProminenceNode` with `std = 0` (a zero-variance window) and the
default thresholds `0.5`, the prominence distance of the node to itself is
`0/(0 + 1e-10) - 1 = -1`, so `distance(n, n) = 1 ≠ 0` and even `n == n` is
false. -/
theorem C2_counterexample :
    StructuralProminenceNode.spn_eq
        ⟨0, 0, [0], [0], 1/2, 1/2⟩ ⟨0, 0, [0], [0], 1/2, 1/2⟩ = false ∧
    StructuralProminenceNode.distance
        ⟨0, 0, [0], [0], 1/2, 1/2⟩ ⟨0, 0, [0], [0], 1/2, 1/2⟩ =
      .ok 1 := by
  constructor
  · norm_num [StructuralProminenceNode.spn_eq,
      StructuralProminenceNode.is_comparable,
      StructuralProminenceNode.structural_distance,
      StructuralProminenceNode.prominence_distance,
      StructuralProminenceNode.np_mean, StructuralProminenceNode.eps]
  · norm_num [StructuralProminenceNode.distance,
      StructuralProminenceNode.is_comparable,
      StructuralProminenceNode.structural_distance,
      StructuralProminenceNode.prominence_distance,
      StructuralProminenceNode.np_mean, StructuralProminenceNode.eps]

/-- **C2 (amended).**  For every `StructuralProminenceNode` `n` with nonempty
slope/intercept arrays of equal length and `std ≥ 0` (all guaranteed by the
discretisers), in exact arithmetic: `distance(n, n) = ε/(std + ε)` with
`ε = 1e-10` — strictly positive, never `0` — and `n == n` holds exactly when
`structural_threshold ≥ 0` and `ε/(std + ε) ≤ prominence_threshold` (so
reflexivity fails e.g. at `std = 0` under the default thresholds `0.5`). -/
theorem C2_spn_self_equivalence (n : StructuralProminenceNode)
    (hs : n.slopes ≠ []) (hlen : n.slopes.length = n.intercepts.length)
    (hstd : 0 ≤ n.std) :
    n.distance n = .ok (StructuralProminenceNode.eps /
        (n.std + StructuralProminenceNode.eps)) ∧
    0 < StructuralProminenceNode.eps / (n.std + StructuralProminenceNode.eps) ∧
    (StructuralProminenceNode.spn_eq n n = true ↔
      (0 ≤ n.structural_threshold ∧
        StructuralProminenceNode.eps / (n.std + StructuralProminenceNode.eps) ≤
          n.prominence_threshold)) := by
  have hcomp : StructuralProminenceNode.is_comparable n n = true := by
    simp [StructuralProminenceNode.is_comparable]
  have hsd := StructuralProminenceNode.structural_distance_self n
  have hpd := StructuralProminenceNode.prominence_distance_self n hstd
  have habs : |StructuralProminenceNode.prominence_distance n n| =
      StructuralProminenceNode.eps / (n.std + StructuralProminenceNode.eps) := by
    rw [hpd, abs_neg, abs_of_pos (StructuralProminenceNode.self_distance_pos n hstd)]
  refine ⟨?_, StructuralProminenceNode.self_distance_pos n hstd, ?_⟩
  · unfold StructuralProminenceNode.distance
    rw [if_neg (by simp [hcomp]), hsd, habs]
    norm_num
  · unfold StructuralProminenceNode.spn_eq
    rw [hcomp, hsd, habs]
    simp

/-- Witness for C2 (amended) at a concrete node (`std = 1`, default
thresholds): its self-distance is `ε/(1 + ε)` and it is self-equivalent. -/
theorem C2_spn_self_equivalence_witness :
    (([1] : List Rat) ≠ [] ∧ ([1] : List Rat).length = ([0] : List Rat).length ∧
      (0 : Rat) ≤ 1) ∧
    (StructuralProminenceNode.distance ⟨0, 1, [1], [0], 1/2, 1/2⟩
        ⟨0, 1, [1], [0], 1/2, 1/2⟩ =
      .ok (StructuralProminenceNode.eps / (1 + StructuralProminenceNode.eps)) ∧
    0 < StructuralProminenceNode.eps / (1 + StructuralProminenceNode.eps) ∧
    (StructuralProminenceNode.spn_eq ⟨0, 1, [1], [0], 1/2, 1/2⟩
        ⟨0, 1, [1], [0], 1/2, 1/2⟩ = true ↔
      ((0 : Rat) ≤ 1/2 ∧
        StructuralProminenceNode.eps / (1 + StructuralProminenceNode.eps) ≤
          1/2))) :=
  ⟨⟨by decide, by decide, by norm_num⟩,
   C2_spn_self_equivalence ⟨0, 1, [1], [0], 1/2, 1/2⟩
     (by decide) (by decide) (by norm_num)⟩

namespace SlidingWindow

/-- The row selection `[::S]` keeps exactly the multiples of `S`:
`ceil(n / S)` of them below `n`. -/
theorem range_filter_mod_eq (S : Nat) (hS : 1 ≤ S) (n : Nat) :
    (List.range n).filter (fun i => decide (i % S = 0)) =
      (List.range ((n + S - 1) / S)).map (· * S) := by
  have hS0 : 0 < S := hS
  induction n with
  | zero =>
    have h0 : (0 + S - 1) / S = 0 := Nat.div_eq_of_lt (by omega)
    rw [h0]
    simp
  | succ n' ih =>
    rw [List.range_succ, List.filter_append, ih]
    have hsplit := Nat.div_add_mod n' S
    have hmodlt : n' % S < S := Nat.mod_lt _ hS0
    have hmul : S * (n' / S + 1) = S * (n' / S) + S := by ring
    by_cases hmod : n' % S = 0
    · have hfil : List.filter (fun i => decide (i % S = 0)) [n'] = [n'] := by
        simp [hmod]
      have ha1 : n' + 1 + S - 1 = n' + S := by omega
      have hc1 : (n' + 1 + S - 1) / S = n' / S + 1 := by
        rw [ha1, Nat.add_div_right _ hS0]
      have ha2 : n' + S - 1 = S * (n' / S) + (S - 1) := by omega
      have hc2 : (n' + S - 1) / S = n' / S := by
        rw [ha2, Nat.mul_add_div hS0,
          Nat.div_eq_of_lt (show S - 1 < S by omega), Nat.add_zero]
      have hq : (n' / S) * S = n' := by
        rw [Nat.mul_comm]
        omega
      rw [hfil, hc1, hc2, List.range_succ, List.map_append]
      simp only [List.map_cons, List.map_nil, hq]
    · have hfil : List.filter (fun i => decide (i % S = 0)) [n'] = [] := by
        simp [hmod]
      have ha1 : n' + 1 + S - 1 = S * (n' / S + 1) + (n' % S) := by omega
      have hc1 : (n' + 1 + S - 1) / S = n' / S + 1 := by
        rw [ha1, Nat.mul_add_div hS0, Nat.div_eq_of_lt hmodlt, Nat.add_zero]
      have ha2 : n' + S - 1 = S * (n' / S + 1) + (n' % S - 1) := by omega
      have hc2 : (n' + S - 1) / S = n' / S + 1 := by
        rw [ha2, Nat.mul_add_div hS0,
          Nat.div_eq_of_lt (show n' % S - 1 < S by omega), Nat.add_zero]
      rw [hfil, hc1, hc2, List.append_nil]

theorem getD_map_range {β : Type} (K i : Nat) (g : Nat → β) (d : β)
    (hi : i < K) : ((List.range K).map g).getD i d = g i := by
  rw [List.getD_eq_getElem?_getD, List.getElem?_map, List.getElem?_range hi]
  rfl

end SlidingWindow

/-- **C8 counterexample.**  The claimed row count `ceil((n - W)/S) + 1` is
wrong when `S` does not divide `n - W`: for `n = 10`, `W = 4`, `S = 4`
(no differencing) the code returns rows at offsets `0` and `4` only — two
rows — while `ceil(6/4) + 1 = 3`. -/
theorem C8_counterexample :
    (SlidingWindow.segment 4 4 false (List.replicate 10 (0 : Rat))).map
        (fun rows => rows.length) = .ok 2 ∧
    (10 - 4 + 4 - 1) / 4 + 1 = 3 := by
  constructor
  · rfl
  · rfl

/-- **C8 (amended).**  For every 1-D input accepted by
`SlidingWindow.segment` with window size `W ≥ 1` and step `S ≥ 1`
(`autocorrelation` off), the result has `⌊(n' - W)/S⌋ + 1` rows — floor, not
the claimed ceiling — where `n'` is the data length after optional first
differencing (one less than `n` when `differentiation` is set); row `i` is
the window of `W` consecutive values starting at offset `i·S`. -/
theorem C8_sliding_window_shape (W S : Nat) (hW : 1 ≤ W) (hS : 1 ≤ S)
    (diff : Bool) (data : List Rat) (rows : List (List Rat))
    (hok : SlidingWindow.segment W S diff data = .ok rows) :
    rows.length =
      ((if diff then SlidingWindow.np_diff data else data).length - W) / S + 1 ∧
    (diff = true →
      (SlidingWindow.np_diff data).length = data.length - 1) ∧
    ∀ i, i < rows.length →
      rows.getD i [] =
        (((if diff then SlidingWindow.np_diff data else data).drop (i * S)).take W) ∧
      (rows.getD i []).length = W := by
  have hdl : ∀ l : List Rat, (SlidingWindow.np_diff l).length = l.length - 1 := by
    intro l
    unfold SlidingWindow.np_diff
    rw [List.length_zipWith, List.length_drop]
    omega
  have core : ∀ (d : List Rat),
      W ≤ d.length →
      (SlidingWindow.segment_core W S d).length = (d.length - W) / S + 1 ∧
      ∀ i, i < (SlidingWindow.segment_core W S d).length →
        (SlidingWindow.segment_core W S d).getD i [] =
          ((d.drop (i * S)).take W) ∧
        ((SlidingWindow.segment_core W S d).getD i []).length = W := by
    intro d hlen
    unfold SlidingWindow.segment_core
    have hm : d.length - W + 1 + S - 1 = d.length - W + S := by omega
    have hK : (d.length - W + 1 + S - 1) / S = (d.length - W) / S + 1 := by
      rw [hm, Nat.add_div_right _ hS]
    rw [SlidingWindow.range_filter_mod_eq S hS, List.map_map, hK]
    refine ⟨by simp, ?_⟩
    intro i hi
    rw [List.length_map, List.length_range] at hi
    have hgd := SlidingWindow.getD_map_range ((d.length - W) / S + 1) i
      ((fun j => (d.drop j).take W) ∘ (· * S)) [] hi
    refine ⟨hgd, ?_⟩
    rw [hgd]
    have hiS : i * S + W ≤ d.length := by
      have h3 : i ≤ (d.length - W) / S := by omega
      have h4 : i * S ≤ ((d.length - W) / S) * S := Nat.mul_le_mul_right _ h3
      have h5 : ((d.length - W) / S) * S ≤ d.length - W := Nat.div_mul_le_self _ _
      omega
    simp only [Function.comp]
    rw [List.length_take, List.length_drop]
    omega
  unfold SlidingWindow.segment at hok
  refine ⟨?_, fun _ => hdl data, ?_⟩ <;>
  · generalize hd : (if diff then SlidingWindow.np_diff data else data) = d at hok ⊢
    split_ifs at hok with h1 h2
    all_goals cases hok
    all_goals first
        | exact (core d (by omega)).1
        | exact (core d (by omega)).2

/-- Witness for C8 (amended) at `n = 10`, `W = 4`, `S = 4`: two rows, the
second being the window at offset 4. -/
theorem C8_sliding_window_shape_witness :
    (1 ≤ 4 ∧ 1 ≤ 4 ∧
      SlidingWindow.segment 4 4 false
        ([0, 1, 2, 3, 4, 5, 6, 7, 8, 9] : List Rat) =
        .ok [[0, 1, 2, 3], [4, 5, 6, 7]]) ∧
    ([[(0 : Rat), 1, 2, 3], [4, 5, 6, 7]].length =
      ((if false then
          SlidingWindow.np_diff ([0, 1, 2, 3, 4, 5, 6, 7, 8, 9] : List Rat)
        else ([0, 1, 2, 3, 4, 5, 6, 7, 8, 9] : List Rat)).length - 4) / 4 + 1) :=
  ⟨⟨by norm_num, by norm_num, rfl⟩,
   (C8_sliding_window_shape 4 4 (by norm_num) (by norm_num) false
      ([0, 1, 2, 3, 4, 5, 6, 7, 8, 9] : List Rat) [[0, 1, 2, 3], [4, 5, 6, 7]]
      rfl).1⟩

/-- **C9.**  Every score emitted by the `hpm` driver lies in `[0, 1]`, and a
test point covered by no window (`counts[t] = 0`) receives score `0` —
whatever the segmenter geometry and whatever the per-window `model.contains`
outcomes. -/
theorem C9_hpm_score_range (test_len W S num_chains : Nat) (ctx : Option Nat)
    (oracle : Nat → Bool) :
    (∀ x ∈ Hpm.hpm_output test_len W S num_chains ctx oracle,
      0 ≤ x ∧ x ≤ 1) ∧
    (∀ t, Hpm.hpm_counts (Hpm.hpm_cover test_len W S num_chains ctx oracle) t = 0 →
      Hpm.hpm_score (Hpm.hpm_cover test_len W S num_chains ctx oracle) t = 0) := by
  have key : ∀ t, 0 ≤ Hpm.hpm_score
      (Hpm.hpm_cover test_len W S num_chains ctx oracle) t ∧
      Hpm.hpm_score (Hpm.hpm_cover test_len W S num_chains ctx oracle) t ≤ 1 := by
    intro t
    unfold Hpm.hpm_score
    split_ifs with h
    · norm_num
    · have hle : Hpm.hpm_scores (Hpm.hpm_cover test_len W S num_chains ctx oracle) t ≤
          Hpm.hpm_counts (Hpm.hpm_cover test_len W S num_chains ctx oracle) t :=
        List.length_filter_le _ _
      have hpos : (0 : Rat) <
          (Hpm.hpm_counts (Hpm.hpm_cover test_len W S num_chains ctx oracle) t : Rat) := by
        exact_mod_cast Nat.pos_of_ne_zero h
      constructor
      · positivity
      · rw [div_le_one hpos]
        exact_mod_cast hle
  refine ⟨?_, ?_⟩
  · intro x hx
    unfold Hpm.hpm_output at hx
    simp only [List.mem_map, List.mem_range] at hx
    obtain ⟨t, -, rfl⟩ := hx
    exact key t
  · intro t h
    unfold Hpm.hpm_score
    rw [if_pos h]

/-- Witness for C9 at a one-window run whose pattern is known: the emitted
score is `1`. -/
theorem C9_hpm_score_range_witness :
    (1 : Rat) ∈ Hpm.hpm_output 1 1 1 1 none (fun _ => true) ∧
    (0 ≤ (1 : Rat) ∧ (1 : Rat) ≤ 1) :=
  ⟨by norm_num [Hpm.hpm_output, Hpm.hpm_score, Hpm.hpm_counts, Hpm.hpm_scores,
      Hpm.hpm_cover, Hpm.covers, List.range_succ, List.range_zero,
      List.filter, List.map],
   (C9_hpm_score_range 1 1 1 1 none (fun _ => true)).1 1
     (by norm_num [Hpm.hpm_output, Hpm.hpm_score, Hpm.hpm_counts,
       Hpm.hpm_scores, Hpm.hpm_cover, Hpm.covers, List.range_succ,
       List.range_zero, List.filter, List.map])⟩


/-- **C7 counterexample.**  The claim fails as stated: the empty chain is
*not* rejected by any of the three models — `PatternTree.update([])` returns
the root path, `PatternGraph.update([])` returns `[]`, and
`PatternSet.update([])` returns `[]` — no `InvalidInput` anywhere. -/
theorem C7_counterexample :
    PatternTree.update natBeq natDist (PatternTree.pt_empty false) [] =
      .ok (PatternTree.pt_empty false, [0]) ∧
    PatternGraph.update natBeq natDist (PatternGraph.pg_empty false) [] =
      .ok (PatternGraph.pg_empty false, []) ∧
    PatternSet.update natBeq (PatternSet.ps_empty) [] =
      (PatternSet.ps_empty, []) := by
  refine ⟨rfl, rfl, rfl⟩

/-- **C7 (amended).**  `PatternTree.update` and `PatternGraph.update` raise
`InvalidInput` (`ValueError`) on every chain containing a non-Node element,
and all three `learn`s validate the entire batch the same way — in each case
the validation runs before any mutation, so a raising call leaves the model
untouched (the caller keeps the unchanged state).  However, contrary to the
claim: the empty chain is accepted everywhere (`C7_counterexample`), and
`PatternSet.update` performs no validation at all — it happily inserts a
non-Node object. -/
theorem C7_model_chain_validation {N : Type} [DecidableEq N]
    (beq : N → N → Bool) (dist : N → N → Except String Rat) :
    (∀ (t : PatternTree N) (chain : List (PElem N)),
      chain.all PElem.is_node = false →
      PatternTree.update beq dist t chain =
        .error "Chain must contain only nodes.") ∧
    (∀ (pg : PatternGraph N) (chain : List (PElem N)),
      chain.all PElem.is_node = false →
      PatternGraph.update beq dist pg chain =
        .error "Chain must contain only nodes.") ∧
    (∀ (t : PatternTree N) (chains : List (List (PElem N))),
      chains.all (fun c => c.all PElem.is_node) = false →
      PatternTree.learn beq dist t chains =
        .error "Data must contain only nodes.") ∧
    (∀ (pg : PatternGraph N) (chains : List (List (PElem N))),
      chains.all (fun c => c.all PElem.is_node) = false →
      PatternGraph.learn beq dist pg chains =
        .error "Chains must contain only nodes.") ∧
    (∀ (m : PatternSet N) (chains : List (List (PElem N))),
      chains.all (fun c => c.all PElem.is_node) = false →
      PatternSet.learn beq m chains =
        .error "Data must contain only nodes.") ∧
    (∀ (t : PatternTree N),
      PatternTree.update beq dist t [] = .ok (t, [t.root])) ∧
    (∀ (pg : PatternGraph N),
      PatternGraph.update beq dist pg [] = .ok (pg, [])) ∧
    (∀ (m : PatternSet N), PatternSet.update beq m [] = (m, [])) ∧
    PatternSet.update beq PatternSet.ps_empty [PElem.junk] =
      (⟨[[PElem.junk]]⟩, [false]) := by
  refine ⟨?_, ?_, ?_, ?_, ?_, ?_, ?_, ?_, ?_⟩
  · intro t chain hjunk
    simp [PatternTree.update, hjunk, Bind.bind, Except.bind, throw, throwThe,
      MonadExceptOf.throw]
  · intro pg chain hjunk
    simp [PatternGraph.update, hjunk, Bind.bind, Except.bind, throw, throwThe,
      MonadExceptOf.throw]
  · intro t chains hjunk
    simp [PatternTree.learn, hjunk, Bind.bind, Except.bind, throw, throwThe,
      MonadExceptOf.throw]
  · intro pg chains hjunk
    simp [PatternGraph.learn, hjunk, Bind.bind, Except.bind, throw, throwThe,
      MonadExceptOf.throw]
  · intro m chains hjunk
    simp [PatternSet.learn, hjunk]
  · intro t
    simp [PatternTree.update, PatternTree.chain_to_vertices,
      PatternTree.ctv_go, PatternTree.pt_extend, Bind.bind, Except.bind,
      pure, Except.pure, Functor.map, Except.map]
  · intro pg
    simp [PatternGraph.update, PatternGraph.chain_to_vertices,
      PatternGraph.ctv_go, PatternGraph.pg_fill, PatternGraph.pg_connect,
      Bind.bind, Except.bind, pure, Except.pure, Functor.map, Except.map]
  · intro m
    simp [PatternSet.update, PatternSet.ps_update_zip, Nat.zero_sub]
  · rfl

/-- Witness for C7 (amended): the concrete junk-bearing chain `[junk]` is
rejected by `PatternTree.update` on a fresh tree. -/
theorem C7_model_chain_validation_witness :
    (([PElem.junk] : List (PElem Nat)).all PElem.is_node = false) ∧
    PatternTree.update natBeq natDist (PatternTree.pt_empty false)
        [PElem.junk] = .error "Chain must contain only nodes." :=
  ⟨by decide,
   (C7_model_chain_validation natBeq natDist).1 (PatternTree.pt_empty false)
     [PElem.junk] (by decide)⟩

namespace PatternTree

variable {N : Type} (beq : N → N → Bool) (dist : N → N → Except String Rat)


theorem ctv_go_first (t : PatternTree N) (hcm : t.closest_match = false) :
    ∀ (ns : List N) (cur : Nat) (acc : List Nat),
      ctv_go beq dist t ns cur acc =
        .ok (acc.reverse ++ trav beq t.graph ns cur) := by
  intro ns
  induction ns with
  | nil =>
    intro cur acc
    simp [ctv_go, trav, pure, Except.pure]
  | cons n ns ih =>
    intro cur acc
    unfold ctv_go match_strategy
    rw [hcm]
    simp only [if_false, Bool.false_eq_true]
    cases hfm : first_match beq t.graph n (t.graph.outgoing cur) with
    | none =>
      simp [trav, hfm, Bind.bind, Except.bind, pure, Except.pure]
    | some v =>
      simp only [trav, hfm, Bind.bind, Except.bind, pure, Except.pure, ih]
      rw [List.reverse_cons, List.append_assoc]
      rfl

theorem chain_to_vertices_first (t : PatternTree N) (hcm : t.closest_match = false)
    (chain : List N) :
    chain_to_vertices beq dist t chain =
      .ok (t.root :: trav beq t.graph chain t.root) := by
  unfold chain_to_vertices
  rw [ctv_go_first beq dist t hcm]
  rfl

/-- The length of the matched prefix never exceeds the chain. -/
theorem trav_length_le (g : DigraphP (Option N)) :
    ∀ (ns : List N) (cur : Nat), (trav beq g ns cur).length ≤ ns.length := by
  intro ns
  induction ns with
  | nil => intro cur; simp [trav]
  | cons n ns ih =>
    intro cur
    unfold trav
    cases hfm : first_match beq g n (g.outgoing cur) with
    | none => simp
    | some v =>
      simp only [List.length_cons]
      exact Nat.succ_le_succ (ih v)


theorem pt_empty_inv (closest : Bool) :
    TGInv (pt_empty closest : PatternTree N).graph := by
  refine ⟨rfl, ?_⟩
  intro u v h
  simp [pt_empty, List.getD] at h

/-- Matched vertices are reachable along edges, hence strictly above the
start and inside the graph. -/
theorem trav_mem_gt (g : DigraphP (Option N)) (hin : TGInv g) :
    ∀ (ns : List N) (cur : Nat) (v : Nat), v ∈ trav beq g ns cur →
      cur < v ∧ v < g.vertices.length := by
  intro ns
  induction ns with
  | nil => intro cur v h; simp [trav] at h
  | cons n ns ih =>
    intro cur v h
    unfold trav at h
    cases hfm : first_match beq g n (g.outgoing cur) with
    | none => rw [hfm] at h; simp at h
    | some w =>
      rw [hfm] at h
      have hw : w ∈ g.edges.getD cur [] :=
        List.mem_of_find?_eq_some hfm
      have hcw := hin.edge_incr cur w hw
      rcases List.mem_cons.mp h with rfl | hmem
      · exact hcw
      · have := ih w v hmem
        exact ⟨Nat.lt_trans hcw.1 this.1, this.2⟩

end PatternTree

namespace PatternTree

theorem pt_extend_spec {N : Type} (suffix : List N) :
    ∀ (g : DigraphP (Option N)) (last : Nat),
      TGInv g → last < g.vertices.length →
    ∃ g', pt_extend g last suffix =
        .ok (g', List.range' g.vertices.length suffix.length) ∧
      g'.vertices = g.vertices ++ suffix.map some ∧
      TGInv g' ∧
      (∀ v, v < g.vertices.length → v ≠ last →
        g'.edges.getD v [] = g.edges.getD v []) ∧
      (suffix ≠ [] →
        g'.edges.getD last [] = g.edges.getD last [] ++ [g.vertices.length]) ∧
      (suffix = [] → g' = g) ∧
      (∀ k, k + 1 < suffix.length →
        g'.edges.getD (g.vertices.length + k) [] =
          [g.vertices.length + k + 1]) ∧
      (∀ k, k + 1 = suffix.length →
        g'.edges.getD (g.vertices.length + k) [] = []) ∧
      (∀ k (hk : k < suffix.length),
        g'.vertices.getD (g.vertices.length + k) none =
          some (suffix.get ⟨k, hk⟩)) := by
  induction suffix with
  | nil =>
    intro g last hin hlast
    refine ⟨g, ?_, by simp, hin, fun v _ _ => rfl, fun h => absurd rfl h,
      fun _ => rfl, by simp, by simp, by simp⟩
    simp [pt_extend, pure, Except.pure]
  | cons n ns ih =>
    intro g last hin hlast
    set L := g.vertices.length with hL
    -- the state after `add_vertex` and `add_edge(last, L)`
    set g2 : DigraphP (Option N) :=
      ⟨g.vertices ++ [some n],
       (g.edges ++ [[]]).set last (g.edges.getD last [] ++ [L])⟩ with hg2
    have hlen2 : g2.vertices.length = L + 1 := by simp [hg2]
    have helen2 : g2.edges.length = L + 1 := by
      simp [hg2, List.length_set, hin.len_e]
    have hLn : ∀ v ∈ g.edges.getD last [], v ≠ L := by
      intro v hv
      have := (hin.edge_incr last v hv).2
      omega
    have hins : insert_id ((g.edges ++ [[]]).getD last []) L =
        g.edges.getD last [] ++ [L] := by
      have hgl : (g.edges ++ [[]]).getD last [] = g.edges.getD last [] := by
        rw [List.getD_append _ _ _ _ (by rw [hin.len_e]; exact hlast)]
      rw [hgl]
      unfold insert_id
      rw [if_neg (fun hmem => (hLn L hmem) rfl)]
    have hedge : DigraphP.add_edge ⟨g.vertices ++ [some n], g.edges ++ [[]]⟩
        last L = .ok g2 := by
      unfold DigraphP.add_edge
      rw [if_neg (by simp; omega), if_neg (by simp)]
      simp only [hg2]
      rw [← hins]
    have hg2getD : ∀ v, v ≠ last →
        g2.edges.getD v [] = (g.edges ++ [[]]).getD v [] := by
      intro v hv
      simp only [hg2]
      rw [list_getD_set]
      rw [if_neg (fun hc => hv hc.1)]
    have hg2last : g2.edges.getD last [] = g.edges.getD last [] ++ [L] := by
      simp only [hg2]
      rw [list_getD_set, if_pos ⟨rfl, by simp [hin.len_e]; omega⟩]
    have hinv2 : TGInv g2 := by
      refine ⟨helen2.trans hlen2.symm, ?_⟩
      intro u v hv
      by_cases hul : u = last
      · subst hul
        rw [hg2last] at hv
        rcases List.mem_append.mp hv with hold | hnew
        · have := hin.edge_incr u v hold
          rw [hlen2]
          omega
        · rw [List.mem_singleton] at hnew
          subst hnew
          rw [hlen2]
          omega
      · rw [hg2getD u hul] at hv
        by_cases hu : u < g.edges.length
        · rw [List.getD_append _ _ _ _ hu] at hv
          have := hin.edge_incr u v hv
          rw [hlen2]
          omega
        · rw [LayeredDigraph.getD_append_singleton_nil] at hv
          rw [List.getD_eq_default _ _ (by omega)] at hv
          exact absurd hv (List.not_mem_nil v)
    have hLlt2 : L < g2.vertices.length := by omega
    obtain ⟨g', hext, hvert, hinv', hold, hlast', hemp, hmid, hend, hpay⟩ :=
      ih g2 L hinv2 hLlt2
    refine ⟨g', ?_, ?_, hinv', ?_, ?_, ?_, ?_, ?_, ?_⟩
    · -- the computation runs as described
      show pt_extend g last (n :: ns) = _
      unfold pt_extend
      simp only [DigraphP.add_vertex, ← hL]
      rw [hedge]
      simp only [Bind.bind, Except.bind]
      rw [hlen2] at hext
      rw [hext]
      simp only [pure, Except.pure, List.length_cons]
      rw [List.range'_succ]
    · rw [hvert]
      simp [hg2]
    · -- old vertices other than `last` keep their edges
      intro v hvlt hvne
      rw [hold v (by omega) (by omega), hg2getD v hvne,
        List.getD_append _ _ _ _ (by rw [hin.len_e]; exact hvlt)]
    · -- `last` gains exactly the edge to the first fresh vertex
      intro _
      rw [hold last (by omega) (by omega), hg2last]
    · intro h
      exact absurd h (by simp)
    · -- the interior fresh vertices chain up
      intro k hk
      cases k with
      | zero =>
        have hns : ns ≠ [] := by
          simp only [List.length_cons] at hk
          intro hcon
          rw [hcon] at hk
          simp at hk
        rw [Nat.add_zero]
        have := hlast' hns
        rw [hlen2] at this
        rw [this]
        have hg2L : g2.edges.getD L [] = [] := by
          rw [hg2getD L (by omega), List.getD_append_right _ _ _ _ (by rw [hin.len_e])]
          rw [hin.len_e]
          simp
        rw [hg2L]
        rfl
      | succ k' =>
        simp only [List.length_cons] at hk
        have := hmid k' (by omega)
        rw [hlen2] at this
        rw [show L + (k' + 1) = L + 1 + k' by omega, this]
    · -- the final fresh vertex has no outgoing edges
      intro k hk
      cases k with
      | zero =>
        have hns : ns = [] := by
          simp only [List.length_cons] at hk
          cases ns with
          | nil => rfl
          | cons a l => simp at hk
        rw [Nat.add_zero, hemp hns]
        rw [hg2getD L (by omega), List.getD_append_right _ _ _ _ (by rw [hin.len_e])]
        rw [hin.len_e]
        simp
      | succ k' =>
        simp only [List.length_cons] at hk
        have := hend k' (by omega)
        rw [hlen2] at this
        rw [show L + (k' + 1) = L + 1 + k' by omega]
        exact this
    · -- fresh payloads
      intro k hk
      cases k with
      | zero =>
        rw [Nat.add_zero, hvert]
        rw [List.getD_append _ _ _ _ (by rw [hlen2]; omega)]
        simp [hg2]
      | succ k' =>
        simp only [List.length_cons] at hk
        have := hpay k' (by rw [hlen2] at *; omega)
        rw [hlen2] at this
        rw [show L + (k' + 1) = L + 1 + k' by omega, this]
        rfl

end PatternTree

namespace PatternTree

theorem outgoing_eq {P : Type} (g : DigraphP P) (v : Nat) :
    g.outgoing v = g.edges.getD v [] := rfl

theorem trav_cons_some {N : Type} (beq : N → N → Bool) (g : DigraphP (Option N))
    {n : N} {ns : List N} {cur v : Nat}
    (h : first_match beq g n (g.outgoing cur) = some v) :
    trav beq g (n :: ns) cur = v :: trav beq g ns v := by
  simp only [trav, h]

theorem trav_cons_none {N : Type} (beq : N → N → Bool) (g : DigraphP (Option N))
    {n : N} {ns : List N} {cur : Nat}
    (h : first_match beq g n (g.outgoing cur) = none) :
    trav beq g (n :: ns) cur = [] := by
  simp only [trav, h]

theorem find?_congr_payload {N : Type} (beq : N → N → Bool)
    (g g' : DigraphP (Option N)) (n : N) :
    ∀ (cands : List Nat),
      (∀ w ∈ cands, payload_matches beq g' n w = payload_matches beq g n w) →
      List.find? (payload_matches beq g' n) cands =
        List.find? (payload_matches beq g n) cands := by
  intro cands
  induction cands with
  | nil => intro _; rfl
  | cons c cs ihc =>
    intro hcong
    rw [List.find?_cons, List.find?_cons, hcong c (List.mem_cons_self c cs)]
    cases payload_matches beq g n c with
    | true => rfl
    | false => exact ihc (fun w hw => hcong w (List.mem_cons_of_mem c hw))

theorem getLastD_mem_cons {α : Type} :
    ∀ (l : List α) (a : α), l.getLastD a = a ∨ l.getLastD a ∈ l := by
  intro l
  induction l with
  | nil => intro a; left; rfl
  | cons b bs ih =>
    intro a
    rw [List.getLastD_cons]
    rcases ih b with h | h
    · right; rw [h]; exact List.mem_cons_self b bs
    · right; exact List.mem_cons_of_mem b h

/-- Walking the freshly appended path: from fresh vertex `L + i` the remaining
chain suffix matches the remaining fresh vertices one by one (each fresh
vertex carries exactly the chain node it was created for, and reflexive
equivalence matches it). -/
theorem trav_chain {N : Type} (beq : N → N → Bool) (g' : DigraphP (Option N))
    (suffix : List N) (L : Nat)
    (hmid : ∀ k, k + 1 < suffix.length →
      g'.edges.getD (L + k) [] = [L + k + 1])
    (hend : ∀ k, k + 1 = suffix.length → g'.edges.getD (L + k) [] = [])
    (hpay : ∀ k (hk : k < suffix.length),
      g'.vertices.getD (L + k) none = some (suffix.get ⟨k, hk⟩))
    (hrefl : ∀ n ∈ suffix, beq n n = true) :
    ∀ d i, d = suffix.length - (i + 1) → i < suffix.length →
      trav beq g' (suffix.drop (i + 1)) (L + i) =
        List.range' (L + i + 1) d := by
  intro d
  induction d with
  | zero =>
    intro i hd hi
    have hlen : (suffix.drop (i + 1)).length = 0 := by
      rw [List.length_drop]
      omega
    rw [List.eq_nil_of_length_eq_zero hlen]
    simp [trav]
  | succ d' ih =>
    intro i hd hi
    have hi1 : i + 1 < suffix.length := by omega
    have hdrop : suffix.drop (i + 1) =
        suffix.get ⟨i + 1, hi1⟩ :: suffix.drop (i + 1 + 1) := by
      rw [List.drop_eq_getElem_cons hi1]
      rfl
    have hout : g'.outgoing (L + i) = [L + i + 1] := by
      rw [outgoing_eq]
      exact hmid i hi1
    have hfm : first_match beq g' (suffix.get ⟨i + 1, hi1⟩)
        (g'.outgoing (L + i)) = some (L + i + 1) := by
      rw [hout]
      unfold first_match
      rw [List.find?_cons]
      have hp : payload_matches beq g' (suffix.get ⟨i + 1, hi1⟩) (L + i + 1) =
          true := by
        unfold payload_matches
        have hpk := hpay (i + 1) hi1
        rw [show L + i + 1 = L + (i + 1) from rfl, hpk]
        exact hrefl _ (List.get_mem suffix (i + 1) hi1)
      rw [hp]
    rw [hdrop, trav_cons_some beq g' hfm]
    have hrec := ih (i + 1) (by omega) hi1
    rw [show L + (i + 1) = L + i + 1 from rfl] at hrec
    rw [hrec, List.range'_succ]

/-- After `update` extends the graph with the unmatched tail, the re-run
first-match traversal matches the whole chain: the old prefix matches exactly
as before, and the fresh path carries the tail. -/
theorem trav_after_extend {N : Type} (beq : N → N → Bool)
    (g g' : DigraphP (Option N)) (hin : TGInv g) :
    ∀ (ns : List N) (cur : Nat),
      (∀ n ∈ ns, beq n n = true) →
      cur < g.vertices.length →
      g'.vertices = g.vertices ++ (ns.drop (trav beq g ns cur).length).map some →
      (∀ v, v < g.vertices.length →
        v ≠ (trav beq g ns cur).getLastD cur →
        g'.edges.getD v [] = g.edges.getD v []) →
      ((ns.drop (trav beq g ns cur).length) ≠ [] →
        g'.edges.getD ((trav beq g ns cur).getLastD cur) [] =
          g.edges.getD ((trav beq g ns cur).getLastD cur) [] ++
            [g.vertices.length]) →
      (∀ k, k + 1 < (ns.drop (trav beq g ns cur).length).length →
        g'.edges.getD (g.vertices.length + k) [] =
          [g.vertices.length + k + 1]) →
      (∀ k, k + 1 = (ns.drop (trav beq g ns cur).length).length →
        g'.edges.getD (g.vertices.length + k) [] = []) →
      (∀ k (hk : k < (ns.drop (trav beq g ns cur).length).length),
        g'.vertices.getD (g.vertices.length + k) none =
          some ((ns.drop (trav beq g ns cur).length).get ⟨k, hk⟩)) →
      trav beq g' ns cur =
        trav beq g ns cur ++
          List.range' g.vertices.length
            (ns.drop (trav beq g ns cur).length).length := by
  intro ns
  induction ns with
  | nil =>
    intro cur hrefl hcur hvert hold hlast hmid hend hpay
    simp [trav]
  | cons n ns' ih =>
    intro cur hrefl hcur hvert hold hlast hmid hend hpay
    have hpayold : ∀ w, w < g.vertices.length →
        g'.vertices.getD w none = g.vertices.getD w none := by
      intro w hw
      rw [hvert, List.getD_append _ _ _ _ hw]
    cases hfm : first_match beq g n (g.outgoing cur) with
    | some v =>
      have htv : trav beq g (n :: ns') cur = v :: trav beq g ns' v :=
        trav_cons_some beq g hfm
      have hvv : cur < v ∧ v < g.vertices.length :=
        hin.edge_incr cur v (List.mem_of_find?_eq_some hfm)
      have hlasteq : (trav beq g (n :: ns') cur).getLastD cur =
          (trav beq g ns' v).getLastD v := by
        rw [htv, List.getLastD_cons]
      have hlast_gt : cur < (trav beq g ns' v).getLastD v := by
        rcases getLastD_mem_cons (trav beq g ns' v) v with heq | hmem
        · rw [heq]
          exact hvv.1
        · exact lt_trans hvv.1
            (trav_mem_gt beq g hin ns' v _ hmem).1
      have hcur_ne : cur ≠ (trav beq g (n :: ns') cur).getLastD cur := by
        rw [hlasteq]
        omega
      have hout' : g'.edges.getD cur [] = g.edges.getD cur [] :=
        hold cur hcur hcur_ne
      have hfm' : first_match beq g' n (g'.outgoing cur) = some v := by
        rw [outgoing_eq, hout']
        rw [show first_match beq g' n (g.edges.getD cur []) =
            List.find? (payload_matches beq g' n) (g.edges.getD cur []) from
          rfl]
        rw [find?_congr_payload beq g g' n _ (fun w hw => by
          unfold payload_matches
          rw [hpayold w (hin.edge_incr cur w hw).2])]
        rw [outgoing_eq] at hfm
        exact hfm
      have hdropeq : (ns'.drop (trav beq g ns' v).length) =
          ((n :: ns').drop (trav beq g (n :: ns') cur).length) := by
        rw [htv, List.length_cons, List.drop_succ_cons]
      have hrec := ih v (fun m hm => hrefl m (List.mem_cons_of_mem n hm)) hvv.2
        (by rw [hvert, hdropeq])
        (by
          intro w hw hwne
          refine hold w hw ?_
          rw [hlasteq]
          exact hwne)
        (by
          intro hne
          rw [hdropeq] at hne
          have hl := hlast hne
          rw [hlasteq] at hl
          exact hl)
        (by
          intro k hk
          refine hmid k ?_
          rw [← hdropeq]
          exact hk)
        (by
          intro k hk
          refine hend k ?_
          rw [← hdropeq]
          exact hk)
        (by
          intro k hk
          have hk2 : k < ((n :: ns').drop (trav beq g (n :: ns') cur).length).length := by
            rw [← hdropeq]
            exact hk
          have hpk := hpay k hk2
          rw [List.get_of_eq hdropeq.symm ⟨k, hk2⟩] at hpk
          exact hpk)
      rw [trav_cons_some beq g' hfm', hrec, htv, List.cons_append,
        List.length_cons, List.drop_succ_cons]
    | none =>
      have htv : trav beq g (n :: ns') cur = [] := trav_cons_none beq g hfm
      rw [htv] at hvert hold hlast hmid hend hpay ⊢
      rw [List.length_nil, List.drop_zero] at hvert hlast hmid hend hpay ⊢
      have hlastd : ([] : List Nat).getLastD cur = cur := rfl
      rw [hlastd] at hold hlast
      have hfm' : first_match beq g' n (g'.outgoing cur) =
          some g.vertices.length := by
        rw [outgoing_eq, hlast (by simp)]
        rw [show first_match beq g' n
            (g.edges.getD cur [] ++ [g.vertices.length]) =
          List.find? (payload_matches beq g' n)
            (g.edges.getD cur [] ++ [g.vertices.length]) from rfl]
        rw [List.find?_append]
        have hnone : List.find? (payload_matches beq g' n)
            (g.edges.getD cur []) = none := by
          rw [find?_congr_payload beq g g' n _ (fun w hw => by
            unfold payload_matches
            rw [hpayold w (hin.edge_incr cur w hw).2])]
          rw [outgoing_eq] at hfm
          exact hfm
        have hp : payload_matches beq g' n g.vertices.length = true := by
          unfold payload_matches
          have hp0 := hpay 0 (by simp)
          rw [Nat.add_zero] at hp0
          rw [hp0]
          exact hrefl n (List.mem_cons_self n ns')
        rw [hnone, List.find?_cons, hp]
        rfl
      rw [trav_cons_some beq g' hfm', List.nil_append, List.length_cons,
        List.range'_succ]
      congr 1
      have hchain := trav_chain beq g' (n :: ns') g.vertices.length
        hmid hend hpay hrefl ns'.length 0 (by simp) (by simp)
      rw [List.drop_one, List.tail_cons, Nat.add_zero] at hchain
      exact hchain

end PatternTree

namespace PatternTree

/-- Core of C1 for `PatternTree` (first-match configuration): `update` on a
node chain succeeds, preserves the graph invariant, and `contains` on the
same chain then answers `true`, provided equivalence is reflexive on the
chain's nodes. -/
theorem pt_contains_after_update {N : Type} (beq : N → N → Bool)
    (dist : N → N → Except String Rat) (t : PatternTree N)
    (hinv : TGInv t.graph) (hroot : t.root < t.graph.vertices.length)
    (hcm : t.closest_match = false) (chain : List (PElem N))
    (hnodes : chain.all PElem.is_node = true)
    (hrefl : ∀ n ∈ chain.filterMap PElem.to_node, beq n n = true) :
    ∃ t' res, update beq dist t chain = .ok (t', res) ∧
      TGInv t'.graph ∧ t'.root = t.root ∧ t'.closest_match = t.closest_match ∧
      t'.root < t'.graph.vertices.length ∧
      contains beq dist t' (chain.filterMap PElem.to_node) = .ok true := by
  have hlast_lt :
      (trav beq t.graph (chain.filterMap PElem.to_node) t.root).getLastD t.root
        < t.graph.vertices.length := by
    rcases getLastD_mem_cons
        (trav beq t.graph (chain.filterMap PElem.to_node) t.root) t.root with
      heq | hmem
    · rw [heq]
      exact hroot
    · exact (trav_mem_gt beq t.graph hinv _ t.root _ hmem).2
  obtain ⟨g', hext, hv, hinv', holde, hlaste, hnil, hmid, hend, hpay⟩ :=
    pt_extend_spec
      ((chain.filterMap PElem.to_node).drop
        (trav beq t.graph (chain.filterMap PElem.to_node) t.root).length)
      t.graph
      ((trav beq t.graph (chain.filterMap PElem.to_node) t.root).getLastD
        t.root)
      hinv hlast_lt
  have hctv := chain_to_vertices_first beq dist t hcm
    (chain.filterMap PElem.to_node)
  refine ⟨{t with graph := g'},
    (t.root :: trav beq t.graph (chain.filterMap PElem.to_node) t.root) ++
      List.range' t.graph.vertices.length
        ((chain.filterMap PElem.to_node).drop
          (trav beq t.graph (chain.filterMap PElem.to_node) t.root).length).length,
    ?_, hinv', rfl, rfl, ?_, ?_⟩
  · simp only [update, hnodes, Bool.not_true, Bool.false_eq_true,
      not_false_iff, if_neg, Bool.not_eq_true, hctv, Bind.bind, Except.bind]
    rw [List.getLastD_cons, List.length_cons, Nat.add_sub_cancel, hext]
    simp only [Bind.bind, Except.bind, pure, Except.pure, List.length_range']
    simp
  · rw [show ({ graph := g', root := t.root, closest_match := t.closest_match } :
        PatternTree N).graph = g' from rfl, hv, List.length_append]
    exact Nat.lt_of_lt_of_le hroot (Nat.le_add_right _ _)
  · have hctv' := chain_to_vertices_first beq dist {t with graph := g'}
      hcm (chain.filterMap PElem.to_node)
    have htr := trav_after_extend beq t.graph g' hinv
      (chain.filterMap PElem.to_node) t.root hrefl hroot hv holde hlaste
      hmid hend hpay
    have hle := trav_length_le beq t.graph
      (chain.filterMap PElem.to_node) t.root
    simp only [contains, hctv', Bind.bind, Except.bind, pure, Except.pure]
    rw [htr]
    simp only [List.length_cons, List.length_append, List.length_range',
      List.length_drop, Except.ok.injEq, beq_iff_eq]
    omega

end PatternTree

namespace PatternSet

/-- Each inserted element is a member of its depth set afterwards (via object
identity, independent of the equivalence `beq`), and the depth structure keeps
its padded length. -/
theorem ps_update_zip_spec {N : Type} [DecidableEq N] (beq : N → N → Bool) :
    ∀ (xs : List (PElem N)) (ss : List (List (PElem N))),
      xs.length ≤ ss.length →
      (ps_update_zip beq xs ss).1.length = ss.length ∧
      (xs.zip (ps_update_zip beq xs ss).1).all
        (fun p => set_member beq p.2 p.1) = true := by
  intro xs
  induction xs with
  | nil =>
    intro ss hle
    simp [ps_update_zip]
  | cons x xs ih =>
    intro ss hle
    cases ss with
    | nil => simp at hle
    | cons s ss' =>
      have hle' : xs.length ≤ ss'.length := by
        simp at hle
        omega
      obtain ⟨ihl, iha⟩ := ih ss' hle'
      have hmem : set_member beq (if set_member beq s x then s else s ++ [x])
          x = true := by
        cases hw : set_member beq s x with
        | true => rw [if_pos rfl]; exact hw
        | false =>
          rw [if_neg (by simp)]
          unfold set_member
          rw [List.any_append]
          simp
      simp only [ps_update_zip, List.length_cons, List.zip_cons_cons,
        List.all_cons]
      refine ⟨by rw [ihl], ?_⟩
      rw [hmem, iha]
      rfl

/-- Core of C1 for `PatternSet`: `contains` after `update` is `true`
unconditionally (set membership goes through object identity before node
equivalence). -/
theorem ps_contains_after_update {N : Type} [DecidableEq N] (beq : N → N → Bool)
    (m : PatternSet N) (chain : List (PElem N)) :
    contains beq (update beq m chain).1 chain = true := by
  have hpad : chain.length ≤
      (m.nodes ++ List.replicate (chain.length - m.nodes.length) []).length := by
    rw [List.length_append, List.length_replicate]
    omega
  obtain ⟨hl, ha⟩ := ps_update_zip_spec beq chain
    (m.nodes ++ List.replicate (chain.length - m.nodes.length) []) hpad
  have hl2 : chain.length ≤
      (ps_update_zip beq chain
        (m.nodes ++ List.replicate (chain.length - m.nodes.length) [])).1.length := by
    rw [hl]
    exact hpad
  unfold contains update
  simp only []
  rw [ha]
  simp [hl2]

end PatternSet

namespace PatternGraph


theorem first_match_eq_find {N : Type} (beq : N → N → Bool)
    (g : LayeredDigraph N) (n : N) (cands : List Nat) :
    first_match beq g n cands = cands.find? (gpred beq g n) := rfl


theorem fmv_first {N : Type} (beq : N → N → Bool)
    (dist : N → N → Except String Rat) (pg : PatternGraph N)
    (hcm : pg.closest_match = false) (n : N) (depth : Nat)
    (parent : Option Nat) :
    find_matching_vertex beq dist pg n depth parent =
      .ok (gstep beq pg.graph n depth parent) := by
  unfold find_matching_vertex gstep
  split_ifs with h
  · rfl
  · cases parent with
    | none =>
      simp [match_strategy, hcm, Bind.bind, Except.bind, pure, Except.pure]
    | some p =>
      simp [match_strategy, hcm, Bind.bind, Except.bind, pure, Except.pure]
      cases first_match beq pg.graph n (pg.graph.outgoing p) with
      | none =>
        cases first_match beq pg.graph n (pg.graph.get_layer depth) <;> rfl
      | some m => rfl

theorem gctv_go_first {N : Type} (beq : N → N → Bool)
    (dist : N → N → Except String Rat) (pg : PatternGraph N)
    (hcm : pg.closest_match = false) :
    ∀ (ns : List N) (depth : Nat) (t : Option Nat) (acc : List (Option Nat))
      (conn : List Bool),
      ctv_go beq dist pg ns depth (t :: acc) conn =
        .ok ((t :: acc).reverse ++ gtrav beq pg.graph ns depth t,
          conn.reverse ++
            ((t :: gtrav beq pg.graph ns depth t).zip
              (gtrav beq pg.graph ns depth t)).map
                (fun p => check_connection pg p.1 p.2)) := by
  intro ns
  induction ns with
  | nil =>
    intro depth t acc conn
    simp [ctv_go, gtrav, pure, Except.pure]
  | cons n ns ih =>
    intro depth t acc conn
    show (do
      let matched ← find_matching_vertex beq dist pg n depth t
      ctv_go beq dist pg ns (depth + 1) (matched :: t :: acc)
        (check_connection pg t matched :: conn)) = _
    rw [fmv_first beq dist pg hcm]
    show ctv_go beq dist pg ns (depth + 1)
        (gstep beq pg.graph n depth t :: t :: acc)
        (check_connection pg t (gstep beq pg.graph n depth t) :: conn) = _
    rw [ih]
    show Except.ok _ = Except.ok _
    congr 1
    refine Prod.ext ?_ ?_
    · show (gstep beq pg.graph n depth t :: t :: acc).reverse ++ _ =
        (t :: acc).reverse ++ _
      rw [List.reverse_cons, List.append_assoc]
      rfl
    · show (check_connection pg t (gstep beq pg.graph n depth t) ::
        conn).reverse ++ _ = conn.reverse ++ _
      rw [List.reverse_cons, List.append_assoc]
      rfl

theorem gchain_first {N : Type} (beq : N → N → Bool)
    (dist : N → N → Except String Rat) (pg : PatternGraph N)
    (hcm : pg.closest_match = false) (ns : List N) :
    chain_to_vertices beq dist pg ns =
      .ok (gtrav beq pg.graph ns 0 none,
        ((gtrav beq pg.graph ns 0 none).zip
          (gtrav beq pg.graph ns 0 none).tail).map
            (fun p => check_connection pg p.1 p.2)) := by
  cases ns with
  | nil => rfl
  | cons n ns =>
    show (do
      let matched ← find_matching_vertex beq dist pg n 0 none
      ctv_go beq dist pg ns 1 [matched] []) = _
    rw [fmv_first beq dist pg hcm]
    show ctv_go beq dist pg ns 1 [gstep beq pg.graph n 0 none] [] = _
    rw [gctv_go_first beq dist pg hcm]
    rfl

end PatternGraph

theorem mem_insert_id (s : List Nat) (v w : Nat) :
    w ∈ insert_id s v ↔ w ∈ s ∨ w = v := by
  unfold insert_id
  split_ifs with h
  · constructor
    · exact Or.inl
    · rintro (hw | rfl)
      · exact hw
      · exact h
  · simp

theorem mem_insert_id_self (s : List Nat) (v : Nat) : v ∈ insert_id s v := by
  rw [mem_insert_id]
  exact Or.inr rfl

theorem insert_id_nodup {s : List Nat} (h : s.Nodup) (v : Nat) :
    (insert_id s v).Nodup := by
  unfold insert_id
  split_ifs with hv
  · exact h
  · simp [List.nodup_append, h, hv]

theorem set_append_len {α : Type} (l : List α) (a b : α) :
    (l ++ [a]).set l.length b = l ++ [b] := by
  induction l with
  | nil => rfl
  | cons x xs ih =>
    simp only [List.cons_append, List.length_cons, List.set_cons_succ, ih]

namespace LayeredDigraph


theorem ldg_empty_lginv {P : Type} : LGInv (ldg_empty : LayeredDigraph P) := by
  refine ⟨rfl, rfl, by simp [ldg_empty], ?_, ?_, ?_, ?_, ?_, ?_⟩
  · intro v hv
    simp [ldg_empty] at hv
  · intro l v hv
    revert hv
    show v ∈ ([[]] : List (List Nat)).getD l [] → _
    cases l with
    | zero => intro hv; simp at hv
    | succ l' => intro hv; simp [List.getD] at hv
  · intro l
    show (([[]] : List (List Nat)).getD l []).Nodup
    cases l with
    | zero => simp
    | succ l' => simp [List.getD]
  · intro u v hv
    simp [ldg_empty, List.getD] at hv
  · intro u v hv
    simp [ldg_empty, List.getD] at hv
  · intro u v hv
    simp [ldg_empty, List.getD] at hv

/-- The uniqueness side of the layer partition: a vertex is only in the layer
list its `"layer"` property names. -/
theorem lginv_layer_bound {P : Type} {g : LayeredDigraph P} (hin : LGInv g)
    {v l : Nat} (hv : v < g.vertices.length)
    (hl : g.vlayer.getD v none = some l) :
    l < g.layers.length ∧ v ∈ g.layers.getD l [] := by
  obtain ⟨l2, hl2, hlt, hmem⟩ := hin.vl_some v hv
  rw [hl] at hl2
  injection hl2 with h
  subst h
  exact ⟨hlt, hmem⟩

/-- `add_vertex` on a graph with the bookkeeping lengths: the fresh vertex
carries layer 0 and lands at the end of layer list 0. -/
theorem ladd_vertex_spec {P : Type} (g : LayeredDigraph P) (p : P)
    (h0 : 0 < g.layers.length) (hvl : g.vlayer.length = g.vertices.length) :
    (g.add_vertex p).2 = g.vertices.length ∧
    (g.add_vertex p).1.vertices = g.vertices ++ [p] ∧
    (g.add_vertex p).1.vlayer = g.vlayer ++ [some 0] ∧
    (g.add_vertex p).1.edges = g.edges ++ [[]] ∧
    (g.add_vertex p).1.layers =
      g.layers.set 0 (insert_id (g.layers.getD 0 []) g.vertices.length) := by
  refine ⟨rfl, rfl, ?_, rfl, ?_⟩
  · show ((g.vlayer ++ [none]).set g.vertices.length (some 0) :
        List (Option Nat)) = g.vlayer ++ [some 0]
    rw [← hvl, set_append_len]
  · show (update_layer ⟨g.vertices ++ [p], g.vlayer ++ [none],
      g.edges ++ [[]], g.layers⟩ g.vertices.length 0).layers = _
    unfold update_layer
    have hget : (g.vlayer ++ [none]).getD g.vertices.length none = none := by
      rw [← hvl, List.getD_append_right _ _ _ _ (le_refl _)]
      simp
    rw [hget]
    simp only []
    rw [if_neg (by omega)]

/-- `_update_layer` when the vertex moves between two distinct layers
(`l ≤ max_depth` keeps a possible one-layer growth). -/
theorem update_layer_move {P : Type} (g : LayeredDigraph P) (vid l old : Nat)
    (hvid : g.vlayer.getD vid none = some old) (hne : old ≠ l)
    (hold : old < g.layers.length) (hle : l ≤ g.layers.length) :
    (update_layer g vid l).vertices = g.vertices ∧
    (update_layer g vid l).edges = g.edges ∧
    (update_layer g vid l).vlayer = g.vlayer.set vid (some l) ∧
    (update_layer g vid l).layers.length =
      (if l = g.layers.length then g.layers.length + 1
       else g.layers.length) ∧
    ∀ j, (update_layer g vid l).layers.getD j [] =
      if j = old then (g.layers.getD old []).erase vid
      else if j = l then insert_id (g.layers.getD l []) vid
      else g.layers.getD j [] := by
  unfold update_layer
  rw [hvid]
  simp only []
  by_cases hcase : l = g.layers.length
  · rw [if_pos (by simp [hcase])]
    refine ⟨trivial, trivial, trivial, ?_, ?_⟩
    · rw [if_pos hcase]
      simp
    · intro j
      have hget : (g.layers.set old ((g.layers.getD old []).erase vid)
          ++ [[]]).getD l [] = [] := by
        rw [hcase]
        rw [List.getD_append_right _ _ _ _ (by simp)]
        simp
      rw [list_getD_set, hget]
      by_cases hj : j = l
      · subst hj
        rw [if_pos ⟨rfl, by simp; omega⟩, if_neg (by omega), if_pos rfl]
        have : g.layers.getD j [] = [] :=
          List.getD_eq_default _ _ (by omega)
        rw [this]
      · rw [if_neg (by intro hc; exact hj hc.1)]
        by_cases hjo : j = old
        · subst hjo
          rw [if_pos rfl]
          rw [List.getD_append _ _ _ _ (by simp; omega)]
          rw [list_getD_set, if_pos ⟨rfl, hold⟩]
        · rw [if_neg hjo, if_neg hj]
          by_cases hjlt : j < g.layers.length
          · rw [List.getD_append _ _ _ _ (by simp; omega)]
            rw [list_getD_set, if_neg (by intro hc; exact hjo hc.1)]
          · rw [List.getD_eq_default _ _ (by simp; omega)]
            rw [List.getD_eq_default _ _ (by omega)]
  · have hllt : l < g.layers.length := by omega
    rw [if_neg (by simp; omega)]
    refine ⟨trivial, trivial, trivial, by rw [if_neg hcase]; simp, ?_⟩
    intro j
    rw [list_getD_set]
    by_cases hj : j = l
    · subst hj
      rw [if_pos ⟨rfl, by simp; omega⟩, if_neg (by omega), if_pos rfl]
      rw [list_getD_set, if_neg (by intro hc; exact hne hc.1.symm)]
    · rw [if_neg (by intro hc; exact hj hc.1), list_getD_set]
      by_cases hjo : j = old
      · subst hjo
        rw [if_pos ⟨rfl, hold⟩, if_pos rfl]
      · rw [if_neg (by intro hc; exact hjo hc.1), if_neg hjo, if_neg hj]

/-- `_update_layer` when the vertex stays in its layer: the vertex moves to
the end of its layer list. -/
theorem update_layer_same {P : Type} (g : LayeredDigraph P) (vid l : Nat)
    (hvid : g.vlayer.getD vid none = some l) (hl : l < g.layers.length) :
    (update_layer g vid l).vertices = g.vertices ∧
    (update_layer g vid l).edges = g.edges ∧
    (update_layer g vid l).vlayer = g.vlayer.set vid (some l) ∧
    (update_layer g vid l).layers.length = g.layers.length ∧
    ∀ j, (update_layer g vid l).layers.getD j [] =
      if j = l then insert_id ((g.layers.getD l []).erase vid) vid
      else g.layers.getD j [] := by
  unfold update_layer
  rw [hvid]
  simp only []
  rw [if_neg (by simp; omega)]
  refine ⟨trivial, trivial, trivial, by simp, ?_⟩
  intro j
  rw [list_getD_set]
  by_cases hj : j = l
  · subst hj
    rw [if_pos ⟨rfl, by simp; omega⟩, if_pos rfl]
    rw [list_getD_set, if_pos ⟨rfl, hl⟩]
  · rw [if_neg (by intro hc; exact hj hc.1), list_getD_set,
      if_neg (by intro hc; exact hj hc.1), if_neg hj]

end LayeredDigraph

namespace LayeredDigraph

/-- `add_edge` in the two situations `PatternGraph.update` produces: the
target is either a fresh root-layer vertex without outgoing edges, or an
existing vertex already sitting one layer below the source.  The edge is
added, the target ends on layer `lu + 1`, and the invariant survives. -/
theorem add_edge_connect_spec {P : Type} (g : LayeredDigraph P) (u v : Nat)
    (hin : LGInv g) (hu : u < g.vertices.length) (hv : v < g.vertices.length)
    (hne : u ≠ v) (lu : Nat) (hlu : g.vlayer.getD u none = some lu)
    (hvnotin : v ∉ g.edges.getD u [])
    (hcase : g.vlayer.getD v none = some (lu + 1) ∨
      (g.vlayer.getD v none = some 0 ∧ g.edges.getD v [] = [])) :
    ∃ g', add_edge g u v = .ok g' ∧ LGInv g' ∧
      g'.vertices = g.vertices ∧
      g'.vlayer = g.vlayer.set v (some (lu + 1)) ∧
      (∀ w, w ≠ u → g'.edges.getD w [] = g.edges.getD w []) ∧
      g'.edges.getD u [] = g.edges.getD u [] ++ [v] ∧
      g.layers.length ≤ g'.layers.length ∧
      (g.vlayer.getD v none = some 0 →
        g'.layers.getD 0 [] = (g.layers.getD 0 []).erase v) ∧
      (g.vlayer.getD v none = some (lu + 1) →
        g'.layers.getD 0 [] = g.layers.getD 0 []) := by
  have hlayu : g.layer_of u = lu := by
    unfold layer_of
    rw [hlu]
    rfl
  have hlult : lu < g.layers.length := (lginv_layer_bound hin hu hlu).1
  have hedgeu : u < g.edges.length := by
    rw [hin.len_e]
    exact hu
  have hmidE : ∀ w, (g.edges.set u (insert_id (g.edges.getD u []) v)).getD
      w [] = if w = u then g.edges.getD u [] ++ [v]
             else g.edges.getD w [] := by
    intro w
    rw [list_getD_set]
    by_cases hw : w = u
    · subst hw
      rw [if_pos ⟨rfl, hedgeu⟩, if_pos rfl]
      unfold insert_id
      rw [if_neg hvnotin]
    · rw [if_neg (by intro hc; exact hw hc.1), if_neg hw]
  rcases hcase with hv1 | ⟨hv0, hvemp⟩
  · -- target already one layer below the source
    have hlayv : g.layer_of v = lu + 1 := by
      unfold layer_of
      rw [hv1]
      rfl
    have hv1lt : lu + 1 < g.layers.length := (lginv_layer_bound hin hv hv1).1
    set gmid : LayeredDigraph P :=
      ⟨g.vertices, g.vlayer,
       g.edges.set u (insert_id (g.edges.getD u []) v), g.layers⟩ with hgmid
    have hstep : add_edge g u v = .ok (update_layer gmid v (lu + 1)) := by
      unfold add_edge
      rw [if_neg (by push_neg; omega), hlayv, hlayu]
      rw [if_neg (by omega), if_pos rfl]
    obtain ⟨hV, hE, hVL, hLEN, hGETD⟩ :=
      update_layer_same gmid v (lu + 1) hv1 (by exact hv1lt)
    simp only [show gmid.layers = g.layers from rfl,
      show gmid.vlayer = g.vlayer from rfl,
      show gmid.vertices = g.vertices from rfl,
      show gmid.edges = g.edges.set u (insert_id (g.edges.getD u []) v)
        from rfl] at hV hE hVL hLEN hGETD
    have hlaymem : ∀ j w, w ∈ (update_layer gmid v (lu + 1)).layers.getD j []
        ↔ w ∈ g.layers.getD j [] := by
      intro j w
      rw [hGETD j]
      by_cases hj : j = lu + 1
      · subst hj
        rw [if_pos rfl]
        show w ∈ insert_id ((g.layers.getD (lu+1) []).erase v) v ↔ _
        rw [mem_insert_id, (hin.lay_nodup (lu+1)).mem_erase_iff]
        constructor
        · rintro (⟨_, hmem⟩ | rfl)
          · exact hmem
          · exact (lginv_layer_bound hin hv hv1).2
        · intro hmem
          by_cases hwv : w = v
          · exact Or.inr hwv
          · exact Or.inl ⟨hwv, hmem⟩
      · rw [if_neg hj]
  -- vlayer reads are unchanged: the write repeats the stored value
    have hvlsame : ∀ w, (update_layer gmid v (lu + 1)).vlayer.getD w none =
        g.vlayer.getD w none := by
      intro w
      rw [hVL]
      show (g.vlayer.set v (some (lu+1))).getD w none = _
      rw [list_getD_set]
      by_cases hw : w = v
      · subst hw
        rw [if_pos ⟨rfl, by rw [hin.len_vl]; exact hv⟩, hv1]
      · rw [if_neg (by intro hc; exact hw hc.1)]
    refine ⟨update_layer gmid v (lu + 1), hstep, ?_, by rw [hV], ?_, ?_, ?_,
      hLEN.ge, ?_, ?_⟩
    · refine ⟨?_, ?_, ?_, ?_, ?_, ?_, ?_, ?_, ?_⟩
      · rw [hVL, hV]
        show (g.vlayer.set v (some (lu+1))).length = g.vertices.length
        rw [List.length_set, hin.len_vl]
      · rw [hE, hV]
        show (g.edges.set u (insert_id (g.edges.getD u []) v)).length = _
        rw [List.length_set, hin.len_e]
      · rw [hLEN]
        exact hin.len_l
      · intro w hw
        rw [hV] at hw
        obtain ⟨l, hl, hlt, hmem⟩ := hin.vl_some w hw
        exact ⟨l, by rw [hvlsame]; exact hl, by rw [hLEN]; exact hlt,
          (hlaymem l w).mpr hmem⟩
      · intro l w hmem
        have hmem2 := (hlaymem l w).mp hmem
        have := hin.lay_mem l w hmem2
        exact ⟨by rw [hV]; exact this.1, by rw [hvlsame]; exact this.2⟩
      · intro l
        rw [hGETD l]
        by_cases hj : l = lu + 1
        · subst hj
          rw [if_pos rfl]
          exact insert_id_nodup ((hin.lay_nodup _).erase v) v
        · rw [if_neg hj]
          exact hin.lay_nodup l
      · intro w x hx
        rw [hE, hmidE w] at hx
        show w < g.vertices.length ∧ x < g.vertices.length
        by_cases hw : w = u
        · subst hw
          rw [if_pos rfl] at hx
          rcases List.mem_append.mp hx with hx | hx
          · exact (hin.edges_tgt _ _ hx)
          · rw [List.mem_singleton] at hx
            subst hx
            exact ⟨hu, hv⟩
        · rw [if_neg hw] at hx
          exact hin.edges_tgt _ _ hx
      · intro w x hx lw lx hlw hlx
        rw [hE, hmidE w] at hx
        rw [hvlsame] at hlw hlx
        by_cases hw : w = u
        · subst hw
          rw [if_pos rfl] at hx
          rcases List.mem_append.mp hx with hx | hx
          · exact hin.edge_layer _ _ hx lw lx hlw hlx
          · rw [List.mem_singleton] at hx
            subst hx
            rw [hlu] at hlw
            rw [hv1] at hlx
            injection hlw with hlw
            injection hlx with hlx
            omega
        · rw [if_neg hw] at hx
          exact hin.edge_layer _ _ hx lw lx hlw hlx
      · intro w x hx
        rw [hE, hmidE w] at hx
        rw [hvlsame]
        by_cases hw : w = u
        · subst hw
          rw [if_pos rfl] at hx
          rcases List.mem_append.mp hx with hx | hx
          · exact hin.no_in_zero _ _ hx
          · rw [List.mem_singleton] at hx
            subst hx
            rw [hv1]
            simp
        · rw [if_neg hw] at hx
          exact hin.no_in_zero _ _ hx
    · rw [hVL]
    · intro w hw
      rw [hE, hmidE w, if_neg hw]
    · rw [hE, hmidE u, if_pos rfl]
    · intro hc
      rw [hv1] at hc
      injection hc with hc
      exact absurd hc (by omega)
    · intro _
      rw [hGETD 0, if_neg (by omega)]
  · -- fresh root-layer target without outgoing edges
    have hlayv : g.layer_of v = 0 := by
      unfold layer_of
      rw [hv0]
      rfl
    set gmid : LayeredDigraph P :=
      ⟨g.vertices, g.vlayer,
       g.edges.set u (insert_id (g.edges.getD u []) v), g.layers⟩ with hgmid
    have hstep : add_edge g u v = .ok (update_layer gmid v (lu + 1)) := by
      unfold add_edge
      rw [if_neg (by push_neg; omega), hlayv, if_pos rfl]
      rw [if_neg (by rw [hvemp]; simp), hlayu]
    obtain ⟨hV, hE, hVL, hLEN, hGETD⟩ :=
      update_layer_move gmid v (lu + 1) 0 hv0 (by omega) hin.len_l
        (by show lu + 1 ≤ g.layers.length; omega)
    simp only [show gmid.layers = g.layers from rfl,
      show gmid.vlayer = g.vlayer from rfl,
      show gmid.vertices = g.vertices from rfl,
      show gmid.edges = g.edges.set u (insert_id (g.edges.getD u []) v)
        from rfl] at hV hE hVL hLEN hGETD
    have hvl' : ∀ w, (update_layer gmid v (lu + 1)).vlayer.getD w none =
        if w = v then some (lu + 1) else g.vlayer.getD w none := by
      intro w
      rw [hVL]
      show (g.vlayer.set v (some (lu+1))).getD w none = _
      rw [list_getD_set]
      by_cases hw : w = v
      · subst hw
        rw [if_pos ⟨rfl, by rw [hin.len_vl]; exact hv⟩, if_pos rfl]
      · rw [if_neg (by intro hc; exact hw hc.1), if_neg hw]
    refine ⟨update_layer gmid v (lu + 1), hstep, ?_, by rw [hV], ?_, ?_, ?_,
      by rw [hLEN]; split_ifs <;> omega, ?_, ?_⟩
    · refine ⟨?_, ?_, ?_, ?_, ?_, ?_, ?_, ?_, ?_⟩
      · rw [hVL, hV]
        show (g.vlayer.set v (some (lu+1))).length = g.vertices.length
        rw [List.length_set, hin.len_vl]
      · rw [hE, hV]
        show (g.edges.set u (insert_id (g.edges.getD u []) v)).length = _
        rw [List.length_set, hin.len_e]
      · rw [hLEN]
        split_ifs
        · omega
        · exact hin.len_l
      · intro w hw
        rw [hV] at hw
        by_cases hwv : w = v
        · subst hwv
          refine ⟨lu + 1, by rw [hvl', if_pos rfl], ?_, ?_⟩
          · rw [hLEN]
            split_ifs with hh
            · omega
            · omega
          · rw [hGETD (lu+1), if_neg (by omega), if_pos rfl]
            exact mem_insert_id_self _ _
        · obtain ⟨l, hl, hlt, hmem⟩ := hin.vl_some w hw
          refine ⟨l, by rw [hvl', if_neg hwv]; exact hl, ?_, ?_⟩
          · rw [hLEN]
            split_ifs <;> omega
          · rw [hGETD l]
            by_cases hl0 : l = 0
            · subst hl0
              rw [if_pos rfl]
              exact ((hin.lay_nodup 0).mem_erase_iff).mpr ⟨hwv, hmem⟩
            · rw [if_neg hl0]
              by_cases hlv : l = lu + 1
              · subst hlv
                rw [if_pos rfl, mem_insert_id]
                exact Or.inl hmem
              · rw [if_neg hlv]
                exact hmem
      · intro l w hmem
        rw [hGETD l] at hmem
        by_cases hl0 : l = 0
        · subst hl0
          rw [if_pos rfl, (hin.lay_nodup 0).mem_erase_iff] at hmem
          obtain ⟨hwv, hmem⟩ := hmem
          have := hin.lay_mem 0 w hmem
          exact ⟨by rw [hV]; exact this.1,
            by rw [hvl', if_neg hwv]; exact this.2⟩
        · rw [if_neg hl0] at hmem
          by_cases hlv : l = lu + 1
          · subst hlv
            rw [if_pos rfl, mem_insert_id] at hmem
            rcases hmem with hmem | rfl
            · have := hin.lay_mem _ w hmem
              have hwv : w ≠ v := by
                intro hc
                subst hc
                rw [hv0] at this
                have hc2 := this.2
                injection hc2 with hc2
                omega
              exact ⟨by rw [hV]; exact this.1,
                by rw [hvl', if_neg hwv]; exact this.2⟩
            · exact ⟨by rw [hV]; exact hv, by rw [hvl', if_pos rfl]⟩
          · rw [if_neg hlv] at hmem
            have := hin.lay_mem l w hmem
            have hwv : w ≠ v := by
              intro hc
              subst hc
              rw [hv0] at this
              have hc2 := this.2
              injection hc2 with hc2
              exact hl0 hc2.symm
            exact ⟨by rw [hV]; exact this.1,
              by rw [hvl', if_neg hwv]; exact this.2⟩
      · intro l
        rw [hGETD l]
        by_cases hl0 : l = 0
        · subst hl0
          rw [if_pos rfl]
          exact (hin.lay_nodup 0).erase v
        · rw [if_neg hl0]
          by_cases hlv : l = lu + 1
          · subst hlv
            rw [if_pos rfl]
            exact insert_id_nodup (hin.lay_nodup _) v
          · rw [if_neg hlv]
            exact hin.lay_nodup l
      · intro w x hx
        rw [hE, hmidE w] at hx
        show w < g.vertices.length ∧ x < g.vertices.length
        by_cases hw : w = u
        · subst hw
          rw [if_pos rfl] at hx
          rcases List.mem_append.mp hx with hx | hx
          · exact hin.edges_tgt _ _ hx
          · rw [List.mem_singleton] at hx
            subst hx
            exact ⟨hu, hv⟩
        · rw [if_neg hw] at hx
          exact hin.edges_tgt _ _ hx
      · intro w x hx lw lx hlw hlx
        rw [hE, hmidE w] at hx
        rw [hvl'] at hlw hlx
        by_cases hw : w = u
        · subst hw
          rw [if_neg hne] at hlw
          rw [if_pos rfl] at hx
          rcases List.mem_append.mp hx with hxl | hxr
          · have hxv : x ≠ v := by
              intro hc
              subst hc
              exact hin.no_in_zero _ _ hxl hv0
            rw [if_neg hxv] at hlx
            exact hin.edge_layer _ _ hxl lw lx hlw hlx
          · rw [List.mem_singleton] at hxr
            subst hxr
            rw [if_pos rfl] at hlx
            rw [hlu] at hlw
            injection hlw with hlw
            injection hlx with hlx
            omega
        · rw [if_neg hw] at hx
          have hwv : w ≠ v := by
            intro hc
            subst hc
            rw [hvemp] at hx
            exact absurd hx (List.not_mem_nil x)
          rw [if_neg hwv] at hlw
          have hxv : x ≠ v := by
            intro hc
            subst hc
            exact hin.no_in_zero _ _ hx hv0
          rw [if_neg hxv] at hlx
          exact hin.edge_layer _ _ hx lw lx hlw hlx
      · intro w x hx
        rw [hE, hmidE w] at hx
        rw [hvl']
        by_cases hw : w = u
        · subst hw
          rw [if_pos rfl] at hx
          rcases List.mem_append.mp hx with hxl | hxr
          · have hxv : x ≠ v := by
              intro hc
              subst hc
              exact hin.no_in_zero _ _ hxl hv0
            rw [if_neg hxv]
            exact hin.no_in_zero _ _ hxl
          · rw [List.mem_singleton] at hxr
            subst hxr
            rw [if_pos rfl]
            simp
        · rw [if_neg hw] at hx
          have hxv : x ≠ v := by
            intro hc
            subst hc
            exact hin.no_in_zero _ _ hx hv0
          rw [if_neg hxv]
          exact hin.no_in_zero _ _ hx
    · rw [hVL]
    · intro w hw
      rw [hE, hmidE w, if_neg hw]
    · rw [hE, hmidE u, if_pos rfl]
    · intro _
      rw [hGETD 0, if_pos rfl]
    · intro hc
      rw [hv0] at hc
      injection hc with hc
      omega

end LayeredDigraph

namespace LayeredDigraph

/-- `add_vertex` under the invariant: the fresh vertex gets identifier
`|vertices|`, payload `p`, layer 0 (appended to layer list 0), no edges;
everything else is untouched. -/
theorem ladd_vertex_lginv {P : Type} (g : LayeredDigraph P) (p : P)
    (hin : LGInv g) :
    (g.add_vertex p).2 = g.vertices.length ∧
    LGInv (g.add_vertex p).1 ∧
    (g.add_vertex p).1.vertices.length = g.vertices.length + 1 ∧
    (∀ u, u < g.vertices.length →
      (g.add_vertex p).1.vertices.get? u = g.vertices.get? u) ∧
    (g.add_vertex p).1.vertices.get? g.vertices.length = some p ∧
    (∀ u, u < g.vertices.length →
      (g.add_vertex p).1.vlayer.getD u none = g.vlayer.getD u none) ∧
    (g.add_vertex p).1.vlayer.getD g.vertices.length none = some 0 ∧
    (∀ u, (g.add_vertex p).1.edges.getD u [] = g.edges.getD u []) ∧
    (∀ j, j ≠ 0 → (g.add_vertex p).1.layers.getD j [] = g.layers.getD j []) ∧
    (g.add_vertex p).1.layers.getD 0 [] =
      g.layers.getD 0 [] ++ [g.vertices.length] ∧
    (g.add_vertex p).1.layers.length = g.layers.length := by
  obtain ⟨hid, hV, hVL, hE, hL⟩ := ladd_vertex_spec g p hin.len_l hin.len_vl
  have hfresh_notin : g.vertices.length ∉ g.layers.getD 0 [] := by
    intro hmem
    have := (hin.lay_mem 0 _ hmem).1
    omega
  have hlay0 : (g.add_vertex p).1.layers.getD 0 [] =
      g.layers.getD 0 [] ++ [g.vertices.length] := by
    rw [hL, list_getD_set, if_pos ⟨rfl, hin.len_l⟩]
    unfold insert_id
    rw [if_neg hfresh_notin]
  have hlayj : ∀ j, j ≠ 0 →
      (g.add_vertex p).1.layers.getD j [] = g.layers.getD j [] := by
    intro j hj
    rw [hL, list_getD_set, if_neg (by intro hc; exact hj hc.1)]
  have hlaylen : (g.add_vertex p).1.layers.length = g.layers.length := by
    rw [hL, List.length_set]
  have hvlold : ∀ u, u < g.vertices.length →
      (g.add_vertex p).1.vlayer.getD u none = g.vlayer.getD u none := by
    intro u hu
    rw [hVL, List.getD_append _ _ _ _ (by rw [hin.len_vl]; omega)]
  have hvlnew : (g.add_vertex p).1.vlayer.getD g.vertices.length none =
      some 0 := by
    rw [hVL, ← hin.len_vl, List.getD_append_right _ _ _ _ (le_refl _)]
    simp
  have hedges : ∀ u, (g.add_vertex p).1.edges.getD u [] =
      g.edges.getD u [] := by
    intro u
    rw [hE, getD_append_singleton_nil]
  have hvlen : (g.add_vertex p).1.vertices.length = g.vertices.length + 1 := by
    rw [hV, List.length_append, List.length_singleton]
  refine ⟨hid, ?_, hvlen,
    fun u hu => by rw [hV, List.get?_append hu],
    by rw [hV, List.get?_concat_length],
    hvlold, hvlnew, hedges, hlayj, hlay0, hlaylen⟩
  refine ⟨?_, ?_, ?_, ?_, ?_, ?_, ?_, ?_, ?_⟩
  · rw [hVL, hV]
    simp [hin.len_vl]
  · rw [hE, hV]
    simp [hin.len_e]
  · rw [hlaylen]
    exact hin.len_l
  · intro w hw
    rw [hvlen] at hw
    by_cases hwl : w = g.vertices.length
    · subst hwl
      refine ⟨0, hvlnew, by rw [hlaylen]; exact hin.len_l, ?_⟩
      rw [hlay0]
      simp
    · obtain ⟨l, hl, hlt, hmem⟩ := hin.vl_some w (by omega)
      refine ⟨l, by rw [hvlold w (by omega)]; exact hl,
        by rw [hlaylen]; exact hlt, ?_⟩
      by_cases hl0 : l = 0
      · subst hl0
        rw [hlay0]
        exact List.mem_append_left _ hmem
      · rw [hlayj l hl0]
        exact hmem
  · intro l w hmem
    by_cases hl0 : l = 0
    · subst hl0
      rw [hlay0] at hmem
      rcases List.mem_append.mp hmem with hmem | hmem
      · have := hin.lay_mem 0 w hmem
        exact ⟨by rw [hvlen]; omega,
          by rw [hvlold w this.1]; exact this.2⟩
      · rw [List.mem_singleton] at hmem
        subst hmem
        exact ⟨by rw [hvlen]; omega, hvlnew⟩
    · rw [hlayj l hl0] at hmem
      have := hin.lay_mem l w hmem
      exact ⟨by rw [hvlen]; omega, by rw [hvlold w this.1]; exact this.2⟩
  · intro l
    by_cases hl0 : l = 0
    · subst hl0
      rw [hlay0]
      refine List.Nodup.append (hin.lay_nodup 0) (List.nodup_singleton _) ?_
      intro a ha hb
      rw [List.mem_singleton] at hb
      subst hb
      exact hfresh_notin ha
    · rw [hlayj l hl0]
      exact hin.lay_nodup l
  · intro w x hx
    rw [hedges w] at hx
    have := hin.edges_tgt w x hx
    rw [hvlen]
    omega
  · intro w x hx lw lx hlw hlx
    rw [hedges w] at hx
    have hb := hin.edges_tgt w x hx
    rw [hvlold w hb.1] at hlw
    rw [hvlold x hb.2] at hlx
    exact hin.edge_layer w x hx lw lx hlw hlx
  · intro w x hx
    rw [hedges w] at hx
    have hb := hin.edges_tgt w x hx
    rw [hvlold x hb.2]
    exact hin.no_in_zero w x hx

end LayeredDigraph

namespace PatternGraph

open LayeredDigraph


theorem pg_fill_cons_some {N : Type} (g : LayeredDigraph N) (v : Nat) (n : N)
    (rest : List (Option Nat × N)) :
    pg_fill g ((some v, n) :: rest) =
      ((pg_fill g rest).1, v :: (pg_fill g rest).2) := by
  cases h : pg_fill g rest with
  | mk a b => simp [pg_fill, h]

theorem pg_fill_cons_none {N : Type} (g : LayeredDigraph N) (n : N)
    (rest : List (Option Nat × N)) :
    pg_fill g ((none, n) :: rest) =
      ((pg_fill (g.add_vertex n).1 rest).1,
        (g.add_vertex n).2 :: (pg_fill (g.add_vertex n).1 rest).2) := by
  cases h1 : g.add_vertex n with
  | mk gA vid =>
    cases h2 : pg_fill gA rest with
    | mk G ws => simp [pg_fill, h1, h2]

theorem fresh_of_sub :
    ∀ (vs : List (Option Nat)) (ws : List Nat), fresh_of vs ws ⊆ ws := by
  intro vs
  induction vs with
  | nil => intro ws; simp [fresh_of]
  | cons s vs ih =>
    intro ws
    cases s with
    | some v =>
      cases ws with
      | nil => simp [fresh_of]
      | cons w ws' =>
        show fresh_of vs ws' ⊆ w :: ws'
        exact (ih ws').trans (List.subset_cons_of_subset w (fun a ha => ha))
    | none =>
      cases ws with
      | nil => simp [fresh_of]
      | cons w ws' =>
        show w :: fresh_of vs ws' ⊆ w :: ws'
        exact List.cons_subset_cons w (ih ws')

/-- The gap-filling pass: the invariant survives, nothing existing changes
(payloads, layers, edges, layer lists except an appended tail of fresh
identifiers on layer 0), and the output identifiers satisfy `Bfacts`. -/
theorem pg_fill_spec {N : Type} :
    ∀ (vs : List (Option Nat)) (ns : List N) (g : LayeredDigraph N),
      LGInv g → vs.length = ns.length →
      LGInv (pg_fill g (vs.zip ns)).1 ∧
      (pg_fill g (vs.zip ns)).2.length = vs.length ∧
      g.vertices.length ≤ (pg_fill g (vs.zip ns)).1.vertices.length ∧
      (∀ u, u < g.vertices.length →
        (pg_fill g (vs.zip ns)).1.vertices.get? u = g.vertices.get? u) ∧
      (∀ u, u < g.vertices.length →
        (pg_fill g (vs.zip ns)).1.vlayer.getD u none =
          g.vlayer.getD u none) ∧
      (∀ u, (pg_fill g (vs.zip ns)).1.edges.getD u [] =
        g.edges.getD u []) ∧
      (∀ j, j ≠ 0 → (pg_fill g (vs.zip ns)).1.layers.getD j [] =
        g.layers.getD j []) ∧
      (pg_fill g (vs.zip ns)).1.layers.getD 0 [] =
        g.layers.getD 0 [] ++ fresh_of vs (pg_fill g (vs.zip ns)).2 ∧
      (pg_fill g (vs.zip ns)).1.layers.length = g.layers.length ∧
      Bfacts (pg_fill g (vs.zip ns)).1 vs ns (pg_fill g (vs.zip ns)).2
        g.vertices.length := by
  intro vs
  induction vs with
  | nil =>
    intro ns g hin hlen
    cases ns with
    | cons n ns => simp at hlen
    | nil =>
      refine ⟨hin, rfl, le_refl _, fun u _ => rfl, fun u _ => rfl,
        fun u => rfl, fun j _ => rfl, by simp [pg_fill, fresh_of], rfl,
        trivial⟩
  | cons s vs ih =>
    intro ns g hin hlen
    cases ns with
    | nil => simp at hlen
    | cons n ns' =>
      have hlen' : vs.length = ns'.length := by
        simp at hlen
        exact hlen
      cases s with
      | some v =>
        rw [List.zip_cons_cons, pg_fill_cons_some]
        obtain ⟨I1, I2, I3, I4, I5, I6, I7, I8, I9, I10⟩ :=
          ih ns' g hin hlen'
        exact ⟨I1, by simp [I2], I3, I4, I5, I6, I7, I8, I9, ⟨rfl, I10⟩⟩
      | none =>
        rw [List.zip_cons_cons, pg_fill_cons_none]
        obtain ⟨hid, hAinv, hAlen, hAget, hAgetnew, hAvl, hAvlnew, hAe, hAlj,
          hAl0, hAllen⟩ := ladd_vertex_lginv g n hin
        obtain ⟨I1, I2, I3, I4, I5, I6, I7, I8, I9, I10⟩ :=
          ih ns' (g.add_vertex n).1 hAinv hlen'
        have hfreshlt : g.vertices.length < (g.add_vertex n).1.vertices.length := by
          rw [hAlen]
          omega
        refine ⟨I1, by simp [I2], ?_, ?_, ?_, ?_, ?_, ?_, ?_, ?_⟩
        · calc g.vertices.length ≤ (g.add_vertex n).1.vertices.length := by
                rw [hAlen]; omega
            _ ≤ _ := I3
        · intro u hu
          rw [I4 u (by omega), hAget u hu]
        · intro u hu
          rw [I5 u (by omega), hAvl u hu]
        · intro u
          rw [I6 u, hAe u]
        · intro j hj
          rw [I7 j hj, hAlj j hj]
        · rw [I8, hAl0, hid, List.append_assoc]
          rfl
        · rw [I9, hAllen]
        · rw [hid]
          have hfl2 : g.vertices.length < (pg_fill (g.add_vertex n).1
              (vs.zip ns')).1.vertices.length :=
            Nat.lt_of_lt_of_le hfreshlt I3
          refine ⟨le_refl _, hfl2, ?_, ?_, ?_, ?_⟩
          · rw [I4 _ hfreshlt]
            exact hAgetnew
          · rw [I5 _ hfreshlt]
            exact hAvlnew
          · rw [I6 _, hAe _]
            exact List.getD_eq_default _ _ (by rw [hin.len_e])
          · rw [← hAlen]
            exact I10

end PatternGraph

namespace PatternGraph


theorem gpred_congr {N : Type} (beq : N → N → Bool)
    {g g' : LayeredDigraph N} (h : g'.vertices = g.vertices) (n : N) :
    gpred beq g' n = gpred beq g n := by
  funext vid
  unfold gpred
  rw [h]

theorem Cpre_stable {N : Type} (beq : N → N → Bool) :
    ∀ (vids : List Nat) (cs : List Bool) (ns2 : List N) (d : Nat)
      (g g' : LayeredDigraph N),
      g'.vertices = g.vertices →
      (∀ w ∈ vids, g'.edges.getD w [] = g.edges.getD w []) →
      (∀ w ∈ vids.tail, g'.vlayer.getD w none = g.vlayer.getD w none) →
      Cpre beq g vids cs ns2 d → Cpre beq g' vids cs ns2 d := by
  intro vids
  induction vids with
  | nil => intro cs ns2 d g g' _ _ _ _; trivial
  | cons w1 rest ih =>
    intro cs ns2 d g g' hV hE hVL hpre
    cases rest with
    | nil => trivial
    | cons w2 ws =>
      cases cs with
      | nil => exact absurd hpre (by intro h; exact h)
      | cons c cs' =>
        cases ns2 with
        | nil => exact absurd hpre (by intro h; exact h)
        | cons n2 ns2' =>
          obtain ⟨⟨F1, F2, F3, F4, F5⟩, hrec⟩ := hpre
          refine ⟨⟨by rw [hV]; exact F1,
            by rw [gpred_congr beq hV]; exact F2, ?_, ?_, ?_⟩, ?_⟩
          · rw [gpred_congr beq hV,
              hE w1 (List.mem_cons_self _ _)]
            exact F3
          · intro hc
            rw [hVL w2 (by simp)]
            exact F4 hc
          · intro hc
            rw [hVL w2 (by simp),
              hE w2 (List.mem_cons_of_mem _ (List.mem_cons_self _ _))]
            exact F5 hc
          · refine ih cs' ns2' (d + 1) g g' hV ?_ ?_ hrec
            · intro w hw
              exact hE w (List.mem_cons_of_mem _ hw)
            · intro w hw
              refine hVL w ?_
              show w ∈ w2 :: ws
              exact List.mem_cons_of_mem _ hw

theorem pg_connect_cons_true {N : Type} (g : LayeredDigraph N)
    (v1 v2 : Nat) (vs : List Nat) (cs : List Bool) :
    pg_connect g (v1 :: v2 :: vs) (true :: cs) =
      pg_connect g (v2 :: vs) cs := by
  show (do
    let g1 ← (pure g : Except String (LayeredDigraph N))
    pg_connect g1 (v2 :: vs) cs) = _
  rfl

theorem pg_connect_cons_false {N : Type} {g g' : LayeredDigraph N}
    {v1 v2 : Nat} (vs : List Nat) (cs : List Bool)
    (h : g.add_edge v1 v2 = .ok g') :
    pg_connect g (v1 :: v2 :: vs) (false :: cs) =
      pg_connect g' (v2 :: vs) cs := by
  show (do
    let g1 ← g.add_edge v1 v2
    pg_connect g1 (v2 :: vs) cs) = _
  rw [h]
  rfl

end PatternGraph

namespace PatternGraph

open LayeredDigraph

/-- The edge-completion pass: under `Cpre` it runs without error, keeps the
invariant, only touches the edges of the sources and the layers of the
targets, establishes `Cpost` (every pair connected, target the first
equivalent child one layer down), and thins layer list 0 to exactly the
vertices still on layer 0. -/
theorem pg_connect_spec {N : Type} (beq : N → N → Bool) :
    ∀ (vids : List Nat) (cs : List Bool) (ns2 : List N) (d : Nat)
      (g : LayeredDigraph N),
      LGInv g →
      Cpre beq g vids cs ns2 d →
      vids.Nodup →
      (∀ w ws, vids = w :: ws →
        w < g.vertices.length ∧ g.vlayer.getD w none = some d) →
      ∃ g2, pg_connect g vids cs = .ok g2 ∧ LGInv g2 ∧
        g2.vertices = g.vertices ∧
        (∀ u, u ∉ vids.tail →
          g2.vlayer.getD u none = g.vlayer.getD u none) ∧
        (∀ u, u ∉ vids.dropLast →
          g2.edges.getD u [] = g.edges.getD u []) ∧
        Cpost beq g2 vids ns2 d ∧
        g2.layers.getD 0 [] = (g.layers.getD 0 []).filter
          (fun x => decide (g2.vlayer.getD x none = some 0)) := by
  intro vids
  induction vids with
  | nil =>
    intro cs ns2 d g hin _ _ _
    refine ⟨g, rfl, hin, rfl, fun u _ => rfl, fun u _ => rfl, trivial, ?_⟩
    symm
    rw [List.filter_eq_self]
    intro a ha
    rw [(hin.lay_mem 0 a ha).2]
    simp
  | cons w1 rest ih =>
    intro cs ns2 d g hin hpre hnd hhead
    cases rest with
    | nil =>
      refine ⟨g, rfl, hin, rfl, fun u _ => rfl, fun u _ => rfl, trivial, ?_⟩
      symm
      rw [List.filter_eq_self]
      intro a ha
      rw [(hin.lay_mem 0 a ha).2]
      simp
    | cons w2 ws =>
      cases cs with
      | nil => exact absurd hpre (by intro h; exact h)
      | cons c cs' =>
        cases ns2 with
        | nil => exact absurd hpre (by intro h; exact h)
        | cons n2 ns2' =>
          obtain ⟨⟨F1, F2, F3, F4, F5⟩, hrec⟩ := hpre
          obtain ⟨hw1lt, hw1lay⟩ := hhead w1 (w2 :: ws) rfl
          have hw1nin : w1 ∉ w2 :: ws := (List.nodup_cons.mp hnd).1
          have hndrest : (w2 :: ws).Nodup := (List.nodup_cons.mp hnd).2
          have hw2nin : w2 ∉ ws := (List.nodup_cons.mp hndrest).1
          have hdlsub : (w2 :: ws).dropLast ⊆ w2 :: ws :=
            List.dropLast_subset _
          cases c with
          | true =>
            obtain ⟨g2, hrun, hinv2, hV2, hVL2, hE2, hpost2, hfil2⟩ :=
              ih cs' ns2' (d + 1) g hin hrec hndrest
                (fun w ws' hw => by
                  injection hw with hw1 hw2
                  subst hw1
                  exact ⟨F1, F4 rfl⟩)
            have hrunfull : pg_connect g (w1 :: w2 :: ws) (true :: cs') =
                .ok g2 := by
              rw [pg_connect_cons_true]
              exact hrun
            refine ⟨g2, hrunfull, hinv2, hV2, ?_, ?_, ?_, hfil2⟩
            · intro u hu
              refine hVL2 u ?_
              intro hc
              exact hu (List.mem_cons_of_mem _ hc)
            · intro u hu
              rw [List.dropLast_cons₂] at hu
              refine hE2 u ?_
              intro hc
              exact hu (List.mem_cons_of_mem _ hc)
            · refine ⟨?_, ?_, ?_, hpost2⟩
              · have hw1ndl : w1 ∉ (w2 :: ws).dropLast :=
                  fun hc => hw1nin (hdlsub hc)
                rw [hE2 w1 hw1ndl, gpred_congr beq hV2]
                rw [F3]
                rfl
              · rw [hVL2 w2 hw2nin]
                exact F4 rfl
              · rw [hV2]
                exact F1
          | false =>
            have hne12 : w1 ≠ w2 := by
              intro hc
              exact hw1nin (hc ▸ List.mem_cons_self _ _)
            have hvnotin : w2 ∉ g.edges.getD w1 [] := by
              intro hc
              have := List.find?_eq_none.mp (by rw [F3]; rfl) w2 hc
              exact this F2
            obtain ⟨gn, hadd, hinvn, hVn, hVLn, hEoff, hEu, hLlen, hL0a,
              hL0b⟩ := add_edge_connect_spec g w1 w2 hin hw1lt F1 hne12 d
                hw1lay hvnotin (F5 rfl)
            have hvlw : ∀ u, gn.vlayer.getD u none =
                if u = w2 then some (d + 1) else g.vlayer.getD u none := by
              intro u
              rw [hVLn, list_getD_set]
              by_cases hu : u = w2
              · subst hu
                rw [if_pos ⟨rfl, by rw [hin.len_vl]; exact F1⟩, if_pos rfl]
              · rw [if_neg (by intro hc; exact hu hc.1), if_neg hu]
            have hpren : Cpre beq gn (w2 :: ws) cs' ns2' (d + 1) := by
              refine Cpre_stable beq _ _ _ _ g gn hVn ?_ ?_ hrec
              · intro w hw
                refine hEoff w ?_
                intro hc
                subst hc
                exact hw1nin hw
              · intro w hw
                have hwne : w ≠ w2 := by
                  intro hc
                  subst hc
                  exact hw2nin hw
                rw [hvlw w, if_neg hwne]
            obtain ⟨g2, hrun, hinv2, hV2, hVL2, hE2, hpost2, hfil2⟩ :=
              ih cs' ns2' (d + 1) gn hinvn hpren hndrest
                (fun w ws' hw => by
                  injection hw with hw1' hw2'
                  subst hw1'
                  refine ⟨by rw [hVn]; exact F1, ?_⟩
                  rw [hvlw w2, if_pos rfl])
            have hrunfull : pg_connect g (w1 :: w2 :: ws) (false :: cs') =
                .ok g2 := by
              rw [pg_connect_cons_false ws cs' hadd]
              exact hrun
            have hVfin : g2.vertices = g.vertices := hV2.trans hVn
            have hvl_fin : ∀ u, u ∉ w2 :: ws →
                g2.vlayer.getD u none = g.vlayer.getD u none := by
              intro u hu
              have hu2 : u ∉ ws := fun hc => hu (List.mem_cons_of_mem _ hc)
              have huw2 : u ≠ w2 := by
                intro hc
                subst hc
                exact hu (List.mem_cons_self _ _)
              rw [hVL2 u hu2, hvlw u, if_neg huw2]
            have hvlw2fin : g2.vlayer.getD w2 none = some (d + 1) := by
              rw [hVL2 w2 hw2nin, hvlw w2, if_pos rfl]
            refine ⟨g2, hrunfull, hinv2, hVfin, hvl_fin, ?_, ?_, ?_⟩
            · intro u hu
              rw [List.dropLast_cons₂] at hu
              have hu1 : u ≠ w1 := by
                intro hc
                subst hc
                exact hu (List.mem_cons_self _ _)
              have hu2 : u ∉ (w2 :: ws).dropLast :=
                fun hc => hu (List.mem_cons_of_mem _ hc)
              rw [hE2 u hu2, hEoff u hu1]
            · refine ⟨?_, hvlw2fin, by rw [hVfin]; exact F1, hpost2⟩
              have hw1ndl : w1 ∉ (w2 :: ws).dropLast :=
                fun hc => hw1nin (hdlsub hc)
              rw [hE2 w1 hw1ndl, hEu, gpred_congr beq hVfin]
              rw [List.find?_append, F3]
              show Option.none.or (List.find? (gpred beq g n2) [w2]) = _
              rw [List.find?_cons, F2]
              rfl
            · rcases F5 rfl with hv1 | ⟨hv0, _⟩
              · rw [hfil2, hL0b hv1]
              · rw [hfil2, hL0a hv0,
                  (hin.lay_nodup 0).erase_eq_filter w2,
                  List.filter_filter]
                refine List.filter_congr ?_
                intro x hx
                by_cases hxw : x = w2
                · subst hxw
                  rw [hvlw2fin]
                  simp
                · simp [hxw]

end PatternGraph

theorem gfind_congr {α : Type} (p q : α → Bool) :
    ∀ (l : List α), (∀ x ∈ l, p x = q x) → l.find? p = l.find? q := by
  intro l
  induction l with
  | nil => intro _; rfl
  | cons a l ih =>
    intro h
    rw [List.find?_cons, List.find?_cons, h a (List.mem_cons_self a l)]
    cases q a with
    | true => rfl
    | false => exact ih (fun x hx => h x (List.mem_cons_of_mem a hx))

namespace PatternGraph

open LayeredDigraph

/-- A vertex on the deepest allocated layer has no outgoing edges. -/
theorem outgoing_empty_at_max {N : Type} (g : LayeredDigraph N)
    (hin : LGInv g) {v d : Nat} (hvl : g.vlayer.getD v none = some d)
    (hguard : g.layers.length ≤ d + 1) : g.edges.getD v [] = [] := by
  rw [List.eq_nil_iff_forall_not_mem]
  intro x hx
  have hb := hin.edges_tgt v x hx
  obtain ⟨lx, hlx, hlxlt, _⟩ := hin.vl_some x hb.2
  have := hin.edge_layer v x hx d lx hvl hlx
  omega

/-- What a successful `gstep` match guarantees: the vertex exists, sits on
layer `depth`, and its payload is equivalent to the probed node. -/
theorem gstep_some_facts {N : Type} (beq : N → N → Bool)
    (g : LayeredDigraph N) (hin : LGInv g) (n : N) (d : Nat)
    (par : Option Nat)
    (hpar : ∀ p, par = some p →
      ∃ dp, g.vlayer.getD p none = some dp ∧ dp + 1 = d)
    {v : Nat} (h : gstep beq g n d par = some v) :
    v < g.vertices.length ∧ g.vlayer.getD v none = some d ∧
    gpred beq g n v = true ∧ d < g.layers.length := by
  unfold gstep at h
  split_ifs at h with hg
  have hd : d < g.layers.length := by
    unfold max_depth at hg
    omega
  have hlayer : first_match beq g n (g.get_layer d) = some v →
      v < g.vertices.length ∧ g.vlayer.getD v none = some d ∧
      gpred beq g n v = true ∧ d < g.layers.length := by
    intro hfm
    rw [first_match_eq_find] at hfm
    have hmem := List.mem_of_find?_eq_some hfm
    have hp := List.find?_some hfm
    have := hin.lay_mem d v hmem
    exact ⟨this.1, this.2, hp, hd⟩
  cases par with
  | none => exact hlayer h
  | some p =>
    obtain ⟨dp, hdp, hdp1⟩ := hpar p rfl
    have h2 : (match first_match beq g n (g.outgoing p) with
               | some m => some m
               | none => first_match beq g n (g.get_layer d)) = some v := h
    cases hfm : first_match beq g n (g.outgoing p) with
    | none =>
      rw [hfm] at h2
      exact hlayer h2
    | some m =>
      rw [hfm] at h2
      injection h2 with h2
      subst h2
      rw [first_match_eq_find] at hfm
      have hmem := List.mem_of_find?_eq_some hfm
      have hp := List.find?_some hfm
      have hb := hin.edges_tgt p m hmem
      obtain ⟨lv, hlv, hlvlt, _⟩ := hin.vl_some m hb.2
      have := hin.edge_layer p m hmem dp lv hdp hlv
      have hlvd : lv = d := by omega
      subst hlvd
      exact ⟨hb.2, hlv, hp, hlvlt⟩

theorem check_connection_some {N : Type} (pg : PatternGraph N) (a b : Nat) :
    check_connection pg (some a) (some b) =
      decide (b ∈ pg.graph.outgoing a) := rfl

theorem check_connection_none_l {N : Type} (pg : PatternGraph N)
    (m : Option Nat) : check_connection pg none m = false := by
  cases m <;> rfl

theorem check_connection_none_r {N : Type} (pg : PatternGraph N)
    (m : Option Nat) : check_connection pg m none = false := by
  cases m <;> rfl

end PatternGraph

namespace PatternGraph

open LayeredDigraph

theorem gtrav_cons {N : Type} (beq : N → N → Bool) (g : LayeredDigraph N)
    (n : N) (ns : List N) (d : Nat) (par : Option Nat) :
    gtrav beq g (n :: ns) d par =
      gstep beq g n d par ::
        gtrav beq g ns (d + 1) (gstep beq g n d par) := rfl


theorem gconns_eq {N : Type} (pg : PatternGraph N) :
    ∀ vs : List (Option Nat),
      gconns pg vs = (vs.zip vs.tail).map
        (fun p => check_connection pg p.1 p.2) := by
  intro vs
  induction vs with
  | nil => rfl
  | cons m1 rest ih =>
    cases rest with
    | nil => rfl
    | cons m2 ms =>
      show check_connection pg m1 m2 :: gconns pg (m2 :: ms) = _
      rw [ih]
      rfl

/-- The glue between the three passes of `update`: the traversal output, the
fill output and the recorded connection flags satisfy the edge-completion
pre-condition, the chosen identifiers are pairwise distinct, and every one is
either an existing vertex at its depth or a fresh identifier. -/
theorem build_cpre {N : Type} (beq : N → N → Bool) (g g1 : LayeredDigraph N)
    (pg : PatternGraph N) (hpg : pg.graph = g) (hin : LGInv g)
    (hg1V : ∀ u, u < g.vertices.length →
      g1.vertices.get? u = g.vertices.get? u)
    (hg1VL : ∀ u, u < g.vertices.length →
      g1.vlayer.getD u none = g.vlayer.getD u none)
    (hg1E : ∀ u, g1.edges.getD u [] = g.edges.getD u [])
    (hglen : g.vertices.length ≤ g1.vertices.length) :
    ∀ (ns : List N) (d : Nat) (par : Option Nat) (vids : List Nat)
      (lo : Nat),
      (∀ n ∈ ns, beq n n = true) →
      (∀ p, par = some p →
        ∃ dp, g.vlayer.getD p none = some dp ∧ dp + 1 = d) →
      g.vertices.length ≤ lo →
      Bfacts g1 (gtrav beq g ns d par) ns vids lo →
      Cpre beq g1 vids (gconns pg (gtrav beq g ns d par)) ns.tail d ∧
      vids.Nodup ∧
      (∀ w ∈ vids,
        (∃ k, d ≤ k ∧ g1.vlayer.getD w none = some k ∧
          w < g.vertices.length) ∨ lo ≤ w) ∧
      (∀ w ∈ vids.tail,
        (∃ k, d + 1 ≤ k ∧ g1.vlayer.getD w none = some k ∧
          w < g.vertices.length) ∨ lo ≤ w) := by
  intro ns
  induction ns with
  | nil =>
    intro d par vids lo _ _ _ hB
    cases vids with
    | nil => exact ⟨trivial, List.nodup_nil, by simp, by simp⟩
    | cons w vids' => exact absurd hB (by intro hh; exact hh)
  | cons n1 ns1 ih =>
    intro d par vids lo hrefl hpar hlo hB
    rw [gtrav_cons] at hB
    cases vids with
    | nil =>
      cases hm1 : gstep beq g n1 d par <;> rw [hm1] at hB <;>
        exact absurd hB (by intro hh; exact hh)
    | cons w1 vids1 =>
      have hrefl1 : ∀ n ∈ ns1, beq n n = true :=
        fun n hn => hrefl n (List.mem_cons_of_mem _ hn)
      cases hm1 : gstep beq g n1 d par with
      | some v1 =>
        rw [hm1] at hB
        obtain ⟨hw1, hB1⟩ := hB
        subst hw1
        obtain ⟨hv1lt, hv1lay, hv1pred, hdlt⟩ :=
          gstep_some_facts beq g hin n1 d par hpar hm1
        have hpar1 : ∀ p, (some w1 : Option Nat) = some p →
            ∃ dp, g.vlayer.getD p none = some dp ∧ dp + 1 = d + 1 := by
          intro p hp
          injection hp with hp
          subst hp
          exact ⟨d, hv1lay, rfl⟩
        obtain ⟨ihC, ihN, ihM, _⟩ :=
          ih (d + 1) (some w1) vids1 lo hrefl1 hpar1 hlo hB1
        have hv1vl1 : g1.vlayer.getD w1 none = some d := by
          rw [hg1VL w1 hv1lt]
          exact hv1lay
        have hmem1 : ∀ w ∈ vids1,
            (∃ k, d ≤ k ∧ g1.vlayer.getD w none = some k ∧
              w < g.vertices.length) ∨ lo ≤ w := by
          intro w hw
          rcases ihM w hw with ⟨k, hk, hkl, hklt⟩ | hlow
          · exact Or.inl ⟨k, by omega, hkl, hklt⟩
          · exact Or.inr hlow
        have hnd : (w1 :: vids1).Nodup := by
          rw [List.nodup_cons]
          refine ⟨?_, ihN⟩
          intro hmem
          rcases ihM w1 hmem with ⟨k, hk, hkl, _⟩ | hlow
          · rw [hv1vl1] at hkl
            injection hkl with hkl
            omega
          · omega
        refine ⟨?_, hnd, ?_, ?_⟩
        · -- the Cpre conclusion
          rw [gtrav_cons, hm1]
          cases ns1 with
          | nil =>
            cases vids1 with
            | nil => exact trivial
            | cons a b => exact absurd hB1 (by intro hh; exact hh)
          | cons n2 ns2 =>
            rw [gtrav_cons] at hB1 ihC ⊢
            cases vids1 with
            | nil =>
              cases hm2 : gstep beq g n2 (d + 1) (some w1) <;>
                rw [hm2] at hB1 <;>
                exact absurd hB1 (by intro hh; exact hh)
            | cons w2 vids2 =>
              cases hm2 : gstep beq g n2 (d + 1) (some w1) with
              | some v2 =>
                rw [hm2] at hB1 ihC
                obtain ⟨hw2, _⟩ := hB1
                subst hw2
                obtain ⟨hv2lt, hv2lay, hv2pred, _⟩ :=
                  gstep_some_facts beq g hin n2 (d + 1) (some w1) hpar1 hm2
                show (_ ∧ _) ∧ _
                refine ⟨⟨by omega, ?_, ?_, ?_, ?_⟩, ihC⟩
                · show gpred beq g1 n2 w2 = true
                  unfold gpred
                  rw [hg1V w2 hv2lt]
                  exact hv2pred
                · -- the find? flag equation
                  rw [hg1E w1]
                  rw [gfind_congr (gpred beq g1 n2) (gpred beq g n2) _
                    (fun x hx => by
                      unfold gpred
                      rw [hg1V x (hin.edges_tgt w1 x hx).2])]
                  cases hfm : first_match beq g n2 (g.outgoing w1) with
                  | some m =>
                    have hm2' : gstep beq g n2 (d + 1) (some w1) = some m := by
                      rw [show gstep beq g n2 (d + 1) (some w1) =
                          (if d + 1 ≥ g.max_depth then none
                           else
                             match first_match beq g n2 (g.outgoing w1) with
                             | some m => some m
                             | none =>
                               first_match beq g n2 (g.get_layer (d + 1)))
                          from rfl]
                      rw [if_neg (by
                        show ¬ (d + 1 ≥ g.max_depth)
                        unfold max_depth
                        intro hguard
                        rw [show g.outgoing w1 = g.edges.getD w1 []
                            from rfl,
                          outgoing_empty_at_max g hin hv1lay hguard] at hfm
                        rw [first_match_eq_find] at hfm
                        exact absurd hfm (by simp))]
                      rw [hfm]
                    rw [hm2] at hm2'
                    injection hm2' with hm2'
                    subst hm2'
                    rw [check_connection_some, hpg]
                    rw [first_match_eq_find] at hfm
                    rw [if_pos (by
                      rw [decide_eq_true_eq]
                      exact List.mem_of_find?_eq_some hfm)]
                    exact hfm
                  | none =>
                    rw [first_match_eq_find] at hfm
                    rw [check_connection_some, hpg]
                    rw [if_neg (by
                      rw [decide_eq_true_eq]
                      intro hmem
                      have := List.find?_eq_none.mp hfm w2 hmem
                      exact this hv2pred)]
                    exact hfm
                · intro _
                  rw [hg1VL w2 hv2lt]
                  exact hv2lay
                · intro _
                  refine Or.inl ?_
                  rw [hg1VL w2 hv2lt]
                  exact hv2lay
              | none =>
                rw [hm2] at hB1 ihC
                obtain ⟨hlo2, hw2lt, hget2, hvl02, hedge2, _⟩ := hB1
                show (_ ∧ _) ∧ _
                refine ⟨⟨hw2lt, ?_, ?_, ?_, ?_⟩, ihC⟩
                · show gpred beq g1 n2 w2 = true
                  unfold gpred
                  rw [hget2]
                  exact hrefl n2 (List.mem_cons_of_mem _
                    (List.mem_cons_self _ _))
                · rw [check_connection_none_r]
                  rw [hg1E w1]
                  rw [gfind_congr (gpred beq g1 n2) (gpred beq g n2) _
                    (fun x hx => by
                      unfold gpred
                      rw [hg1V x (hin.edges_tgt w1 x hx).2])]
                  have hfm : first_match beq g n2 (g.outgoing w1) = none := by
                    by_cases hguard : d + 1 ≥ g.max_depth
                    · rw [show g.outgoing w1 = g.edges.getD w1 [] from rfl,
                        outgoing_empty_at_max g hin hv1lay hguard]
                      rfl
                    · have h2 : (match first_match beq g n2 (g.outgoing w1)
                          with
                          | some m => some m
                          | none => first_match beq g n2 (g.get_layer (d+1)))
                            = none := by
                        rw [← hm2]
                        unfold gstep
                        rw [if_neg hguard]
                      cases hfm2 : first_match beq g n2 (g.outgoing w1) with
                      | none => rfl
                      | some m =>
                        rw [hfm2] at h2
                        exact absurd h2 (by simp)
                  rw [first_match_eq_find] at hfm
                  exact hfm
                · intro hc
                  exact absurd hc (by rw [check_connection_none_r]; simp)
                · intro _
                  exact Or.inr ⟨hvl02, hedge2⟩
        · intro w hw
          rcases List.mem_cons.mp hw with rfl | hw1
          · exact Or.inl ⟨d, le_refl d, hv1vl1, hv1lt⟩
          · exact hmem1 w hw1
        · intro w hw
          exact ihM w hw
      | none =>
        rw [hm1] at hB
        obtain ⟨hlo1, hw1lt, hget1, hvl01, hedge1, hB1⟩ := hB
        have hpar1 : ∀ p, (none : Option Nat) = some p →
            ∃ dp, g.vlayer.getD p none = some dp ∧ dp + 1 = d + 1 := by
          intro p hp
          exact absurd hp (by simp)
        obtain ⟨ihC, ihN, ihM, _⟩ :=
          ih (d + 1) none vids1 (w1 + 1) hrefl1 hpar1 (by omega) hB1
        have hmemf : ∀ w ∈ vids1,
            (∃ k, d ≤ k ∧ g1.vlayer.getD w none = some k ∧
              w < g.vertices.length) ∨ lo ≤ w := by
          intro w hw
          rcases ihM w hw with ⟨k, hk, hkl, hklt⟩ | hlow
          · exact Or.inl ⟨k, by omega, hkl, hklt⟩
          · exact Or.inr (by omega)
        have hnd : (w1 :: vids1).Nodup := by
          rw [List.nodup_cons]
          refine ⟨?_, ihN⟩
          intro hmem
          rcases ihM w1 hmem with ⟨k, hk, hkl, hklt⟩ | hlow
          · omega
          · omega
        refine ⟨?_, hnd, ?_, ?_⟩
        · rw [gtrav_cons, hm1]
          cases ns1 with
          | nil =>
            cases vids1 with
            | nil => exact trivial
            | cons a b => exact absurd hB1 (by intro hh; exact hh)
          | cons n2 ns2 =>
            rw [gtrav_cons] at hB1 ihC ⊢
            cases vids1 with
            | nil =>
              cases hm2 : gstep beq g n2 (d + 1) none <;>
                rw [hm2] at hB1 <;>
                exact absurd hB1 (by intro hh; exact hh)
            | cons w2 vids2 =>
              have hedgenil : g1.edges.getD w1 [] = [] := by
                rw [hg1E w1]
                exact List.getD_eq_default _ _ (by rw [hin.len_e]; omega)
              cases hm2 : gstep beq g n2 (d + 1) none with
              | some v2 =>
                rw [hm2] at hB1 ihC
                obtain ⟨hw2, _⟩ := hB1
                subst hw2
                obtain ⟨hv2lt, hv2lay, hv2pred, _⟩ :=
                  gstep_some_facts beq g hin n2 (d + 1) none hpar1 hm2
                show (_ ∧ _) ∧ _
                refine ⟨⟨by omega, ?_, ?_, ?_, ?_⟩, ihC⟩
                · show gpred beq g1 n2 w2 = true
                  unfold gpred
                  rw [hg1V w2 hv2lt]
                  exact hv2pred
                · rw [check_connection_none_l, hedgenil]
                  rfl
                · intro hc
                  exact absurd hc (by rw [check_connection_none_l]; simp)
                · intro _
                  refine Or.inl ?_
                  rw [hg1VL w2 hv2lt]
                  exact hv2lay
              | none =>
                rw [hm2] at hB1 ihC
                obtain ⟨hlo2, hw2lt, hget2, hvl02, hedge2, _⟩ := hB1
                show (_ ∧ _) ∧ _
                refine ⟨⟨hw2lt, ?_, ?_, ?_, ?_⟩, ihC⟩
                · show gpred beq g1 n2 w2 = true
                  unfold gpred
                  rw [hget2]
                  exact hrefl n2 (List.mem_cons_of_mem _
                    (List.mem_cons_self _ _))
                · rw [check_connection_none_l, hedgenil]
                  rfl
                · intro hc
                  exact absurd hc (by rw [check_connection_none_l]; simp)
                · intro _
                  exact Or.inr ⟨hvl02, hedge2⟩
        · intro w hw
          rcases List.mem_cons.mp hw with rfl | hw1
          · exact Or.inr hlo1
          · exact hmemf w hw1
        · intro w hw
          rcases ihM w hw with ⟨k, hk, hkl, hklt⟩ | hlow
          · exact Or.inl ⟨k, hk, hkl, hklt⟩
          · exact Or.inr (by omega)

end PatternGraph

namespace PatternGraph

open LayeredDigraph

theorem gstep_parent_eq {N : Type} (beq : N → N → Bool)
    (g : LayeredDigraph N) (n : N) (d : Nat) (p : Nat) :
    gstep beq g n d (some p) =
      (if d ≥ g.max_depth then none
       else
         match first_match beq g n (g.outgoing p) with
         | some m => some m
         | none => first_match beq g n (g.get_layer d)) := rfl

theorem gstep_root_eq {N : Type} (beq : N → N → Bool)
    (g : LayeredDigraph N) (n : N) (d : Nat) :
    gstep beq g n d none =
      (if d ≥ g.max_depth then none
       else first_match beq g n (g.get_layer d)) := rfl

theorem gtrav_length {N : Type} (beq : N → N → Bool) (g : LayeredDigraph N) :
    ∀ (ns : List N) (d : Nat) (par : Option Nat),
      (gtrav beq g ns d par).length = ns.length := by
  intro ns
  induction ns with
  | nil => intro d par; rfl
  | cons n ns ih =>
    intro d par
    rw [gtrav_cons, List.length_cons, ih]
    rfl

theorem Cpost_tail {N : Type} (beq : N → N → Bool) (g2 : LayeredDigraph N) :
    ∀ (vids : List Nat) (ns : List N) (d : Nat),
      Cpost beq g2 vids ns d → ns.length + 1 = vids.length →
      ∀ w ∈ vids.tail, ∃ k, d + 1 ≤ k ∧ g2.vlayer.getD w none = some k := by
  intro vids
  induction vids with
  | nil => intro ns d _ _ w hw; simp at hw
  | cons w1 rest ih =>
    intro ns d hpost hlen w hw
    cases rest with
    | nil => simp at hw
    | cons w2 ws =>
      cases ns with
      | nil => simp at hlen
      | cons n2 ns2 =>
        obtain ⟨hfind, hlay, hlt, hrec⟩ := hpost
        rcases List.mem_cons.mp hw with rfl | hw2
        · exact ⟨d + 1, le_refl _, hlay⟩
        · obtain ⟨k, hk, hkl⟩ := ih ns2 (d + 1) hrec (by
            simp at hlen ⊢
            omega) w hw2
          exact ⟨k, by omega, hkl⟩

theorem gtrav_from {N : Type} (beq : N → N → Bool) (g2 : LayeredDigraph N)
    (hin : LGInv g2) :
    ∀ (ns : List N) (w1 : Nat) (ws : List Nat) (d : Nat),
      ns.length = ws.length →
      Cpost beq g2 (w1 :: ws) ns d →
      gtrav beq g2 ns (d + 1) (some w1) = ws.map some := by
  intro ns
  induction ns with
  | nil =>
    intro w1 ws d hlen _
    cases ws with
    | nil => rfl
    | cons a b => simp at hlen
  | cons n2 ns2 ih =>
    intro w1 ws d hlen hpost
    cases ws with
    | nil => simp at hlen
    | cons w2 ws2 =>
      obtain ⟨hfind, hlay, hlt, hrec⟩ := hpost
      have hstep : gstep beq g2 n2 (d + 1) (some w1) = some w2 := by
        rw [gstep_parent_eq]
        rw [if_neg (by
          show ¬ (d + 1 ≥ g2.max_depth)
          have := (lginv_layer_bound hin hlt hlay).1
          unfold max_depth
          omega)]
        rw [first_match_eq_find]
        show (match List.find? (gpred beq g2 n2) (g2.outgoing w1) with
              | some m => some m
              | none => first_match beq g2 n2 (g2.get_layer (d + 1)))
            = some w2
        rw [show g2.outgoing w1 = g2.edges.getD w1 [] from rfl, hfind]
      rw [gtrav_cons, hstep,
        ih w2 ws2 (d + 1) (by simp at hlen ⊢; omega) hrec]
      rfl

theorem conns_post_true {N : Type} (beq : N → N → Bool)
    (pg' : PatternGraph N) :
    ∀ (vids : List Nat) (ns : List N) (d : Nat),
      Cpost beq pg'.graph vids ns d → ns.length + 1 = vids.length →
      (((vids.map some).zip ((vids.map some).tail)).map
        (fun p => check_connection pg' p.1 p.2)).all id = true := by
  intro vids
  induction vids with
  | nil => intro ns d _ _; rfl
  | cons w1 rest ih =>
    intro ns d hpost hlen
    cases rest with
    | nil => rfl
    | cons w2 ws =>
      cases ns with
      | nil => simp at hlen
      | cons n2 ns2 =>
        obtain ⟨hfind, hlay, hlt, hrec⟩ := hpost
        show ((((some w1 :: some w2 :: ws.map some) :
            List (Option Nat)).zip (some w2 :: ws.map some)).map
              (fun p => check_connection pg' p.1 p.2)).all id = true
        have hc : check_connection pg' (some w1) (some w2) = true := by
          rw [check_connection_some, decide_eq_true_eq]
          show w2 ∈ pg'.graph.edges.getD w1 []
          exact List.mem_of_find?_eq_some hfind
        simp only [List.zip_cons_cons, List.map_cons, List.all_cons, id, hc,
          Bool.true_and]
        exact ih ns2 (d + 1) hrec (by simp at hlen ⊢; omega)

end PatternGraph

namespace PatternGraph

open LayeredDigraph

theorem build_head {N : Type} (beq : N → N → Bool)
    (g g1 : LayeredDigraph N) (hin : LGInv g)
    (hg1VL : ∀ u, u < g.vertices.length →
      g1.vlayer.getD u none = g.vlayer.getD u none)
    (hglen : g.vertices.length ≤ g1.vertices.length) :
    ∀ (ns : List N) (vids : List Nat) (w : Nat) (ws' : List Nat) (lo : Nat),
      Bfacts g1 (gtrav beq g ns 0 none) ns vids lo →
      vids = w :: ws' →
      w < g1.vertices.length ∧ g1.vlayer.getD w none = some 0 := by
  intro ns vids w ws' lo hB hv
  subst hv
  cases ns with
  | nil => exact absurd hB (by intro hh; exact hh)
  | cons n1 ns1 =>
    rw [gtrav_cons] at hB
    cases hm1 : gstep beq g n1 0 none with
    | some v1 =>
      rw [hm1] at hB
      obtain ⟨hw, _⟩ := hB
      subst hw
      obtain ⟨hlt, hlay, _, _⟩ := gstep_some_facts beq g hin n1 0 none
        (fun p hp => absurd hp (by simp)) hm1
      exact ⟨by omega, by rw [hg1VL _ hlt]; exact hlay⟩
    | none =>
      rw [hm1] at hB
      obtain ⟨_, hlt, _, hvl, _, _⟩ := hB
      exact ⟨hlt, hvl⟩

/-- After the fill pass, the edge-completion pass succeeds, and the re-run
traversal on the final graph matches exactly the identifiers `update`
returned. -/
theorem retraversal_spec {N : Type} (beq : N → N → Bool)
    (g g1 : LayeredDigraph N) (pg : PatternGraph N) (hpg : pg.graph = g)
    (hin : LGInv g) (hinv1 : LGInv g1) :
    ∀ (ns : List N) (vids : List Nat),
      (∀ n ∈ ns, beq n n = true) →
      vids.length = (gtrav beq g ns 0 none).length →
      g.vertices.length ≤ g1.vertices.length →
      (∀ u, u < g.vertices.length →
        g1.vertices.get? u = g.vertices.get? u) →
      (∀ u, u < g.vertices.length →
        g1.vlayer.getD u none = g.vlayer.getD u none) →
      (∀ u, g1.edges.getD u [] = g.edges.getD u []) →
      g1.layers.getD 0 [] = g.layers.getD 0 [] ++
        fresh_of (gtrav beq g ns 0 none) vids →
      Bfacts g1 (gtrav beq g ns 0 none) ns vids g.vertices.length →
      ∃ g2, pg_connect g1 vids (gconns pg (gtrav beq g ns 0 none)) =
          .ok g2 ∧
        LGInv g2 ∧ g2.vertices = g1.vertices ∧
        gtrav beq g2 ns 0 none = vids.map some ∧
        Cpost beq g2 vids ns.tail 0 ∧
        vids.length = ns.length := by
  intro ns vids hrefl hF2 hF3 hF4 hF5 hF6 hF8 hBf
  obtain ⟨hCpre, hNd, hMem, hTail⟩ := build_cpre beq g g1 pg hpg hin hF4 hF5
    hF6 hF3 ns 0 none vids g.vertices.length hrefl
    (fun p hp => absurd hp (by simp)) (le_refl _) hBf
  obtain ⟨g2, hrun, hinv2, hV2, hVL2, hE2, hPost, hFil⟩ :=
    pg_connect_spec beq vids (gconns pg (gtrav beq g ns 0 none)) ns.tail 0
      g1 hinv1 hCpre hNd
      (fun w ws' hw => build_head beq g g1 hin hF5 hF3 ns vids w ws'
        g.vertices.length hBf hw)
  have hlen : vids.length = ns.length := by
    rw [hF2, gtrav_length]
  have hPold : ∀ x ∈ g.layers.getD 0 [],
      g2.vlayer.getD x none = some 0 := by
    intro x hx
    obtain ⟨hxlt, hxvl⟩ := hin.lay_mem 0 x hx
    have hxnt : x ∉ vids.tail := by
      intro hc
      rcases hTail x hc with ⟨k, hk, hkl, _⟩ | hlow
      · rw [hF5 x hxlt, hxvl] at hkl
        injection hkl with hkl
        omega
      · omega
    rw [hVL2 x hxnt, hF5 x hxlt]
    exact hxvl
  have hPfold : (g.layers.getD 0 []).filter
      (fun x => decide (g2.vlayer.getD x none = some 0)) =
        g.layers.getD 0 [] := by
    rw [List.filter_eq_self]
    intro a ha
    rw [hPold a ha]
    simp
  refine ⟨g2, hrun, hinv2, hV2, ?_, hPost, hlen⟩
  cases ns with
  | nil =>
    cases vids with
    | nil => rfl
    | cons a b => simp at hlen
  | cons n1 ns1 =>
    cases vids with
    | nil => simp at hlen
    | cons w0 vids1 =>
      have hPfresh : ∀ x ∈ vids1,
          (decide (g2.vlayer.getD x none = some 0)) = false := by
        intro x hx
        obtain ⟨k, hk, hkl⟩ := Cpost_tail beq g2 (w0 :: vids1) ns1 0 hPost
          (by simp at hlen ⊢; omega) x hx
        rw [hkl]
        simp
        omega
      rw [gtrav_cons] at hBf hF8
      have hstep0 : gstep beq g2 n1 0 none = some w0 := by
        rw [gstep_root_eq]
        rw [if_neg (by
          show ¬ (0 ≥ g2.max_depth)
          have := hinv2.len_l
          unfold max_depth
          omega)]
        rw [first_match_eq_find]
        show List.find? (gpred beq g2 n1) (g2.layers.getD 0 []) = some w0
        rw [hFil, hF8, List.filter_append, hPfold]
        cases hm1 : gstep beq g n1 0 none with
        | some v1 =>
          rw [hm1] at hBf hF8
          obtain ⟨hw0, hB1⟩ := hBf
          subst hw0
          have hff : (fresh_of (gtrav beq g ns1 1 (some w0)) vids1).filter
              (fun x => decide (g2.vlayer.getD x none = some 0)) = [] := by
            rw [List.filter_eq_nil]
            intro a ha
            have hat : a ∈ vids1 := fresh_of_sub _ _ ha
            rw [hPfresh a hat]
            simp
          rw [show fresh_of (some w0 :: gtrav beq g ns1 1 (some w0))
              (w0 :: vids1) = fresh_of (gtrav beq g ns1 1 (some w0)) vids1
            from rfl, hff, List.append_nil]
          rw [gfind_congr (gpred beq g2 n1) (gpred beq g n1) _
            (fun x hx => by
              unfold gpred
              rw [hV2, hF4 x (hin.lay_mem 0 x hx).1])]
          have horig : List.find? (gpred beq g n1) (g.layers.getD 0 []) =
              some w0 := by
            rw [gstep_root_eq] at hm1
            rw [if_neg (by
              show ¬ (0 ≥ g.max_depth)
              have := hin.len_l
              unfold max_depth
              omega)] at hm1
            rw [first_match_eq_find] at hm1
            exact hm1
          exact horig
        | none =>
          rw [hm1] at hBf hF8
          obtain ⟨hlo0, hlt0, hget0, hvl00, hedge0, hB1⟩ := hBf
          have hw0nt : w0 ∉ vids1 := (List.nodup_cons.mp hNd).1
          have hPw0 : g2.vlayer.getD w0 none = some 0 := by
            rw [hVL2 w0 hw0nt]
            exact hvl00
          have hff : (fresh_of (gtrav beq g ns1 1 none) vids1).filter
              (fun x => decide (g2.vlayer.getD x none = some 0)) = [] := by
            rw [List.filter_eq_nil]
            intro a ha
            have hat : a ∈ vids1 := fresh_of_sub _ _ ha
            rw [hPfresh a hat]
            simp
          rw [show fresh_of (none :: gtrav beq g ns1 1 none) (w0 :: vids1) =
              w0 :: fresh_of (gtrav beq g ns1 1 none) vids1 from rfl]
          rw [List.filter_cons, if_pos (by rw [hPw0]; simp), hff]
          have horig : List.find? (gpred beq g2 n1) (g.layers.getD 0 []) =
              none := by
            rw [gfind_congr (gpred beq g2 n1) (gpred beq g n1) _
              (fun x hx => by
                unfold gpred
                rw [hV2, hF4 x (hin.lay_mem 0 x hx).1])]
            rw [gstep_root_eq] at hm1
            rw [if_neg (by
              show ¬ (0 ≥ g.max_depth)
              have := hin.len_l
              unfold max_depth
              omega)] at hm1
            rw [first_match_eq_find] at hm1
            exact hm1
          rw [List.find?_append, horig]
          rw [List.find?_cons]
          have hp : gpred beq g2 n1 w0 = true := by
            unfold gpred
            rw [hV2, hget0]
            exact hrefl n1 (List.mem_cons_self _ _)
          rw [hp]
          rfl
      rw [gtrav_cons, hstep0]
      rw [gtrav_from beq g2 hinv2 ns1 w0 vids1 0
        (by simp at hlen ⊢; omega) hPost]
      rfl

end PatternGraph

namespace PatternGraph

open LayeredDigraph

/-- Core of C1 for `PatternGraph` (first-match configuration): `update` on a
node chain succeeds, preserves the layered-graph invariant, and `contains` on
the same chain then answers `true`, provided equivalence is reflexive on the
chain's nodes. -/
theorem pg_contains_after_update {N : Type} (beq : N → N → Bool)
    (dist : N → N → Except String Rat) (pg : PatternGraph N)
    (hinv : LGInv pg.graph) (hcm : pg.closest_match = false)
    (chain : List (PElem N)) (hnodes : chain.all PElem.is_node = true)
    (hrefl : ∀ n ∈ chain.filterMap PElem.to_node, beq n n = true) :
    ∃ pg' vids, update beq dist pg chain = .ok (pg', vids) ∧
      LGInv pg'.graph ∧ pg'.closest_match = false ∧
      contains beq dist pg' (chain.filterMap PElem.to_node) = .ok true := by
  have hctv := gchain_first beq dist pg hcm (chain.filterMap PElem.to_node)
  rw [← gconns_eq pg] at hctv
  obtain ⟨F1, F2, F3, F4, F5, F6, F7, F8, F9, F10⟩ :=
    pg_fill_spec (gtrav beq pg.graph (chain.filterMap PElem.to_node) 0 none)
      (chain.filterMap PElem.to_node) pg.graph hinv
      (gtrav_length beq pg.graph _ 0 none)
  obtain ⟨g2, hrun, hinv2, hV2, htrav, hPost, hlen⟩ :=
    retraversal_spec beq pg.graph _ pg rfl hinv F1
      (chain.filterMap PElem.to_node) _ hrefl F2 F3 F4 F5 F6 F8 F10
  refine ⟨{pg with graph := g2},
    (pg_fill pg.graph
      ((gtrav beq pg.graph (chain.filterMap PElem.to_node) 0 none).zip
        (chain.filterMap PElem.to_node))).2, ?_, hinv2, hcm, ?_⟩
  · -- the update equation
    simp only [update, hnodes, Bool.not_true, Bool.false_eq_true,
      not_false_iff, if_neg, Bool.not_eq_true, hctv, Bind.bind, Except.bind]
    rw [show pg_fill pg.graph
        ((gtrav beq pg.graph (chain.filterMap PElem.to_node) 0 none).zip
          (chain.filterMap PElem.to_node)) =
      ((pg_fill pg.graph
        ((gtrav beq pg.graph (chain.filterMap PElem.to_node) 0 none).zip
          (chain.filterMap PElem.to_node))).1,
       (pg_fill pg.graph
        ((gtrav beq pg.graph (chain.filterMap PElem.to_node) 0 none).zip
          (chain.filterMap PElem.to_node))).2) from rfl]
    simp only [hrun, Bind.bind, Except.bind, pure, Except.pure]
    simp
  · -- contains on the updated graph
    have hctv2 := gchain_first beq dist {pg with graph := g2} hcm
      (chain.filterMap PElem.to_node)
    simp only [contains, hctv2, Bind.bind, Except.bind, pure, Except.pure]
    rw [htrav]
    have hsome : (((pg_fill pg.graph
        ((gtrav beq pg.graph (chain.filterMap PElem.to_node) 0 none).zip
          (chain.filterMap PElem.to_node))).2.map some).all
            Option.isSome) = true := by
      simp
    have hconnall : ((((pg_fill pg.graph
        ((gtrav beq pg.graph (chain.filterMap PElem.to_node) 0 none).zip
          (chain.filterMap PElem.to_node))).2.map some).zip
        ((pg_fill pg.graph
          ((gtrav beq pg.graph (chain.filterMap PElem.to_node) 0 none).zip
            (chain.filterMap PElem.to_node))).2.map some).tail).map
        (fun p => check_connection {pg with graph := g2} p.1 p.2)).all id
          = true := by
      cases hvv : (pg_fill pg.graph
        ((gtrav beq pg.graph (chain.filterMap PElem.to_node) 0 none).zip
          (chain.filterMap PElem.to_node))).2 with
      | nil => rfl
      | cons a b =>
        rw [hvv] at hPost hlen
        refine conns_post_true beq {pg with graph := g2} (a :: b)
          (chain.filterMap PElem.to_node).tail 0 hPost ?_
        simp only [List.length_cons] at hlen
        rw [List.length_tail]
        simp only [List.length_cons]
        omega
    rw [hsome, hconnall]
    rfl

end PatternGraph


/-- **C1 counterexample.**  The claim fails as stated: for the zero-variance
`StructuralProminenceNode` `spn0` (whose `__eq__` is not reflexive — C2), a
fresh first-match `PatternTree` updated with the chain `[spn0]` does NOT
contain it afterwards: `update` stores the node at a fresh vertex `1`, but the
re-run traversal compares `spn0 == spn0`, gets `False`, and `contains`
answers `false`. -/
theorem C1_counterexample :
    StructuralProminenceNode.spn_eq spn0 spn0 = false ∧
    PatternTree.update StructuralProminenceNode.spn_eq
        StructuralProminenceNode.distance (PatternTree.pt_empty false)
        [PElem.node spn0] =
      .ok (⟨⟨[none, some spn0], [[1], []]⟩, 0, false⟩, [0, 1]) ∧
    PatternTree.contains StructuralProminenceNode.spn_eq
        StructuralProminenceNode.distance
        ⟨⟨[none, some spn0], [[1], []]⟩, 0, false⟩ [spn0] = .ok false := by
  have hbeq : StructuralProminenceNode.spn_eq spn0 spn0 = false := by
    norm_num [spn0, StructuralProminenceNode.spn_eq,
      StructuralProminenceNode.is_comparable,
      StructuralProminenceNode.structural_distance,
      StructuralProminenceNode.prominence_distance,
      StructuralProminenceNode.np_mean, StructuralProminenceNode.eps]
  refine ⟨hbeq, ?_, ?_⟩
  · rfl
  · have hfm : PatternTree.first_match StructuralProminenceNode.spn_eq
        (⟨[none, some spn0], [[1], []]⟩ : DigraphP
          (Option StructuralProminenceNode)) spn0 [1] = none := by
      unfold PatternTree.first_match
      rw [List.find?_cons]
      have hp : PatternTree.payload_matches StructuralProminenceNode.spn_eq
          (⟨[none, some spn0], [[1], []]⟩ : DigraphP
            (Option StructuralProminenceNode)) spn0 1 = false := by
        unfold PatternTree.payload_matches
        show (match some spn0 with
              | some m => StructuralProminenceNode.spn_eq spn0 m
              | none => false) = false
        exact hbeq
      rw [hp]
      rfl
    rw [show PatternTree.contains StructuralProminenceNode.spn_eq
        StructuralProminenceNode.distance
        ⟨⟨[none, some spn0], [[1], []]⟩, 0, false⟩ [spn0] =
      (PatternTree.chain_to_vertices StructuralProminenceNode.spn_eq
        StructuralProminenceNode.distance
        ⟨⟨[none, some spn0], [[1], []]⟩, 0, false⟩ [spn0]).bind
        (fun vertices => .ok (vertices.length == 2)) from rfl]
    rw [PatternTree.chain_to_vertices_first _ _ _ rfl]
    rw [show PatternTree.trav StructuralProminenceNode.spn_eq
        (⟨[none, some spn0], [[1], []]⟩ : DigraphP
          (Option StructuralProminenceNode)) [spn0] 0 =
      (match PatternTree.first_match StructuralProminenceNode.spn_eq
          (⟨[none, some spn0], [[1], []]⟩ : DigraphP
            (Option StructuralProminenceNode)) spn0 [1] with
       | none => []
       | some v => v :: PatternTree.trav StructuralProminenceNode.spn_eq
           (⟨[none, some spn0], [[1], []]⟩ : DigraphP
             (Option StructuralProminenceNode)) [] v) from rfl]
    rw [hfm]
    rfl

/-- **C1 (amended).**  After `m.update(c)` on a chain of nodes, `m.contains(c)`
returns true for each of the three basic models — for `PatternSet`
unconditionally (its set membership tests object identity before `==`), and
for `PatternTree`/`PatternGraph` in their default first-match configuration
from any reachable (invariant-satisfying) state, *provided node equivalence is
reflexive on the chain's nodes* (`n == n` — false for zero-variance
`StructuralProminenceNode`s, see the counterexample). -/
theorem C1_contains_after_update {N : Type} [DecidableEq N]
    (beq : N → N → Bool) (dist : N → N → Except String Rat)
    (chain : List (PElem N)) (hnodes : chain.all PElem.is_node = true)
    (hrefl : ∀ n ∈ chain.filterMap PElem.to_node, beq n n = true) :
    (∀ m : PatternSet N,
      PatternSet.contains beq (PatternSet.update beq m chain).1 chain =
        true) ∧
    (∀ t : PatternTree N, PatternTree.TGInv t.graph →
      t.root < t.graph.vertices.length → t.closest_match = false →
      ∃ t' res, PatternTree.update beq dist t chain = .ok (t', res) ∧
        PatternTree.contains beq dist t' (chain.filterMap PElem.to_node) =
          .ok true) ∧
    (∀ pg : PatternGraph N, LayeredDigraph.LGInv pg.graph →
      pg.closest_match = false →
      ∃ pg' vids, PatternGraph.update beq dist pg chain = .ok (pg', vids) ∧
        PatternGraph.contains beq dist pg'
          (chain.filterMap PElem.to_node) = .ok true) := by
  refine ⟨?_, ?_, ?_⟩
  · intro m
    exact PatternSet.ps_contains_after_update beq m chain
  · intro t hinv hroot hcm
    obtain ⟨t', res, hupd, _, _, _, _, hcont⟩ :=
      PatternTree.pt_contains_after_update beq dist t hinv hroot hcm chain
        hnodes hrefl
    exact ⟨t', res, hupd, hcont⟩
  · intro pg hinv hcm
    obtain ⟨pg', vids, hupd, _, _, hcont⟩ :=
      PatternGraph.pg_contains_after_update beq dist pg hinv hcm chain
        hnodes hrefl
    exact ⟨pg', vids, hupd, hcont⟩

/-- Witness for C1 (amended): the chain `[node 5]` on a fresh instance of each
model, with the (reflexive) equality of natural numbers as node
equivalence. -/
theorem C1_contains_after_update_witness :
    PatternSet.contains natBeq
      (PatternSet.update natBeq PatternSet.ps_empty [PElem.node 5]).1
      [PElem.node 5] = true ∧
    (∃ (t' : PatternTree Nat) (res : List Nat),
      PatternTree.update natBeq natDist (PatternTree.pt_empty false)
        [PElem.node 5] = .ok (t', res) ∧
      PatternTree.contains natBeq natDist t'
        ([PElem.node 5].filterMap PElem.to_node) = .ok true) ∧
    (∃ (pg' : PatternGraph Nat) (vids : List Nat),
      PatternGraph.update natBeq natDist (PatternGraph.pg_empty false)
        [PElem.node 5] = .ok (pg', vids) ∧
      PatternGraph.contains natBeq natDist pg'
        ([PElem.node 5].filterMap PElem.to_node) = .ok true) := by
  obtain ⟨h1, h2, h3⟩ := C1_contains_after_update natBeq natDist
    [PElem.node 5] (by decide) (by decide)
  exact ⟨h1 PatternSet.ps_empty,
    h2 (PatternTree.pt_empty false) (PatternTree.pt_empty_inv false)
      (by decide) rfl,
    h3 (PatternGraph.pg_empty false) LayeredDigraph.ldg_empty_lginv rfl⟩

namespace NestedWord


theorem to_tagged_blocks (nw : NestedWord α) :
    nw.to_tagged = (nw.word.enum.map (block nw.matching)).flatten := by
  unfold to_tagged block
  rfl

theorem block_syms (m : MatchingRelation) (ps : Nat × α) :
    (block m ps).filterMap
      (fun t => match t with | Tok.sym a => some a | _ => none) = [ps.2] := by
  unfold block
  rw [List.filterMap_append, List.filterMap_append]
  cases m.is_call ps.1 <;> cases m.is_return ps.1 <;> rfl

theorem blocks_syms (m : MatchingRelation) :
    ∀ (l : List (Nat × α)),
      ((l.map (block m)).flatten).filterMap
        (fun t => match t with | Tok.sym a => some a | _ => none) =
      l.map (fun ps => ps.2) := by
  intro l
  induction l with
  | nil => rfl
  | cons ps l ih =>
    rw [List.map_cons, List.flatten_cons, List.filterMap_append, block_syms,
      ih]
    rfl

/-- If `c` is open at `p`, everything open at `p` is at most `c`, and `c < p`,
then `c` tops the parser stack. -/
theorem filter_range_last (f : Nat → Bool) (c : Nat) :
    ∀ (p : Nat), c < p → f c = true →
      (∀ x, c < x → x < p → f x = false) →
      (List.range p).filter f = ((List.range c).filter f) ++ [c] := by
  intro p
  induction p with
  | zero => omega
  | succ q ih =>
    intro hc hfc hmax
    rw [List.range_succ, List.filter_append]
    by_cases hcq : c = q
    · subst hcq
      rw [show (List.range c).filter f ++ [c] =
          (List.range c).filter f ++ [c].filter f by rw [List.filter_cons]; simp [hfc]]
    · have hlt : c < q := by omega
      rw [ih hlt hfc (fun x h1 h2 => hmax x h1 (by omega)),
        List.filter_cons, hmax q hlt (by omega)]
      simp

theorem mem_get_matches {m : MatchingRelation}
    {q : Option Nat × Option Nat} (h : q ∈ m.get_matches) :
    ∃ i, i < m.len ∧ m.get_match i = some q := by
  unfold MatchingRelation.get_matches at h
  rw [List.mem_filterMap] at h
  obtain ⟨i, hi, hq⟩ := h
  rw [List.mem_range] at hi
  exact ⟨i, hi, hq⟩

end NestedWord

namespace NestedWord

theorem filter_range_congr (f g : Nat → Bool) (n : Nat)
    (h : ∀ x, x < n → f x = g x) :
    (List.range n).filter f = (List.range n).filter g := by
  refine List.filter_congr ?_
  intro x hx
  exact h x (List.mem_range.mp hx)

theorem filter_range_drop (f : Nat → Bool) (c : Nat) :
    ∀ (p : Nat), c ≤ p → (∀ x, c ≤ x → x < p → f x = false) →
      (List.range p).filter f = (List.range c).filter f := by
  intro p
  induction p with
  | zero =>
    intro hc _
    have : c = 0 := by omega
    subst this
    rfl
  | succ q ih =>
    intro hc hdrop
    by_cases hcq : c = q + 1
    · subst hcq
      rfl
    · rw [List.range_succ, List.filter_append, List.filter_cons,
        hdrop q (by omega) (by omega)]
      rw [ih (by omega) (fun x h1 h2 => hdrop x h1 (by omega))]
      simp

/-- The characterisation of the partially rebuilt relation's matches. -/
theorem upto_matches_char {m mmp : MatchingRelation} {p : Nat}
    (hs : ∀ i, mmp.succ.getD i none = succ_upto m p i)
    (hq : ∀ i, mmp.pred.getD i none = pred_upto m p i)
    (hwf : NWWF m) :
    ∀ q ∈ mmp.get_matches,
      (∃ a b, q = (some a, some b) ∧
        m.succ.getD a none = some (some b) ∧ b < p) ∨
      (∃ b, q = (none, some b) ∧ b < p ∧
        m.pred.getD b none = some none) := by
  intro q hqm
  obtain ⟨i, hi, hgm⟩ := mem_get_matches hqm
  unfold MatchingRelation.get_match at hgm
  rw [hs i, hq i] at hgm
  cases hsi : m.succ.getD i none with
  | some e =>
    cases e with
    | some r =>
      have hsu : succ_upto m p i = if r < p then some (some r) else none := by
        simp only [succ_upto, hsi]
      by_cases hrp : r < p
      · rw [if_pos hrp] at hsu
        rw [hsu] at hgm
        have h2 : (some ((some i : Option Nat), (some r : Option Nat)) :
            Option (Option Nat × Option Nat)) = some q := hgm
        injection h2 with h2
        exact Or.inl ⟨i, r, h2.symm, hsi, hrp⟩
      · rw [if_neg hrp] at hsu
        rw [hsu] at hgm
        by_cases hip : i < p
        · have hpu : pred_upto m p i = m.pred.getD i none := by
            simp only [pred_upto, if_pos hip]
          rw [hpu] at hgm
          cases hpi : m.pred.getD i none with
          | none =>
            rw [hpi] at hgm
            have h0 : (none : Option (Option Nat × Option Nat)) = some q := hgm
            exact absurd h0 (by simp)
          | some x =>
            exact (hwf.no_dual i (by rw [hsi]; rfl) (by rw [hpi]; rfl)).elim
        · have hpu : pred_upto m p i = none := by
            simp only [pred_upto, if_neg hip]
          rw [hpu] at hgm
          have h0 : (none : Option (Option Nat × Option Nat)) = some q := hgm
          exact absurd h0 (by simp)
    | none =>
      have hsu : succ_upto m p i = none := by
        simp only [succ_upto, hsi]
      rw [hsu] at hgm
      by_cases hip : i < p
      · have hpu : pred_upto m p i = m.pred.getD i none := by
          simp only [pred_upto, if_pos hip]
        rw [hpu] at hgm
        cases hpi : m.pred.getD i none with
        | none =>
          rw [hpi] at hgm
          have h0 : (none : Option (Option Nat × Option Nat)) = some q := hgm
          exact absurd h0 (by simp)
        | some x =>
          exact (hwf.no_dual i (by rw [hsi]; rfl) (by rw [hpi]; rfl)).elim
      · have hpu : pred_upto m p i = none := by
          simp only [pred_upto, if_neg hip]
        rw [hpu] at hgm
        have h0 : (none : Option (Option Nat × Option Nat)) = some q := hgm
        exact absurd h0 (by simp)
  | none =>
    have hsu : succ_upto m p i = none := by
      simp only [succ_upto, hsi]
    rw [hsu] at hgm
    by_cases hip : i < p
    · have hpu : pred_upto m p i = m.pred.getD i none := by
        simp only [pred_upto, if_pos hip]
      rw [hpu] at hgm
      cases hpi : m.pred.getD i none with
      | none =>
        rw [hpi] at hgm
        have h0 : (none : Option (Option Nat × Option Nat)) = some q := hgm
        exact absurd h0 (by simp)
      | some x =>
        rw [hpi] at hgm
        cases x with
        | some c =>
          have h2 : (some ((some c : Option Nat), (some i : Option Nat)) :
              Option (Option Nat × Option Nat)) = some q := hgm
          injection h2 with h2
          exact Or.inl ⟨c, i, h2.symm, hwf.pred_match i c hpi, hip⟩
        | none =>
          have h2 : (some ((none : Option Nat), (some i : Option Nat)) :
              Option (Option Nat × Option Nat)) = some q := hgm
          injection h2 with h2
          exact Or.inr ⟨i, h2.symm, hip, hpi⟩
    · have hpu : pred_upto m p i = none := by
        simp only [pred_upto, if_neg hip]
      rw [hpu] at hgm
      have h0 : (none : Option (Option Nat × Option Nat)) = some q := hgm
      exact absurd h0 (by simp)

theorem opn_congr_of_ne {m : MatchingRelation} {p x : Nat}
    (h : m.succ.getD x none ≠ some (some p)) :
    opn m (p+1) x = opn m p x := by
  unfold opn
  cases hsx : m.succ.getD x none with
  | none => rfl
  | some e =>
    cases e with
    | none => rfl
    | some r =>
      have hrp : r ≠ p := fun hr => h (by rw [hsx, hr])
      show decide (p + 1 ≤ r) = decide (p ≤ r)
      rw [decide_eq_decide]
      omega

theorem succ_upto_step_ne {m : MatchingRelation} {p i : Nat}
    (hne : m.succ.getD i none ≠ some (some p)) :
    succ_upto m (p+1) i = succ_upto m p i := by
  unfold succ_upto
  cases hsi : m.succ.getD i none with
  | none => rfl
  | some e =>
    cases e with
    | none => rfl
    | some r =>
      have hrp : r ≠ p := fun hr => hne (by rw [hsi, hr])
      show (if r < p + 1 then some (some r) else none) =
        (if r < p then some (some r) else none)
      by_cases h : r < p
      · rw [if_pos h, if_pos (by omega)]
      · rw [if_neg h, if_neg (by omega)]

theorem succ_upto_at {m : MatchingRelation} {p c : Nat}
    (hsc : m.succ.getD c none = some (some p)) :
    succ_upto m (p+1) c = some (some p) := by
  unfold succ_upto
  rw [hsc]
  show (if p < p + 1 then (some (some p) : MEntry) else none) = some (some p)
  rw [if_pos (by omega)]

theorem succ_upto_congr {m : MatchingRelation} {p : Nat}
    (hnc : ∀ x, m.succ.getD x none ≠ some (some p)) :
    ∀ i, succ_upto m (p+1) i = succ_upto m p i :=
  fun i => succ_upto_step_ne (hnc i)

theorem no_call_of_pred {m : MatchingRelation} (hwf : NWWF m) {p : Nat}
    (hpp : ∀ x, m.pred.getD p none ≠ some (some x)) :
    ∀ x, m.succ.getD x none ≠ some (some p) := by
  intro x hx
  exact hpp x (hwf.succ_match x p hx).2.2

theorem call_unique {m : MatchingRelation} (hwf : NWWF m) {p c : Nat}
    (hpp : m.pred.getD p none = some (some c)) :
    ∀ x, m.succ.getD x none = some (some p) → x = c := by
  intro x hx
  have h2 := (hwf.succ_match x p hx).2.2
  rw [hpp] at h2
  injection h2 with h2
  injection h2 with h2
  exact h2.symm

theorem cross_matched_false {m mmp : MatchingRelation} {p : Nat}
    (hs : ∀ i, mmp.succ.getD i none = succ_upto m p i)
    (hq : ∀ i, mmp.pred.getD i none = pred_upto m p i)
    (hwf : NWWF m) (c : Nat)
    (hc : m.succ.getD c none = some (some p)) :
    mmp.get_matches.any (fun q => MatchingRelation.crosses (some c, some p) q) = false := by
  rw [List.any_eq_false]
  intro q hqm
  rcases upto_matches_char hs hq hwf q hqm with ⟨a, b, rfl, ha, hb⟩ | ⟨b, rfl, hb, hpb⟩
  · show ¬ (MatchingRelation.crosses (some c, some p) (some a, some b) = true)
    simp only [MatchingRelation.crosses, decide_eq_true_eq]
    rintro (⟨h1, h2, h3⟩ | ⟨h1, h2, h3⟩)
    · omega
    · exact hwf.nc_mm a b c p ha hc (Or.inl ⟨h1, h2, h3⟩)
  · show ¬ (MatchingRelation.crosses (some c, some p) (none, some b) = true)
    simp only [MatchingRelation.crosses, decide_eq_true_eq]
    rintro ⟨h1, h2⟩
    exact hwf.nc_mr c p b hc hpb ⟨h1, h2⟩

theorem cross_pending_false {m mmp : MatchingRelation} {p : Nat}
    (hs : ∀ i, mmp.succ.getD i none = succ_upto m p i)
    (hq : ∀ i, mmp.pred.getD i none = pred_upto m p i)
    (hwf : NWWF m) :
    mmp.get_matches.any (fun q => MatchingRelation.crosses (none, some p) q) = false := by
  rw [List.any_eq_false]
  intro q hqm
  rcases upto_matches_char hs hq hwf q hqm with ⟨a, b, rfl, ha, hb⟩ | ⟨b, rfl, hb, hpb⟩
  · show ¬ (MatchingRelation.crosses (none, some p) (some a, some b) = true)
    simp only [MatchingRelation.crosses, decide_eq_true_eq]
    rintro ⟨h1, h2⟩
    omega
  · show ¬ (MatchingRelation.crosses (none, some p) (none, some b) = true)
    simp [MatchingRelation.crosses]

theorem set_match_cr_ok (m : MatchingRelation) (c r : Nat) (h1 : c < r)
    (h2 : c < m.len) (h3 : r < m.len)
    (h4 : m.get_matches.any (fun q => MatchingRelation.crosses (some c, some r) q) = false) :
    m.set_match (some c) (some r) =
      .ok ⟨m.succ.set c (some (some r)), m.pred.set r (some (some c))⟩ := by
  have e1 : m.set_match (some c) (some r) =
      (if ((some c : Option Nat) = none ∧ (some r : Option Nat) = none) then
        Except.error "at least one position must be an actual position"
       else if decide (c ≥ r) then Except.error "order violated"
       else if decide (c ≥ m.len) then Except.error "position out of bounds"
       else if decide (r ≥ m.len) then Except.error "position out of bounds"
       else if m.get_matches.any (fun q => MatchingRelation.crosses (some c, some r) q) then
         Except.error "match crosses an existing match"
       else Except.ok ⟨m.succ.set c (some (some r)), m.pred.set r (some (some c))⟩) := rfl
  rw [e1, if_neg (by simp), if_neg (by simp; omega), if_neg (by simp; omega),
    if_neg (by simp; omega), if_neg (by rw [h4]; simp)]

theorem set_match_pr_ok (m : MatchingRelation) (r : Nat) (h3 : r < m.len)
    (h4 : m.get_matches.any (fun q => MatchingRelation.crosses (none, some r) q) = false) :
    m.set_match none (some r) = .ok ⟨m.succ, m.pred.set r (some none)⟩ := by
  have e1 : m.set_match none (some r) =
      (if ((none : Option Nat) = none ∧ (some r : Option Nat) = none) then
        Except.error "at least one position must be an actual position"
       else if (false : Bool) then Except.error "order violated"
       else if (false : Bool) then Except.error "position out of bounds"
       else if decide (r ≥ m.len) then Except.error "position out of bounds"
       else if m.get_matches.any (fun q => MatchingRelation.crosses (none, some r) q) then
         Except.error "match crosses an existing match"
       else Except.ok ⟨m.succ, m.pred.set r (some none)⟩) := rfl
  rw [e1, if_neg (by simp), if_neg (by simp), if_neg (by simp),
    if_neg (by simp; omega), if_neg (by rw [h4]; simp)]

/-- One block of the tagged encoding advances the parser from the invariant
state at position `p` to the invariant state at `p+1`. -/
theorem block_step (m : MatchingRelation) (hwf : NWWF m)
    (p : Nat) (hp : p < m.len) (s : α) (mmp : MatchingRelation)
    (hsl : mmp.succ.length = m.len) (hpl : mmp.pred.length = m.len)
    (hs : ∀ i, mmp.succ.getD i none = succ_upto m p i)
    (hq : ∀ i, mmp.pred.getD i none = pred_upto m p i) :
    ∃ mmp' : MatchingRelation,
      (block m (p, s)).foldlM parse_step (pstack m p, p, mmp) =
        Except.ok (pstack m (p+1), p+1, mmp') ∧
      mmp'.succ.length = m.len ∧ mmp'.pred.length = m.len ∧
      (∀ i, mmp'.succ.getD i none = succ_upto m (p+1) i) ∧
      (∀ i, mmp'.pred.getD i none = pred_upto m (p+1) i) := by
  cases hsp : m.succ.getD p none with
  | some e =>
    -- a call position: pred p must be empty by no_dual
    cases hpp : m.pred.getD p none with
    | some x =>
      exact (hwf.no_dual p (by rw [hsp]; rfl) (by rw [hpp]; rfl)).elim
    | none =>
      have hic : m.is_call p = true := by
        unfold MatchingRelation.is_call; rw [hsp]; rfl
      have hir : m.is_return p = false := by
        unfold MatchingRelation.is_return; rw [hpp]; rfl
      have hblk : block m (p, s) = [Tok.lt, Tok.sym s] := by
        unfold block; rw [hic, hir]; rfl
      have hnc : ∀ x, m.succ.getD x none ≠ some (some p) :=
        no_call_of_pred hwf (fun x h => by rw [hpp] at h; exact absurd h (by simp))
      have hopn_p : opn m (p+1) p = true := by
        unfold opn; rw [hsp]
        cases e with
        | none => rfl
        | some r =>
          have hpr := (hwf.succ_match p r (by rw [hsp])).1
          show decide (p + 1 ≤ r) = true
          exact decide_eq_true (by omega)
      have hps : pstack m (p+1) = p :: pstack m p := by
        unfold pstack
        rw [List.range_succ, List.filter_append]
        have h1 : List.filter (opn m (p+1)) [p] = [p] := by
          simp only [List.filter_cons, List.filter_nil, hopn_p]
          rfl
        rw [h1, List.reverse_append,
          filter_range_congr _ _ p (fun x hx => opn_congr_of_ne (hnc x))]
        rfl
      refine ⟨mmp, ?_, hsl, hpl, ?_, ?_⟩
      · rw [hblk, hps]
        rfl
      · intro i
        rw [hs i]
        exact (succ_upto_congr hnc i).symm
      · intro i
        rw [hq i]
        unfold pred_upto
        by_cases hip : i < p
        · rw [if_pos hip, if_pos (by omega)]
        · by_cases hip1 : i < p + 1
          · rw [if_neg hip, if_pos hip1]
            have hie : i = p := by omega
            subst hie
            rw [hpp]
          · rw [if_neg hip, if_neg hip1]
  | none =>
    cases hpp : m.pred.getD p none with
    | none =>
      -- internal position
      have hic : m.is_call p = false := by
        unfold MatchingRelation.is_call; rw [hsp]; rfl
      have hir : m.is_return p = false := by
        unfold MatchingRelation.is_return; rw [hpp]; rfl
      have hblk : block m (p, s) = [Tok.sym s] := by
        unfold block; rw [hic, hir]; rfl
      have hnc : ∀ x, m.succ.getD x none ≠ some (some p) :=
        no_call_of_pred hwf (fun x h => by rw [hpp] at h; exact absurd h (by simp))
      have hps : pstack m (p+1) = pstack m p := by
        unfold pstack
        rw [List.range_succ, List.filter_append]
        have h1 : List.filter (opn m (p+1)) [p] = [] := by
          simp only [List.filter_cons, List.filter_nil]
          rw [show opn m (p+1) p = false from by unfold opn; rw [hsp]]
          rfl
        rw [h1, List.append_nil,
          filter_range_congr _ _ p (fun x hx => opn_congr_of_ne (hnc x))]
      refine ⟨mmp, ?_, hsl, hpl, ?_, ?_⟩
      · rw [hblk, hps]
        rfl
      · intro i
        rw [hs i]
        exact (succ_upto_congr hnc i).symm
      · intro i
        rw [hq i]
        unfold pred_upto
        by_cases hip : i < p
        · rw [if_pos hip, if_pos (by omega)]
        · by_cases hip1 : i < p + 1
          · rw [if_neg hip, if_pos hip1]
            have hie : i = p := by omega
            subst hie
            rw [hpp]
          · rw [if_neg hip, if_neg hip1]
    | some x =>
      have hic : m.is_call p = false := by
        unfold MatchingRelation.is_call; rw [hsp]; rfl
      have hir : m.is_return p = true := by
        unfold MatchingRelation.is_return; rw [hpp]; rfl
      have hblk : block m (p, s) = [Tok.sym s, Tok.gt] := by
        unfold block; rw [hic, hir]; rfl
      cases x with
      | some c =>
        -- matched return: its call c is on top of the stack
        have hsc : m.succ.getD c none = some (some p) := hwf.pred_match p c hpp
        obtain ⟨hcp, hplen2, hppc⟩ := hwf.succ_match c p hsc
        have hopnc : opn m p c = true := by
          unfold opn; rw [hsc]
          show decide (p ≤ p) = true
          exact decide_eq_true (le_refl p)
        have hmax : ∀ y, c < y → y < p → opn m p y = false := by
          intro y h1 h2
          unfold opn
          cases hsy : m.succ.getD y none with
          | none => rfl
          | some ey =>
            cases ey with
            | none => exact ((hwf.nc_mp c p y hsc hsy) ⟨h1, h2⟩).elim
            | some r =>
              show decide (p ≤ r) = false
              refine decide_eq_false (fun hpr => ?_)
              exact (hwf.nc_mm c p y r hsc hsy) (Or.inl ⟨h1, by omega, hpr⟩)
        have hstack : pstack m p = c :: ((List.range c).filter (opn m p)).reverse := by
          unfold pstack
          rw [filter_range_last (opn m p) c p hcp hopnc hmax, List.reverse_append]
          rfl
        have hcOK : c < mmp.len := by
          show c < mmp.succ.length
          rw [hsl]; omega
        have hpOK : p < mmp.len := by
          show p < mmp.succ.length
          rw [hsl]; omega
        have hsm := set_match_cr_ok mmp c p hcp hcOK hpOK
          (cross_matched_false hs hq hwf c hsc)
        have hdrop : ∀ y, c ≤ y → y < p → opn m (p+1) y = false := by
          intro y h1 h2
          unfold opn
          by_cases hyc : y = c
          · subst hyc
            rw [hsc]
            show decide (p + 1 ≤ p) = false
            exact decide_eq_false (by omega)
          · cases hsy : m.succ.getD y none with
            | none => rfl
            | some ey =>
              cases ey with
              | none => exact ((hwf.nc_mp c p y hsc hsy) ⟨by omega, h2⟩).elim
              | some r =>
                show decide (p + 1 ≤ r) = false
                refine decide_eq_false (fun hpr => ?_)
                exact (hwf.nc_mm c p y r hsc hsy)
                  (Or.inl ⟨by omega, by omega, by omega⟩)
        have hcongr : ∀ y, y < c → opn m (p+1) y = opn m p y := by
          intro y hy
          refine opn_congr_of_ne (fun hyp => ?_)
          have := call_unique hwf hpp y hyp
          omega
        have hps2 : pstack m (p+1) = ((List.range c).filter (opn m p)).reverse := by
          unfold pstack
          congr 1
          rw [List.range_succ, List.filter_append]
          have h1 : List.filter (opn m (p+1)) [p] = [] := by
            simp only [List.filter_cons, List.filter_nil]
            rw [show opn m (p+1) p = false from by unfold opn; rw [hsp]]
            rfl
          rw [h1, List.append_nil, filter_range_drop (opn m (p+1)) c p hcp.le hdrop]
          exact filter_range_congr _ _ c (fun y hy => hcongr y hy)
        refine ⟨⟨mmp.succ.set c (some (some p)), mmp.pred.set p (some (some c))⟩,
          ?_, ?_, ?_, ?_, ?_⟩
        · rw [hblk, hstack, hps2]
          have h1 : [Tok.sym s, Tok.gt].foldlM (parse_step (α := α))
              (c :: ((List.range c).filter (opn m p)).reverse, p, mmp) =
              ((mmp.set_match (some c) (some p)).bind
                (fun m2 => Except.ok (((List.range c).filter (opn m p)).reverse, p+1, m2))).bind
                (fun st2 => Except.ok st2) := rfl
          rw [h1, hsm]
          rfl
        · show (mmp.succ.set c (some (some p))).length = m.len
          rw [List.length_set, hsl]
        · show (mmp.pred.set p (some (some c))).length = m.len
          rw [List.length_set, hpl]
        · intro i
          show (mmp.succ.set c (some (some p))).getD i none = _
          rw [list_getD_set]
          by_cases hic2 : i = c
          · subst hic2
            rw [if_pos ⟨rfl, by rw [hsl]; omega⟩, succ_upto_at hsc]
          · rw [if_neg (by intro hh; exact hic2 hh.1)]
            rw [hs i]
            refine (succ_upto_step_ne (fun hyp => ?_)).symm
            exact hic2 (call_unique hwf hpp i hyp)
        · intro i
          show (mmp.pred.set p (some (some c))).getD i none = _
          rw [list_getD_set]
          by_cases hip2 : i = p
          · subst hip2
            rw [if_pos ⟨rfl, by rw [hpl]; omega⟩]
            unfold pred_upto
            rw [if_pos (by omega), hpp]
          · rw [if_neg (by intro hh; exact hip2 hh.1)]
            rw [hq i]
            unfold pred_upto
            by_cases hip : i < p
            · rw [if_pos hip, if_pos (by omega)]
            · rw [if_neg hip, if_neg (by omega)]
      | none =>
        -- pending return: the stack is empty
        have hnocall : ∀ y, m.succ.getD y none ≠ some (some p) :=
          no_call_of_pred hwf (fun y h => by rw [hpp] at h; exact absurd h (by simp))
        have hopn_all : ∀ q2, ∀ y, p ≤ q2 → y < p → opn m q2 y = false := by
          intro q2 y hq2 hy
          unfold opn
          cases hsy : m.succ.getD y none with
          | none => rfl
          | some ey =>
            cases ey with
            | none => exact ((hwf.nc_pr y p hsy hpp) hy).elim
            | some r =>
              show decide (q2 ≤ r) = false
              refine decide_eq_false (fun hqr => ?_)
              have hrne : r ≠ p := by
                intro hre
                exact hnocall y (by rw [hsy, hre])
              have hrange : p < r := by
                have hple : p ≤ r := le_trans hq2 hqr
                omega
              exact (hwf.nc_mr y r p hsy hpp) ⟨hy, hrange⟩
        have hstack : pstack m p = [] := by
          unfold pstack
          rw [filter_range_drop (opn m p) 0 p (Nat.zero_le p)
            (fun y h1 h2 => hopn_all p y (le_refl p) h2)]
          rfl
        have hps2 : pstack m (p+1) = [] := by
          unfold pstack
          rw [List.range_succ, List.filter_append]
          have h1 : List.filter (opn m (p+1)) [p] = [] := by
            simp only [List.filter_cons, List.filter_nil]
            rw [show opn m (p+1) p = false from by unfold opn; rw [hsp]]
            rfl
          rw [h1, List.append_nil, filter_range_drop (opn m (p+1)) 0 p (Nat.zero_le p)
            (fun y h1 h2 => hopn_all (p+1) y (by omega) h2)]
          rfl
        have hpOK : p < mmp.len := by
          show p < mmp.succ.length
          rw [hsl]; omega
        have hsm := set_match_pr_ok mmp p hpOK (cross_pending_false hs hq hwf)
        refine ⟨⟨mmp.succ, mmp.pred.set p (some none)⟩, ?_, hsl, ?_, ?_, ?_⟩
        · rw [hblk, hstack, hps2]
          have h1 : [Tok.sym s, Tok.gt].foldlM (parse_step (α := α))
              (([] : List Nat), p, mmp) =
              ((mmp.set_match none (some p)).bind
                (fun m2 => Except.ok (([] : List Nat), p+1, m2))).bind
                (fun st2 => Except.ok st2) := rfl
          rw [h1, hsm]
          rfl
        · show (mmp.pred.set p (some none)).length = m.len
          rw [List.length_set, hpl]
        · intro i
          show mmp.succ.getD i none = _
          rw [hs i]
          exact (succ_upto_congr hnocall i).symm
        · intro i
          show (mmp.pred.set p (some none)).getD i none = _
          rw [list_getD_set]
          by_cases hip2 : i = p
          · subst hip2
            rw [if_pos ⟨rfl, by rw [hpl]; omega⟩]
            unfold pred_upto
            rw [if_pos (by omega), hpp]
          · rw [if_neg (by intro hh; exact hip2 hh.1)]
            rw [hq i]
            unfold pred_upto
            by_cases hip : i < p
            · rw [if_pos hip, if_pos (by omega)]
            · rw [if_neg hip, if_neg (by omega)]

theorem succ_upto_zero (m : MatchingRelation) (i : Nat) :
    succ_upto m 0 i = none := by
  unfold succ_upto
  cases hsi : m.succ.getD i none with
  | none => rfl
  | some e =>
    cases e with
    | none => rfl
    | some r =>
      show (if r < 0 then (some (some r) : MEntry) else none) = none
      rw [if_neg (by omega)]

theorem pred_upto_zero (m : MatchingRelation) (i : Nat) :
    pred_upto m 0 i = none := by
  unfold pred_upto
  rw [if_neg (by omega)]

theorem getD_replicate_none (n i : Nat) :
    (List.replicate n (none : MEntry)).getD i none = none := by
  induction n generalizing i with
  | zero => rfl
  | succ k ih =>
    cases i with
    | zero => rfl
    | succ j => exact ih j

/-- Running the parser over the blocks from position `p` to the end of the
word, starting from the invariant state at `p`. -/
theorem parse_from (m : MatchingRelation) (hwf : NWWF m) (w : List α)
    (hlen : m.len = w.length) :
    ∀ (n p : Nat) (mmp : MatchingRelation), w.length - p = n → p ≤ w.length →
      mmp.succ.length = m.len → mmp.pred.length = m.len →
      (∀ i, mmp.succ.getD i none = succ_upto m p i) →
      (∀ i, mmp.pred.getD i none = pred_upto m p i) →
      ∃ mmp' : MatchingRelation,
        (((w.enum.drop p).map (block m)).flatten).foldlM parse_step
            (pstack m p, p, mmp) =
          Except.ok (pstack m w.length, w.length, mmp') ∧
        mmp'.succ.length = m.len ∧ mmp'.pred.length = m.len ∧
        (∀ i, mmp'.succ.getD i none = succ_upto m w.length i) ∧
        (∀ i, mmp'.pred.getD i none = pred_upto m w.length i) := by
  intro n
  induction n with
  | zero =>
    intro p mmp hn hp hsl hpl hs hq
    have hpe : p = w.length := by omega
    subst hpe
    refine ⟨mmp, ?_, hsl, hpl, hs, hq⟩
    rw [List.drop_eq_nil_of_le (by rw [List.enum_length])]
    rfl
  | succ n ih =>
    intro p mmp hn hp hsl hpl hs hq
    have hplt : p < w.length := by omega
    have hdrop : w.enum.drop p = (p, w[p]) :: w.enum.drop (p+1) := by
      rw [List.drop_eq_getElem_cons (by rw [List.enum_length]; exact hplt)]
      rw [List.getElem_enum]
    rw [hdrop, List.map_cons, List.flatten_cons, List.foldlM_append]
    obtain ⟨mmp1, hstep, h1, h2, h3, h4⟩ :=
      block_step m hwf p (by omega) w[p] mmp hsl hpl hs hq
    rw [hstep]
    obtain ⟨mmp', hrest, g1, g2, g3, g4⟩ :=
      ih (p+1) mmp1 (by omega) (by omega) h1 h2 h3 h4
    refine ⟨mmp', ?_, g1, g2, g3, g4⟩
    show (((w.enum.drop (p+1)).map (block m)).flatten).foldlM parse_step
      (pstack m (p+1), p+1, mmp1) = Except.ok (pstack m w.length, w.length, mmp')
    exact hrest

theorem set_match_pc_ok (m : MatchingRelation) (c : Nat) (h2 : c < m.len)
    (h4 : m.get_matches.any
      (fun q => MatchingRelation.crosses (some c, none) q) = false) :
    m.set_match (some c) none = .ok ⟨m.succ.set c (some none), m.pred⟩ := by
  have e1 : m.set_match (some c) none =
      (if ((some c : Option Nat) = none ∧ (none : Option Nat) = none) then
        Except.error "at least one position must be an actual position"
       else if (false : Bool) then Except.error "order violated"
       else if decide (c ≥ m.len) then Except.error "position out of bounds"
       else if (false : Bool) then Except.error "position out of bounds"
       else if m.get_matches.any
           (fun q => MatchingRelation.crosses (some c, none) q) then
         Except.error "match crosses an existing match"
       else Except.ok ⟨m.succ.set c (some none), m.pred⟩) := rfl
  rw [e1, if_neg (by simp), if_neg (by simp), if_neg (by simp; omega),
    if_neg (by simp), if_neg (by rw [h4]; simp)]

/-- During the drain phase the members of the partially rebuilt relation are
closed matches of `m`, already-drained pending calls, and pending returns. -/
theorem drain_matches_char {m mmp : MatchingRelation} {cs : List Nat}
    (hwf : NWWF m)
    (hsl : mmp.succ.length = m.len)
    (hs : ∀ i, mmp.succ.getD i none =
      (if i ∈ cs then none else m.succ.getD i none))
    (hq : ∀ i, mmp.pred.getD i none = pred_upto m m.len i) :
    ∀ q ∈ mmp.get_matches,
      (∃ a b, q = (some a, some b) ∧ m.succ.getD a none = some (some b)) ∨
      (∃ a, q = (some a, none) ∧ m.succ.getD a none = some none) ∨
      (∃ b, q = (none, some b) ∧ m.pred.getD b none = some none) := by
  intro q hqm
  obtain ⟨i, hi, hgm⟩ := mem_get_matches hqm
  have hilen : i < m.len := by
    have : mmp.len = m.len := hsl
    omega
  unfold MatchingRelation.get_match at hgm
  rw [hs i, hq i] at hgm
  have hpu : pred_upto m m.len i = m.pred.getD i none := by
    unfold pred_upto
    rw [if_pos hilen]
  rw [hpu] at hgm
  by_cases hics : i ∈ cs
  · rw [if_pos hics] at hgm
    cases hpi : m.pred.getD i none with
    | none =>
      rw [hpi] at hgm
      have h0 : (none : Option (Option Nat × Option Nat)) = some q := hgm
      exact absurd h0 (by simp)
    | some x =>
      rw [hpi] at hgm
      cases x with
      | some c =>
        have h2 : (some ((some c : Option Nat), (some i : Option Nat)) :
            Option (Option Nat × Option Nat)) = some q := hgm
        injection h2 with h2
        exact Or.inl ⟨c, i, h2.symm, hwf.pred_match i c hpi⟩
      | none =>
        have h2 : (some ((none : Option Nat), (some i : Option Nat)) :
            Option (Option Nat × Option Nat)) = some q := hgm
        injection h2 with h2
        exact Or.inr (Or.inr ⟨i, h2.symm, hpi⟩)
  · rw [if_neg hics] at hgm
    cases hsi : m.succ.getD i none with
    | some e =>
      rw [hsi] at hgm
      have h2 : (some ((some i : Option Nat), e) :
          Option (Option Nat × Option Nat)) = some q := hgm
      injection h2 with h2
      cases e with
      | some b => exact Or.inl ⟨i, b, h2.symm, hsi⟩
      | none => exact Or.inr (Or.inl ⟨i, h2.symm, hsi⟩)
    | none =>
      rw [hsi] at hgm
      cases hpi : m.pred.getD i none with
      | none =>
        rw [hpi] at hgm
        have h0 : (none : Option (Option Nat × Option Nat)) = some q := hgm
        exact absurd h0 (by simp)
      | some x =>
        rw [hpi] at hgm
        cases x with
        | some c =>
          have h2 : (some ((some c : Option Nat), (some i : Option Nat)) :
              Option (Option Nat × Option Nat)) = some q := hgm
          injection h2 with h2
          exact Or.inl ⟨c, i, h2.symm, hwf.pred_match i c hpi⟩
        | none =>
          have h2 : (some ((none : Option Nat), (some i : Option Nat)) :
              Option (Option Nat × Option Nat)) = some q := hgm
          injection h2 with h2
          exact Or.inr (Or.inr ⟨i, h2.symm, hpi⟩)

theorem cross_drain_false {m mmp : MatchingRelation} {cs : List Nat}
    (hwf : NWWF m)
    (hsl : mmp.succ.length = m.len)
    (hs : ∀ i, mmp.succ.getD i none =
      (if i ∈ cs then none else m.succ.getD i none))
    (hq : ∀ i, mmp.pred.getD i none = pred_upto m m.len i)
    (c : Nat) (hc : m.succ.getD c none = some none) :
    mmp.get_matches.any
      (fun q => MatchingRelation.crosses (some c, none) q) = false := by
  rw [List.any_eq_false]
  intro q hqm
  rcases drain_matches_char hwf hsl hs hq q hqm with
    ⟨a, b, rfl, ha⟩ | ⟨a, rfl, ha⟩ | ⟨b, rfl, hb⟩
  · show ¬ (MatchingRelation.crosses (some c, none) (some a, some b) = true)
    simp only [MatchingRelation.crosses, decide_eq_true_eq]
    rintro ⟨h1, h2⟩
    exact hwf.nc_mp a b c ha hc ⟨h1, h2⟩
  · show ¬ (MatchingRelation.crosses (some c, none) (some a, none) = true)
    simp [MatchingRelation.crosses]
  · show ¬ (MatchingRelation.crosses (some c, none) (none, some b) = true)
    simp only [MatchingRelation.crosses, decide_eq_true_eq]
    intro h1
    exact hwf.nc_pr c b hc hb h1

/-- Draining the pending-call stack writes exactly the pending calls of `m`. -/
theorem drain_spec (m : MatchingRelation) (hwf : NWWF m) :
    ∀ (cs : List Nat) (mmp : MatchingRelation),
      cs.Nodup →
      (∀ c ∈ cs, m.succ.getD c none = some none ∧ c < m.len) →
      mmp.succ.length = m.len → mmp.pred.length = m.len →
      (∀ i, mmp.succ.getD i none =
        (if i ∈ cs then none else m.succ.getD i none)) →
      (∀ i, mmp.pred.getD i none = pred_upto m m.len i) →
      ∃ mmp' : MatchingRelation,
        cs.foldlM (fun mm c => mm.set_match (some c) none) mmp =
          Except.ok mmp' ∧
        mmp'.succ.length = m.len ∧ mmp'.pred.length = m.len ∧
        (∀ i, mmp'.succ.getD i none = m.succ.getD i none) ∧
        (∀ i, mmp'.pred.getD i none = pred_upto m m.len i) := by
  intro cs
  induction cs with
  | nil =>
    intro mmp hnd hall hsl hpl hs hq
    refine ⟨mmp, rfl, hsl, hpl, ?_, hq⟩
    intro i
    rw [hs i, if_neg (by simp)]
  | cons c cs ih =>
    intro mmp hnd hall hsl hpl hs hq
    obtain ⟨hcnotin, hnd'⟩ := List.nodup_cons.mp hnd
    obtain ⟨hcpend, hclen⟩ := hall c (by simp)
    have hcOK : c < mmp.len := by
      show c < mmp.succ.length
      omega
    have hsm := set_match_pc_ok mmp c hcOK
      (cross_drain_false hwf hsl hs hq c hcpend)
    obtain ⟨mmp', hfold, g1, g2, g3, g4⟩ := ih
      ⟨mmp.succ.set c (some none), mmp.pred⟩
      hnd' (fun x hx => hall x (by simp [hx]))
      (by show (mmp.succ.set c (some none)).length = m.len
          rw [List.length_set, hsl])
      hpl
      (by intro i
          show (mmp.succ.set c (some none)).getD i none = _
          rw [list_getD_set]
          by_cases hic : i = c
          · subst hic
            rw [if_pos ⟨rfl, by rw [hsl]; omega⟩,
              if_neg (by simpa using hcnotin), hcpend]
          · rw [if_neg (by intro hh; exact hic hh.1), hs i]
            by_cases hics : i ∈ cs
            · rw [if_pos hics, if_pos (by simp [hics])]
            · rw [if_neg hics, if_neg (show ¬ i ∈ c :: cs by
                simp only [List.mem_cons]; rintro (h | h); exacts [hic h, hics h])]
      )
      hq
    refine ⟨mmp', ?_, g1, g2, g3, g4⟩
    have h1 : (c :: cs).foldlM (fun mm c2 => mm.set_match (some c2) none) mmp =
        (mmp.set_match (some c) none).bind
          (fun mm1 => cs.foldlM (fun mm c2 => mm.set_match (some c2) none) mm1) := rfl
    rw [h1, hsm]
    exact hfold

theorem succ_upto_pending {m : MatchingRelation} {p i : Nat}
    (h : m.succ.getD i none = some none) : succ_upto m p i = none := by
  unfold succ_upto
  rw [h]

theorem succ_upto_full {m : MatchingRelation} {p i r : Nat}
    (h : m.succ.getD i none = some (some r)) (hr : r < p) :
    succ_upto m p i = some (some r) := by
  unfold succ_upto
  rw [h]
  show (if r < p then (some (some r) : MEntry) else none) = some (some r)
  rw [if_pos hr]

theorem succ_upto_none {m : MatchingRelation} {p i : Nat}
    (h : m.succ.getD i none = none) : succ_upto m p i = none := by
  unfold succ_upto
  rw [h]

/-- At the end of the word, the stack holds exactly the pending calls. -/
theorem pstack_final_mem {m : MatchingRelation} (hwf : NWWF m) {c : Nat}
    (hc : c ∈ pstack m m.len) :
    m.succ.getD c none = some none ∧ c < m.len := by
  unfold pstack at hc
  rw [List.mem_reverse, List.mem_filter, List.mem_range] at hc
  obtain ⟨hlt, hopn⟩ := hc
  refine ⟨?_, hlt⟩
  unfold opn at hopn
  cases hsc : m.succ.getD c none with
  | none =>
    rw [hsc] at hopn
    exact absurd hopn (by simp)
  | some e =>
    cases e with
    | none => rfl
    | some r =>
      rw [hsc] at hopn
      have h2 : decide (m.len ≤ r) = true := hopn
      have h3 := of_decide_eq_true h2
      have h4 := (hwf.succ_match c r hsc).2.1
      exact absurd h3 (by omega)

/-- The parser state at the end of the word satisfies the drain-phase
precondition. -/
theorem drain_init_succ {m mmp : MatchingRelation} (hwf : NWWF m)
    (hs : ∀ i, mmp.succ.getD i none = succ_upto m m.len i) :
    ∀ i, mmp.succ.getD i none =
      (if i ∈ pstack m m.len then none else m.succ.getD i none) := by
  intro i
  have hmem : i ∈ pstack m m.len ↔ (i < m.len ∧ opn m m.len i = true) := by
    unfold pstack
    rw [List.mem_reverse, List.mem_filter, List.mem_range]
  cases hsi : m.succ.getD i none with
  | none =>
    rw [if_neg (fun hin => ?_), hs i, succ_upto_none hsi]
    have hopn := (hmem.mp hin).2
    unfold opn at hopn
    rw [hsi] at hopn
    exact absurd hopn (by simp)
  | some e =>
    cases e with
    | none =>
      have hin : i ∈ pstack m m.len := by
        rw [hmem]
        constructor
        · by_contra hge
          rw [List.getD_eq_default _ _
            (show m.succ.length ≤ i from by show m.len ≤ i; omega)] at hsi
          exact absurd hsi (by simp)
        · unfold opn
          rw [hsi]
      rw [if_pos hin, hs i, succ_upto_pending hsi]
    | some r =>
      have hr := (hwf.succ_match i r hsi).2.1
      rw [if_neg (fun hin => ?_), hs i, succ_upto_full hsi hr]
      have hopn := (hmem.mp hin).2
      unfold opn at hopn
      rw [hsi] at hopn
      have h2 : decide (m.len ≤ r) = true := hopn
      exact absurd (of_decide_eq_true h2) (by omega)

theorem pred_upto_full (m : MatchingRelation) (hwf : NWWF m) (i : Nat) :
    pred_upto m m.len i = m.pred.getD i none := by
  unfold pred_upto
  by_cases hip : i < m.len
  · rw [if_pos hip]
  · rw [if_neg hip,
      List.getD_eq_default _ _ (by rw [hwf.len_eq]; show m.len ≤ i; omega)]

theorem matching_ext {m1 m2 : MatchingRelation}
    (h1 : m1.succ.length = m2.succ.length)
    (h2 : m1.pred.length = m2.pred.length)
    (hs : ∀ i, m1.succ.getD i none = m2.succ.getD i none)
    (hp : ∀ i, m1.pred.getD i none = m2.pred.getD i none) : m1 = m2 := by
  obtain ⟨s1, p1⟩ := m1
  obtain ⟨s2, p2⟩ := m2
  have hseq : s1 = s2 := by
    refine List.ext_getElem h1 (fun i hi1 hi2 => ?_)
    have := hs i
    rwa [List.getD_eq_getElem _ _ hi1, List.getD_eq_getElem _ _ hi2] at this
  have hpeq : p1 = p2 := by
    refine List.ext_getElem h2 (fun i hi1 hi2 => ?_)
    have := hp i
    rwa [List.getD_eq_getElem _ _ hi1, List.getD_eq_getElem _ _ hi2] at this
  rw [hseq, hpeq]

/-- The tagged round trip for well-formed nested words: `from_tagged_sequence`
rebuilds exactly the word and matching relation that `to_tagged` serialised. -/
theorem tagged_round_trip (nw : NestedWord α)
    (hwf : NWWF nw.matching) (hlen : nw.matching.len = nw.word.length) :
    from_tagged_sequence nw.to_tagged = Except.ok nw := by
  obtain ⟨w, mm⟩ := nw
  have hwfm : NWWF mm := hwf
  have hlenm : mm.len = w.length := hlen
  have hword : (to_tagged (⟨w, mm⟩ : NestedWord α)).filterMap
      (fun t => match t with | Tok.sym a => some a | _ => none) = w := by
    rw [to_tagged_blocks]
    show ((w.enum.map (block mm)).flatten).filterMap _ = w
    rw [blocks_syms]
    exact List.enum_map_snd w
  obtain ⟨mmpL, hfold, hL1, hL2, hL3, hL4⟩ :=
    parse_from mm hwfm w hlenm w.length 0 (MatchingRelation.mk_empty w.length)
      (by omega) (by omega)
      (by show (List.replicate w.length none).length = mm.len
          rw [List.length_replicate, hlenm])
      (by show (List.replicate w.length none).length = mm.len
          rw [List.length_replicate, hlenm])
      (by intro i
          show (List.replicate w.length none).getD i none = _
          rw [getD_replicate_none, succ_upto_zero])
      (by intro i
          show (List.replicate w.length none).getD i none = _
          rw [getD_replicate_none, pred_upto_zero])
  rw [List.drop_zero] at hfold
  have hfold2 : (to_tagged (⟨w, mm⟩ : NestedWord α)).foldlM parse_step
      (([] : List Nat), 0, MatchingRelation.mk_empty w.length) =
      Except.ok (pstack mm w.length, w.length, mmpL) := by
    rw [to_tagged_blocks]
    exact hfold
  rw [← hlenm] at hL3 hL4
  obtain ⟨mmF, hdrain, hF1, hF2, hF3, hF4⟩ :=
    drain_spec mm hwfm (pstack mm mm.len) mmpL
      (List.nodup_reverse.mpr ((List.nodup_range _).filter _))
      (fun c hc => pstack_final_mem hwfm hc)
      hL1 hL2 (drain_init_succ hwfm hL3) hL4
  have hmmF : mmF = mm := by
    refine matching_ext ?_ ?_ hF3 (fun i => ?_)
    · show mmF.succ.length = mm.succ.length
      exact hF1
    · show mmF.pred.length = mm.pred.length
      exact hF2.trans hwfm.len_eq.symm
    · rw [hF4 i, pred_upto_full mm hwfm]
  rw [hlenm] at hdrain
  show from_tagged_sequence (to_tagged (⟨w, mm⟩ : NestedWord α)) =
    Except.ok (⟨w, mm⟩ : NestedWord α)
  simp only [from_tagged_sequence]
  rw [hword, hfold2]
  show ((pstack mm w.length).foldlM
      (fun (m2 : MatchingRelation) c => m2.set_match (some c) none) mmpL).bind
      (fun m2 => Except.ok (⟨w, m2⟩ : NestedWord α)) =
    Except.ok (⟨w, mm⟩ : NestedWord α)
  rw [hdrain, hmmF]
  rfl


theorem mr1_wf : NWWF mr1 := by
  refine ⟨rfl, ?_, ?_, ?_, ?_, ?_, ?_, ?_⟩
  · intro i r h
    match i with
    | 0 =>
      have h2 : (some (some 1) : MEntry) = some (some r) := h
      injection h2 with h3
      injection h3 with h4
      subst h4
      exact ⟨by omega, by decide, rfl⟩
    | 1 =>
      have h2 : (none : MEntry) = some (some r) := h
      exact Option.noConfusion h2
    | (k+2) =>
      have h2 : (none : MEntry) = some (some r) := h
      exact Option.noConfusion h2
  · intro j c h
    match j with
    | 0 =>
      have h2 : (none : MEntry) = some (some c) := h
      exact Option.noConfusion h2
    | 1 =>
      have h2 : (some (some 0) : MEntry) = some (some c) := h
      injection h2 with h3
      injection h3 with h4
      subst h4
      rfl
    | (k+2) =>
      have h2 : (none : MEntry) = some (some c) := h
      exact Option.noConfusion h2
  · intro i h1 h2
    match i with
    | 0 =>
      have h3 : (none : MEntry).isSome = true := h2
      exact absurd h3 (by decide)
    | 1 =>
      have h3 : (none : MEntry).isSome = true := h1
      exact absurd h3 (by decide)
    | (k+2) =>
      have h3 : (none : MEntry).isSome = true := h1
      exact absurd h3 (by decide)
  · intro i j c r h1 h2
    match i with
    | 0 =>
      have h3 : (some (some 1) : MEntry) = some (some j) := h1
      injection h3 with h4
      injection h4 with h5
      subst h5
      match c with
      | 0 =>
        have h6 : (some (some 1) : MEntry) = some (some r) := h2
        injection h6 with h7
        injection h7 with h8
        subst h8
        decide
      | 1 =>
        have h6 : (none : MEntry) = some (some r) := h2
        exact Option.noConfusion h6
      | (k+2) =>
        have h6 : (none : MEntry) = some (some r) := h2
        exact Option.noConfusion h6
    | 1 =>
      have h3 : (none : MEntry) = some (some j) := h1
      exact Option.noConfusion h3
    | (k+2) =>
      have h3 : (none : MEntry) = some (some j) := h1
      exact Option.noConfusion h3
  · intro c r b h1 h2
    match b with
    | 0 =>
      have h3 : (some (some 1) : MEntry) = some none := h2
      injection h3 with h4
      exact Option.noConfusion h4
    | 1 =>
      have h3 : (none : MEntry) = some none := h2
      exact Option.noConfusion h3
    | (k+2) =>
      have h3 : (none : MEntry) = some none := h2
      exact Option.noConfusion h3
  · intro c r q h1 h2
    match q with
    | 0 =>
      have h3 : (none : MEntry) = some none := h2
      exact Option.noConfusion h3
    | 1 =>
      have h3 : (some (some 0) : MEntry) = some none := h2
      injection h3 with h4
      exact Option.noConfusion h4
    | (k+2) =>
      have h3 : (none : MEntry) = some none := h2
      exact Option.noConfusion h3
  · intro b q h1 h2
    match b with
    | 0 =>
      have h3 : (some (some 1) : MEntry) = some none := h1
      injection h3 with h4
      exact Option.noConfusion h4
    | 1 =>
      have h3 : (none : MEntry) = some none := h1
      exact Option.noConfusion h3
    | (k+2) =>
      have h3 : (none : MEntry) = some none := h1
      exact Option.noConfusion h3

end NestedWord


/-- All-node chains lose nothing to `filterMap to_node`. -/
theorem filterMap_node_length {N : Type} :
    ∀ (chain : List (PElem N)), chain.all PElem.is_node = true →
      (chain.filterMap PElem.to_node).length = chain.length := by
  intro chain
  induction chain with
  | nil => intro _; rfl
  | cons e t ih =>
    intro h
    rw [List.all_cons, Bool.and_eq_true] at h
    cases e with
    | node n =>
      rw [List.filterMap_cons]
      simp only [PElem.to_node]
      rw [List.length_cons, ih h.2]
      rfl
    | junk => exact absurd h.1 (by simp [PElem.is_node])

/-- Marking fresh positions as pending calls never raises: every intermediate
relation holds only pending calls, which nothing can cross. -/
theorem pending_calls_fold_ok (n : Nat) :
    ∀ (ps : List Nat) (m : MatchingRelation),
      m.succ.length = n →
      (∀ i, m.pred.getD i none = none) →
      (∀ i, m.succ.getD i none = none ∨ m.succ.getD i none = some none) →
      (∀ p ∈ ps, p < n) →
      ∃ m', ps.foldlM
          (fun mm p => mm.set_match (some (n - (p + 1))) none) m =
        Except.ok m' := by
  intro ps
  induction ps with
  | nil => intro m _ _ _ _; exact ⟨m, rfl⟩
  | cons p ps ih =>
    intro m hlen hpred hshape hbound
    have hpn : p < n := hbound p (by simp)
    have hcross : m.get_matches.any
        (fun q => MatchingRelation.crosses (some (n - (p + 1)), none) q) =
        false := by
      rw [List.any_eq_false]
      intro q hq
      obtain ⟨i, hi, hgm⟩ := NestedWord.mem_get_matches hq
      unfold MatchingRelation.get_match at hgm
      rcases hshape i with hsi | hsi
      · rw [hsi, hpred i] at hgm
        have h0 : (none : Option (Option Nat × Option Nat)) = some q := hgm
        exact absurd h0 (by simp)
      · rw [hsi] at hgm
        have h2 : (some ((some i : Option Nat), (none : Option Nat)) :
            Option (Option Nat × Option Nat)) = some q := hgm
        injection h2 with h2
        subst h2
        simp [MatchingRelation.crosses]
    have hset := NestedWord.set_match_pc_ok m (n - (p + 1))
      (by show n - (p + 1) < m.succ.length; omega) hcross
    obtain ⟨m', hfold⟩ := ih ⟨m.succ.set (n - (p + 1)) (some none), m.pred⟩
      (by show (m.succ.set (n - (p + 1)) (some none)).length = n
          rw [List.length_set, hlen])
      hpred
      (by intro i
          show (m.succ.set (n - (p + 1)) (some none)).getD i none = none ∨
            (m.succ.set (n - (p + 1)) (some none)).getD i none = some none
          rw [list_getD_set]
          by_cases hic : i = n - (p + 1) ∧ n - (p + 1) < m.succ.length
          · rw [if_pos hic]
            exact Or.inr rfl
          · rw [if_neg hic]
            exact hshape i)
      (fun x hx => hbound x (by simp [hx]))
    refine ⟨m', ?_⟩
    have h1 : (p :: ps).foldlM
        (fun mm p2 => mm.set_match (some (n - (p2 + 1))) none) m =
        (m.set_match (some (n - (p + 1))) none).bind
          (fun m1 => ps.foldlM
            (fun mm p2 => mm.set_match (some (n - (p2 + 1))) none) m1) := rfl
    rw [h1, hset]
    exact hfold

/-- `add_calls` on a fresh nested word always succeeds. -/
theorem add_calls_fresh_ok {α : Type} [DecidableEq α] (ss : List α) :
    ∃ w, (NestedWord.nw_empty : NestedWord α).add_calls ss = Except.ok w := by
  obtain ⟨m', hfold⟩ := pending_calls_fold_ok ss.length (List.range ss.length)
    ⟨List.replicate ss.length none, List.replicate ss.length none⟩
    (by simp)
    (fun i => NestedWord.getD_replicate_none _ _)
    (fun i => Or.inl (NestedWord.getD_replicate_none _ _))
    (fun p hp => List.mem_range.mp hp)
  refine ⟨⟨ss, m'⟩, ?_⟩
  have h1 : ((NestedWord.nw_empty : NestedWord α).add_calls ss :
      Except String (NestedWord α)) =
      ((List.range ss.length).foldlM
        (fun (mm : MatchingRelation) p =>
          mm.set_match (some (ss.length - (p + 1))) none)
        (⟨List.replicate ss.length none, List.replicate ss.length none⟩ :
          MatchingRelation)).bind
        (fun matching => Except.ok (⟨ss, matching⟩ : NestedWord α)) := rfl
  rw [h1, hfold]
  rfl

/-- `nw_of_vertices` succeeds on every non-empty vertex list. -/
theorem nw_of_vertices_ok (vertices : List (Option Nat))
    (hne : vertices ≠ []) :
    ∃ w, nw_of_vertices vertices = Except.ok w := by
  obtain ⟨v, hv⟩ : ∃ v, vertices.getLast? = some v := by
    cases vertices with
    | nil => exact absurd rfl hne
    | cons a t =>
      exact ⟨(a :: t).getLast (by simp), List.getLast?_eq_getLast (a :: t) (by simp)⟩
  unfold nw_of_vertices
  rw [hv]
  by_cases hlen : vertices.length > 1
  · obtain ⟨w1, hw1⟩ := add_calls_fresh_ok vertices.dropLast
    refine ⟨w1.add_internal v, ?_⟩
    show (if vertices.length > 1 then
        (NestedWord.nw_empty.add_calls vertices.dropLast).bind
          (fun nw1 => Except.ok (nw1.add_internal v))
      else Except.ok (NestedWord.nw_empty.add_internal v)) =
      Except.ok (w1.add_internal v)
    rw [if_pos hlen, hw1]
    rfl
  · refine ⟨NestedWord.nw_empty.add_internal v, ?_⟩
    show (if vertices.length > 1 then
        (NestedWord.nw_empty.add_calls vertices.dropLast).bind
          (fun nw1 => Except.ok (nw1.add_internal v))
      else Except.ok (NestedWord.nw_empty.add_internal v)) =
      Except.ok (NestedWord.nw_empty.add_internal v)
    rw [if_neg hlen]

/-- `_chain_to_nw` on a graph-backed model in first-match mode succeeds on
every non-empty chain. -/
theorem chain_to_nw_graph_ok {N : Type} (beq : N → N → Bool)
    (dist : N → N → Except String Rat) (pg : PatternGraph N)
    (hcm : pg.closest_match = false) (ns : List N) (hne : ns ≠ []) :
    ∃ w, chain_to_nw beq dist (.graph pg) ns = Except.ok w := by
  have hlg := PatternGraph.gtrav_length beq pg.graph ns 0 none
  obtain ⟨w, hw⟩ := nw_of_vertices_ok (PatternGraph.gtrav beq pg.graph ns 0 none)
    (by intro hnil
        rw [hnil] at hlg
        exact hne (List.length_eq_zero.mp hlg.symm))
  refine ⟨w, ?_⟩
  simp only [chain_to_nw]
  rw [PatternGraph.gchain_first beq dist pg hcm ns]
  exact hw

namespace NestedWord

/-- `getD` ignores padding by `none` entries. -/
theorem getD_append_pad (l : List MEntry) (k i : Nat) :
    (l ++ List.replicate k none).getD i none = l.getD i none := by
  by_cases h : i < l.length
  · exact List.getD_append l (List.replicate k none) none i h
  · rw [List.getD_eq_default _ _ (by omega : l.length ≤ i)]
    by_cases h2 : i < l.length + k
    · rw [List.getD_eq_getElem _ _ (by
        rw [List.length_append, List.length_replicate]; omega)]
      rw [List.getElem_append_right (by omega)]
      exact List.getElem_replicate _ _
    · exact List.getD_eq_default _ _ (by
        rw [List.length_append, List.length_replicate]; omega)

theorem succ_extend_getD (m : MatchingRelation) (k i : Nat) :
    (m.extend k).succ.getD i none = m.succ.getD i none := by
  show (m.succ ++ List.replicate k none).getD i none = m.succ.getD i none
  exact getD_append_pad m.succ k i

theorem pred_extend_getD (m : MatchingRelation) (k i : Nat) :
    (m.extend k).pred.getD i none = m.pred.getD i none := by
  show (m.pred ++ List.replicate k none).getD i none = m.pred.getD i none
  exact getD_append_pad m.pred k i

/-- Membership in `get_pending_calls`. -/
theorem mem_pending_iff (m : MatchingRelation) (p : Nat) :
    p ∈ m.get_pending_calls ↔
      p < m.len ∧ m.succ.getD p none = some none := by
  show p ∈ (List.range m.len).filter
      (fun i => m.succ.getD i none == some none) ↔ _
  rw [List.mem_filter, List.mem_range]
  constructor
  · rintro ⟨h1, h2⟩
    exact ⟨h1, beq_iff_eq.mp h2⟩
  · rintro ⟨h1, h2⟩
    exact ⟨h1, beq_iff_eq.mpr h2⟩

/-- Pending calls are listed in increasing position order. -/
theorem pending_sorted (m : MatchingRelation) :
    List.Pairwise (· < ·) m.get_pending_calls := by
  show List.Pairwise (· < ·)
    ((List.range m.len).filter (fun i => m.succ.getD i none == some none))
  exact (List.pairwise_lt_range m.len).filter _

theorem pairwise_getD_lt (P : List Nat) (hs : List.Pairwise (· < ·) P)
    {i j : Nat} (hij : i < j) (hj : j < P.length) :
    P.getD i 0 < P.getD j 0 := by
  rw [List.getD_eq_getElem _ _ (by omega), List.getD_eq_getElem _ _ hj]
  exact List.pairwise_iff_getElem.mp hs _ _ (by omega) hj hij

theorem mem_iff_getD (P : List Nat) (p : Nat) (hp : p ∈ P) :
    ∃ i, i < P.length ∧ P.getD i 0 = p := by
  obtain ⟨i, hi, hpi⟩ := List.getElem_of_mem hp
  exact ⟨i, hi, by rw [List.getD_eq_getElem _ _ hi]; exact hpi⟩

theorem getD_mem (P : List Nat) (i : Nat) (h : i < P.length) :
    P.getD i 0 ∈ P := by
  rw [List.getD_eq_getElem _ _ h]
  exact List.getElem_mem h

/-- In a strictly increasing list, back-indexed entries decrease. -/
theorem sorted_back_anti (P : List Nat) (hs : List.Pairwise (· < ·) P)
    {j j' : Nat} (hj : j < j') (hj' : j' < P.length) :
    P.getD (P.length - 1 - j') 0 < P.getD (P.length - 1 - j) 0 :=
  pairwise_getD_lt P hs (by omega) (by omega)

/-- A member of a strictly increasing list that differs from each of the last
`t` entries is at most the `(t+1)`-st entry from the back. -/
theorem mem_not_closed_le (P : List Nat) (hs : List.Pairwise (· < ·) P)
    (t : Nat) (ht : t < P.length) (p : Nat) (hp : p ∈ P)
    (hnc : ∀ j, j < t → p ≠ P.getD (P.length - 1 - j) 0) :
    p ≤ P.getD (P.length - 1 - t) 0 := by
  obtain ⟨i, hi, hpi⟩ := mem_iff_getD P p hp
  by_cases hit : i < P.length - 1 - t
  · rw [← hpi]
    exact Nat.le_of_lt (pairwise_getD_lt P hs hit (by omega))
  · by_cases heq : i = P.length - 1 - t
    · rw [← hpi, heq]
    · exfalso
      have hj : P.length - 1 - i < t := by omega
      refine hnc (P.length - 1 - i) hj ?_
      rw [show P.length - 1 - (P.length - 1 - i) = i from by omega, hpi]

/-- Extending a relation with internal padding does not change its pending
calls. -/
theorem pending_extend (m : MatchingRelation) (k : Nat) :
    (m.extend k).get_pending_calls = m.get_pending_calls := by
  have hlen : (m.extend k).len = m.len + k := by
    show (m.succ ++ List.replicate k none).length = m.succ.length + k
    rw [List.length_append, List.length_replicate]
  show (List.range (m.extend k).len).filter
      (fun i => (m.extend k).succ.getD i none == some none) =
    (List.range m.len).filter (fun i => m.succ.getD i none == some none)
  rw [hlen,
    filter_range_congr _ (fun i => m.succ.getD i none == some none) _
      (fun x _ => by rw [succ_extend_getD]),
    filter_range_drop (fun i => m.succ.getD i none == some none) m.len
      (m.len + k) (by omega)
      (fun x hx _ => by
        show (m.succ.getD x none == some none) = false
        rw [List.getD_eq_default _ _ (by exact hx : m.succ.length ≤ x)]
        rfl)]

/-- A chain-shaped word's pending calls are `range (length - 1)`. -/
theorem pending_chainw {β : Type} (w : NestedWord β) (hc : ChainW w) :
    w.matching.get_pending_calls = List.range (w.word.length - 1) := by
  obtain ⟨hne, hlen, _, hpend, hlast, _⟩ := hc
  have hL : 0 < w.word.length := List.length_pos.mpr hne
  show (List.range w.matching.len).filter
      (fun i => w.matching.succ.getD i none == some none) = _
  rw [hlen]
  have h2 : (List.range (w.word.length - 1)).filter
      (fun i => w.matching.succ.getD i none == some none) =
      List.range (w.word.length - 1) := by
    rw [List.filter_eq_self]
    intro a ha
    rw [hpend a (by have := List.mem_range.mp ha; omega)]
    rfl
  rw [filter_range_drop _ (w.word.length - 1) w.word.length (by omega)
    (fun x hx hx2 => by rw [hlast x (by omega)]; rfl), h2]

/-- Extending a well-formed relation with internal padding keeps it
well-formed. -/
theorem nwwf_extend {m : MatchingRelation} (hwf : NWWF m) (k : Nat) :
    NWWF (m.extend k) := by
  have hs := succ_extend_getD m k
  have hp := pred_extend_getD m k
  refine ⟨?_, ?_, ?_, ?_, ?_, ?_, ?_, ?_⟩
  · show (m.pred ++ List.replicate k none).length =
      (m.succ ++ List.replicate k none).length
    rw [List.length_append, List.length_append, List.length_replicate,
      hwf.len_eq]
  · intro i r h
    rw [hs] at h
    obtain ⟨h1, h2, h3⟩ := hwf.succ_match i r h
    refine ⟨h1, ?_, ?_⟩
    · show r < (m.succ ++ List.replicate k none).length
      rw [List.length_append]
      have h4 : r < m.succ.length := h2
      omega
    · rw [hp]
      exact h3
  · intro j c h
    rw [hp] at h
    rw [hs]
    exact hwf.pred_match j c h
  · intro i h1 h2
    rw [hs] at h1
    rw [hp] at h2
    exact hwf.no_dual i h1 h2
  · intro i j c r h1 h2
    rw [hs] at h1 h2
    exact hwf.nc_mm i j c r h1 h2
  · intro c r b h1 h2
    rw [hs] at h1 h2
    exact hwf.nc_mp c r b h1 h2
  · intro c r q h1 h2
    rw [hs] at h1
    rw [hp] at h2
    exact hwf.nc_mr c r q h1 h2
  · intro b q h1 h2
    rw [hs] at h1
    rw [hp] at h2
    exact hwf.nc_pr b q h1 h2

/-- Appending one internal symbol preserves well-formedness. -/
theorem wfw_add_internal {β : Type} [DecidableEq β] (w : NestedWord β)
    (hwf : WFW w) (s : β) : WFW (w.add_internal s) := by
  obtain ⟨hne, hlen, hm⟩ := hwf
  refine ⟨?_, ?_, nwwf_extend hm 1⟩
  · show w.word ++ [s] ≠ []
    simp
  show (w.matching.succ ++ List.replicate 1 none).length =
    (w.word ++ [s]).length
  rw [List.length_append, List.length_append, List.length_replicate]
  have h2 : w.matching.succ.length = w.word.length := hlen
  rw [h2]
  rfl

/-- A chain-shaped word is in particular well-formed. -/
theorem chainw_wfw {β : Type} (w : NestedWord β) (hc : ChainW w) : WFW w := by
  obtain ⟨hne, hlen, hpl, hpend, hlast, hpred⟩ := hc
  have hss : ∀ i j, w.matching.succ.getD i none ≠ some (some j) := by
    intro i j h
    rcases Nat.lt_or_ge (i + 1) w.word.length with h1 | h1
    · rw [hpend i h1] at h
      exact absurd h (by simp)
    · rw [hlast i h1] at h
      exact absurd h (by simp)
  refine ⟨hne, hlen, hpl, ?_, ?_, ?_, ?_, ?_, ?_, ?_⟩
  · intro i r h
    exact absurd h (hss i r)
  · intro j c h
    rw [hpred j] at h
    exact absurd h (by simp)
  · intro i h1 h2
    rw [hpred i] at h2
    exact absurd h2 (by simp)
  · intro i j c r h1 h2
    exact absurd h1 (hss i j)
  · intro c r b h1 h2
    exact absurd h1 (hss c r)
  · intro c r q h1 h2
    exact absurd h1 (hss c r)
  · intro b q h1 h2
    rw [hpred q] at h2
    exact absurd h2 (by simp)

theorem enumFrom_add {β : Type} :
    ∀ (l : List β) (n k : Nat),
      List.enumFrom (n + k) l =
        (List.enumFrom n l).map (fun p => (p.1 + k, p.2)) := by
  intro l
  induction l with
  | nil => intro n k; rfl
  | cons a t ih =>
    intro n k
    show (n + k, a) :: List.enumFrom (n + k + 1) t =
      ((n, a) :: List.enumFrom (n + 1) t).map (fun p => (p.1 + k, p.2))
    rw [List.map_cons, show n + k + 1 = (n + 1) + k from by omega,
      ih (n + 1) k]

theorem getD_append_right_len (l1 l2 : List MEntry) (j : Nat) :
    (l1 ++ l2).getD (l1.length + j) none = l2.getD j none := by
  rw [List.getD_eq_getElem?_getD, List.getD_eq_getElem?_getD,
    List.getElem?_append_right (by omega),
    show l1.length + j - l1.length = j from by omega]

theorem getD_append_cases (l1 l2 : List MEntry) (i : Nat) :
    (l1 ++ l2).getD i none =
      if i < l1.length then l1.getD i none
      else l2.getD (i - l1.length) none := by
  by_cases h : i < l1.length
  · rw [if_pos h, List.getD_append _ _ _ _ h]
  · rw [if_neg h, List.getD_eq_getElem?_getD, List.getD_eq_getElem?_getD,
      List.getElem?_append_right (by omega)]

theorem block_append_left {β : Type} (A B M : MatchingRelation)
    (hM : M.succ = A.succ ++ B.succ) (hMp : M.pred = A.pred ++ B.pred)
    (hpl : A.pred.length = A.succ.length)
    (i : Nat) (hi : i < A.succ.length) (s : β) :
    block M (i, s) = block A (i, s) := by
  have hc : M.is_call i = A.is_call i := by
    unfold MatchingRelation.is_call
    rw [hM, List.getD_append _ _ _ _ hi]
  have hr : M.is_return i = A.is_return i := by
    unfold MatchingRelation.is_return
    rw [hMp, List.getD_append _ _ _ _ (by omega : i < A.pred.length)]
  show (if M.is_call i then [Tok.lt] else []) ++ [Tok.sym s] ++
      (if M.is_return i then [Tok.gt] else []) =
    (if A.is_call i then [Tok.lt] else []) ++ [Tok.sym s] ++
      (if A.is_return i then [Tok.gt] else [])
  rw [hc, hr]

theorem block_append_right {β : Type} (A B M : MatchingRelation)
    (hM : M.succ = A.succ ++ B.succ) (hMp : M.pred = A.pred ++ B.pred)
    (hpl : A.pred.length = A.succ.length)
    (j : Nat) (s : β) :
    block M (j + A.succ.length, s) = block B (j, s) := by
  have hc : M.is_call (j + A.succ.length) = B.is_call j := by
    unfold MatchingRelation.is_call
    rw [hM, show j + A.succ.length = A.succ.length + j from by omega,
      getD_append_right_len]
  have hr : M.is_return (j + A.succ.length) = B.is_return j := by
    unfold MatchingRelation.is_return
    rw [hMp, show j + A.succ.length = A.pred.length + j from by
        rw [hpl]; omega,
      getD_append_right_len]
  show (if M.is_call (j + A.succ.length) then [Tok.lt] else []) ++
      [Tok.sym s] ++
      (if M.is_return (j + A.succ.length) then [Tok.gt] else []) =
    (if B.is_call j then [Tok.lt] else []) ++ [Tok.sym s] ++
      (if B.is_return j then [Tok.gt] else [])
  rw [hc, hr]

/-- The tagged form of the spliced word is the two tagged forms appended. -/
theorem to_tagged_append {β : Type} [DecidableEq β]
    (A B : NestedWord β) (M : MatchingRelation)
    (hA : A.matching.len = A.word.length)
    (hApl : A.matching.pred.length = A.matching.succ.length)
    (hM : M.succ = A.matching.succ ++ B.matching.succ)
    (hMp : M.pred = A.matching.pred ++ B.matching.pred) :
    to_tagged (⟨A.word ++ B.word, M⟩ : NestedWord β) =
      A.to_tagged ++ B.to_tagged := by
  have hLA : A.matching.succ.length = A.word.length := hA
  rw [to_tagged_blocks, to_tagged_blocks, to_tagged_blocks]
  show (((A.word ++ B.word).enum).map (block M)).flatten =
    (A.word.enum.map (block A.matching)).flatten ++
    (B.word.enum.map (block B.matching)).flatten
  rw [List.enum_append, List.map_append, List.flatten_append]
  congr 1
  · refine congrArg List.flatten (List.map_congr_left ?_)
    intro p hp
    obtain ⟨i, s⟩ := p
    obtain ⟨hi, -⟩ := List.mem_enum hp
    exact block_append_left A.matching B.matching M hM hMp hApl i
      (by omega) s
  · have hshift : List.enumFrom A.word.length B.word =
        B.word.enum.map (fun p => (p.1 + A.word.length, p.2)) := by
      have h2 := enumFrom_add B.word 0 A.word.length
      rw [show 0 + A.word.length = A.word.length from by omega] at h2
      exact h2
    rw [hshift, List.map_map]
    refine congrArg List.flatten (List.map_congr_left ?_)
    intro p hp
    obtain ⟨j, s⟩ := p
    show block M (j + A.word.length, s) = block B.matching (j, s)
    have h4 : (A.word.length : Nat) = A.matching.succ.length := hLA.symm
    rw [h4]
    exact block_append_right A.matching B.matching M hM hMp hApl j s

/-- Splicing a chain-shaped word onto a well-formed word yields a well-formed
matching. -/
theorem nwwf_append {β : Type} (A B : NestedWord β)
    (hwA : WFW A) (hcB : ChainW B) (M : MatchingRelation)
    (hM : M.succ = A.matching.succ ++ B.matching.succ)
    (hMp : M.pred = A.matching.pred ++ B.matching.pred) :
    NWWF M ∧ M.len = A.word.length + B.word.length := by
  have hLA : A.matching.succ.length = A.word.length := hwA.2.1
  have hwfA : NWWF A.matching := hwA.2.2
  have hLAp : A.matching.pred.length = A.matching.succ.length := hwfA.len_eq
  obtain ⟨hBne, hBlen, hBpl, hBpend, hBlast, hBpred⟩ := hcB
  have hLB : B.matching.succ.length = B.word.length := hBlen
  have hSucc : ∀ i, M.succ.getD i none =
      if i < A.word.length then A.matching.succ.getD i none
      else B.matching.succ.getD (i - A.word.length) none := by
    intro i
    rw [hM, getD_append_cases, hLA]
  have hPred : ∀ i, M.pred.getD i none =
      if i < A.word.length then A.matching.pred.getD i none
      else B.matching.pred.getD (i - A.word.length) none := by
    intro i
    rw [hMp, getD_append_cases, hLAp, hLA]
  have hBnm : ∀ j r, B.matching.succ.getD j none ≠ some (some r) := by
    intro j r h
    rcases Nat.lt_or_ge (j + 1) B.word.length with h1 | h1
    · rw [hBpend j h1] at h
      exact absurd h (by simp)
    · rw [hBlast j h1] at h
      exact absurd h (by simp)
  have hMsome : ∀ i j, M.succ.getD i none = some (some j) →
      i < A.word.length ∧ A.matching.succ.getD i none = some (some j) := by
    intro i j h
    rw [hSucc i] at h
    by_cases hi : i < A.word.length
    · rw [if_pos hi] at h
      exact ⟨hi, h⟩
    · rw [if_neg hi] at h
      exact absurd h (hBnm _ j)
  have hMpsome : ∀ q e, M.pred.getD q none = some e →
      q < A.word.length ∧ A.matching.pred.getD q none = some e := by
    intro q e h
    rw [hPred q] at h
    by_cases hq : q < A.word.length
    · rw [if_pos hq] at h
      exact ⟨hq, h⟩
    · rw [if_neg hq] at h
      rw [hBpred] at h
      exact absurd h (by simp)
  have hMlen : M.len = A.word.length + B.word.length := by
    show M.succ.length = _
    rw [hM, List.length_append, hLA, hLB]
  refine ⟨⟨?_, ?_, ?_, ?_, ?_, ?_, ?_, ?_⟩, hMlen⟩
  · rw [hM, hMp, List.length_append, List.length_append, hLAp, hBpl]
  · intro i r h
    obtain ⟨hi, hA2⟩ := hMsome i r h
    obtain ⟨h1, h2, h3⟩ := hwfA.succ_match i r hA2
    have hrA : r < A.word.length := by
      have h4 : r < A.matching.succ.length := h2
      omega
    refine ⟨h1, by omega, ?_⟩
    rw [hPred r, if_pos hrA]
    exact h3
  · intro j c h
    obtain ⟨hj, hA2⟩ := hMpsome j (some c) h
    have hsc := hwfA.pred_match j c hA2
    have hc : c < A.matching.succ.length := by
      by_contra h5
      rw [List.getD_eq_default _ _ (by omega)] at hsc
      exact absurd hsc (by simp)
    rw [hSucc c, if_pos (by omega)]
    exact hsc
  · intro i h1 h2
    obtain ⟨e, he⟩ := Option.isSome_iff_exists.mp h2
    obtain ⟨hi, hA2⟩ := hMpsome i e he
    rw [hSucc i, if_pos hi] at h1
    refine hwfA.no_dual i h1 ?_
    rw [hA2]
    rfl
  · intro i j c r h1 h2
    obtain ⟨hi, hA1⟩ := hMsome i j h1
    obtain ⟨hc, hA2⟩ := hMsome c r h2
    exact hwfA.nc_mm i j c r hA1 hA2
  · intro c r b h1 h2
    obtain ⟨hc, hA1⟩ := hMsome c r h1
    have hrA : r < A.matching.succ.length := (hwfA.succ_match c r hA1).2.1
    rw [hSucc b] at h2
    by_cases hb : b < A.word.length
    · rw [if_pos hb] at h2
      exact hwfA.nc_mp c r b hA1 h2
    · intro hcon
      have : r < A.word.length := by omega
      omega
  · intro c r q h1 h2
    obtain ⟨hc, hA1⟩ := hMsome c r h1
    obtain ⟨hq, hA2⟩ := hMpsome q none h2
    exact hwfA.nc_mr c r q hA1 hA2
  · intro b q h1 h2
    obtain ⟨hq, hA2⟩ := hMpsome q none h2
    rw [hSucc b] at h1
    by_cases hb : b < A.word.length
    · rw [if_pos hb] at h1
      exact hwfA.nc_pr b q h1 hA2
    · omega

/-- `nw_add` of a well-formed word and a chain-shaped word concatenates the
words and splices the matchings side by side. -/
theorem nw_add_concat {β : Type} [DecidableEq β] (A B : NestedWord β)
    (hwA : WFW A) (hcB : ChainW B) :
    NestedWord.nw_add A B =
      Except.ok (⟨A.word ++ B.word,
        ⟨A.matching.succ ++ B.matching.succ,
         A.matching.pred ++ B.matching.pred⟩⟩ : NestedWord β) ∧
    WFW (⟨A.word ++ B.word,
        ⟨A.matching.succ ++ B.matching.succ,
         A.matching.pred ++ B.matching.pred⟩⟩ : NestedWord β) := by
  obtain ⟨hwf, hlen⟩ := nwwf_append A B hwA hcB
    ⟨A.matching.succ ++ B.matching.succ,
     A.matching.pred ++ B.matching.pred⟩ rfl rfl
  have hWlen : (⟨A.matching.succ ++ B.matching.succ,
      A.matching.pred ++ B.matching.pred⟩ : MatchingRelation).len =
      (A.word ++ B.word).length := by
    rw [hlen, List.length_append]
  have hwfC : WFW (⟨A.word ++ B.word,
      ⟨A.matching.succ ++ B.matching.succ,
       A.matching.pred ++ B.matching.pred⟩⟩ : NestedWord β) := by
    refine ⟨?_, hWlen, hwf⟩
    have h2 : A.word ≠ [] := hwA.1
    intro h3
    rcases List.append_eq_nil.mp h3 with ⟨h4, -⟩
    exact h2 h4
  refine ⟨?_, hwfC⟩
  show from_tagged_sequence (A.to_tagged ++ B.to_tagged) = _
  rw [← to_tagged_append A B
    ⟨A.matching.succ ++ B.matching.succ,
     A.matching.pred ++ B.matching.pred⟩ hwA.2.1 hwA.2.2.len_eq rfl rfl]
  exact tagged_round_trip _ hwf hWlen

/-- Adding onto the empty nested word returns the word itself. -/
theorem nw_add_empty {β : Type} [DecidableEq β] (A : NestedWord β)
    (hwA : WFW A) :
    NestedWord.nw_add NestedWord.nw_empty A = Except.ok A := by
  show from_tagged_sequence
    ((nw_empty : NestedWord β).to_tagged ++ A.to_tagged) = Except.ok A
  have h1 : (nw_empty : NestedWord β).to_tagged = [] := rfl
  rw [h1, List.nil_append]
  exact tagged_round_trip A hwA.2.2 hwA.2.1

/-- Padding with internal positions adds no crossing partner. -/
theorem any_cross_extend {m : MatchingRelation} {k : Nat}
    (hpl : m.pred.length = m.succ.length)
    (cr : Option Nat × Option Nat)
    (h : m.get_matches.any
      (fun mq => MatchingRelation.crosses cr mq) = false) :
    (m.extend k).get_matches.any
      (fun mq => MatchingRelation.crosses cr mq) = false := by
  rw [List.any_eq_false] at h ⊢
  intro mq hmq
  obtain ⟨i, hi, hgm⟩ := mem_get_matches hmq
  have hgm2 : m.get_match i = some mq := by
    unfold MatchingRelation.get_match at hgm ⊢
    rw [succ_extend_getD, pred_extend_getD] at hgm
    exact hgm
  by_cases him : i < m.len
  · refine h mq ?_
    show mq ∈ (List.range m.len).filterMap m.get_match
    rw [List.mem_filterMap]
    exact ⟨i, List.mem_range.mpr him, hgm2⟩
  · exfalso
    have him2 : m.succ.length ≤ i := by
      have h5 : m.len = m.succ.length := rfl
      omega
    unfold MatchingRelation.get_match at hgm2
    rw [List.getD_eq_default _ _ him2,
      List.getD_eq_default _ _ (by rw [hpl]; omega : m.pred.length ≤ i)]
      at hgm2
    have h3 : (none : Option (Option Nat × Option Nat)) = some mq := hgm2
    exact Option.noConfusion h3

/-- The matches of a partially closed relation: matched pairs of `A`, the
freshly closed pairs, pending returns of `A`, and the not-yet-closed pending
calls of `A`. -/
theorem close_matches_char {A : MatchingRelation} (hwf : NWWF A) {L t : Nat}
    (hL : A.succ.length = L) {m : MatchingRelation}
    (hst : CloseSt A A.get_pending_calls L t m) :
    ∀ mq ∈ m.get_matches,
      (∃ a b, mq = (some a, some b) ∧
        A.succ.getD a none = some (some b)) ∨
      (∃ j, j < t ∧
        mq = (some (A.get_pending_calls.getD
          (A.get_pending_calls.length - 1 - j) 0), some (L + j))) ∨
      (∃ b, mq = (none, some b) ∧ A.pred.getD b none = some none ∧ b < L) ∨
      (∃ p, mq = (some p, none) ∧ p ∈ A.get_pending_calls ∧
        (∀ j, j < t → p ≠ A.get_pending_calls.getD
          (A.get_pending_calls.length - 1 - j) 0)) := by
  obtain ⟨hsl, hpl, hcl, hun, hhi, hpc, hpo, hph⟩ := hst
  intro mq hmq
  obtain ⟨i, hi, hgm⟩ := mem_get_matches hmq
  have hilen : i < L + t := by
    have h2 : m.len = L + t := hsl
    omega
  unfold MatchingRelation.get_match at hgm
  by_cases hiL : i < L
  · by_cases hic : ∃ j, j < t ∧
        i = A.get_pending_calls.getD (A.get_pending_calls.length - 1 - j) 0
    · obtain ⟨j, hj, hij⟩ := hic
      rw [hij, hcl j hj] at hgm
      have h2 : (some ((some (A.get_pending_calls.getD
          (A.get_pending_calls.length - 1 - j) 0) : Option Nat),
          (some (L + j) : Option Nat)) :
          Option (Option Nat × Option Nat)) = some mq := hgm
      injection h2 with h3
      exact Or.inr (Or.inl ⟨j, hj, h3.symm⟩)
    · push_neg at hic
      rw [hun i hiL hic] at hgm
      cases hsi : A.succ.getD i none with
      | some e =>
        rw [hsi] at hgm
        cases e with
        | some r =>
          have h2 : (some ((some i : Option Nat), (some r : Option Nat)) :
              Option (Option Nat × Option Nat)) = some mq := hgm
          injection h2 with h3
          exact Or.inl ⟨i, r, h3.symm, hsi⟩
        | none =>
          have h2 : (some ((some i : Option Nat), (none : Option Nat)) :
              Option (Option Nat × Option Nat)) = some mq := hgm
          injection h2 with h3
          refine Or.inr (Or.inr (Or.inr ⟨i, h3.symm, ?_, hic⟩))
          rw [mem_pending_iff]
          refine ⟨?_, hsi⟩
          show i < A.succ.length
          omega
      | none =>
        rw [hsi, hpo i hiL] at hgm
        cases hpi : A.pred.getD i none with
        | some e =>
          rw [hpi] at hgm
          cases e with
          | some c =>
            have h2 : (some ((some c : Option Nat), (some i : Option Nat)) :
                Option (Option Nat × Option Nat)) = some mq := hgm
            injection h2 with h3
            exact Or.inl ⟨c, i, h3.symm, hwf.pred_match i c hpi⟩
          | none =>
            have h2 : (some ((none : Option Nat), (some i : Option Nat)) :
                Option (Option Nat × Option Nat)) = some mq := hgm
            injection h2 with h3
            exact Or.inr (Or.inr (Or.inl ⟨i, h3.symm, hpi, hiL⟩))
        | none =>
          rw [hpi] at hgm
          have h2 : (none : Option (Option Nat × Option Nat)) = some mq := hgm
          exact absurd h2 (by simp)
  · have hj : i - L < t := by omega
    rw [hhi i (by omega)] at hgm
    have h3 : (match m.pred.getD i none with
        | some c => some (c, some i)
        | none => (none : Option (Option Nat × Option Nat))) = some mq := hgm
    rw [show i = L + (i - L) from by omega, hpc (i - L) hj] at h3
    have h4 : (some ((some (A.get_pending_calls.getD
        (A.get_pending_calls.length - 1 - (i - L)) 0) : Option Nat),
        (some (L + (i - L)) : Option Nat)) :
        Option (Option Nat × Option Nat)) = some mq := h3
    injection h4 with h5
    exact Or.inr (Or.inl ⟨i - L, hj, h5.symm⟩)

/-- The next innermost closing pair never crosses an existing entry of the
partially closed relation. -/
theorem close_cross_false {A : MatchingRelation} (hwf : NWWF A) {L t : Nat}
    (hL : A.succ.length = L) {m : MatchingRelation}
    (hst : CloseSt A A.get_pending_calls L t m)
    (ht : t < A.get_pending_calls.length) :
    m.get_matches.any (fun mq => MatchingRelation.crosses
      (some (A.get_pending_calls.getD
        (A.get_pending_calls.length - 1 - t) 0), some (L + t)) mq) =
      false := by
  have hsor := pending_sorted A
  have hcmem : A.get_pending_calls.getD
      (A.get_pending_calls.length - 1 - t) 0 ∈ A.get_pending_calls :=
    getD_mem _ _ (by omega)
  obtain ⟨hcL, hcp⟩ := (mem_pending_iff A _).mp hcmem
  have hcL2 : A.get_pending_calls.getD
      (A.get_pending_calls.length - 1 - t) 0 < L := by
    have h2 : A.len = L := hL
    omega
  rw [List.any_eq_false]
  intro mq hmq
  rcases close_matches_char hwf hL hst mq hmq with
    ⟨a, b, hqe, hab⟩ | ⟨j, hj, hqe⟩ | ⟨b, hqe, hb1, hb2⟩ | ⟨p, hqe, hp1, hp2⟩
  · subst hqe
    intro hcr
    have hbL : b < L := by
      have h2 := (hwf.succ_match a b hab).2.1
      have h3 : A.len = L := hL
      omega
    have hcr2 : (A.get_pending_calls.getD
          (A.get_pending_calls.length - 1 - t) 0 < a ∧ a ≤ L + t ∧
          L + t ≤ b) ∨
        (a < A.get_pending_calls.getD
          (A.get_pending_calls.length - 1 - t) 0 ∧
         A.get_pending_calls.getD
          (A.get_pending_calls.length - 1 - t) 0 ≤ b ∧ b ≤ L + t) :=
      of_decide_eq_true hcr
    rcases hcr2 with ⟨h1, h2, h3⟩ | ⟨h1, h2, h3⟩
    · omega
    · rcases Nat.lt_or_ge (A.get_pending_calls.getD
          (A.get_pending_calls.length - 1 - t) 0) b with h4 | h4
      · exact hwf.nc_mp a b _ hab hcp ⟨h1, h4⟩
      · have h5 : A.get_pending_calls.getD
            (A.get_pending_calls.length - 1 - t) 0 = b := by omega
        refine hwf.no_dual b ?_ ?_
        · rw [← h5, hcp]
          rfl
        · rw [(hwf.succ_match a b hab).2.2]
          rfl
  · subst hqe
    intro hcr
    have hanti : A.get_pending_calls.getD
        (A.get_pending_calls.length - 1 - t) 0 <
        A.get_pending_calls.getD (A.get_pending_calls.length - 1 - j) 0 :=
      sorted_back_anti _ hsor hj ht
    have hcr2 : (A.get_pending_calls.getD
          (A.get_pending_calls.length - 1 - t) 0 <
          A.get_pending_calls.getD
            (A.get_pending_calls.length - 1 - j) 0 ∧
          A.get_pending_calls.getD
            (A.get_pending_calls.length - 1 - j) 0 ≤ L + t ∧
          L + t ≤ L + j) ∨
        (A.get_pending_calls.getD
            (A.get_pending_calls.length - 1 - j) 0 <
          A.get_pending_calls.getD
            (A.get_pending_calls.length - 1 - t) 0 ∧
          A.get_pending_calls.getD
            (A.get_pending_calls.length - 1 - t) 0 ≤ L + j ∧
          L + j ≤ L + t) :=
      of_decide_eq_true hcr
    rcases hcr2 with ⟨h1, h2, h3⟩ | ⟨h1, h2, h3⟩
    · omega
    · omega
  · subst hqe
    intro hcr
    have hcr2 : A.get_pending_calls.getD
        (A.get_pending_calls.length - 1 - t) 0 < b ∧ b < L + t :=
      of_decide_eq_true hcr
    exact hwf.nc_pr _ b hcp hb1 hcr2.1
  · subst hqe
    intro hcr
    have hcr2 : A.get_pending_calls.getD
        (A.get_pending_calls.length - 1 - t) 0 < p ∧ p < L + t :=
      of_decide_eq_true hcr
    have hple := mem_not_closed_le _ hsor t ht p hp1 hp2
    omega

/-- Filtering a strictly increasing list by "not among the last `t` entries"
keeps exactly the first `length - t` entries. -/
theorem sorted_filter_take (P : List Nat) (hsor : List.Pairwise (· < ·) P)
    (t : Nat) (ht : t ≤ P.length) (g : Nat → Bool)
    (hg : ∀ i2, i2 < P.length →
      (g (P.getD i2 0) = true ↔ i2 < P.length - t)) :
    P.filter g = P.take (P.length - t) := by
  conv_lhs => rw [← List.take_append_drop (P.length - t) P]
  rw [List.filter_append]
  have hlen1 : (P.take (P.length - t)).length = P.length - t := by
    rw [List.length_take]
    omega
  have hlen2 : (P.drop (P.length - t)).length = t := by
    rw [List.length_drop]
    omega
  have h1 : (P.take (P.length - t)).filter g = P.take (P.length - t) := by
    rw [List.filter_eq_self]
    intro a ha
    obtain ⟨i2, hi2, hai⟩ := mem_iff_getD _ a ha
    rw [hlen1] at hi2
    have hPa : (List.take (P.length - t) P).getD i2 0 = P.getD i2 0 := by
      rw [List.getD_eq_getElem (List.take (P.length - t) P) 0
          (by rw [hlen1]; omega),
        List.getD_eq_getElem P 0 (by omega : i2 < P.length)]
      exact List.getElem_take P
    rw [hai] at hPa
    rw [hPa]
    exact (hg i2 (by omega)).mpr hi2
  have h2 : (P.drop (P.length - t)).filter g = [] := by
    rw [List.filter_eq_nil_iff]
    intro a ha
    obtain ⟨x, hx, hax⟩ := mem_iff_getD _ a ha
    rw [hlen2] at hx
    have hPa : (List.drop (P.length - t) P).getD x 0 =
        P.getD (P.length - t + x) 0 := by
      rw [List.getD_eq_getElem (List.drop (P.length - t) P) 0
          (by rw [hlen2]; omega),
        List.getD_eq_getElem P 0
          (by omega : P.length - t + x < P.length)]
      exact List.getElem_drop P
    rw [hax] at hPa
    rw [hPa]
    intro hga
    have h3 := (hg (P.length - t + x) (by omega)).mp hga
    omega
  rw [h1, h2, List.append_nil]

/-- The pending calls of a partially closed relation are the first
`P.length - t` original pending calls, in order. -/
theorem close_pending {A : MatchingRelation} (hwf : NWWF A) {L t : Nat}
    (hL : A.succ.length = L) (ht : t ≤ A.get_pending_calls.length)
    {m : MatchingRelation}
    (hst : CloseSt A A.get_pending_calls L t m) :
    m.get_pending_calls =
      A.get_pending_calls.take (A.get_pending_calls.length - t) := by
  obtain ⟨hsl, hpl, hcl, hun, hhi, hpc, hpo, hph⟩ := hst
  have hsor := pending_sorted A
  have hP : A.get_pending_calls =
      (List.range L).filter (fun i => A.succ.getD i none == some none) := by
    show (List.range A.len).filter
      (fun i => A.succ.getD i none == some none) = _
    have h2 : A.len = L := hL
    rw [h2]
  show (List.range m.len).filter
      (fun i => m.succ.getD i none == some none) = _
  have hml : m.len = L + t := hsl
  rw [hml]
  rw [filter_range_drop _ L (L + t) (by omega)
    (fun x hx _ => by
      show (m.succ.getD x none == some none) = false
      rw [hhi x hx]
      rfl)]
  have hstep1 : (List.range L).filter
      (fun i => m.succ.getD i none == some none) =
      (List.range L).filter
        (fun i =>
          decide (∀ j, j < t → i ≠ A.get_pending_calls.getD
            (A.get_pending_calls.length - 1 - j) 0) &&
          (A.succ.getD i none == some none)) := by
    refine filter_range_congr _ _ L (fun i hiL => ?_)
    show (m.succ.getD i none == some none) = _
    by_cases hic : ∃ j, j < t ∧
        i = A.get_pending_calls.getD (A.get_pending_calls.length - 1 - j) 0
    · obtain ⟨j, hj, hij⟩ := hic
      have h3 : m.succ.getD i none = some (some (L + j)) := by
        rw [hij]
        exact hcl j hj
      rw [h3]
      have h4 : decide (∀ j2, j2 < t → i ≠ A.get_pending_calls.getD
          (A.get_pending_calls.length - 1 - j2) 0) = false := by
        rw [decide_eq_false_iff_not]
        intro hall
        exact hall j hj hij
      rw [h4]
      rfl
    · push_neg at hic
      rw [hun i hiL hic]
      have h4 : decide (∀ j2, j2 < t → i ≠ A.get_pending_calls.getD
          (A.get_pending_calls.length - 1 - j2) 0) = true := by
        rw [decide_eq_true_eq]
        exact hic
      rw [h4, Bool.true_and]
  rw [hstep1, ← List.filter_filter, ← hP]
  refine sorted_filter_take A.get_pending_calls hsor t ht _
    (fun i2 hi2 => ?_)
  rw [decide_eq_true_eq]
  constructor
  · intro hall
    by_contra hge
    have h5 : A.get_pending_calls.length - 1 - i2 < t := by omega
    refine hall (A.get_pending_calls.length - 1 - i2) h5 ?_
    rw [show A.get_pending_calls.length - 1 -
      (A.get_pending_calls.length - 1 - i2) = i2 from by omega]
  · intro hlt j hj
    intro heq
    have h6 : A.get_pending_calls.getD i2 0 <
        A.get_pending_calls.getD (A.get_pending_calls.length - 1 - j) 0 :=
      pairwise_getD_lt _ hsor (by omega) (by omega)
    omega

/-- A pending call of `A` not yet closed lies strictly below every closed
call. -/
theorem close_rem_lt (P : List Nat) (hsor : List.Pairwise (· < ·) P)
    (q : Nat) (hq : q ≤ P.length) (b : Nat) (hb : b ∈ P)
    (hnc : ∀ j, j < q → b ≠ P.getD (P.length - 1 - j) 0)
    (j0 : Nat) (hj0 : j0 < q) : b < P.getD (P.length - 1 - j0) 0 := by
  obtain ⟨i, hi, hbi⟩ := mem_iff_getD P b hb
  have hij : ¬ (P.length - 1 - i < q) := by
    intro hlt
    refine hnc _ hlt ?_
    rw [show P.length - 1 - (P.length - 1 - i) = i from by omega, hbi]
  rw [← hbi]
  exact pairwise_getD_lt P hsor (by omega) (by omega)

/-- `add_return` at the last pending call `c` of a word with no pending
returns above `c`: both writes land, the word grows by the one symbol. -/
theorem add_return_close {β : Type} [DecidableEq β] (w : NestedWord β)
    (c n : Nat) (s : β)
    (hsl : w.matching.succ.length = n)
    (hpl : w.matching.pred.length = n)
    (hwl : w.word.length = n)
    (hcn : c < n)
    (hlast : w.matching.get_pending_calls.getLast? = some c)
    (hcross : w.matching.get_matches.any
      (fun mq => MatchingRelation.crosses (some c, some n) mq) = false) :
    w.add_return s = Except.ok
      (⟨w.word ++ [s],
        ⟨(w.matching.extend 1).succ.set c (some (some n)),
         (w.matching.extend 1).pred.set n (some (some c))⟩⟩ :
        NestedWord β) := by
  have h1 : w.add_return s =
      ((List.range ([s] : List β).length).foldlM
        (fun (mm : MatchingRelation) i =>
          mm.set_match
            ((w.add_internals [s]).matching.get_pending_calls.reverse.get? i)
            (some ((w.add_internals [s]).word.length -
              ([s] : List β).length + i)))
        (w.add_internals [s]).matching).bind
        (fun matching =>
          Except.ok (⟨(w.add_internals [s]).word, matching⟩ :
            NestedWord β)) := rfl
  have hpg : (w.add_internals [s]).matching.get_pending_calls.reverse.get?
      0 = some c := by
    have hpe : (w.add_internals [s]).matching.get_pending_calls =
        w.matching.get_pending_calls := by
      show (w.matching.extend ([s] : List β).length).get_pending_calls = _
      exact pending_extend w.matching _
    rw [hpe, List.get?_zero, ← List.getLast?_eq_head?_reverse]
    exact hlast
  have hretv : (w.add_internals [s]).word.length -
      ([s] : List β).length + 0 = n := by
    show (w.word ++ [s]).length - ([s] : List β).length + 0 = n
    rw [List.length_append, hwl]
    omega
  have hsm : (w.add_internals [s]).matching.set_match (some c) (some n) =
      Except.ok ⟨(w.matching.extend 1).succ.set c (some (some n)),
        (w.matching.extend 1).pred.set n (some (some c))⟩ := by
    have h6 : (w.add_internals [s]).matching.get_matches.any
        (fun mq => MatchingRelation.crosses (some c, some n) mq) =
        false := by
      show (w.matching.extend 1).get_matches.any
        (fun mq => MatchingRelation.crosses (some c, some n) mq) = false
      exact any_cross_extend (hpl.trans hsl.symm) _ hcross
    refine set_match_cr_ok _ c n hcn ?_ ?_ h6
    · show c < (w.matching.succ ++ List.replicate 1 none).length
      rw [List.length_append, List.length_replicate, hsl]
      omega
    · show n < (w.matching.succ ++ List.replicate 1 none).length
      rw [List.length_append, List.length_replicate, hsl]
      omega
  rw [h1]
  have h2 : List.range ([s] : List β).length = [0] := rfl
  rw [h2]
  simp only [List.foldlM_cons, List.foldlM_nil]
  rw [hpg, hretv, hsm]
  rfl

/-- One `add_return` step of the `_close_positions` loop advances the closed
count by one. -/
theorem close_step {β : Type} [DecidableEq β] {A : MatchingRelation}
    (hwf : NWWF A) {L t : Nat} (hL : A.succ.length = L)
    (ht : t < A.get_pending_calls.length)
    (w : NestedWord β)
    (hst : CloseSt A A.get_pending_calls L t w.matching)
    (hwl : w.word.length = L + t) :
    ∃ w' : NestedWord β,
      (match w.word.get? (A.get_pending_calls.getD
          (A.get_pending_calls.length - 1 - t) 0) with
        | some s => w.add_return s
        | none =>
          (throw "index out of range" : Except String (NestedWord β))) =
        Except.ok w' ∧
      CloseSt A A.get_pending_calls L (t + 1) w'.matching ∧
      w'.word.length = L + (t + 1) := by
  have hstK := hst
  obtain ⟨hsl, hpl, hcl, hun, hhi, hpc, hpo, hph⟩ := hst
  have hsor := pending_sorted A
  have hcmem : A.get_pending_calls.getD
      (A.get_pending_calls.length - 1 - t) 0 ∈ A.get_pending_calls :=
    getD_mem _ _ (by omega)
  obtain ⟨hcA, hcp⟩ := (mem_pending_iff A _).mp hcmem
  have hcL : A.get_pending_calls.getD
      (A.get_pending_calls.length - 1 - t) 0 < L := by
    have h2 : A.len = L := hL
    omega
  obtain ⟨s, hs⟩ : ∃ s, w.word.get? (A.get_pending_calls.getD
      (A.get_pending_calls.length - 1 - t) 0) = some s := by
    refine ⟨w.word.get ⟨A.get_pending_calls.getD
      (A.get_pending_calls.length - 1 - t) 0, by omega⟩, ?_⟩
    rw [List.get?_eq_getElem?]
    exact List.getElem?_eq_getElem (by omega)
  have hlast : w.matching.get_pending_calls.getLast? =
      some (A.get_pending_calls.getD
        (A.get_pending_calls.length - 1 - t) 0) := by
    rw [close_pending hwf hL (by omega) hstK]
    rw [List.getLast?_eq_getElem?, List.length_take]
    rw [show min (A.get_pending_calls.length - t)
          A.get_pending_calls.length - 1 =
        A.get_pending_calls.length - t - 1 from by omega]
    rw [List.getElem?_take, if_pos (by omega),
      List.getElem?_eq_getElem
        (by omega : A.get_pending_calls.length - t - 1 <
          A.get_pending_calls.length)]
    rw [show A.get_pending_calls.length - 1 - t =
        A.get_pending_calls.length - t - 1 from by omega]
    rw [List.getD_eq_getElem A.get_pending_calls 0 (by omega)]
  have hclen2 : A.get_pending_calls.getD
      (A.get_pending_calls.length - 1 - t) 0 <
      (w.matching.succ ++ List.replicate 1 none).length := by
    rw [List.length_append, List.length_replicate, hsl]
    omega
  have hsetS : ∀ i2, ((w.matching.extend 1).succ.set
      (A.get_pending_calls.getD (A.get_pending_calls.length - 1 - t) 0)
      (some (some (L + t)))).getD i2 none =
      if i2 = A.get_pending_calls.getD
          (A.get_pending_calls.length - 1 - t) 0 then
        some (some (L + t))
      else w.matching.succ.getD i2 none := by
    intro i2
    show ((w.matching.succ ++ List.replicate 1 none).set
      (A.get_pending_calls.getD (A.get_pending_calls.length - 1 - t) 0)
      (some (some (L + t)))).getD i2 none = _
    rw [list_getD_set]
    by_cases h5 : i2 = A.get_pending_calls.getD
        (A.get_pending_calls.length - 1 - t) 0
    · rw [if_pos ⟨h5, hclen2⟩, if_pos h5]
    · rw [if_neg (fun hcon => h5 hcon.1), if_neg h5]
      exact succ_extend_getD w.matching 1 i2
  have hsetP : ∀ i2, ((w.matching.extend 1).pred.set (L + t)
      (some (some (A.get_pending_calls.getD
        (A.get_pending_calls.length - 1 - t) 0)))).getD i2 none =
      if i2 = L + t then
        some (some (A.get_pending_calls.getD
          (A.get_pending_calls.length - 1 - t) 0))
      else w.matching.pred.getD i2 none := by
    intro i2
    show ((w.matching.pred ++ List.replicate 1 none).set (L + t)
      (some (some (A.get_pending_calls.getD
        (A.get_pending_calls.length - 1 - t) 0)))).getD i2 none = _
    rw [list_getD_set]
    by_cases h5 : i2 = L + t
    · rw [if_pos ⟨h5, by
        rw [List.length_append, List.length_replicate, hpl]; omega⟩,
        if_pos h5]
    · rw [if_neg (fun hcon => h5 hcon.1), if_neg h5]
      exact pred_extend_getD w.matching 1 i2
  refine ⟨⟨w.word ++ [s], ⟨(w.matching.extend 1).succ.set
      (A.get_pending_calls.getD (A.get_pending_calls.length - 1 - t) 0)
      (some (some (L + t))),
    (w.matching.extend 1).pred.set (L + t)
      (some (some (A.get_pending_calls.getD
        (A.get_pending_calls.length - 1 - t) 0)))⟩⟩, ?_, ?_, ?_⟩
  · rw [hs]
    show w.add_return s = _
    exact add_return_close w _ (L + t) s hsl hpl hwl (by omega) hlast
      (close_cross_false hwf hL hstK ht)
  · refine ⟨?_, ?_, ?_, ?_, ?_, ?_, ?_, ?_⟩
    · show ((w.matching.extend 1).succ.set
        (A.get_pending_calls.getD (A.get_pending_calls.length - 1 - t) 0)
        (some (some (L + t)))).length = L + (t + 1)
      rw [List.length_set]
      show (w.matching.succ ++ List.replicate 1 none).length = L + (t + 1)
      rw [List.length_append, List.length_replicate, hsl]
      omega
    · show ((w.matching.extend 1).pred.set (L + t)
        (some (some (A.get_pending_calls.getD
          (A.get_pending_calls.length - 1 - t) 0)))).length = L + (t + 1)
      rw [List.length_set]
      show (w.matching.pred ++ List.replicate 1 none).length = L + (t + 1)
      rw [List.length_append, List.length_replicate, hpl]
      omega
    · intro j hj
      show ((w.matching.extend 1).succ.set
        (A.get_pending_calls.getD (A.get_pending_calls.length - 1 - t) 0)
        (some (some (L + t)))).getD
        (A.get_pending_calls.getD (A.get_pending_calls.length - 1 - j) 0)
        none = some (some (L + j))
      rw [hsetS]
      by_cases hjt : j < t
      · have hne2 : A.get_pending_calls.getD
            (A.get_pending_calls.length - 1 - j) 0 ≠
            A.get_pending_calls.getD
            (A.get_pending_calls.length - 1 - t) 0 := by
          intro heq
          have h6 := sorted_back_anti A.get_pending_calls hsor hjt ht
          omega
        rw [if_neg hne2]
        exact hcl j hjt
      · have hjt2 : j = t := by omega
        subst hjt2
        rw [if_pos rfl]
    · intro i2 hi2 hnc2
      show ((w.matching.extend 1).succ.set
        (A.get_pending_calls.getD (A.get_pending_calls.length - 1 - t) 0)
        (some (some (L + t)))).getD i2 none = A.succ.getD i2 none
      rw [hsetS, if_neg (hnc2 t (by omega))]
      exact hun i2 hi2 (fun j hj => hnc2 j (by omega))
    · intro i2 hi2
      show ((w.matching.extend 1).succ.set
        (A.get_pending_calls.getD (A.get_pending_calls.length - 1 - t) 0)
        (some (some (L + t)))).getD i2 none = none
      rw [hsetS, if_neg (by intro heq; omega)]
      exact hhi i2 hi2
    · intro j hj
      show ((w.matching.extend 1).pred.set (L + t)
        (some (some (A.get_pending_calls.getD
          (A.get_pending_calls.length - 1 - t) 0)))).getD (L + j) none =
        some (some (A.get_pending_calls.getD
          (A.get_pending_calls.length - 1 - j) 0))
      rw [hsetP]
      by_cases hjt : j < t
      · rw [if_neg (by omega)]
        exact hpc j hjt
      · have hjt2 : j = t := by omega
        subst hjt2
        rw [if_pos rfl]
    · intro i2 hi2
      show ((w.matching.extend 1).pred.set (L + t)
        (some (some (A.get_pending_calls.getD
          (A.get_pending_calls.length - 1 - t) 0)))).getD i2 none =
        A.pred.getD i2 none
      rw [hsetP, if_neg (by omega)]
      exact hpo i2 hi2
    · intro i2 hi2
      show ((w.matching.extend 1).pred.set (L + t)
        (some (some (A.get_pending_calls.getD
          (A.get_pending_calls.length - 1 - t) 0)))).getD i2 none = none
      rw [hsetP, if_neg (by omega)]
      exact hph i2 (by omega)
  · show (w.word ++ [s]).length = L + (t + 1)
    rw [List.length_append, hwl,
      show ([s] : List β).length = 1 from rfl]
    omega

/-- The `_close_positions` fold closes the `q` innermost pending calls. -/
theorem close_fold {β : Type} [DecidableEq β] {A : MatchingRelation}
    (hwf : NWWF A) {L : Nat} (hL : A.succ.length = L) (q : Nat)
    (hq : q ≤ A.get_pending_calls.length) :
    ∀ (n t : Nat), t + n = q →
      ∀ (w : NestedWord β), CloseSt A A.get_pending_calls L t w.matching →
        w.word.length = L + t →
        ∃ w', ((A.get_pending_calls.drop
              (A.get_pending_calls.length - q)).reverse.drop t).foldlM
            (fun w3 pos =>
              match w3.word.get? pos with
              | some s => w3.add_return s
              | none => throw "index out of range") w = Except.ok w' ∧
          CloseSt A A.get_pending_calls L q w'.matching ∧
          w'.word.length = L + q := by
  intro n
  induction n with
  | zero =>
    intro t htn w hst hwl
    have htq : t = q := by omega
    subst htq
    refine ⟨w, ?_, hst, hwl⟩
    rw [List.drop_eq_nil_of_le (by
      rw [List.length_reverse, List.length_drop]; omega)]
    rfl
  | succ n2 ih =>
    intro t htn w hst hwl
    have htq : t < q := by omega
    have hbt : t < ((A.get_pending_calls.drop
        (A.get_pending_calls.length - q)).reverse).length := by
      rw [List.length_reverse, List.length_drop]
      omega
    have hRt : ((A.get_pending_calls.drop
        (A.get_pending_calls.length - q)).reverse)[t]? =
        some (A.get_pending_calls.getD
          (A.get_pending_calls.length - 1 - t) 0) := by
      rw [List.getElem?_reverse (by rw [List.length_drop]; omega)]
      rw [List.length_drop]
      rw [show A.get_pending_calls.length -
          (A.get_pending_calls.length - q) - 1 - t = q - 1 - t from
          by omega]
      rw [List.getElem?_drop]
      rw [show A.get_pending_calls.length - q + (q - 1 - t) =
          A.get_pending_calls.length - 1 - t from by omega]
      rw [List.getElem?_eq_getElem (by omega)]
      rw [List.getD_eq_getElem A.get_pending_calls 0 (by omega)]
    have hcons : ((A.get_pending_calls.drop
        (A.get_pending_calls.length - q)).reverse).drop t =
        A.get_pending_calls.getD (A.get_pending_calls.length - 1 - t) 0 ::
        ((A.get_pending_calls.drop
          (A.get_pending_calls.length - q)).reverse).drop (t + 1) := by
      rw [List.drop_eq_getElem_cons hbt]
      congr 1
      have h3 := List.getElem?_eq_getElem hbt
      rw [hRt] at h3
      injection h3 with h4
      exact h4.symm
    obtain ⟨w1, hw1, hst1, hwl1⟩ := close_step hwf hL (by omega) w hst hwl
    obtain ⟨w2, hw2, hst2, hwl2⟩ := ih (t + 1) (by omega) w1 hst1 hwl1
    refine ⟨w2, ?_, hst2, hwl2⟩
    rw [hcons]
    simp only [List.foldlM_cons]
    rw [hw1]
    show ((A.get_pending_calls.drop
        (A.get_pending_calls.length - q)).reverse.drop (t + 1)).foldlM
      (fun w3 pos =>
        match w3.word.get? pos with
        | some s => w3.add_return s
        | none => throw "index out of range") w1 = Except.ok w2
    exact hw2

/-- The fully closed relation is well-formed. -/
theorem close_st_wf {A : MatchingRelation} (hwf : NWWF A) {L q : Nat}
    (hL : A.succ.length = L) (hq : q ≤ A.get_pending_calls.length)
    {m : MatchingRelation} (hst : CloseSt A A.get_pending_calls L q m) :
    NWWF m := by
  obtain ⟨hsl, hpl, hcl, hun, hhi, hpc, hpo, hph⟩ := hst
  have hsor := pending_sorted A
  have hcpF : ∀ j, j < q →
      A.get_pending_calls.getD (A.get_pending_calls.length - 1 - j) 0 < L ∧
      A.succ.getD (A.get_pending_calls.getD
        (A.get_pending_calls.length - 1 - j) 0) none = some none := by
    intro j hj
    have hmem : A.get_pending_calls.getD
        (A.get_pending_calls.length - 1 - j) 0 ∈ A.get_pending_calls :=
      getD_mem _ _ (by omega)
    obtain ⟨h1, h2⟩ := (mem_pending_iff A _).mp hmem
    refine ⟨?_, h2⟩
    have h3 : A.len = L := hL
    omega
  have hSentry : ∀ i e, m.succ.getD i none = some e →
      i < L ∧
      ((∃ j, j < q ∧ i = A.get_pending_calls.getD
          (A.get_pending_calls.length - 1 - j) 0 ∧ e = some (L + j)) ∨
       ((∀ j, j < q → i ≠ A.get_pending_calls.getD
          (A.get_pending_calls.length - 1 - j) 0) ∧
        A.succ.getD i none = some e)) := by
    intro i e he
    by_cases hiL : i < L
    · refine ⟨hiL, ?_⟩
      by_cases hic : ∃ j, j < q ∧ i = A.get_pending_calls.getD
          (A.get_pending_calls.length - 1 - j) 0
      · obtain ⟨j, hj, hij⟩ := hic
        subst hij
        rw [hcl j hj] at he
        injection he with he2
        exact Or.inl ⟨j, hj, rfl, he2.symm⟩
      · push_neg at hic
        rw [hun i hiL hic] at he
        exact Or.inr ⟨hic, he⟩
    · rw [hhi i (by omega)] at he
      exact absurd he (by simp)
  have hPentry : ∀ i e, m.pred.getD i none = some e →
      (i < L ∧ A.pred.getD i none = some e) ∨
      (∃ j, j < q ∧ i = L + j ∧ e = some (A.get_pending_calls.getD
        (A.get_pending_calls.length - 1 - j) 0)) := by
    intro i e he
    by_cases hiL : i < L
    · rw [hpo i hiL] at he
      exact Or.inl ⟨hiL, he⟩
    · by_cases hiq : i < L + q
      · have hj : i - L < q := by omega
        rw [show i = L + (i - L) from by omega, hpc (i - L) hj] at he
        injection he with he2
        exact Or.inr ⟨i - L, hj, by omega, he2.symm⟩
      · rw [hph i (by omega)] at he
        exact absurd he (by simp)
  refine ⟨hpl.trans hsl.symm, ?_, ?_, ?_, ?_, ?_, ?_, ?_⟩
  · intro i r h
    obtain ⟨hiL, hcase⟩ := hSentry i (some r) h
    rcases hcase with ⟨j, hj, hij, hrj⟩ | ⟨hnc, hA⟩
    · injection hrj with hrj2
      subst hrj2
      refine ⟨?_, ?_, ?_⟩
      · have h5 := (hcpF j hj).1
        omega
      · show L + j < m.len
        have h5 : m.len = L + q := hsl
        omega
      · rw [hpc j hj, hij]
    · obtain ⟨h1, h2, h3⟩ := hwf.succ_match i r hA
      have hrL : r < L := by
        have h4 : A.len = L := hL
        omega
      refine ⟨h1, ?_, ?_⟩
      · show r < m.len
        have h5 : m.len = L + q := hsl
        omega
      · rw [hpo r hrL]
        exact h3
  · intro j2 c h
    rcases hPentry j2 (some c) h with ⟨hjL, hA⟩ | ⟨j, hj, hje, hce⟩
    · have hsc := hwf.pred_match j2 c hA
      have hcb : c < L := by
        by_contra h5
        rw [List.getD_eq_default _ _ (by omega : A.succ.length ≤ c)] at hsc
        exact absurd hsc (by simp)
      have hnc : ∀ j3, j3 < q → c ≠ A.get_pending_calls.getD
          (A.get_pending_calls.length - 1 - j3) 0 := by
        intro j3 hj3 heq
        have h6 := (hcpF j3 hj3).2
        rw [← heq] at h6
        rw [h6] at hsc
        injection hsc with h7
        exact Option.noConfusion h7
      rw [hun c hcb hnc]
      exact hsc
    · injection hce with hce2
      subst hje
      rw [hce2]
      exact hcl j hj
  · intro i h1 h2
    obtain ⟨e1, he1⟩ := Option.isSome_iff_exists.mp h1
    obtain ⟨e2, he2⟩ := Option.isSome_iff_exists.mp h2
    obtain ⟨hiL, hcase⟩ := hSentry i e1 he1
    rcases hPentry i e2 he2 with ⟨-, hA2⟩ | ⟨j, hj, hij, -⟩
    · rcases hcase with ⟨j, hj, hij, -⟩ | ⟨-, hA1⟩
      · refine hwf.no_dual i ?_ ?_
        · rw [hij, (hcpF j hj).2]
          rfl
        · rw [hA2]
          rfl
      · refine hwf.no_dual i ?_ ?_
        · rw [hA1]
          rfl
        · rw [hA2]
          rfl
    · omega
  · intro i j2 c r h1 h2
    obtain ⟨hiL, hc1⟩ := hSentry i (some j2) h1
    obtain ⟨hcL2, hc2⟩ := hSentry c (some r) h2
    rcases hc1 with ⟨a1, ha1, hia1, hja1⟩ | ⟨hnc1, hA1⟩
    · injection hja1 with hja2
      subst hja2
      rcases hc2 with ⟨a2, ha2, hca2, hra2⟩ | ⟨hnc2, hA2⟩
      · injection hra2 with hra3
        subst hra3
        rintro (⟨g1, g2, g3⟩ | ⟨g1, g2, g3⟩)
        · rcases Nat.lt_trichotomy a1 a2 with h5 | h5 | h5
          · have h6 := sorted_back_anti A.get_pending_calls hsor h5
              (by omega)
            omega
          · subst h5
            omega
          · omega
        · rcases Nat.lt_trichotomy a2 a1 with h5 | h5 | h5
          · have h6 := sorted_back_anti A.get_pending_calls hsor h5
              (by omega)
            omega
          · subst h5
            omega
          · omega
      · have hrL : r < L := by
          have h4 : A.len = L := hL
          have h5 := (hwf.succ_match c r hA2).2.1
          omega
        rintro (⟨g1, g2, g3⟩ | ⟨g1, g2, g3⟩)
        · omega
        · rcases Nat.lt_or_ge i r with h5 | h5
          · refine hwf.nc_mp c r i hA2 ?_ ⟨g1, h5⟩
            rw [hia1]
            exact (hcpF a1 ha1).2
          · have h6 : i = r := by omega
            refine hwf.no_dual r ?_ ?_
            · rw [← h6, hia1, (hcpF a1 ha1).2]
              rfl
            · rw [(hwf.succ_match c r hA2).2.2]
              rfl
    · rcases hc2 with ⟨a2, ha2, hca2, hra2⟩ | ⟨hnc2, hA2⟩
      · injection hra2 with hra3
        subst hra3
        have hjL : j2 < L := by
          have h4 : A.len = L := hL
          have h5 := (hwf.succ_match i j2 hA1).2.1
          omega
        rintro (⟨g1, g2, g3⟩ | ⟨g1, g2, g3⟩)
        · rcases Nat.lt_or_ge c j2 with h5 | h5
          · refine hwf.nc_mp i j2 c hA1 ?_ ⟨g1, h5⟩
            rw [hca2]
            exact (hcpF a2 ha2).2
          · have h6 : c = j2 := by omega
            refine hwf.no_dual j2 ?_ ?_
            · rw [← h6, hca2, (hcpF a2 ha2).2]
              rfl
            · rw [(hwf.succ_match i j2 hA1).2.2]
              rfl
        · omega
      · exact hwf.nc_mm i j2 c r hA1 hA2
  · intro c r b h1 h2
    obtain ⟨hbL, hcase⟩ := hSentry b none h2
    rcases hcase with ⟨j, hj, hbj, habs⟩ | ⟨hncb, hAb⟩
    · exact absurd habs (by simp)
    · obtain ⟨hcL2, hc1⟩ := hSentry c (some r) h1
      rcases hc1 with ⟨a2, ha2, hca2, hra2⟩ | ⟨hnc2, hA2⟩
      · injection hra2 with hra3
        rintro ⟨g1, g2⟩
        have hbP : b ∈ A.get_pending_calls := by
          rw [mem_pending_iff]
          refine ⟨?_, hAb⟩
          show b < A.succ.length
          omega
        have h5 := close_rem_lt A.get_pending_calls hsor q hq b hbP
          hncb a2 ha2
        rw [← hca2] at h5
        omega
      · exact hwf.nc_mp c r b hA2 hAb
  · intro c r q2 h1 h2
    rcases hPentry q2 none h2 with ⟨hqL, hAq⟩ | ⟨j, hj, hqj, habs⟩
    · obtain ⟨hcL2, hc1⟩ := hSentry c (some r) h1
      rcases hc1 with ⟨a2, ha2, hca2, hra2⟩ | ⟨hnc2, hA2⟩
      · rintro ⟨g1, g2⟩
        refine hwf.nc_pr _ q2 (hcpF a2 ha2).2 hAq ?_
        rw [← hca2]
        exact g1
      · exact hwf.nc_mr c r q2 hA2 hAq
    · exact absurd habs (by simp)
  · intro b q2 h1 h2
    obtain ⟨hbL, hcase⟩ := hSentry b none h1
    rcases hcase with ⟨j, hj, hbj, habs⟩ | ⟨hncb, hAb⟩
    · exact absurd habs (by simp)
    · rcases hPentry q2 none h2 with ⟨hqL, hAq⟩ | ⟨j, hj, hqj, habs⟩
      · exact hwf.nc_pr b q2 hAb hAq
      · exact absurd habs (by simp)

/-- `_close_positions` succeeds whenever the count is positive and within the
number of pending calls, and keeps the word well-formed. -/
theorem close_positions_ok {β : Type} [DecidableEq β] (nw : NestedWord β)
    (hwf : WFW nw) (number : Nat) (h1 : number ≠ 0)
    (h2 : number ≤ nw.matching.get_pending_calls.length) :
    ∃ w', close_positions nw number = Except.ok w' ∧ WFW w' ∧
      w'.word.length = nw.word.length + number := by
  obtain ⟨hne, hlen, hm⟩ := hwf
  have hst0 : CloseSt nw.matching nw.matching.get_pending_calls
      nw.matching.succ.length 0 nw.matching := by
    refine ⟨?_, ?_, ?_, ?_, ?_, ?_, ?_, ?_⟩
    · omega
    · rw [hm.len_eq]
      omega
    · intro j hj
      exact absurd hj (by omega)
    · intro i _ _
      rfl
    · intro i hi
      exact List.getD_eq_default _ _ (by omega)
    · intro j hj
      exact absurd hj (by omega)
    · intro i _
      rfl
    · intro i hi
      exact List.getD_eq_default _ _ (by rw [hm.len_eq]; omega)
  obtain ⟨w', hcf, hstF, hwlF⟩ := close_fold hm rfl number h2 number 0
    (by omega) nw hst0
    (by show nw.word.length = nw.matching.succ.length + 0
        have h3 : nw.matching.len = nw.word.length := hlen
        have h4 : nw.matching.len = nw.matching.succ.length := rfl
        omega)
  rw [List.drop_zero] at hcf
  have h7 : nw.matching.len = nw.word.length := hlen
  have h8 : nw.matching.len = nw.matching.succ.length := rfl
  refine ⟨w', ?_, ⟨?_, ?_, close_st_wf hm rfl h2 hstF⟩, ?_⟩
  · show (if number = 0 then
        throw "Cannot close negative number of open positions."
      else if number > nw.matching.get_pending_calls.length then
        throw "Number is greater than number of open positions."
      else (nw.matching.get_pending_calls.drop
          (nw.matching.get_pending_calls.length - number)).reverse.foldlM
        (fun w3 pos =>
          match w3.word.get? pos with
          | some s => w3.add_return s
          | none => throw "index out of range") nw) = Except.ok w'
    rw [if_neg h1, if_neg (by omega : ¬ number >
      nw.matching.get_pending_calls.length)]
    exact hcf
  · have h5 : 0 < w'.word.length := by
      rw [hwlF]
      have h6 : 0 < nw.word.length := List.length_pos.mpr hne
      omega
    exact List.length_pos.mp h5
  · have h5 : w'.matching.succ.length =
        nw.matching.succ.length + number := hstF.1
    show w'.matching.succ.length = w'.word.length
    rw [h5, hwlF]
  · rw [hwlF]
    omega

/-- The slice fold on a chain-shaped word: every processed position becomes a
pending call except the original last position. -/
theorem slice_fold_chainw {β : Type} [DecidableEq β] (w : NestedWord β)
    (hc : ChainW w) (st : Nat) (hst : st < w.word.length) :
    ∀ j, j ≤ w.word.length - st →
      ∃ sub : MatchingRelation,
        (List.range j).foldlM
          (fun sub2 k =>
            let pos := st + k
            if w.matching.is_call pos then
              let ret : Option Nat :=
                match w.matching.succ.getD pos none with
                | some none => none
                | some (some rp) =>
                    if rp - st ≥ w.word.length - st then none
                    else some (rp - st)
                | none => none
              sub2.set_match (some (pos - st)) ret
            else if w.matching.is_return pos then
              match w.matching.pred.getD pos none with
              | some none => sub2.set_match none (some (pos - st))
              | some (some cp) =>
                  if cp < st then sub2.set_match none (some (pos - st))
                  else pure sub2
              | none => pure sub2
            else pure sub2)
          (MatchingRelation.mk_empty (w.word.length - st)) =
          Except.ok sub ∧
        sub.succ.length = w.word.length - st ∧
        sub.pred.length = w.word.length - st ∧
        (∀ k, sub.succ.getD k none =
          if k < j ∧ st + k + 1 < w.word.length then some none else none) ∧
        (∀ k, sub.pred.getD k none = none) := by
  obtain ⟨hne, hlen, hplE, hpend, hlastE, hpredE⟩ := hc
  intro j
  induction j with
  | zero =>
    intro hj
    refine ⟨MatchingRelation.mk_empty (w.word.length - st), rfl, ?_, ?_,
      ?_, ?_⟩
    · show (List.replicate (w.word.length - st) (none : MEntry)).length = _
      rw [List.length_replicate]
    · show (List.replicate (w.word.length - st) (none : MEntry)).length = _
      rw [List.length_replicate]
    · intro k
      show (List.replicate (w.word.length - st) (none : MEntry)).getD k
        none = _
      rw [getD_replicate_none, if_neg (by omega)]
    · intro k
      show (List.replicate (w.word.length - st) (none : MEntry)).getD k
        none = none
      rw [getD_replicate_none]
  | succ j2 ih =>
    intro hj
    obtain ⟨sub, hfold, hs1, hs2, hs3, hs4⟩ := ih (by omega)
    have hidx : st + j2 - st = j2 := by omega
    by_cases hcall : st + j2 + 1 < w.word.length
    · have hsucc : w.matching.succ.getD (st + j2) none = some none :=
        hpend (st + j2) hcall
      have hic : w.matching.is_call (st + j2) = true := by
        unfold MatchingRelation.is_call
        rw [hsucc]
        rfl
      have hcross : sub.get_matches.any (fun mq =>
          MatchingRelation.crosses (some (st + j2 - st), none) mq) =
          false := by
        rw [List.any_eq_false]
        intro mq hmq
        obtain ⟨i, hi, hgm⟩ := mem_get_matches hmq
        unfold MatchingRelation.get_match at hgm
        rw [hs3 i, hs4 i] at hgm
        by_cases h6 : i < j2 ∧ st + i + 1 < w.word.length
        · rw [if_pos h6] at hgm
          have h7 : (some ((some i : Option Nat), (none : Option Nat)) :
              Option (Option Nat × Option Nat)) = some mq := hgm
          injection h7 with h8
          subst h8
          simp [MatchingRelation.crosses]
        · rw [if_neg h6] at hgm
          have h7 : (none : Option (Option Nat × Option Nat)) =
              some mq := hgm
          exact absurd h7 (by simp)
      have hset := set_match_pc_ok sub (st + j2 - st)
        (by show st + j2 - st < sub.succ.length; omega) hcross
      refine ⟨⟨sub.succ.set (st + j2 - st) (some none), sub.pred⟩,
        ?_, ?_, ?_, ?_, ?_⟩
      · rw [List.range_succ, List.foldlM_append, hfold]
        show ((if w.matching.is_call (st + j2) then
            sub.set_match (some (st + j2 - st))
              (match w.matching.succ.getD (st + j2) none with
                | some none => none
                | some (some rp) =>
                    if rp - st ≥ w.word.length - st then none
                    else some (rp - st)
                | none => none)
          else if w.matching.is_return (st + j2) then
            match w.matching.pred.getD (st + j2) none with
            | some none => sub.set_match none (some (st + j2 - st))
            | some (some cp) =>
                if cp < st then sub.set_match none (some (st + j2 - st))
                else pure sub
            | none => pure sub
          else pure sub).bind (fun x => Except.ok x) :
            Except String MatchingRelation) =
          Except.ok ⟨sub.succ.set (st + j2 - st) (some none), sub.pred⟩
        rw [if_pos hic, hsucc]
        show (sub.set_match (some (st + j2 - st)) none).bind
          (fun x => Except.ok x) =
          Except.ok ⟨sub.succ.set (st + j2 - st) (some none), sub.pred⟩
        rw [hset]
        rfl
      · show (sub.succ.set (st + j2 - st) (some none)).length = _
        rw [List.length_set, hs1]
      · exact hs2
      · intro k
        show (sub.succ.set (st + j2 - st) (some none)).getD k none = _
        rw [list_getD_set, hidx]
        by_cases h6 : k = j2
        · subst h6
          rw [if_pos ⟨rfl, by rw [hs1]; omega⟩,
            if_pos ⟨by omega, by omega⟩]
        · rw [if_neg (fun hcon => h6 hcon.1), hs3 k]
          by_cases h7 : k < j2 ∧ st + k + 1 < w.word.length
          · rw [if_pos h7, if_pos ⟨by omega, h7.2⟩]
          · have h8 : ¬ (k < j2 + 1 ∧ st + k + 1 < w.word.length) := by
              rintro ⟨g1, g2⟩
              rcases Nat.lt_or_ge k j2 with h9 | h9
              · exact h7 ⟨h9, g2⟩
              · omega
            rw [if_neg h7, if_neg h8]
      · exact hs4
    · have hicF : w.matching.is_call (st + j2) = false := by
        unfold MatchingRelation.is_call
        rw [hlastE (st + j2) (by omega)]
        rfl
      have hirF : w.matching.is_return (st + j2) = false := by
        unfold MatchingRelation.is_return
        rw [hpredE (st + j2)]
        rfl
      refine ⟨sub, ?_, hs1, hs2, ?_, hs4⟩
      · rw [List.range_succ, List.foldlM_append, hfold]
        show ((if w.matching.is_call (st + j2) then
            sub.set_match (some (st + j2 - st))
              (match w.matching.succ.getD (st + j2) none with
                | some none => none
                | some (some rp) =>
                    if rp - st ≥ w.word.length - st then none
                    else some (rp - st)
                | none => none)
          else if w.matching.is_return (st + j2) then
            match w.matching.pred.getD (st + j2) none with
            | some none => sub.set_match none (some (st + j2 - st))
            | some (some cp) =>
                if cp < st then sub.set_match none (some (st + j2 - st))
                else pure sub
            | none => pure sub
          else pure sub).bind (fun x => Except.ok x) :
            Except String MatchingRelation) = Except.ok sub
        rw [if_neg (by rw [hicF]; simp), if_neg (by rw [hirF]; simp)]
        rfl
      · intro k
        rw [hs3 k]
        by_cases h6 : k < j2 ∧ st + k + 1 < w.word.length
        · rw [if_pos h6, if_pos ⟨by omega, h6.2⟩]
        · have h8 : ¬ (k < j2 + 1 ∧ st + k + 1 < w.word.length) := by
            rintro ⟨g1, g2⟩
            rcases Nat.lt_or_ge k j2 with h9 | h9
            · exact h6 ⟨h9, g2⟩
            · omega
          rw [if_neg h6, if_neg h8]

/-- Slicing a chain-shaped word from `st` to its end yields a chain-shaped
word of the remaining length. -/
theorem nw_slice_chainw {β : Type} [DecidableEq β] (w : NestedWord β)
    (hc : ChainW w) (st : Nat) (hst : st < w.word.length) :
    ∃ w2, nw_slice w st w.word.length = Except.ok w2 ∧ ChainW w2 ∧
      w2.word.length = w.word.length - st := by
  obtain ⟨sub, hfold, hs1, hs2, hs3, hs4⟩ :=
    slice_fold_chainw w hc st hst (w.word.length - st) (by omega)
  have hw2len : ((w.word.drop st).take (w.word.length - st)).length =
      w.word.length - st := by
    rw [List.length_take, List.length_drop]
    omega
  have hcond : ¬ (w.word.length > w.matching.len ∨ st > w.word.length) := by
    rintro (h5 | h5)
    · rw [hc.2.1] at h5
      omega
    · omega
  refine ⟨⟨(w.word.drop st).take (w.word.length - st), sub⟩, ?_, ?_, ?_⟩
  · unfold nw_slice mr_slice
    rw [if_neg hcond]
    rw [hfold]
    rfl
  · refine ⟨?_, ?_, ?_, ?_, ?_, ?_⟩
    · show (w.word.drop st).take (w.word.length - st) ≠ []
      intro h5
      have h6 : ((w.word.drop st).take (w.word.length - st)).length = 0 := by
        rw [h5]
        rfl
      omega
    · show sub.succ.length = _
      rw [hs1, hw2len]
    · rw [hs1, hs2]
    · intro i hi
      rw [hw2len] at hi
      show sub.succ.getD i none = some none
      rw [hs3 i, if_pos ⟨by omega, by omega⟩]
    · intro i hi
      rw [hw2len] at hi
      show sub.succ.getD i none = none
      rw [hs3 i]
      by_cases h6 : i < w.word.length - st ∧ st + i + 1 < w.word.length
      · exfalso
        omega
      · rw [if_neg h6]
    · intro i
      exact hs4 i
  · exact hw2len

/-- Reading symbols at in-range positions never raises. -/
theorem mapM_get_ok {β : Type} (w : List β) :
    ∀ (ps : List Nat), (∀ p ∈ ps, p < w.length) →
      ∃ ss : List β, ps.mapM (fun pos =>
        match w.get? pos with
        | some s => pure s
        | none => (throw "index out of range" : Except String β)) =
        Except.ok ss ∧ ss.length = ps.length := by
  intro ps
  induction ps with
  | nil =>
    intro h
    exact ⟨[], rfl, rfl⟩
  | cons p ps2 ih =>
    intro h
    obtain ⟨ss2, hss2, hlen2⟩ := ih (fun x hx => h x (by simp [hx]))
    obtain ⟨s, hs⟩ : ∃ s, w.get? p = some s := by
      refine ⟨w.get ⟨p, h p (by simp)⟩, ?_⟩
      rw [List.get?_eq_getElem?]
      exact List.getElem?_eq_getElem (h p (by simp))
    refine ⟨s :: ss2, ?_, by rw [List.length_cons, List.length_cons, hlen2]⟩
    rw [List.mapM_cons, hs]
    show ((pure s : Except String β).bind (fun b =>
      (ps2.mapM (fun pos => match w.get? pos with
        | some s2 => pure s2
        | none => (throw "index out of range" : Except String β))).bind
      (fun bs => pure (b :: bs)))) = Except.ok (s :: ss2)
    rw [hss2]
    rfl

end NestedWord

/-- The zip loop of `_combine_nws` never raises on a well-formed left word
and chain-shaped right word, and returns a well-formed word. -/
theorem combine_go_ok {β : Type} [DecidableEq β] (nw2 : NestedWord β)
    (hB : NestedWord.ChainW nw2) (lenS1 : Nat) :
    ∀ (zs : List (β × β × Nat)) (depth : Nat) (nw : NestedWord β),
      NestedWord.WFW nw →
      nw.matching.get_pending_calls.length = lenS1 →
      (∀ e ∈ zs, e.2.2 < nw2.word.length) →
      depth + zs.length ≤ lenS1 →
      ∃ w', combine_go lenS1 nw2 zs depth nw = Except.ok w' ∧
        NestedWord.WFW w' := by
  intro zs
  induction zs with
  | nil =>
    intro depth nw hwf hpend hbound hdep
    exact ⟨nw, rfl, hwf⟩
  | cons z rest ih =>
    intro depth nw hwf hpend hbound hdep
    obtain ⟨c1, c2, pp⟩ := z
    have h9 : ((c1, c2, pp) :: rest).length = rest.length + 1 := rfl
    by_cases hc : c1 ≠ c2
    · obtain ⟨wC, hwC, hwfC, hlenC⟩ := NestedWord.close_positions_ok nw hwf
        (lenS1 - depth) (by omega) (by omega)
      obtain ⟨ws, hws, hcs, hwsl⟩ := NestedWord.nw_slice_chainw nw2 hB pp
        (hbound (c1, c2, pp) (by simp))
      obtain ⟨hadd, hwfF⟩ := NestedWord.nw_add_concat wC ws hwfC hcs
      refine ⟨_, ?_, hwfF⟩
      show (if c1 ≠ c2 then do
          let nwC ← close_positions nw (lenS1 - depth)
          let sliced ← nw2.nw_slice pp nw2.word.length
          NestedWord.nw_add nwC sliced
        else combine_go lenS1 nw2 rest (depth + 1) nw) = _
      rw [if_pos hc, hwC]
      show (nw2.nw_slice pp nw2.word.length).bind
        (fun sliced => NestedWord.nw_add wC sliced) = Except.ok _
      rw [hws]
      show NestedWord.nw_add wC ws = Except.ok _
      exact hadd
    · obtain ⟨w', hgo, hwf'⟩ := ih (depth + 1) nw hwf hpend
        (fun e he => hbound e (by simp [he])) (by
          have h9 : ((c1, c2, pp) :: rest).length = rest.length + 1 := rfl
          omega)
      refine ⟨w', ?_, hwf'⟩
      show (if c1 ≠ c2 then do
          let nwC ← close_positions nw (lenS1 - depth)
          let sliced ← nw2.nw_slice pp nw2.word.length
          NestedWord.nw_add nwC sliced
        else combine_go lenS1 nw2 rest (depth + 1) nw) = _
      rw [if_neg hc]
      exact hgo

/-- `_combine_nws` never raises when the left word is empty or well-formed,
the right word is chain-shaped, and the cache holds well-formed words; the
result and every new cache entry are well-formed. -/
theorem combine_nws_ok {β : Type} [DecidableEq β]
    (cache : List ((NestedWord β × NestedWord β) × NestedWord β))
    (hcache : ∀ e ∈ cache, NestedWord.WFW e.2)
    (nw1 nw2 : NestedWord β)
    (h1 : nw1.word = [] ∨ NestedWord.WFW nw1)
    (h2 : NestedWord.ChainW nw2) :
    ∃ cache2 res, combine_nws cache nw1 nw2 = Except.ok (cache2, res) ∧
      NestedWord.WFW res ∧ (∀ e ∈ cache2, NestedWord.WFW e.2) := by
  by_cases hz : nw1.word.length = 0
  · refine ⟨cache, nw2, ?_, NestedWord.chainw_wfw nw2 h2, hcache⟩
    unfold combine_nws
    rw [if_pos hz]
    rfl
  · have hwf1 : NestedWord.WFW nw1 := by
      rcases h1 with h3 | h3
      · exfalso
        rw [h3] at hz
        exact hz rfl
      · exact h3
    cases hfind : cache.find? (fun e => e.1 == (nw1, nw2)) with
    | some e =>
      refine ⟨cache, e.2, ?_, ?_, hcache⟩
      · unfold combine_nws
        rw [if_neg hz, hfind]
        rfl
      · exact hcache e (List.mem_of_find?_eq_some hfind)
    | none =>
      have hp1 : ∀ p ∈ nw1.matching.get_pending_calls,
          p < nw1.word.length := by
        intro p hp
        obtain ⟨hlt, -⟩ := (NestedWord.mem_pending_iff _ _).mp hp
        have h4 : nw1.matching.len = nw1.word.length := hwf1.2.1
        omega
      have hp2 : ∀ p ∈ nw2.matching.get_pending_calls,
          p < nw2.word.length := by
        intro p hp
        obtain ⟨hlt, -⟩ := (NestedWord.mem_pending_iff _ _).mp hp
        have h4 : nw2.matching.len = nw2.word.length := h2.2.1
        omega
      obtain ⟨s1, hs1, hl1⟩ := NestedWord.mapM_get_ok nw1.word _ hp1
      obtain ⟨s2, hs2, hl2⟩ := NestedWord.mapM_get_ok nw2.word _ hp2
      have hadd0 := NestedWord.nw_add_empty nw1 hwf1
      have hzb : ∀ e ∈ s1.zip (s2.zip nw2.matching.get_pending_calls),
          e.2.2 < nw2.word.length := by
        intro e he
        obtain ⟨a1, e2⟩ := e
        obtain ⟨a2, pp⟩ := e2
        have h5 := (List.mem_zip he).2
        have h6 := (List.mem_zip h5).2
        exact hp2 pp h6
      obtain ⟨wL, hgo, hwfL⟩ := combine_go_ok nw2 h2 s1.length
        (s1.zip (s2.zip nw2.matching.get_pending_calls)) 0 nw1 hwf1
        (by rw [hl1]) hzb
        (by rw [List.length_zip]
            omega)
      obtain ⟨a, ha⟩ : ∃ a, wL.word.getLast? = some a := by
        rw [List.getLast?_eq_getElem?]
        exact ⟨_, List.getElem?_eq_getElem
          (by have h5 := List.length_pos.mpr hwfL.1; omega)⟩
      obtain ⟨b, hb⟩ : ∃ b, nw2.word.getLast? = some b := by
        rw [List.getLast?_eq_getElem?]
        exact ⟨_, List.getElem?_eq_getElem
          (by have h5 := List.length_pos.mpr h2.1; omega)⟩
      have hfin : ∀ nwF : NestedWord β,
          NestedWord.WFW nwF →
          (match wL.word.getLast?, nw2.word.getLast? with
            | some a2, some b2 =>
              if a2 ≠ b2 then pure (wL.add_internal b2) else pure wL
            | _, _ =>
              (throw "index out of range" :
                Except String (NestedWord β))) = Except.ok nwF →
          ∃ cache2 res,
            combine_nws cache nw1 nw2 = Except.ok (cache2, res) ∧
            NestedWord.WFW res ∧ (∀ e ∈ cache2, NestedWord.WFW e.2) := by
        intro nwF hwfF hmF
        refine ⟨cache ++ [((nw1, nw2), nwF)], nwF, ?_, hwfF, ?_⟩
        · unfold combine_nws
          rw [if_neg hz, hfind]
          simp only [Bind.bind, Except.bind]
          rw [hs1]
          simp only [Except.bind]
          rw [hs2]
          simp only [Except.bind]
          rw [hadd0]
          simp only [Except.bind]
          rw [hgo]
          simp only [Except.bind]
          rw [hmF]
          simp only [Except.bind]
          rfl
        · intro e he
          rcases List.mem_append.mp he with h5 | h5
          · exact hcache e h5
          · have h6 : e = ((nw1, nw2), nwF) := by
              have h7 := List.mem_singleton.mp h5
              exact h7
            rw [h6]
            exact hwfF
      by_cases hab : a ≠ b
      · refine hfin (wL.add_internal b)
          (NestedWord.wfw_add_internal wL hwfL b) ?_
        rw [ha, hb]
        show (if a ≠ b then pure (wL.add_internal b) else pure wL) =
          Except.ok (wL.add_internal b)
        rw [if_pos hab]
        rfl
      · refine hfin wL hwfL ?_
        rw [ha, hb]
        show (if a ≠ b then pure (wL.add_internal b) else pure wL) =
          Except.ok wL
        rw [if_neg hab]
        rfl

/-- The `_combine_queue` fold never raises on a queue of chain-shaped words
with a well-formed cache. -/
theorem combine_queue_fold_ok {β : Type} [DecidableEq β] :
    ∀ (queue : List (NestedWord β))
      (cache : List ((NestedWord β × NestedWord β) × NestedWord β))
      (acc : NestedWord β),
      (∀ w ∈ queue, NestedWord.ChainW w) →
      (∀ e ∈ cache, NestedWord.WFW e.2) →
      (acc.word = [] ∨ NestedWord.WFW acc) →
      ∃ cache2 res, queue.foldlM
          (fun st nw => combine_nws st.1 st.2 nw) (cache, acc) =
          Except.ok (cache2, res) ∧
        (∀ e ∈ cache2, NestedWord.WFW e.2) ∧
        (NestedWord.WFW res ∨ (queue = [] ∧ res = acc)) := by
  intro queue
  induction queue with
  | nil =>
    intro cache acc hq hc ha
    exact ⟨cache, acc, rfl, hc, Or.inr ⟨rfl, rfl⟩⟩
  | cons w rest ih =>
    intro cache acc hq hc ha
    obtain ⟨cache1, res1, hcn, hwf1, hcwf1⟩ :=
      combine_nws_ok cache hc acc w ha (hq w (by simp))
    obtain ⟨cache2, res2, hfold, hcwf2, hres2⟩ :=
      ih cache1 res1 (fun x hx => hq x (by simp [hx])) hcwf1 (Or.inr hwf1)
    refine ⟨cache2, res2, ?_, hcwf2, ?_⟩
    · show ((combine_nws cache acc w).bind
        (fun st => rest.foldlM
          (fun st2 nw => combine_nws st2.1 st2.2 nw) st)) =
        Except.ok (cache2, res2)
      rw [hcn]
      show rest.foldlM
        (fun st2 nw => combine_nws st2.1 st2.2 nw) (cache1, res1) =
        Except.ok (cache2, res2)
      exact hfold
    · rcases hres2 with h5 | ⟨h5, h6⟩
      · exact Or.inl h5
      · subst h6
        exact Or.inl hwf1

/-- `_combine_queue` on a non-empty queue of chain-shaped words succeeds with
a well-formed combination. -/
theorem combine_queue_ok {β : Type} [DecidableEq β]
    (cache : List ((NestedWord β × NestedWord β) × NestedWord β))
    (queue : List (NestedWord β))
    (hq : ∀ w ∈ queue, NestedWord.ChainW w)
    (hc : ∀ e ∈ cache, NestedWord.WFW e.2)
    (hne : queue ≠ []) :
    ∃ cache2 res, combine_queue cache queue = Except.ok (cache2, res) ∧
      NestedWord.WFW res ∧ (∀ e ∈ cache2, NestedWord.WFW e.2) := by
  obtain ⟨cache2, res, hfold, hcwf, hres⟩ :=
    combine_queue_fold_ok queue cache NestedWord.nw_empty hq hc
      (Or.inl rfl)
  refine ⟨cache2, res, hfold, ?_, hcwf⟩
  rcases hres with h5 | ⟨h5, -⟩
  · exact h5
  · exact absurd h5 hne

/-- Shape of the relation after marking fresh pending calls: exactly the
written positions hold `some none`. -/
theorem pending_calls_fold_shape (n : Nat) :
    ∀ (ps : List Nat) (m : MatchingRelation),
      m.succ.length = n →
      m.pred.length = n →
      (∀ i, m.pred.getD i none = none) →
      (∀ i, m.succ.getD i none = none ∨ m.succ.getD i none = some none) →
      (∀ p ∈ ps, p < n) →
      ∃ m', ps.foldlM
          (fun mm p => mm.set_match (some (n - (p + 1))) none) m =
        Except.ok m' ∧
        m'.succ.length = n ∧ m'.pred.length = n ∧
        (∀ i, m'.pred.getD i none = none) ∧
        (∀ i, m'.succ.getD i none =
          if ∃ p ∈ ps, i = n - (p + 1) then some none
          else m.succ.getD i none) := by
  intro ps
  induction ps with
  | nil =>
    intro m hlen hplen hpred hshape hbound
    refine ⟨m, rfl, hlen, hplen, hpred, fun i => ?_⟩
    rw [if_neg (by rintro ⟨p, hp, -⟩; exact absurd hp (by simp))]
  | cons p ps ih =>
    intro m hlen hplen hpred hshape hbound
    have hpn : p < n := hbound p (by simp)
    have hcross : m.get_matches.any
        (fun q => MatchingRelation.crosses (some (n - (p + 1)), none) q) =
        false := by
      rw [List.any_eq_false]
      intro q hq
      obtain ⟨i, hi, hgm⟩ := NestedWord.mem_get_matches hq
      unfold MatchingRelation.get_match at hgm
      rcases hshape i with hsi | hsi
      · rw [hsi, hpred i] at hgm
        have h0 : (none : Option (Option Nat × Option Nat)) = some q := hgm
        exact absurd h0 (by simp)
      · rw [hsi] at hgm
        have h2 : (some ((some i : Option Nat), (none : Option Nat)) :
            Option (Option Nat × Option Nat)) = some q := hgm
        injection h2 with h2
        subst h2
        simp [MatchingRelation.crosses]
    have hset := NestedWord.set_match_pc_ok m (n - (p + 1))
      (by show n - (p + 1) < m.succ.length; omega) hcross
    obtain ⟨m', hfold, hl1, hl2, hpr, hsh⟩ :=
      ih ⟨m.succ.set (n - (p + 1)) (some none), m.pred⟩
      (by show (m.succ.set (n - (p + 1)) (some none)).length = n
          rw [List.length_set, hlen])
      hplen hpred
      (by intro i
          show (m.succ.set (n - (p + 1)) (some none)).getD i none = none ∨
            (m.succ.set (n - (p + 1)) (some none)).getD i none = some none
          rw [list_getD_set]
          by_cases hic : i = n - (p + 1) ∧ n - (p + 1) < m.succ.length
          · rw [if_pos hic]
            exact Or.inr rfl
          · rw [if_neg hic]
            exact hshape i)
      (fun x hx => hbound x (by simp [hx]))
    refine ⟨m', ?_, hl1, hl2, hpr, fun i => ?_⟩
    · have h1 : (p :: ps).foldlM
          (fun mm p2 => mm.set_match (some (n - (p2 + 1))) none) m =
          (m.set_match (some (n - (p + 1))) none).bind
            (fun m1 => ps.foldlM
              (fun mm p2 => mm.set_match (some (n - (p2 + 1))) none)
              m1) := rfl
      rw [h1, hset]
      exact hfold
    · rw [hsh i]
      by_cases h5 : ∃ p2 ∈ ps, i = n - (p2 + 1)
      · rw [if_pos h5, if_pos (by
          obtain ⟨p2, hp2, hip2⟩ := h5
          exact ⟨p2, by simp [hp2], hip2⟩)]
      · rw [if_neg h5]
        show (m.succ.set (n - (p + 1)) (some none)).getD i none = _
        rw [list_getD_set]
        by_cases h6 : i = n - (p + 1)
        · rw [if_pos ⟨h6, by omega⟩,
            if_pos ⟨p, by simp, h6⟩]
        · rw [if_neg (fun hcon => h6 hcon.1), if_neg (by
            rintro ⟨p2, hp2, hip2⟩
            rcases List.mem_cons.mp hp2 with h7 | h7
            · exact h6 (by rw [hip2, h7])
            · exact h5 ⟨p2, h7, hip2⟩)]

/-- `add_calls` on a fresh nested word: every position becomes a pending
call. -/
theorem add_calls_fresh_shape {β : Type} [DecidableEq β] (ss : List β) :
    ∃ m', (NestedWord.nw_empty : NestedWord β).add_calls ss =
      Except.ok ⟨ss, m'⟩ ∧
      m'.succ.length = ss.length ∧ m'.pred.length = ss.length ∧
      (∀ i, m'.pred.getD i none = none) ∧
      (∀ i, i < ss.length → m'.succ.getD i none = some none) ∧
      (∀ i, ss.length ≤ i → m'.succ.getD i none = none) := by
  obtain ⟨m', hfold, h1, h2, h3, h4⟩ := pending_calls_fold_shape ss.length
    (List.range ss.length)
    ⟨List.replicate ss.length none, List.replicate ss.length none⟩
    (by simp) (by simp)
    (fun i => NestedWord.getD_replicate_none _ _)
    (fun i => Or.inl (NestedWord.getD_replicate_none _ _))
    (fun p hp => List.mem_range.mp hp)
  refine ⟨m', ?_, h1, h2, h3, ?_, ?_⟩
  · have h5 : ((NestedWord.nw_empty : NestedWord β).add_calls ss :
        Except String (NestedWord β)) =
        ((List.range ss.length).foldlM
          (fun (mm : MatchingRelation) p =>
            mm.set_match (some (ss.length - (p + 1))) none)
          (⟨List.replicate ss.length none, List.replicate ss.length none⟩ :
            MatchingRelation)).bind
          (fun matching => Except.ok (⟨ss, matching⟩ : NestedWord β)) := rfl
    rw [h5, hfold]
    rfl
  · intro i hi
    rw [h4 i, if_pos ⟨ss.length - (i + 1),
      List.mem_range.mpr (by omega), by omega⟩]
  · intro i hi
    rw [h4 i]
    have h6 : ¬ ∃ p ∈ List.range ss.length, i = ss.length - (p + 1) := by
      rintro ⟨p, hp, hip⟩
      have h7 := List.mem_range.mp hp
      omega
    rw [if_neg h6]
    exact NestedWord.getD_replicate_none _ _

/-- `nw_of_vertices` yields a chain-shaped word on every non-empty vertex
list. -/
theorem nw_of_vertices_chainw (vertices : List (Option Nat))
    (hne : vertices ≠ []) :
    ∃ w, nw_of_vertices vertices = Except.ok w ∧ NestedWord.ChainW w := by
  obtain ⟨v, hv⟩ : ∃ v, vertices.getLast? = some v := by
    cases vertices with
    | nil => exact absurd rfl hne
    | cons a t =>
      exact ⟨(a :: t).getLast (by simp),
        List.getLast?_eq_getLast (a :: t) (by simp)⟩
  unfold nw_of_vertices
  rw [hv]
  by_cases hlen : vertices.length > 1
  · obtain ⟨m', hw1, hm1, hm2, hm3, hm4, hm5⟩ :=
      add_calls_fresh_shape vertices.dropLast
    have hdl : vertices.dropLast.length = vertices.length - 1 :=
      List.length_dropLast vertices
    refine ⟨(⟨vertices.dropLast, m'⟩ : NestedWord (Option Nat)).add_internal
      v, ?_, ?_⟩
    · show (if vertices.length > 1 then
          (NestedWord.nw_empty.add_calls vertices.dropLast).bind
            (fun nw1 => Except.ok (nw1.add_internal v))
        else Except.ok (NestedWord.nw_empty.add_internal v)) = _
      rw [if_pos hlen, hw1]
      rfl
    · refine ⟨?_, ?_, ?_, ?_, ?_, ?_⟩
      · show vertices.dropLast ++ [v] ≠ []
        simp
      · show (m'.succ ++ List.replicate 1 none).length =
          (vertices.dropLast ++ [v]).length
        rw [List.length_append, List.length_append,
          List.length_replicate, hm1,
          show ([v] : List (Option Nat)).length = 1 from rfl]
      · show (m'.pred ++ List.replicate 1 none).length =
          (m'.succ ++ List.replicate 1 none).length
        rw [List.length_append, List.length_append, hm1, hm2]
      · intro i hi
        have hi2 : i + 1 < (vertices.dropLast ++ [v]).length := hi
        rw [List.length_append, hdl] at hi2
        show (m'.extend 1).succ.getD i none = some none
        rw [NestedWord.succ_extend_getD]
        refine hm4 i ?_
        rw [hdl]
        have h8 : ([v] : List (Option Nat)).length = 1 := rfl
        omega
      · intro i hi
        have hi2 : i + 1 ≥ (vertices.dropLast ++ [v]).length := hi
        rw [List.length_append, hdl] at hi2
        show (m'.extend 1).succ.getD i none = none
        rw [NestedWord.succ_extend_getD]
        refine hm5 i ?_
        rw [hdl]
        have h8 : ([v] : List (Option Nat)).length = 1 := rfl
        omega
      · intro i
        show (m'.extend 1).pred.getD i none = none
        rw [NestedWord.pred_extend_getD]
        exact hm3 i
  · refine ⟨NestedWord.nw_empty.add_internal v, ?_, ?_⟩
    · show (if vertices.length > 1 then
          (NestedWord.nw_empty.add_calls vertices.dropLast).bind
            (fun nw1 => Except.ok (nw1.add_internal v))
        else Except.ok (NestedWord.nw_empty.add_internal v)) = _
      rw [if_neg hlen]
    · refine ⟨?_, ?_, ?_, ?_, ?_, ?_⟩
      · show ([] : List (Option Nat)) ++ [v] ≠ []
        simp
      · rfl
      · rfl
      · intro i hi
        have hi2 : i + 1 < (([] : List (Option Nat)) ++ [v]).length := hi
        simp only [List.nil_append, List.length_singleton] at hi2
        omega
      · intro i hi
        show (([] : List MEntry) ++ List.replicate 1 none).getD i none =
          none
        rw [NestedWord.getD_append_pad]
        rfl
      · intro i
        show (([] : List MEntry) ++ List.replicate 1 none).getD i none =
          none
        rw [NestedWord.getD_append_pad]
        rfl

/-- `_chain_to_nw` on a graph-backed model in first-match mode yields a
chain-shaped word on every non-empty chain. -/
theorem chain_to_nw_graph_chainw {N : Type} (beq : N → N → Bool)
    (dist : N → N → Except String Rat) (pg : PatternGraph N)
    (hcm : pg.closest_match = false) (ns : List N) (hne : ns ≠ []) :
    ∃ w, chain_to_nw beq dist (.graph pg) ns = Except.ok w ∧
      NestedWord.ChainW w := by
  have hlg := PatternGraph.gtrav_length beq pg.graph ns 0 none
  obtain ⟨w, hw, hcw⟩ := nw_of_vertices_chainw
    (PatternGraph.gtrav beq pg.graph ns 0 none)
    (by intro hnil
        rw [hnil] at hlg
        exact hne (List.length_eq_zero.mp hlg.symm))
  refine ⟨w, ?_, hcw⟩
  simp only [chain_to_nw]
  rw [PatternGraph.gchain_first beq dist pg hcm ns]
  exact hw

/-- A full `update` on a graph-backed first-match NestedWordSet satisfying
the invariant: it succeeds, preserves the invariant, and returns exactly one
combined word when the window fills and the empty list below the window. -/
theorem nwset_update_ok {N : Type} [DecidableEq N] (beq : N → N → Bool)
    (dist : N → N → Except String Rat) (s : NWSet N) (hinv : NWInv s)
    (chain : List (PElem N)) (hne : chain ≠ [])
    (hnodes : chain.all PElem.is_node = true)
    (hrefl : ∀ n ∈ chain.filterMap PElem.to_node, beq n n = true) :
    ∃ s2 out, NWSet.update beq dist s chain = Except.ok (s2, out) ∧
      NWInv s2 ∧
      s2.context_size = s.context_size ∧
      s2.context_queue.length =
        min (s.context_queue.length + 1) s.context_size ∧
      (s.context_queue.length + 1 < s.context_size → out = []) ∧
      (s.context_queue.length + 1 ≥ s.context_size →
        ∃ c, out = [c] ∧ c ∈ s2.nested_words) := by
  obtain ⟨⟨pg, hpat, hlg, hcm⟩, hqc, hcw, hqlen, hkpos⟩ := hinv
  obtain ⟨pg2, vids, hupd, hinv2, hcm2, -⟩ :=
    PatternGraph.pg_contains_after_update beq dist pg hlg hcm chain
      hnodes hrefl
  have hP : Patterns.updateP beq dist s.patterns chain =
      Except.ok (.graph pg2, vids) := by
    rw [hpat]
    simp only [Patterns.updateP]
    rw [hupd]
    rfl
  have hnsne : chain.filterMap PElem.to_node ≠ [] := by
    intro hnil
    have h5 := filterMap_node_length chain hnodes
    rw [hnil] at h5
    exact hne (List.length_eq_zero.mp h5.symm)
  obtain ⟨nw, hC, hcnw⟩ := chain_to_nw_graph_chainw beq dist pg2 hcm2
    (chain.filterMap PElem.to_node) hnsne
  have h0 : ¬ chain.length = 0 := by
    intro hz
    exact hne (List.length_eq_zero.mp hz)
  by_cases hge : s.context_queue.length ≥ s.context_size
  · have hqk : s.context_queue.length = s.context_size := by omega
    have hq2c : ∀ w ∈ s.context_queue.drop 1 ++ [nw],
        NestedWord.ChainW w := by
      intro w hw
      rcases List.mem_append.mp hw with h5 | h5
      · exact hqc w ((List.drop_sublist 1 s.context_queue).mem h5)
      · rw [List.mem_singleton.mp h5]
        exact hcnw
    have hq2len : (s.context_queue.drop 1 ++ [nw]).length =
        s.context_size := by
      rw [List.length_append, List.length_drop, List.length_singleton]
      omega
    obtain ⟨cache2, comb, hcq, hwfc, hcwf2⟩ := combine_queue_ok
      s.combined_cache (s.context_queue.drop 1 ++ [nw]) hq2c hcw
      (by simp)
    refine ⟨{ s with
                patterns := .graph pg2
                context_queue := s.context_queue.drop 1 ++ [nw]
                combined_cache := cache2
                nested_words := (if s.nested_words.contains comb then
                  s.nested_words else s.nested_words ++ [comb]) },
      [comb], ?_, ?_, rfl, ?_, ?_, ?_⟩
    · unfold NWSet.update
      rw [if_neg h0, hP]
      simp only [Bind.bind, Except.bind]
      rw [hC]
      simp only
      rw [if_pos hge, if_pos hq2len, hcq]
      simp only [Except.bind]
      rfl
    · refine ⟨⟨pg2, rfl, hinv2, hcm2⟩, hq2c, hcwf2, ?_, hkpos⟩
      show (s.context_queue.drop 1 ++ [nw]).length ≤ s.context_size
      rw [hq2len]
    · show (s.context_queue.drop 1 ++ [nw]).length = _
      rw [hq2len]
      omega
    · intro h5
      exact absurd h5 (by omega)
    · intro h5
      refine ⟨comb, rfl, ?_⟩
      show comb ∈ (if s.nested_words.contains comb then
        s.nested_words else s.nested_words ++ [comb])
      by_cases hmem : s.nested_words.contains comb
      · rw [if_pos hmem]
        simpa using hmem
      · rw [if_neg hmem]
        simp
  · have hq2c : ∀ w ∈ s.context_queue ++ [nw], NestedWord.ChainW w := by
      intro w hw
      rcases List.mem_append.mp hw with h5 | h5
      · exact hqc w h5
      · rw [List.mem_singleton.mp h5]
        exact hcnw
    have hq2len : (s.context_queue ++ [nw]).length =
        s.context_queue.length + 1 := by
      rw [List.length_append, List.length_singleton]
    by_cases hfill : s.context_queue.length + 1 = s.context_size
    · obtain ⟨cache2, comb, hcq, hwfc, hcwf2⟩ := combine_queue_ok
        s.combined_cache (s.context_queue ++ [nw]) hq2c hcw (by simp)
      refine ⟨{ s with
                  patterns := .graph pg2
                  context_queue := s.context_queue ++ [nw]
                  combined_cache := cache2
                  nested_words := (if s.nested_words.contains comb then
                    s.nested_words else s.nested_words ++ [comb]) },
        [comb], ?_, ?_, rfl, ?_, ?_, ?_⟩
      · unfold NWSet.update
        rw [if_neg h0, hP]
        simp only [Bind.bind, Except.bind]
        rw [hC]
        simp only
        rw [if_neg hge, if_pos (by rw [hq2len]; exact hfill), hcq]
        simp only [Except.bind]
        rfl
      · refine ⟨⟨pg2, rfl, hinv2, hcm2⟩, hq2c, hcwf2, ?_, hkpos⟩
        show (s.context_queue ++ [nw]).length ≤ s.context_size
        rw [hq2len]
        omega
      · show (s.context_queue ++ [nw]).length = _
        rw [hq2len]
        omega
      · intro h5
        exact absurd hfill (by omega)
      · intro h5
        refine ⟨comb, rfl, ?_⟩
        show comb ∈ (if s.nested_words.contains comb then
          s.nested_words else s.nested_words ++ [comb])
        by_cases hmem : s.nested_words.contains comb
        · rw [if_pos hmem]
          simpa using hmem
        · rw [if_neg hmem]
          simp
    · refine ⟨{ s with
                  patterns := .graph pg2
                  context_queue := s.context_queue ++ [nw] },
        [], ?_, ?_, rfl, ?_, ?_, ?_⟩
      · unfold NWSet.update
        rw [if_neg h0, hP]
        simp only [Bind.bind, Except.bind]
        rw [hC]
        simp only
        rw [if_neg hge, if_neg (by rw [hq2len]; exact hfill)]
        rfl
      · refine ⟨⟨pg2, rfl, hinv2, hcm2⟩, hq2c, hcw, ?_, hkpos⟩
        show (s.context_queue ++ [nw]).length ≤ s.context_size
        rw [hq2len]
        omega
      · show (s.context_queue ++ [nw]).length = _
        rw [hq2len]
        omega
      · intro h5
        rfl
      · intro h5
        exact absurd (by omega : s.context_queue.length + 1 =
          s.context_size) hfill

/-- The `learn` fold from an invariant state: outputs stay empty below the
window, and the window-filling update emits exactly one word. -/
theorem nwset_learn_fold {N : Type} [DecidableEq N] (beq : N → N → Bool)
    (dist : N → N → Except String Rat) :
    ∀ (chains : List (List (PElem N))) (s : NWSet N)
      (pre : List (NestedWord (Option Nat))),
      NWInv s →
      (∀ c ∈ chains, c ≠ [] ∧ c.all PElem.is_node = true ∧
        (∀ n ∈ c.filterMap PElem.to_node, beq n n = true)) →
      ∃ s2 outs, chains.foldlM
          (fun acc chain => do
            let (s3, out) ← NWSet.update beq dist acc.1 chain
            pure (s3, acc.2 ++ out)) (s, pre) =
          Except.ok (s2, pre ++ outs) ∧
        NWInv s2 ∧
        s2.context_size = s.context_size ∧
        s2.context_queue.length =
          min (s.context_queue.length + chains.length) s.context_size ∧
        (chains = [] → s2 = s ∧ outs = []) ∧
        (s.context_queue.length + chains.length < s.context_size →
          outs = []) ∧
        (s.context_queue.length + chains.length = s.context_size →
          chains ≠ [] →
          ∃ c, outs = [c] ∧ c ∈ s2.nested_words) := by
  intro chains
  induction chains with
  | nil =>
    intro s pre hinv hconds
    refine ⟨s, [], ?_, hinv, rfl, ?_, fun _ => ⟨rfl, rfl⟩, fun _ => rfl,
      fun h1 h2 => absurd rfl h2⟩
    · rw [List.append_nil]
      rfl
    · have hq := hinv.2.2.2.1
      have h0 : ([] : List (List (PElem N))).length = 0 := rfl
      omega
  | cons c cs ih =>
    intro s pre hinv hconds
    obtain ⟨hc1, hc2, hc3⟩ := hconds c (by simp)
    obtain ⟨s1, out1, hupd, hinv1, hsz1, hq1, hbel1, hwin1⟩ :=
      nwset_update_ok beq dist s hinv c hc1 hc2 hc3
    obtain ⟨s2, outs2, hfold2, hinv2, hsz2, hq2, hnil2, hbel2, hwin2⟩ :=
      ih s1 (pre ++ out1) hinv1 (fun x hx => hconds x (by simp [hx]))
    have hlc : (c :: cs).length = cs.length + 1 := rfl
    refine ⟨s2, out1 ++ outs2, ?_, hinv2, hsz2.trans hsz1, ?_, ?_, ?_, ?_⟩
    · simp only [List.foldlM_cons]
      rw [hupd]
      simp only [Bind.bind, Except.bind]
      rw [List.append_assoc] at hfold2
      exact hfold2
    · rw [hq2, hq1, hsz1, hlc]
      omega
    · intro h5
      exact absurd h5 (by simp)
    · intro h5
      rw [hlc] at h5
      have hb1 : out1 = [] := hbel1 (by omega)
      have hb2 : outs2 = [] := by
        refine hbel2 ?_
        rw [hq1, hsz1]
        omega
      rw [hb1, hb2]
      rfl
    · intro h5 h6
      rw [hlc] at h5
      by_cases hcs : cs = []
      · subst hcs
        obtain ⟨hseq, houts⟩ := hnil2 rfl
        obtain ⟨cw, hcw1, hcw2⟩ := hwin1 (by
          have h7 : ([] : List (List (PElem N))).length = 0 := rfl
          omega)
        refine ⟨cw, ?_, ?_⟩
        · rw [hcw1, houts, List.append_nil]
        · rw [hseq]
          exact hcw2
      · have hcsl : 0 < cs.length := List.length_pos.mpr hcs
        have hb1 : out1 = [] := hbel1 (by omega)
        obtain ⟨cw, hcw1, hcw2⟩ := hwin2 (by rw [hq1, hsz1]; omega) hcs
        refine ⟨cw, ?_, hcw2⟩
        rw [hb1, hcw1]
        rfl

/-- C4 counterexample: the original claim "from_tagged_sequence (to_tagged nw)
equals nw for every constructed NestedWord" is false.  A position may be both
a pending call and a pending return: starting from an empty relation of length
1, `set_match(0, None)` then `set_match(None, 0)` both succeed (their crossing
check passes), yielding a NestedWord accepted by the constructor whose tagged
form `< 5 >` re-parses as a MATCHED pair at a single position, which the order
validation rejects -- the round trip returns an error, not the original word. -/
theorem C4_counterexample :
    (MatchingRelation.mk_empty 1).set_match (some 0) none =
      Except.ok ⟨[some none], [none]⟩ ∧
    (⟨[some none], [none]⟩ : MatchingRelation).set_match none (some 0) =
      Except.ok ⟨[some none], [some none]⟩ ∧
    NestedWord.from_tagged_sequence
      (NestedWord.to_tagged (⟨[5], ⟨[some none], [some none]⟩⟩ : NestedWord Nat)) =
      Except.error "order violated" ∧
    ∀ nw : NestedWord Nat,
      NestedWord.from_tagged_sequence
        (NestedWord.to_tagged (⟨[5], ⟨[some none], [some none]⟩⟩ : NestedWord Nat)) ≠
        Except.ok nw := by
  refine ⟨rfl, rfl, rfl, ?_⟩
  intro nw h
  have h2 : (Except.error "order violated" :
      Except String (NestedWord Nat)) = Except.ok nw := h
  exact Except.noConfusion h2

/-- C4 (amended): the tagged encoding round-trips on every well-formed
NestedWord -- one whose matching relation has consistent call/return arrays,
no dual pending position, and no crossings, and whose relation length equals
the word length: `from_tagged_sequence (to_tagged nw) = ok nw`. -/
theorem C4_tagged_round_trip {α : Type} [DecidableEq α] (nw : NestedWord α)
    (hwf : NestedWord.NWWF nw.matching)
    (hlen : nw.matching.len = nw.word.length) :
    NestedWord.from_tagged_sequence nw.to_tagged = Except.ok nw :=
  NestedWord.tagged_round_trip nw hwf hlen

/-- C4 witness: the round trip evaluated on a concrete two-letter word with
one matched call/return pair. -/
theorem C4_tagged_round_trip_witness :
    NestedWord.NWWF (NestedWord.nw1).matching ∧
    (NestedWord.nw1).matching.len = (NestedWord.nw1).word.length ∧
    NestedWord.from_tagged_sequence (NestedWord.nw1).to_tagged =
      Except.ok NestedWord.nw1 :=
  ⟨NestedWord.mr1_wf, rfl,
    C4_tagged_round_trip NestedWord.nw1 NestedWord.mr1_wf rfl⟩

/-- C5: for a NestedWordSet with positive context size k, every successful
`update` leaves exactly `min (old+1) k <= k` entries in the context queue; a
successful update below the window returns the empty list; a successful
window-filling update returns exactly one nested word, then a member of
`nested_words` (all three for every pattern-model configuration); on the
graph-backed model in first-match mode every `update` from an
invariant-satisfying state on a non-empty node chain with reflexive node
equivalence succeeds with exactly those outputs; and, run-level, `learn`
from a fresh graph-backed first-match set with context size k returns the
empty list for fewer than k chains and, on exactly k chains, returns one
nested word that is then a member of the set -- so the first k-1 updates
return [] and the k-th returns the one-element list of the claim. -/
theorem C5_nwset_update_window {N : Type} [DecidableEq N] (beq : N → N → Bool)
    (dist : N → N → Except String Rat) :
    (∀ (s : NWSet N) (chain : List (PElem N)) s2 out,
      NWSet.update beq dist s chain = .ok (s2, out) →
      0 < s.context_size →
      s.context_queue.length ≤ s.context_size →
      s2.context_queue.length =
        min (s.context_queue.length + 1) s.context_size ∧
      s2.context_queue.length ≤ s.context_size) ∧
    (∀ (s : NWSet N) (chain : List (PElem N)) s2 out,
      NWSet.update beq dist s chain = .ok (s2, out) →
      s.context_queue.length + 1 < s.context_size →
      out = []) ∧
    (∀ (s : NWSet N) (chain : List (PElem N)) s2 out,
      NWSet.update beq dist s chain = .ok (s2, out) →
      s.context_queue.length + 1 = s.context_size →
      ∃ combined, out = [combined] ∧ combined ∈ s2.nested_words) ∧
    (∀ (s : NWSet N) (chain : List (PElem N)),
      NWInv s →
      chain ≠ [] →
      chain.all PElem.is_node = true →
      (∀ n ∈ chain.filterMap PElem.to_node, beq n n = true) →
      ∃ s2 out, NWSet.update beq dist s chain = .ok (s2, out) ∧
        NWInv s2 ∧
        s2.context_queue.length =
          min (s.context_queue.length + 1) s.context_size ∧
        (s.context_queue.length + 1 < s.context_size → out = []) ∧
        (s.context_queue.length + 1 ≥ s.context_size →
          ∃ c, out = [c] ∧ c ∈ s2.nested_words)) ∧
    (∀ (k : Nat), 0 < k →
      ∀ (chains : List (List (PElem N))),
        (∀ c ∈ chains, c ≠ [] ∧ c.all PElem.is_node = true ∧
          (∀ n ∈ c.filterMap PElem.to_node, beq n n = true)) →
        (chains.length < k →
          ∃ s2, NWSet.learn beq dist
            (⟨.graph (PatternGraph.pg_empty false), [], k, [], []⟩ :
              NWSet N) chains = .ok (s2, []) ∧
            s2.context_queue.length = chains.length) ∧
        (chains.length = k →
          ∃ s2 comb, NWSet.learn beq dist
            (⟨.graph (PatternGraph.pg_empty false), [], k, [], []⟩ :
              NWSet N) chains = .ok (s2, [comb]) ∧
            comb ∈ s2.nested_words)) := by
  have main : ∀ (s : NWSet N) (chain : List (PElem N)) s2 out,
      NWSet.update beq dist s chain = .ok (s2, out) →
      (∃ pm2 nw cache2 combined,
        s2 = { s with
                patterns := pm2
                context_queue :=
                  (if s.context_queue.length ≥ s.context_size then
                    s.context_queue.drop 1 else s.context_queue) ++ [nw]
                combined_cache := cache2
                nested_words := (if s.nested_words.contains combined then
                  s.nested_words else s.nested_words ++ [combined]) } ∧
        out = [combined] ∧
        ((if s.context_queue.length ≥ s.context_size then
          s.context_queue.drop 1 else s.context_queue) ++ [nw]).length =
          s.context_size) ∨
      (∃ pm2 nw,
        s2 = { s with
                patterns := pm2
                context_queue :=
                  (if s.context_queue.length ≥ s.context_size then
                    s.context_queue.drop 1 else s.context_queue) ++ [nw] } ∧
        out = [] ∧
        ((if s.context_queue.length ≥ s.context_size then
          s.context_queue.drop 1 else s.context_queue) ++ [nw]).length ≠
          s.context_size) := by
    intro s chain s2 out h
    unfold NWSet.update at h
    by_cases h0 : chain.length = 0
    · rw [if_pos h0] at h
      have h2 : (Except.error "Chain cannot be empty." :
          Except String (NWSet N × List (NestedWord (Option Nat)))) =
          .ok (s2, out) := h
      exact Except.noConfusion h2
    · rw [if_neg h0] at h
      cases hP : Patterns.updateP beq dist s.patterns chain with
      | error e =>
        rw [hP] at h
        have h2 : (Except.error e :
            Except String (NWSet N × List (NestedWord (Option Nat)))) =
            .ok (s2, out) := h
        exact Except.noConfusion h2
      | ok pr =>
        obtain ⟨pm2, vds⟩ := pr
        rw [hP] at h
        simp only [Bind.bind, Except.bind] at h
        cases hC : chain_to_nw beq dist pm2 (chain.filterMap PElem.to_node) with
        | error e =>
          rw [hC] at h
          have h2 : (Except.error e :
              Except String (NWSet N × List (NestedWord (Option Nat)))) =
              .ok (s2, out) := h
          exact Except.noConfusion h2
        | ok nw =>
          rw [hC] at h
          simp only at h
          by_cases hq2 : ((if s.context_queue.length ≥ s.context_size then
              s.context_queue.drop 1 else s.context_queue) ++ [nw]).length =
              s.context_size
          · rw [if_pos hq2] at h
            cases hcq : combine_queue s.combined_cache
                ((if s.context_queue.length ≥ s.context_size then
                  s.context_queue.drop 1 else s.context_queue) ++ [nw]) with
            | error e =>
              rw [hcq] at h
              have h2 : (Except.error e :
                  Except String (NWSet N × List (NestedWord (Option Nat)))) =
                  .ok (s2, out) := h
              exact Except.noConfusion h2
            | ok y =>
              obtain ⟨cache2, comb⟩ := y
              rw [hcq] at h
              simp only [Bind.bind, Except.bind] at h
              have h2 : (Except.ok
                  (({ s with
                      patterns := pm2
                      context_queue :=
                        (if s.context_queue.length ≥ s.context_size then
                          s.context_queue.drop 1 else s.context_queue) ++ [nw]
                      combined_cache := cache2
                      nested_words :=
                        (if s.nested_words.contains comb then
                          s.nested_words else s.nested_words ++ [comb]) } :
                    NWSet N), [comb]) :
                  Except String (NWSet N × List (NestedWord (Option Nat)))) =
                  .ok (s2, out) := h
              injection h2 with h3
              rw [Prod.mk.injEq] at h3
              exact Or.inl ⟨pm2, nw, cache2, comb, h3.1.symm, h3.2.symm, hq2⟩
          · rw [if_neg hq2] at h
            have h2 : (Except.ok
                (({ s with
                    patterns := pm2
                    context_queue :=
                      (if s.context_queue.length ≥ s.context_size then
                        s.context_queue.drop 1 else s.context_queue) ++ [nw] } :
                  NWSet N), ([] : List (NestedWord (Option Nat)))) :
                Except String (NWSet N × List (NestedWord (Option Nat)))) =
                .ok (s2, out) := h
            injection h2 with h3
            rw [Prod.mk.injEq] at h3
            exact Or.inr ⟨pm2, nw, h3.1.symm, h3.2.symm, hq2⟩
  refine ⟨?_, ?_, ?_, ?_, ?_⟩
  · intro s chain s2 out h hk hle
    rcases main s chain s2 out h with
      ⟨pm2, nw, cache2, comb, hs2, hout, hq⟩ | ⟨pm2, nw, hs2, hout, hq⟩
    · subst hs2
      show ((if s.context_queue.length ≥ s.context_size then
          s.context_queue.drop 1 else s.context_queue) ++ [nw]).length =
          min (s.context_queue.length + 1) s.context_size ∧ _
      rw [List.length_append] at hq ⊢
      by_cases hge : s.context_queue.length ≥ s.context_size
      · rw [if_pos hge] at hq ⊢
        rw [List.length_drop] at hq ⊢
        simp only [List.length_singleton] at hq ⊢
        omega
      · rw [if_neg hge] at hq ⊢
        simp only [List.length_singleton] at hq ⊢
        omega
    · subst hs2
      show ((if s.context_queue.length ≥ s.context_size then
          s.context_queue.drop 1 else s.context_queue) ++ [nw]).length =
          min (s.context_queue.length + 1) s.context_size ∧ _
      rw [List.length_append] at hq ⊢
      by_cases hge : s.context_queue.length ≥ s.context_size
      · rw [if_pos hge] at hq ⊢
        rw [List.length_drop] at hq ⊢
        simp only [List.length_singleton] at hq ⊢
        omega
      · rw [if_neg hge] at hq ⊢
        simp only [List.length_singleton] at hq ⊢
        omega
  · intro s chain s2 out h hlt
    rcases main s chain s2 out h with
      ⟨pm2, nw, cache2, comb, hs2, hout, hq⟩ | ⟨pm2, nw, hs2, hout, hq⟩
    · exfalso
      rw [List.length_append] at hq
      by_cases hge : s.context_queue.length ≥ s.context_size
      · rw [if_pos hge] at hq
        rw [List.length_drop] at hq
        simp only [List.length_singleton] at hq
        omega
      · rw [if_neg hge] at hq
        simp only [List.length_singleton] at hq
        omega
    · exact hout
  · intro s chain s2 out h heq
    rcases main s chain s2 out h with
      ⟨pm2, nw, cache2, comb, hs2, hout, hq⟩ | ⟨pm2, nw, hs2, hout, hq⟩
    · refine ⟨comb, hout, ?_⟩
      subst hs2
      show comb ∈ (if s.nested_words.contains comb then
        s.nested_words else s.nested_words ++ [comb])
      by_cases hmem : s.nested_words.contains comb
      · rw [if_pos hmem]
        simpa using hmem
      · rw [if_neg hmem]
        simp
    · exfalso
      rw [List.length_append] at hq
      by_cases hge : s.context_queue.length ≥ s.context_size
      · rw [if_pos hge] at hq
        omega
      · rw [if_neg hge] at hq
        simp only [List.length_singleton] at hq
        omega
  · intro s chain hinv hne hnodes hrefl
    obtain ⟨s2, out, hupd, hinv2, hsz2, hq2, hbel, hwin⟩ :=
      nwset_update_ok beq dist s hinv chain hne hnodes hrefl
    exact ⟨s2, out, hupd, hinv2, hq2, hbel, hwin⟩
  · intro k hk chains hconds
    have hfresh : NWInv (⟨.graph (PatternGraph.pg_empty false), [], k, [],
        []⟩ : NWSet N) := by
      refine ⟨⟨PatternGraph.pg_empty false, rfl,
        LayeredDigraph.ldg_empty_lginv, rfl⟩, ?_, ?_, ?_, hk⟩
      · intro w hw
        exact absurd hw (by simp)
      · intro e he
        exact absurd he (by simp)
      · show ([] : List (NestedWord (Option Nat))).length ≤ k
        simp
    obtain ⟨s2, outs, hfold, hinv2, hsz2, hq2, hnil2, hbel2, hwin2⟩ :=
      nwset_learn_fold beq dist chains
        (⟨.graph (PatternGraph.pg_empty false), [], k, [], []⟩ : NWSet N)
        [] hfresh hconds
    have hq0 : (⟨.graph (PatternGraph.pg_empty false), [], k, [], []⟩ :
        NWSet N).context_queue.length = 0 := rfl
    have hk0 : (⟨.graph (PatternGraph.pg_empty false), [], k, [], []⟩ :
        NWSet N).context_size = k := rfl
    constructor
    · intro hlt
      have houts : outs = [] := hbel2 (by omega)
      rw [houts, List.nil_append] at hfold
      refine ⟨s2, hfold, ?_⟩
      rw [hq2, hq0, hk0]
      omega
    · intro heq
      obtain ⟨cw, hcw1, hcw2⟩ := hwin2 (by omega) (by
        intro hnil
        subst hnil
        have h9 : (0 : Nat) = k := heq
        omega)
      rw [hcw1, List.nil_append] at hfold
      exact ⟨s2, cw, hfold, hcw2⟩

/-- C5 witness: a concrete graph-backed NestedWordSet with context size 2 --
the first update returns the empty list and leaves one queued word, the
second returns exactly one combined nested word that is then in the set, and
the two-chain `learn` run from the fresh set returns exactly one nested
word, a member of the resulting set. -/
theorem C5_nwset_update_window_witness :
    (NWSet.update natBeq natDist nws0 chain5 = .ok (nws1, []) ∧
      nws1.context_queue.length = 1) ∧
    (∃ c, NWSet.update natBeq natDist nws1 chain5 = .ok (nws2p.1, [c]) ∧
      c ∈ nws2p.1.nested_words) ∧
    (∃ s2 out, NWSet.update natBeq natDist nws0 chain5 = .ok (s2, out) ∧
      out = []) ∧
    (∃ s2 comb, NWSet.learn natBeq natDist nws0 [chain5, chain5] =
      .ok (s2, [comb]) ∧ comb ∈ s2.nested_words) := by
  obtain ⟨ha, hb, hc, hd, he⟩ := C5_nwset_update_window natBeq natDist
  have hu1 : NWSet.update natBeq natDist nws0 chain5 = .ok (nws1, []) := rfl
  have hu2 : NWSet.update natBeq natDist nws1 chain5 =
      .ok (nws2p.1, nws2p.2) := rfl
  have hinv0 : NWInv nws0 := by
    refine ⟨⟨PatternGraph.pg_empty false, rfl,
      LayeredDigraph.ldg_empty_lginv, rfl⟩, ?_, ?_, ?_, ?_⟩
    · intro w hw
      exact absurd hw (by simp [nws0])
    · intro e hee
      exact absurd hee (by simp [nws0])
    · show ([] : List (NestedWord (Option Nat))).length ≤ 2
      simp
    · show (0 : Nat) < 2
      omega
  refine ⟨⟨hu1, ?_⟩, ?_, ?_, ?_⟩
  · exact (ha nws0 chain5 nws1 [] hu1 (by decide) (by decide)).1.trans
      (by decide)
  · obtain ⟨c, hc1, hc2⟩ := hc nws1 chain5 nws2p.1 nws2p.2 hu2 (by decide)
    refine ⟨c, ?_, hc2⟩
    rw [← hc1]
    exact hu2
  · obtain ⟨s2, out, hupd, -, -, hbel, -⟩ := hd nws0 chain5 hinv0
      (by decide) (by decide) (by decide)
    exact ⟨s2, out, hupd, hbel (by decide)⟩
  · exact (he 2 (by decide) [chain5, chain5] (by decide)).2 rfl

/-- C10: `NestedWordSet.contains` never changes the pattern model.  The
embedded `contains` threads the full state -- including the `_combined_cache`
writes that `_combine_nws` performs -- and on every successful call the
`patterns` component (the PatternTree or PatternGraph with its vertices,
edges and layers) of the resulting state equals the original one:
`chain_to_vertices` only reads the graph. -/
theorem C10_nwset_contains_frame {N : Type} (beq : N → N → Bool)
    (dist : N → N → Except String Rat) (s : NWSet N) (chains : List (List N))
    (s2 : NWSet N) (b : Bool)
    (h : NWSet.contains beq dist s chains = .ok (s2, b)) :
    s2.patterns = s.patterns := by
  unfold NWSet.contains at h
  by_cases h0 : chains.length ≠ s.context_size
  · rw [if_pos h0] at h
    have h2 : (Except.error "Expected `context_size` chains." :
        Except String (NWSet N × Bool)) = .ok (s2, b) := h
    exact Except.noConfusion h2
  · rw [if_neg h0] at h
    cases hm : chains.mapM (chain_to_nw beq dist s.patterns) with
    | error e =>
      rw [hm] at h
      have h2 : (Except.error e : Except String (NWSet N × Bool)) =
          .ok (s2, b) := h
      exact Except.noConfusion h2
    | ok nws =>
      rw [hm] at h
      simp only [Bind.bind, Except.bind] at h
      cases hcq : combine_queue s.combined_cache nws with
      | error e =>
        rw [hcq] at h
        have h2 : (Except.error e : Except String (NWSet N × Bool)) =
            .ok (s2, b) := h
        exact Except.noConfusion h2
      | ok y =>
        obtain ⟨cache2, comb⟩ := y
        rw [hcq] at h
        simp only [Bind.bind, Except.bind] at h
        have h2 : (Except.ok (({ s with combined_cache := cache2 } : NWSet N),
            s.nested_words.contains comb) :
            Except String (NWSet N × Bool)) = .ok (s2, b) := h
        injection h2 with h3
        rw [Prod.mk.injEq] at h3
        rw [← h3.1]

/-- C10 witness: a concrete `contains` call on the twice-updated set; the
call succeeds (returning `true`) and the pattern graph is unchanged. -/
theorem C10_nwset_contains_frame_witness :
    NWSet.contains natBeq natDist nws2p.1 [[5], [5]] = .ok nwsCp ∧
    nwsCp.1.patterns = nws2p.1.patterns :=
  ⟨rfl, C10_nwset_contains_frame natBeq natDist nws2p.1 [[5], [5]]
    nwsCp.1 nwsCp.2 rfl⟩
